import Mathlib

/-!
# Red-black tree of `RBTREE.c`

A verification development for the red-black tree of the book management system
(`src/RBTREE.c`).

## Representation

The C program links heap nodes by `left`, `right` and `parent` pointers.  Here a pointer to a
node is a `Cursor`: the subtree hanging from the node together with the list of `Frame`s that
lead from the node up to the root (the parent first).  `node->left` and `node->right` are the
children of the subtree, `node->parent` is the first frame, `node == tree->root` holds exactly
when there is no frame, and `tree->root` is what `plug` rebuilds.  A child pointer that is NULL
is the constructor `RBNode.NULL`.  In this representation the `parent` link of a node always
designates the node of which it is a child; the C code keeps the links that way in every
assignment it makes (`rotateLeft`, `rotateRight`, lines 269-274 and 484-561).

Keys are C `int`s; only comparisons are performed on them, so they are integers here.  The
payload `char data[256]` is the list of characters before the terminating NUL.  `malloc` is
taken to succeed.  Dereferencing NULL and running out of loop fuel are both the result `none`.
-/

namespace RBTreeC

/-- The characters of a C string, without the terminating NUL. -/
abbrev Payload := List Char

/-- The enumeration `Color`. -/
inductive Color where
  | RED
  | BLACK
  deriving DecidableEq, Repr

/-- A pointer to a `struct RBNode` with everything reachable from it through `left` and
`right`; `NULL` is the null pointer. -/
inductive RBNode where
  | NULL : RBNode
  | mk (key : Int) (data : Payload) (color : Color) (left right : RBNode) : RBNode
  deriving DecidableEq, Repr

/-- One step of a parent chain: the fields of the parent and its other child.
`inLeft` says that the node below is `parent->left`, `inRight` that it is `parent->right`. -/
inductive Frame where
  | inLeft (key : Int) (data : Payload) (color : Color) (right : RBNode) : Frame
  | inRight (key : Int) (data : Payload) (color : Color) (left : RBNode) : Frame
  deriving DecidableEq, Repr

/-- A pointer into a tree: the node (possibly NULL) and its chain of parents. -/
structure Cursor where
  node : RBNode
  up : List Frame
  deriving DecidableEq, Repr

/-- The structure `RBTree`: the root pointer and the stored node count. -/
structure RBTree where
  root : RBNode
  size : Int
  deriving DecidableEq, Repr

/-- The color field of a parent frame, `parent->color`. -/
def Frame.color : Frame → Color
  | .inLeft _ _ c _ => c
  | .inRight _ _ c _ => c

/-- The parent node of a frame with `t` put in the child slot the frame leaves open. -/
def Frame.fill : Frame → RBNode → RBNode
  | .inLeft k d c r, t => .mk k d c t r
  | .inRight k d c l, t => .mk k d c l t

/-- The assignment `parent->color = c` on a frame. -/
def Frame.setColor : Frame → Color → Frame
  | .inLeft k d _ r, c => .inLeft k d c r
  | .inRight k d _ l, c => .inRight k d c l

/-- The tree seen from the root, `tree->root`, when `t` hangs below the frames `up`. -/
def plug : RBNode → List Frame → RBNode
  | t, [] => t
  | t, f :: up => plug (f.fill t) up

/-- The test `n != NULL && n->color == RED`. -/
def isRed : RBNode → Bool
  | .mk _ _ .RED _ _ => true
  | _ => false

/-- The test `n == NULL || n->color == BLACK`. -/
def isBlackOrNull : RBNode → Bool
  | .mk _ _ .RED _ _ => false
  | _ => true

/-- The statement `if (n != NULL) n->color = BLACK`. -/
def setBlack : RBNode → RBNode
  | .NULL => .NULL
  | .mk k d _ l r => .mk k d .BLACK l r

/-- The two lines `strncpy(dst, data, sizeof(dst) - 1); dst[sizeof(dst) - 1] = 0`
for the 256 byte buffer: the stored string. -/
def copyData (data : Payload) : Payload :=
  data.take 255

/-- The function `createNode`: a RED node without children (and without parent). -/
def createNode (key : Int) (data : Payload) : RBNode :=
  .mk key (copyData data) .RED .NULL .NULL

/-- The function `createTree`. -/
def createTree : RBTree :=
  { root := .NULL, size := 0 }

/-- The function `rotateLeft(tree, node)`.  The argument is the subtree hanging from `node`, the
result is the subtree that hangs from the same place afterwards: the child link of the former
parent (or `tree->root`) is redirected to `right_child`.  Nothing changes when `node` or
`node->right` is NULL. -/
def rotateLeft : RBNode → RBNode
  | .mk k d c l (.mk rk rd rc rl rr) => .mk rk rd rc (.mk k d c l rl) rr
  | t => t

/-- The function `rotateRight(tree, node)`, the mirror image of `rotateLeft`. -/
def rotateRight : RBNode → RBNode
  | .mk k d c (.mk lk ld lc ll lr) r => .mk lk ld lc ll (.mk k d c lr r)
  | t => t

/-- The body of the loop of `fixInsert` (lines 174-220) for a node that is not the root and
whose parent is RED.  The result is the cursor of `node` for the next test of the loop
condition; `none` when `grandparent` is NULL, which line 178 dereferences. -/
def fixInsertBody : Cursor → Option Cursor
  | ⟨.NULL, _⟩ => none
  | ⟨_, []⟩ => none
  | ⟨_, [_]⟩ => none
  | ⟨node, parent :: .inLeft gk gd _ uncle :: above⟩ =>
    -- parent == grandparent->left
    if isRed uncle then
      -- Case 1: parent->color = BLACK; uncle->color = BLACK; grandparent->color = RED;
      -- node = grandparent
      some ⟨.mk gk gd .RED ((parent.setColor .BLACK).fill node) (setBlack uncle), above⟩
    else
      -- Case 2: if (node == parent->right) { node = parent; rotateLeft(tree, node);
      -- parent = node->parent; grandparent = parent->parent; }
      -- `lowered` is the subtree at grandparent->left afterwards: its root is `parent`, the
      -- left child of the root is `node`
      let lowered : RBNode :=
        match parent with
        | .inRight pk pd pc pl => rotateLeft (.mk pk pd pc pl node)
        | .inLeft pk pd pc pr => .mk pk pd pc node pr
      -- Case 3: parent->color = BLACK; grandparent->color = RED;
      -- rotateRight(tree, grandparent); node is the left child of the subtree that results
      match lowered with
      | .mk pk pd _ n pr =>
        match rotateRight (.mk gk gd .RED (.mk pk pd .BLACK n pr) uncle) with
        | .mk tk td tc n g => some ⟨n, .inLeft tk td tc g :: above⟩
        | .NULL => none
      | .NULL => none
  | ⟨node, parent :: .inRight gk gd _ uncle :: above⟩ =>
    -- parent == grandparent->right
    if isRed uncle then
      -- Case 1
      some ⟨.mk gk gd .RED (setBlack uncle) ((parent.setColor .BLACK).fill node), above⟩
    else
      -- Case 2: if (node == parent->left) { node = parent; rotateRight(tree, node);
      -- parent = node->parent; grandparent = parent->parent; }
      -- `lowered` is the subtree at grandparent->right afterwards: its root is `parent`, the
      -- right child of the root is `node`
      let lowered : RBNode :=
        match parent with
        | .inLeft pk pd pc pr => rotateRight (.mk pk pd pc node pr)
        | .inRight pk pd pc pl => .mk pk pd pc pl node
      -- Case 3: parent->color = BLACK; grandparent->color = RED;
      -- rotateLeft(tree, grandparent); node is the right child of the subtree that results
      match lowered with
      | .mk pk pd _ pl n =>
        match rotateLeft (.mk gk gd .RED uncle (.mk pk pd .BLACK pl n)) with
        | .mk tk td tc g n => some ⟨n, .inRight tk td tc g :: above⟩
        | .NULL => none
      | .NULL => none

/-- The function `fixInsert(tree, node)`: the loop
`while (node != tree->root && node->parent->color == RED)` run for at most `fuel` tests of its
condition, then `tree->root->color = BLACK`.  The result is the new `tree->root`. -/
def fixInsert : Nat → Cursor → Option RBNode
  | 0, _ => none
  | _ + 1, ⟨.NULL, _⟩ => none
  | _ + 1, ⟨node, []⟩ => some (setBlack node)
  | fuel + 1, ⟨node, parent :: above⟩ =>
    if parent.color = .RED then
      (fixInsertBody ⟨node, parent :: above⟩).bind (fixInsert fuel)
    else
      some (setBlack (plug node (parent :: above)))

/-- The search loop of `insertNode` (lines 250-267) started at `current` below the frames `up`.
Either the key is met and the payload of that node is overwritten (left: the new root), or
the walk reaches a NULL child, whose parent chain is returned (right). -/
def insertDescend (key : Int) (data : Payload) : RBNode → List Frame → RBNode ⊕ List Frame
  | .NULL, up => .inr up
  | .mk k d c l r, up =>
    if key < k then insertDescend key data l (.inLeft k d c r :: up)
    else if key > k then insertDescend key data r (.inRight k d c l :: up)
    else .inl (plug (.mk k (copyData data) c l r) up)

/-- The function `insertNode(tree, key, data)` for a tree and a payload that are not NULL:
the tree afterwards and the returned int.  The loop of `fixInsert` is given one unit of fuel
more than the new node has ancestors; `fixInsert_spec` shows that this is enough. -/
def insertNode (tree : RBTree) (key : Int) (data : Payload) : Option (RBTree × Int) :=
  match tree.root with
  | .NULL => some ({ root := setBlack (createNode key data), size := tree.size + 1 }, 1)
  | root =>
    match insertDescend key data root [] with
    | .inl root2 => some ({ root := root2, size := tree.size }, 1)
    | .inr up =>
      (fixInsert (up.length + 1) ⟨createNode key data, up⟩).map
        (fun root2 => ({ root := root2, size := tree.size + 1 }, 1))

/-- The function `findMinimum(node)`: the cursor of the leftmost node below `node`, whose own
parent chain is `up`; NULL for NULL. -/
def findMinimum : RBNode → List Frame → Cursor
  | .NULL, up => ⟨.NULL, up⟩
  | .mk k d c l r, up =>
    match l with
    | .NULL => ⟨.mk k d c .NULL r, up⟩
    | .mk lk ld lc ll lr => findMinimum (.mk lk ld lc ll lr) (.inLeft k d c r :: up)

/-- Lines 368-396 of `fixDelete`, the part after Case 1 of the branch
`node == NULL || node == parent->left`: `parent` has the fields `pk pd pc`, its left child is
`node`, its right child is `sibling`, and `above` is the parent chain of `parent`.  The result
is the cursor of `node` for the next test of the loop condition. -/
def fixDeleteLeft (node : RBNode) (pk : Int) (pd : Payload) (pc : Color) (sibling : RBNode)
    (above : List Frame) : Cursor :=
  match sibling with
  | .NULL => ⟨node, .inLeft pk pd pc .NULL :: above⟩
  | .mk sk sd sc sl sr =>
    if isBlackOrNull sl && isBlackOrNull sr then
      -- Case 2: sibling->color = RED; node = parent
      ⟨.mk pk pd pc node (.mk sk sd .RED sl sr), above⟩
    else
      -- Case 3: if (sibling->left != NULL) sibling->left->color = BLACK; sibling->color = RED;
      -- rotateRight(tree, sibling); sibling = parent->right
      let sibling2 : RBNode :=
        if isBlackOrNull sr then rotateRight (.mk sk sd .RED (setBlack sl) sr)
        else .mk sk sd sc sl sr
      -- Case 4: sibling->color = parent->color; parent->color = BLACK;
      -- if (sibling->right != NULL) sibling->right->color = BLACK; rotateLeft(tree, parent);
      -- node = tree->root
      match sibling2 with
      | .NULL => ⟨node, .inLeft pk pd pc .NULL :: above⟩
      | .mk tk td _ tl tr =>
        ⟨plug (rotateLeft (.mk pk pd .BLACK node (.mk tk td pc tl (setBlack tr)))) above, []⟩

/-- Lines 414-442 of `fixDelete`, the mirror image of `fixDeleteLeft` for the branch in which
`node` is `parent->right` and `sibling` is `parent->left`. -/
def fixDeleteRight (node : RBNode) (pk : Int) (pd : Payload) (pc : Color) (sibling : RBNode)
    (above : List Frame) : Cursor :=
  match sibling with
  | .NULL => ⟨node, .inRight pk pd pc .NULL :: above⟩
  | .mk sk sd sc sl sr =>
    if isBlackOrNull sl && isBlackOrNull sr then
      -- Case 2: sibling->color = RED; node = parent
      ⟨.mk pk pd pc (.mk sk sd .RED sl sr) node, above⟩
    else
      -- Case 3: if (sibling->right != NULL) sibling->right->color = BLACK;
      -- sibling->color = RED; rotateLeft(tree, sibling); sibling = parent->left
      let sibling2 : RBNode :=
        if isBlackOrNull sl then rotateLeft (.mk sk sd .RED sl (setBlack sr))
        else .mk sk sd sc sl sr
      -- Case 4: sibling->color = parent->color; parent->color = BLACK;
      -- if (sibling->left != NULL) sibling->left->color = BLACK; rotateRight(tree, parent);
      -- node = tree->root
      match sibling2 with
      | .NULL => ⟨node, .inRight pk pd pc .NULL :: above⟩
      | .mk tk td _ tl tr =>
        ⟨plug (rotateRight (.mk pk pd .BLACK (.mk tk td pc (setBlack tl) tr) node)) above, []⟩

/-- The body of the loop of `fixDelete` (lines 347-443) for a position `node` that is not the
root.  A NULL `node` always takes the branch `node == NULL || node == parent->left`, also when
the vacated slot is `parent->right`; `sibling = parent->right` is then that slot itself, NULL.
The result is the cursor of `node` for the next test of the loop condition. -/
def fixDeleteBody : Cursor → Option Cursor
  | ⟨_, []⟩ => none
  | ⟨.NULL, .inRight pk pd pc pl :: above⟩ =>
    -- sibling == NULL: node = parent; parent = parent->parent; continue
    some ⟨.mk pk pd pc pl .NULL, above⟩
  | ⟨node, .inLeft pk pd pc sibling :: above⟩ =>
    match sibling with
    | .NULL =>
      -- sibling == NULL: node = parent; parent = parent->parent; continue
      some ⟨.mk pk pd pc node .NULL, above⟩
    | .mk sk sd .RED sl sr =>
      -- Case 1: sibling->color = BLACK; parent->color = RED; rotateLeft(tree, parent);
      -- sibling = parent->right
      match rotateLeft (.mk pk pd .RED node (.mk sk sd .BLACK sl sr)) with
      | .mk tk td tc (.mk qk qd qc n s) tr =>
        some (fixDeleteLeft n qk qd qc s (.inLeft tk td tc tr :: above))
      | _ => none
    | .mk sk sd .BLACK sl sr =>
      some (fixDeleteLeft node pk pd pc (.mk sk sd .BLACK sl sr) above)
  | ⟨.mk nk nd nc nl nr, .inRight pk pd pc sibling :: above⟩ =>
    match sibling with
    | .NULL =>
      -- sibling == NULL: node = parent; parent = parent->parent; continue
      some ⟨.mk pk pd pc .NULL (.mk nk nd nc nl nr), above⟩
    | .mk sk sd .RED sl sr =>
      -- Case 1: sibling->color = BLACK; parent->color = RED; rotateRight(tree, parent);
      -- sibling = parent->left
      match rotateRight (.mk pk pd .RED (.mk sk sd .BLACK sl sr) (.mk nk nd nc nl nr)) with
      | .mk tk td tc tl (.mk qk qd qc s n) =>
        some (fixDeleteRight n qk qd qc s (.inRight tk td tc tl :: above))
      | _ => none
    | .mk sk sd .BLACK sl sr =>
      some (fixDeleteRight (.mk nk nd nc nl nr) pk pd pc (.mk sk sd .BLACK sl sr) above)

/-- The function `fixDelete(tree, node, parent)`: the loop
`while (node != tree->root && (node == NULL || node->color == BLACK))` run for at most `fuel`
tests of its condition, then `if (node != NULL) node->color = BLACK`.  The cursor holds both
`node` and `parent`.  The result is the new `tree->root`. -/
def fixDelete : Nat → Cursor → Option RBNode
  | 0, _ => none
  | _ + 1, ⟨node, []⟩ => some (setBlack node)
  | fuel + 1, ⟨node, parent :: above⟩ =>
    if isBlackOrNull node then
      (fixDeleteBody ⟨node, parent :: above⟩).bind (fixDelete fuel)
    else
      some (plug (setBlack node) (parent :: above))

/-- The search loop of `deleteNode` (lines 463-472) started at `node` below the frames `up`:
the cursor of the node holding `key`, or `none` when the walk reaches NULL. -/
def findNode (key : Int) : RBNode → List Frame → Option Cursor
  | .NULL, _ => none
  | .mk k d c l r, up =>
    if key < k then findNode key l (.inLeft k d c r :: up)
    else if key > k then findNode key r (.inRight k d c l :: up)
    else some ⟨.mk k d c l r, up⟩

/-- Lines 478-563 of `deleteNode`: the node `z` with the fields `c l r` below the frames `up`
is unlinked.  The result is `original_color` and the cursor made of `fix_node` and
`fix_parent`; `none` when `findMinimum` returns NULL, which line 528 dereferences. -/
def unlinkNode (c : Color) (l r : RBNode) (up : List Frame) : Option (Color × Cursor) :=
  match l, r with
  | .NULL, r =>
    -- Case 1: no left child; replacement = node->right
    some (c, ⟨r, up⟩)
  | .mk lk ld lc ll lr, .NULL =>
    -- Case 2: no right child; replacement = node->left
    some (c, ⟨.mk lk ld lc ll lr, up⟩)
  | .mk lk ld lc ll lr, .mk rk rd rc rl rr =>
    -- Case 3: successor = findMinimum(node->right); replacement = successor->right
    match findMinimum (.mk rk rd rc rl rr) [] with
    | ⟨.NULL, _⟩ => none
    | ⟨.mk sk sd sc _ sr, []⟩ =>
      -- successor->parent == node
      some (sc, ⟨sr, [.inRight sk sd c (.mk lk ld lc ll lr)] ++ up⟩)
    | ⟨.mk sk sd sc _ sr, f :: within⟩ =>
      -- successor->parent->left = replacement; successor->right = node->right
      some (sc, ⟨sr, (f :: within) ++ .inRight sk sd c (.mk lk ld lc ll lr) :: up⟩)

/-- The function `deleteNode(tree, key)` for a tree that is not NULL: the tree afterwards and
the returned int; 0 is returned when the root is NULL or the search ends at NULL.  The loop
of `fixDelete` is given two units of fuel more than the position `fix_node` has ancestors;
`fixDelete_spec` shows that this is enough. -/
def deleteNode (tree : RBTree) (key : Int) : Option (RBTree × Int) :=
  match findNode key tree.root [] with
  | none => some (tree, 0)
  | some ⟨.NULL, _⟩ => some (tree, 0)
  | some ⟨.mk _ _ c l r, up⟩ =>
    (unlinkNode c l r up).bind fun (original_color, fix) =>
      if original_color = .BLACK then
        (fixDelete (fix.up.length + 2) fix).map
          (fun root2 => ({ root := root2, size := tree.size - 1 }, 1))
      else
        some ({ root := plug fix.node fix.up, size := tree.size - 1 }, 1)

/-- The search loop of `searchNode` (lines 586-598) started at `current`: the node holding
`key`, or NULL. -/
def searchFrom (key : Int) : RBNode → RBNode
  | .NULL => .NULL
  | .mk k d c l r =>
    if key < k then searchFrom key l
    else if key > k then searchFrom key r
    else .mk k d c l r

/-- The function `searchNode(tree, key)` for a tree that is not NULL. -/
def searchNode (tree : RBTree) (key : Int) : RBNode :=
  searchFrom key tree.root

/-- The function `inOrderTraversal(node, callback)`: the nodes handed to the callback, in
the order of the calls, each with its key, payload and color. -/
def inOrderTraversal : RBNode → List (Int × Payload × Color)
  | .NULL => []
  | .mk k d c l r => inOrderTraversal l ++ (k, d, c) :: inOrderTraversal r

/-- The function `getTreeSize(tree)` for a tree that is not NULL. -/
def getTreeSize (tree : RBTree) : Int :=
  tree.size

/-- The function `validateRBTree(tree)` for a tree that is not NULL. -/
def validateRBTree (tree : RBTree) : Int :=
  match tree.root with
  | .NULL => 1
  | .mk _ _ c _ _ => if c ≠ .BLACK then 0 else 1

/-- The function `findMaximum(node)`: the cursor of the rightmost node below `node`, whose own
parent chain is `up`; NULL for NULL. -/
def findMaximum : RBNode → List Frame → Cursor
  | .NULL, up => ⟨.NULL, up⟩
  | .mk k d c l r, up =>
    match r with
    | .NULL => ⟨.mk k d c l .NULL, up⟩
    | .mk rk rd rc rl rr => findMaximum (.mk rk rd rc rl rr) (.inRight k d c l :: up)

/-- The loop of `findSuccessor` (lines 330-334), entered with `successor = node->parent`:
while `node` is the right child of `successor` both move up.  The result is `successor`,
`none` for NULL. -/
def climbToSuccessor : RBNode → List Frame → Option Cursor
  | _, [] => none
  | node, .inRight k d c l :: up => climbToSuccessor (.mk k d c l node) up
  | node, .inLeft k d c r :: up => some ⟨.mk k d c node r, up⟩

/-- The function `findSuccessor(node)`; the result `none` is the NULL pointer. -/
def findSuccessor : Cursor → Option Cursor
  | ⟨.NULL, _⟩ => none
  | ⟨.mk k d c l r, up⟩ =>
    match r with
    | .mk rk rd rc rl rr => some (findMinimum (.mk rk rd rc rl rr) (.inRight k d c l :: up))
    | .NULL => climbToSuccessor (.mk k d c l .NULL) up

/-- The function `preOrderTraversal(node, callback)`: the nodes handed to the callback, in
the order of the calls, each with its key, payload and color. -/
def preOrderTraversal : RBNode → List (Int × Payload × Color)
  | .NULL => []
  | .mk k d c l r => (k, d, c) :: (preOrderTraversal l ++ preOrderTraversal r)

/-- The function `postOrderTraversal(node, callback)`: the nodes handed to the callback, in
the order of the calls, each with its key, payload and color. -/
def postOrderTraversal : RBNode → List (Int × Payload × Color)
  | .NULL => []
  | .mk k d c l r => postOrderTraversal l ++ (postOrderTraversal r ++ [(k, d, c)])

/-- The function `inOrderTraversal` started at a node with the parent chain `up`, recording
for every call of the callback the pointer it is handed. -/
def inOrderVisits : RBNode → List Frame → List Cursor
  | .NULL, _ => []
  | .mk k d c l r, up =>
    inOrderVisits l (.inLeft k d c r :: up) ++
      ⟨.mk k d c l r, up⟩ :: inOrderVisits r (.inRight k d c l :: up)

/-- The function `preOrderTraversal` started at a node with the parent chain `up`, recording
for every call of the callback the pointer it is handed. -/
def preOrderVisits : RBNode → List Frame → List Cursor
  | .NULL, _ => []
  | .mk k d c l r, up =>
    ⟨.mk k d c l r, up⟩ ::
      (preOrderVisits l (.inLeft k d c r :: up) ++ preOrderVisits r (.inRight k d c l :: up))

/-- The function `postOrderTraversal` started at a node with the parent chain `up`, recording
for every call of the callback the pointer it is handed. -/
def postOrderVisits : RBNode → List Frame → List Cursor
  | .NULL, _ => []
  | .mk k d c l r, up =>
    postOrderVisits l (.inLeft k d c r :: up) ++
      (postOrderVisits r (.inRight k d c l :: up) ++ [⟨.mk k d c l r, up⟩])

/-- The function `getHeight(node)`. -/
def getHeight : RBNode → Nat
  | .NULL => 0
  | .mk _ _ _ l r => (if getHeight l > getHeight r then getHeight l else getHeight r) + 1

/-- The function `isEmpty(tree)` for a tree that is not NULL. -/
def isEmpty (tree : RBTree) : Int :=
  match tree.root with
  | .NULL => 1
  | .mk _ _ _ _ _ => 0

/-! ## Calls with a tree pointer or a payload pointer that may be NULL

The functions above take a tree and a payload that are present.  The functions below are the
same C functions as a caller reaches them, with the guards on `tree == NULL` and
`data == NULL` that open them; `none` for a pointer argument is NULL. -/

/-- The function `insertNode(tree, key, data)` with its guard `tree == NULL || data == NULL`
(lines 234-236): what `tree` points to afterwards and the returned int. -/
def insertNodeHandle (tree : Option RBTree) (key : Int) (data : Option Payload) :
    Option (Option RBTree × Int) :=
  match tree, data with
  | some t, some d => (insertNode t key d).map (fun res => (some res.1, res.2))
  | _, _ => some (tree, 0)

/-- The function `deleteNode(tree, key)` with its guard `tree == NULL` (lines 458-460): what
`tree` points to afterwards and the returned int. -/
def deleteNodeHandle (tree : Option RBTree) (key : Int) : Option (Option RBTree × Int) :=
  match tree with
  | some t => (deleteNode t key).map (fun res => (some res.1, res.2))
  | none => some (none, 0)

/-- The function `searchNode(tree, key)` with its guard `tree == NULL` (lines 582-584). -/
def searchNodeHandle (tree : Option RBTree) (key : Int) : RBNode :=
  match tree with
  | some t => searchNode t key
  | none => .NULL

/-- The function `getTreeSize(tree)` with its guard `tree == NULL` (lines 718-720). -/
def getTreeSizeHandle (tree : Option RBTree) : Int :=
  match tree with
  | some t => getTreeSize t
  | none => 0

/-- The function `isEmpty(tree)` with its guard `tree == NULL` (lines 731-733). -/
def isEmptyHandle (tree : Option RBTree) : Int :=
  match tree with
  | some t => isEmpty t
  | none => 1

/-- The function `validateRBTree(tree)` with its guard `tree == NULL` (lines 668-670). -/
def validateRBTreeHandle (tree : Option RBTree) : Int :=
  match tree with
  | some t => validateRBTree t
  | none => 0

/-! ## The range query of RBTREE.h -/

/-- Modelled from the spec: `RBTree_RangeSearch` is declared in RBTREE.h (lines 186-196) and
RBTREE.c holds no definition of it. The in-order collection of all (key, payload) pairs with
`minKey ≤ key ≤ maxKey`, which does not walk a subtree that lies outside the bounds: the left
subtree of a node is walked only when `minKey` is less than the key of the node, the right
subtree only when the key of the node is less than `maxKey`. -/
def rangeCollect (minKey maxKey : Int) : RBNode → List (Int × Payload)
  | .NULL => []
  | .mk k d _ l r =>
    (if minKey < k then rangeCollect minKey maxKey l else []) ++
      ((if minKey ≤ k ∧ k ≤ maxKey then [(k, d)] else []) ++
        (if k < maxKey then rangeCollect minKey maxKey r else []))

/-- Modelled from the spec: `RBTree_RangeSearch` is declared in RBTREE.h (lines 186-196) and
RBTREE.c holds no definition of it. The range query `rangeSearch(minKey, maxKey, cap)`: the
collected pairs truncated at `cap` entries (`none` is the unbounded cap), with the flag that
tells whether matches were left out. -/
def rangeSearch (tree : RBTree) (minKey maxKey : Int) (cap : Option Nat) :
    List (Int × Payload) × Bool :=
  match cap with
  | none => (rangeCollect minKey maxKey tree.root, false)
  | some n =>
    ((rangeCollect minKey maxKey tree.root).take n,
      decide (n < (rangeCollect minKey maxKey tree.root).length))

/-! ## The same functions over a heap of nodes with parent pointers

The definitions above keep the tree as a value and a node pointer as a position in it.  The
definitions of this section follow RBTREE.c statement by statement over a heap: a pointer is
an address or NULL, a node is a record with its three links, and every `p->field` is a read
or a write of the heap that has no result (`none`) when `p` is NULL or is not an allocated
node.  `malloc` hands out the addresses 0, 1, 2, ... and never fails; `free` makes the node
unreadable.  The loops take fuel. -/

namespace Mem

/-- A value of type `RBNode *`: an address, or `none` for NULL. -/
abbrev Ptr := Option Nat

/-- The fields of `struct RBNode`. -/
structure Node where
  key : Int
  data : Payload
  color : Color
  left : Ptr
  right : Ptr
  parent : Ptr
  deriving DecidableEq, Repr

/-- The heap of nodes (`mem`, with `next` the address of the next `malloc`) together with
the two fields of the `RBTree` that the functions are called with. -/
structure Store where
  mem : Nat → Option Node
  next : Nat
  root : Ptr
  size : Int

/-- The node that a pointer designates; `none` for NULL and for memory that is not an
allocated node. -/
def Store.deref (s : Store) : Ptr → Option Node
  | none => none
  | some a => s.mem a

/-- The read `p->key`. -/
def Store.key (s : Store) (p : Ptr) : Option Int :=
  (s.deref p).map fun nd => nd.key

/-- The read `p->color`. -/
def Store.color (s : Store) (p : Ptr) : Option Color :=
  (s.deref p).map fun nd => nd.color

/-- The read `p->left`. -/
def Store.left (s : Store) (p : Ptr) : Option Ptr :=
  (s.deref p).map fun nd => nd.left

/-- The read `p->right`. -/
def Store.right (s : Store) (p : Ptr) : Option Ptr :=
  (s.deref p).map fun nd => nd.right

/-- The read `p->parent`. -/
def Store.parent (s : Store) (p : Ptr) : Option Ptr :=
  (s.deref p).map fun nd => nd.parent

/-- The heap in which the address `a` holds the node `nd`. -/
def Store.write (s : Store) (a : Nat) (nd : Node) : Store :=
  { s with mem := Function.update s.mem a (some nd) }

/-- A write to a field of the node `p`. -/
def Store.modify (s : Store) (p : Ptr) (f : Node → Node) : Option Store :=
  match p with
  | none => none
  | some a =>
    match s.mem a with
    | none => none
    | some nd => some (s.write a (f nd))

/-- The write `p->color = c`. -/
def Store.setColor (s : Store) (p : Ptr) (c : Color) : Option Store :=
  s.modify p fun nd => { nd with color := c }

/-- The write `p->left = q`. -/
def Store.setLeft (s : Store) (p q : Ptr) : Option Store :=
  s.modify p fun nd => { nd with left := q }

/-- The write `p->right = q`. -/
def Store.setRight (s : Store) (p q : Ptr) : Option Store :=
  s.modify p fun nd => { nd with right := q }

/-- The write `p->parent = q`. -/
def Store.setParent (s : Store) (p q : Ptr) : Option Store :=
  s.modify p fun nd => { nd with parent := q }

/-- The two statements `strncpy(p->data, data, 255); p->data[255] = 0`. -/
def Store.setData (s : Store) (p : Ptr) (data : Payload) : Option Store :=
  s.modify p fun nd => { nd with data := copyData data }

/-- The write `tree->root = p`. -/
def Store.setRoot (s : Store) (p : Ptr) : Store :=
  { s with root := p }

/-- The test `p != NULL && p->color == RED`. -/
def Store.isRed (s : Store) (p : Ptr) : Option Bool :=
  if p = none then some false else (s.color p).map fun c => decide (c = .RED)

/-- The test `p == NULL || p->color == BLACK`. -/
def Store.isBlackOrNull (s : Store) (p : Ptr) : Option Bool :=
  if p = none then some true else (s.color p).map fun c => decide (c = .BLACK)

/-- The call `free(p)`: nothing for NULL, no result for a pointer that is not an allocated
node. -/
def free (s : Store) (p : Ptr) : Option Store :=
  match p with
  | none => some s
  | some a =>
    match s.mem a with
    | none => none
    | some _ => some { s with mem := Function.update s.mem a none }

/-- The function `createNode(key, data)` (lines 33-49), `malloc` succeeding. -/
def createNode (s : Store) (key : Int) (data : Payload) : Store × Ptr :=
  ({ s.write s.next
        { key := key, data := copyData data, color := .RED, left := none, right := none,
          parent := none } with
      next := s.next + 1 },
    some s.next)

/-- The function `createTree()` (lines 55-66) on an empty heap. -/
def createTree : Store :=
  { mem := fun _ => none, next := 0, root := none, size := 0 }

/-- The statement `if (p != NULL) p->parent = q`. -/
def condSetParent (s : Store) (p q : Ptr) : Option Store :=
  if p ≠ none then s.setParent p q else some s

/-- The statement `if (p != NULL) p->color = c`. -/
def condSetColor (s : Store) (p : Ptr) (c : Color) : Option Store :=
  if p ≠ none then s.setColor p c else some s

/-- The statement
`if (node->parent == NULL) tree->root = q; else if (node->parent->left == node)
node->parent->left = q; else node->parent->right = q;` of `rotateLeft` (lines 124-130) and
of `deleteNode` (lines 489-497, 509-517, 548-556). -/
def replaceChild (s : Store) (node q : Ptr) : Option Store := do
  let np ← s.parent node
  if np = none then some (s.setRoot q)
  else do
    let npl ← s.left np
    if npl = node then s.setLeft np q else s.setRight np q

/-- The statement
`if (node->parent == NULL) tree->root = q; else if (node->parent->right == node)
node->parent->right = q; else node->parent->left = q;` of `rotateRight` (lines 155-161). -/
def replaceChildRight (s : Store) (node q : Ptr) : Option Store := do
  let np ← s.parent node
  if np = none then some (s.setRoot q)
  else do
    let npr ← s.right np
    if npr = node then s.setRight np q else s.setLeft np q

/-- The function `getUncle(node)` (lines 73-86). -/
def getUncle (s : Store) (node : Ptr) : Option Ptr :=
  if node = none then some none
  else do
    let parent ← s.parent node
    if parent = none then some none
    else do
      let grandparent ← s.parent parent
      if grandparent = none then some none
      else do
        let gl ← s.left grandparent
        if gl = parent then s.right grandparent else s.left grandparent

/-- The function `rotateLeft(tree, node)` (lines 110-134). -/
def rotateLeft (s : Store) (node : Ptr) : Option Store :=
  if node = none then some s
  else do
    let right_child ← s.right node
    if right_child = none then some s
    else do
      let s ← s.setRight node (← s.left right_child)
      let s ← condSetParent s (← s.left right_child) node
      let s ← s.setParent right_child (← s.parent node)
      let s ← replaceChild s node right_child
      let s ← s.setLeft right_child node
      s.setParent node right_child

/-- The function `rotateRight(tree, node)` (lines 141-165). -/
def rotateRight (s : Store) (node : Ptr) : Option Store :=
  if node = none then some s
  else do
    let left_child ← s.left node
    if left_child = none then some s
    else do
      let s ← s.setLeft node (← s.right left_child)
      let s ← condSetParent s (← s.right left_child) node
      let s ← s.setParent left_child (← s.parent node)
      let s ← replaceChildRight s node left_child
      let s ← s.setRight left_child node
      s.setParent node left_child

/-- Case 1 of `fixInsert` (lines 180-184 and 199-203): the three recolorings. -/
def fixInsertCase1 (s : Store) (parent uncle grandparent : Ptr) : Option (Store × Ptr) := do
  let s ← s.setColor parent .BLACK
  let s ← s.setColor uncle .BLACK
  let s ← s.setColor grandparent .RED
  pure (s, grandparent)

/-- Cases 2 and 3 of `fixInsert` when `parent == grandparent->left` (lines 186-196). -/
def fixInsertLeft (s : Store) (node parent grandparent : Ptr) : Option (Store × Ptr) := do
  if node = (← s.right parent) then do
    -- Case 2
    let node := parent
    let s ← rotateLeft s node
    let parent ← s.parent node
    let grandparent ← s.parent parent
    -- Case 3
    let s ← s.setColor parent .BLACK
    let s ← s.setColor grandparent .RED
    let s ← rotateRight s grandparent
    pure (s, node)
  else do
    -- Case 3
    let s ← s.setColor parent .BLACK
    let s ← s.setColor grandparent .RED
    let s ← rotateRight s grandparent
    pure (s, node)

/-- Cases 2 and 3 of `fixInsert` when `parent != grandparent->left` (lines 205-215). -/
def fixInsertRight (s : Store) (node parent grandparent : Ptr) : Option (Store × Ptr) := do
  if node = (← s.left parent) then do
    -- Case 2
    let node := parent
    let s ← rotateRight s node
    let parent ← s.parent node
    let grandparent ← s.parent parent
    -- Case 3
    let s ← s.setColor parent .BLACK
    let s ← s.setColor grandparent .RED
    let s ← rotateLeft s grandparent
    pure (s, node)
  else do
    -- Case 3
    let s ← s.setColor parent .BLACK
    let s ← s.setColor grandparent .RED
    let s ← rotateLeft s grandparent
    pure (s, node)

/-- The body of the loop of `fixInsert` (lines 174-220): the heap afterwards and the new
value of `node`. -/
def fixInsertBody (s : Store) (node : Ptr) : Option (Store × Ptr) := do
  let parent ← s.parent node
  let grandparent ← s.parent parent
  let uncle ← getUncle s node
  if parent = (← s.left grandparent) then
    if (← s.isRed uncle) = true then fixInsertCase1 s parent uncle grandparent
    else fixInsertLeft s node parent grandparent
  else
    if (← s.isRed uncle) = true then fixInsertCase1 s parent uncle grandparent
    else fixInsertRight s node parent grandparent

/-- The function `fixInsert(tree, node)` (lines 172-224): the loop
`while (node != tree->root && node->parent->color == RED)` run for at most `fuel` tests of
its condition, then `tree->root->color = BLACK`. -/
def fixInsert : Nat → Store → Ptr → Option Store
  | 0, _, _ => none
  | fuel + 1, s, node =>
    if node = s.root then s.setColor s.root .BLACK
    else do
      if (← s.color (← s.parent node)) = .RED then do
        let res ← fixInsertBody s node
        fixInsert fuel res.1 res.2
      else s.setColor s.root .BLACK

/-- The search loop of `insertNode` (lines 254-267), run for at most `fuel` tests of its
condition: the node that holds the key (left), or the last node of the walk, `parent`
(right). -/
def insertSearch (s : Store) (key : Int) : Nat → Ptr → Ptr → Option (Ptr ⊕ Ptr)
  | 0, _, _ => none
  | fuel + 1, current, parent =>
    if current = none then some (.inr parent)
    else do
      let k ← s.key current
      if key < k then insertSearch s key fuel (← s.left current) current
      else if key > k then insertSearch s key fuel (← s.right current) current
      else some (.inl current)

/-- Lines 269-279 of `insertNode`: the new node is attached below `parent`, the size grows and
`fixInsert` runs, with `next + 1` units of fuel. -/
def insertAttach (s : Store) (key : Int) (new_node parent : Ptr) : Option (Store × Int) := do
  let s ← s.setParent new_node parent
  let s ← if key < (← s.key parent) then s.setLeft parent new_node
    else s.setRight parent new_node
  let s := { s with size := s.size + 1 }
  let s ← fixInsert (s.next + 1) s new_node
  pure (s, 1)

/-- Lines 261-265 of `insertNode`: the payload of the node that holds the key is overwritten
and the new node is freed. -/
def insertUpdate (s : Store) (data : Payload) (new_node current : Ptr) :
    Option (Store × Int) := do
  let s ← s.setData current data
  let s ← free s new_node
  pure (s, 1)

/-- The function `insertNode(tree, key, data)` (lines 233-280) for a tree and a payload that
are not NULL.  The search loop is given `next + 1` units of fuel, one more than there are
nodes. -/
def insertNode (s : Store) (key : Int) (data : Payload) : Option (Store × Int) :=
  match createNode s key data with
  | (s, new_node) =>
    if s.root = none then do
      let s ← (s.setRoot new_node).setColor new_node .BLACK
      pure ({ s with size := s.size + 1 }, 1)
    else do
      match ← insertSearch s key (s.next + 1) s.root none with
      | .inl current => insertUpdate s data new_node current
      | .inr parent => insertAttach s key new_node parent

/-- The loop of `findMinimum(node)` (lines 292-294) for a `node` that is not NULL, run for at
most `fuel` tests of its condition. -/
def findMinimumLoop (s : Store) : Nat → Ptr → Option Ptr
  | 0, _ => none
  | fuel + 1, node => do
    let l ← s.left node
    if l ≠ none then findMinimumLoop s fuel l else some node

/-- The function `findMinimum(node)` (lines 287-297), the loop with `next + 1` units of
fuel. -/
def findMinimum (s : Store) (node : Ptr) : Option Ptr :=
  if node = none then some none else findMinimumLoop s (s.next + 1) node

/-- Case 1 of `fixDelete` when `node == NULL || node == parent->left` (lines 360-365): the
heap and the value of `sibling` afterwards. -/
def fixDeleteLeftCase1 (s : Store) (parent sibling : Ptr) : Option (Store × Ptr) := do
  if (← s.color sibling) = .RED then do
    let s ← s.setColor sibling .BLACK
    let s ← s.setColor parent .RED
    let s ← rotateLeft s parent
    pure (s, ← s.right parent)
  else pure (s, sibling)

/-- Case 3 of `fixDelete` in the first branch (lines 376-383). -/
def fixDeleteLeftCase3 (s : Store) (parent sibling : Ptr) : Option (Store × Ptr) := do
  if (← s.isBlackOrNull (← s.right sibling)) = true then do
    let s ← condSetColor s (← s.left sibling) .BLACK
    let s ← s.setColor sibling .RED
    let s ← rotateRight s sibling
    pure (s, ← s.right parent)
  else pure (s, sibling)

/-- Case 4 of `fixDelete` in the first branch (lines 386-394). -/
def fixDeleteLeftCase4 (s : Store) (node parent sibling : Ptr) :
    Option (Store × Ptr × Ptr) := do
  if sibling ≠ none then do
    let s ← s.setColor sibling (← s.color parent)
    let s ← s.setColor parent .BLACK
    let s ← condSetColor s (← s.right sibling) .BLACK
    let s ← rotateLeft s parent
    pure (s, s.root, parent)
  else pure (s, node, parent)

/-- The test `(x->left == NULL || x->left->color == BLACK) && (x->right == NULL ||
x->right->color == BLACK)` of lines 369-370 and 415-416. -/
def bothChildrenBlack (s : Store) (x : Ptr) : Option Bool := do
  if (← s.isBlackOrNull (← s.left x)) = true then s.isBlackOrNull (← s.right x)
  else pure false

/-- Lines 367-395 of `fixDelete`, the part of the first branch after Case 1:
`if (sibling != NULL)` with Case 2 or Cases 3 and 4. -/
def fixDeleteLeftCases (s : Store) (node parent sibling : Ptr) :
    Option (Store × Ptr × Ptr) := do
  if sibling ≠ none then do
    if (← bothChildrenBlack s sibling) = true then do
      -- Case 2
      let s ← s.setColor sibling .RED
      pure (s, parent, parent)
    else do
      let res ← fixDeleteLeftCase3 s parent sibling
      fixDeleteLeftCase4 res.1 node parent res.2
  else pure (s, node, parent)

/-- The first branch of the body of the loop of `fixDelete` (lines 352-395), taken when
`node == NULL || node == parent->left`: the heap and the values of `node` and `parent`
afterwards. -/
def fixDeleteLeft (s : Store) (node parent : Ptr) : Option (Store × Ptr × Ptr) := do
  let sibling ← s.right parent
  if sibling = none then
    pure (s, parent, ← s.parent parent)
  else do
    let res ← fixDeleteLeftCase1 s parent sibling
    fixDeleteLeftCases res.1 node parent res.2

/-- Case 1 of `fixDelete` in the second branch (lines 406-411). -/
def fixDeleteRightCase1 (s : Store) (parent sibling : Ptr) : Option (Store × Ptr) := do
  if (← s.color sibling) = .RED then do
    let s ← s.setColor sibling .BLACK
    let s ← s.setColor parent .RED
    let s ← rotateRight s parent
    pure (s, ← s.left parent)
  else pure (s, sibling)

/-- Case 3 of `fixDelete` in the second branch (lines 422-429). -/
def fixDeleteRightCase3 (s : Store) (parent sibling : Ptr) : Option (Store × Ptr) := do
  if (← s.isBlackOrNull (← s.left sibling)) = true then do
    let s ← condSetColor s (← s.right sibling) .BLACK
    let s ← s.setColor sibling .RED
    let s ← rotateLeft s sibling
    pure (s, ← s.left parent)
  else pure (s, sibling)

/-- Case 4 of `fixDelete` in the second branch (lines 432-440). -/
def fixDeleteRightCase4 (s : Store) (node parent sibling : Ptr) :
    Option (Store × Ptr × Ptr) := do
  if sibling ≠ none then do
    let s ← s.setColor sibling (← s.color parent)
    let s ← s.setColor parent .BLACK
    let s ← condSetColor s (← s.left sibling) .BLACK
    let s ← rotateRight s parent
    pure (s, s.root, parent)
  else pure (s, node, parent)

/-- Lines 413-441 of `fixDelete`, the part of the second branch after Case 1. -/
def fixDeleteRightCases (s : Store) (node parent sibling : Ptr) :
    Option (Store × Ptr × Ptr) := do
  if sibling ≠ none then do
    if (← bothChildrenBlack s sibling) = true then do
      -- Case 2
      let s ← s.setColor sibling .RED
      pure (s, parent, parent)
    else do
      let res ← fixDeleteRightCase3 s parent sibling
      fixDeleteRightCase4 res.1 node parent res.2
  else pure (s, node, parent)

/-- The second branch of the body of the loop of `fixDelete` (lines 397-442). -/
def fixDeleteRight (s : Store) (node parent : Ptr) : Option (Store × Ptr × Ptr) := do
  let sibling ← s.left parent
  if sibling = none then
    pure (s, parent, ← s.parent parent)
  else do
    let res ← fixDeleteRightCase1 s parent sibling
    fixDeleteRightCases res.1 node parent res.2

/-- Lines 347-349 of `fixDelete`: `if (node != NULL && node->parent != NULL) parent =
node->parent`; the value of `parent` afterwards. -/
def refreshParent (s : Store) (node parent : Ptr) : Option Ptr :=
  if node = none then some parent
  else do
    let np ← s.parent node
    if np ≠ none then some np else some parent

/-- The body of the loop of `fixDelete` (lines 347-443). -/
def fixDeleteBody (s : Store) (node parent : Ptr) : Option (Store × Ptr × Ptr) := do
  let parent ← refreshParent s node parent
  if node = none then fixDeleteLeft s node parent
  else if node = (← s.left parent) then fixDeleteLeft s node parent
  else fixDeleteRight s node parent

/-- The function `fixDelete(tree, node, parent)` (lines 345-449): the loop
`while (node != tree->root && (node == NULL || node->color == BLACK))` run for at most `fuel`
tests of its condition, then `if (node != NULL) node->color = BLACK`. -/
def fixDelete : Nat → Store → Ptr → Ptr → Option Store
  | 0, _, _, _ => none
  | fuel + 1, s, node, parent =>
    if node = s.root then condSetColor s node .BLACK
    else do
      if (← s.isBlackOrNull node) = true then do
        let res ← fixDeleteBody s node parent
        fixDelete fuel res.1 res.2.1 res.2.2
      else condSetColor s node .BLACK

/-- The search loop of `deleteNode` (lines 463-472) and of `searchNode` (lines 586-598), run
for at most `fuel` tests of its condition. -/
def searchLoop (s : Store) (key : Int) : Nat → Ptr → Option Ptr
  | 0, _ => none
  | fuel + 1, node =>
    if node = none then some none
    else do
      let k ← s.key node
      if key < k then searchLoop s key fuel (← s.left node)
      else if key > k then searchLoop s key fuel (← s.right node)
      else some node

/-- Lines 485-503 of `deleteNode` (and lines 505-523, with `node->left` for `node->right`):
`replacement` takes the place of `node` below the parent of `node`.  The result is the heap
with `original_color`, `fix_node` and `fix_parent`. -/
def unlinkOne (s : Store) (node replacement : Ptr) : Option (Store × Color × Ptr × Ptr) := do
  let original_color ← s.color node
  let fix_parent ← s.parent node
  let s ← replaceChild s node replacement
  let s ← condSetParent s replacement (← s.parent node)
  pure (s, original_color, replacement, fix_parent)

/-- Lines 530-546 of `deleteNode`: the successor is detached from its place; the heap and
`fix_parent` afterwards. -/
def detachSuccessor (s : Store) (node successor replacement : Ptr) :
    Option (Store × Ptr) := do
  if (← s.parent successor) = node then do
    let s ← condSetParent s replacement successor
    pure (s, successor)
  else do
    let fix_parent ← s.parent successor
    let s ← s.setLeft (← s.parent successor) replacement
    let s ← condSetParent s replacement (← s.parent successor)
    let s ← s.setRight successor (← s.right node)
    let s ← s.setParent (← s.right successor) successor
    pure (s, fix_parent)

/-- Lines 548-562 of `deleteNode`: the successor takes the place, the left child and the
color of the node. -/
def attachSuccessor (s : Store) (node successor : Ptr) : Option Store := do
  let s ← replaceChild s node successor
  let s ← s.setParent successor (← s.parent node)
  let s ← s.setLeft successor (← s.left node)
  let s ← s.setParent (← s.left successor) successor
  s.setColor successor (← s.color node)

/-- Lines 525-563 of `deleteNode`, the case of two children: the heap afterwards,
`original_color`, `fix_node` and `fix_parent`. -/
def unlinkTwo (s : Store) (node : Ptr) : Option (Store × Color × Ptr × Ptr) := do
  let successor ← findMinimum s (← s.right node)
  let original_color ← s.color successor
  let replacement ← s.right successor
  let res ← detachSuccessor s node successor replacement
  let s ← attachSuccessor res.1 node successor
  pure (s, original_color, replacement, res.2)

/-- Lines 478-563 of `deleteNode`: the node is unlinked in one of the three cases. -/
def unlinkNode (s : Store) (node : Ptr) : Option (Store × Color × Ptr × Ptr) := do
  if (← s.left node) = none then unlinkOne s node (← s.right node)
  else if (← s.right node) = none then unlinkOne s node (← s.left node)
  else unlinkTwo s node

/-- Lines 565-572 of `deleteNode`: the node is freed, the size drops and `fixDelete` runs,
with `next + 2` units of fuel, when the removed color is BLACK. -/
def deleteFinish (s : Store) (node : Ptr) (original_color : Color) (fix_node fix_parent : Ptr) :
    Option (Store × Int) := do
  let s ← free s node
  let s := { s with size := s.size - 1 }
  if original_color = .BLACK then do
    let s ← fixDelete (s.next + 2) s fix_node fix_parent
    pure (s, 1)
  else pure (s, 1)

/-- The function `deleteNode(tree, key)` (lines 457-573) for a tree that is not NULL.  The
search loop is given `next + 1` units of fuel. -/
def deleteNode (s : Store) (key : Int) : Option (Store × Int) :=
  if s.root = none then some (s, 0)
  else do
    let node ← searchLoop s key (s.next + 1) s.root
    if node = none then some (s, 0)
    else do
      let res ← unlinkNode s node
      deleteFinish res.1 node res.2.1 res.2.2.1 res.2.2.2

/-- The function `searchNode(tree, key)` (lines 581-599) for a tree that is not NULL. -/
def searchNode (s : Store) (key : Int) : Option Ptr :=
  searchLoop s key (s.next + 1) s.root

end Mem

/-! ## `insertNode` with rotations that insist on their pivot

The specification gives `rotateLeft` and `rotateRight` the precondition that the child on the
side of the rotation exists.  The functions of this section are `fixInsert` and `insertNode`
with the rotations replaced by rotations that fail where the precondition does not hold, to
be compared with the functions of the source. -/

namespace Mem

/-- Follows the specification: `rotateLeft(tree, node)` under the precondition that `node`
and `node->right` exist; `none` where the defensive branch of line 111 would return. -/
def rotateLeftChecked (s : Store) (node : Ptr) : Option Store :=
  match s.right node with
  | some (some _) => rotateLeft s node
  | _ => none

/-- Follows the specification: `rotateRight(tree, node)` under the precondition that `node`
and `node->left` exist; `none` where the defensive branch of line 142 would return. -/
def rotateRightChecked (s : Store) (node : Ptr) : Option Store :=
  match s.left node with
  | some (some _) => rotateRight s node
  | _ => none

/-- The function `fixInsertLeft` with rotations that insist on their pivot. -/
def fixInsertLeftChecked (s : Store) (node parent grandparent : Ptr) :
    Option (Store × Ptr) := do
  if node = (← s.right parent) then do
    let node := parent
    let s ← rotateLeftChecked s node
    let parent ← s.parent node
    let grandparent ← s.parent parent
    let s ← s.setColor parent .BLACK
    let s ← s.setColor grandparent .RED
    let s ← rotateRightChecked s grandparent
    pure (s, node)
  else do
    let s ← s.setColor parent .BLACK
    let s ← s.setColor grandparent .RED
    let s ← rotateRightChecked s grandparent
    pure (s, node)

/-- The function `fixInsertRight` with rotations that insist on their pivot. -/
def fixInsertRightChecked (s : Store) (node parent grandparent : Ptr) :
    Option (Store × Ptr) := do
  if node = (← s.left parent) then do
    let node := parent
    let s ← rotateRightChecked s node
    let parent ← s.parent node
    let grandparent ← s.parent parent
    let s ← s.setColor parent .BLACK
    let s ← s.setColor grandparent .RED
    let s ← rotateLeftChecked s grandparent
    pure (s, node)
  else do
    let s ← s.setColor parent .BLACK
    let s ← s.setColor grandparent .RED
    let s ← rotateLeftChecked s grandparent
    pure (s, node)

/-- The function `fixInsertBody` with rotations that insist on their pivot. -/
def fixInsertBodyChecked (s : Store) (node : Ptr) : Option (Store × Ptr) := do
  let parent ← s.parent node
  let grandparent ← s.parent parent
  let uncle ← getUncle s node
  if parent = (← s.left grandparent) then
    if (← s.isRed uncle) = true then fixInsertCase1 s parent uncle grandparent
    else fixInsertLeftChecked s node parent grandparent
  else
    if (← s.isRed uncle) = true then fixInsertCase1 s parent uncle grandparent
    else fixInsertRightChecked s node parent grandparent

/-- The function `fixInsert` with rotations that insist on their pivot. -/
def fixInsertChecked : Nat → Store → Ptr → Option Store
  | 0, _, _ => none
  | fuel + 1, s, node =>
    if node = s.root then s.setColor s.root .BLACK
    else do
      if (← s.color (← s.parent node)) = .RED then do
        let res ← fixInsertBodyChecked s node
        fixInsertChecked fuel res.1 res.2
      else s.setColor s.root .BLACK

/-- The function `insertAttach` with rotations that insist on their pivot. -/
def insertAttachChecked (s : Store) (key : Int) (new_node parent : Ptr) :
    Option (Store × Int) := do
  let s ← s.setParent new_node parent
  let s ← if key < (← s.key parent) then s.setLeft parent new_node
    else s.setRight parent new_node
  let s := { s with size := s.size + 1 }
  let s ← fixInsertChecked (s.next + 1) s new_node
  pure (s, 1)

/-- The function `insertNode` with rotations that insist on their pivot. -/
def insertNodeChecked (s : Store) (key : Int) (data : Payload) : Option (Store × Int) :=
  match createNode s key data with
  | (s, new_node) =>
    if s.root = none then do
      let s ← (s.setRoot new_node).setColor new_node .BLACK
      pure ({ s with size := s.size + 1 }, 1)
    else do
      match ← insertSearch s key (s.next + 1) s.root none with
      | .inl current => insertUpdate s data new_node current
      | .inr parent => insertAttachChecked s key new_node parent

end Mem

/-! ## The invariants of the specification -/

/-- The keys of the nodes below `t`, in in-order. -/
def keysOf (t : RBNode) : List Int :=
  (inOrderTraversal t).map (fun e => e.1)

/-- The (key, payload) pairs of the nodes below `t`, in in-order. -/
def entries (t : RBNode) : List (Int × Payload) :=
  (inOrderTraversal t).map (fun e => (e.1, e.2.1))

/-- The number of nodes reachable from `t`. -/
def countNodes : RBNode → Nat
  | .NULL => 0
  | .mk _ _ _ l r => countNodes l + 1 + countNodes r

/-- RB2: the root, if present, is BLACK. -/
def RB2 (t : RBNode) : Prop :=
  isBlackOrNull t = true

/-- RB4: no RED node has a RED child. -/
def RB4 : RBNode → Prop
  | .NULL => True
  | .mk _ _ c l r =>
    (c = .RED → isBlackOrNull l = true ∧ isBlackOrNull r = true) ∧ RB4 l ∧ RB4 r

/-- The number of BLACK nodes on the leftmost path from `t` down to a NULL child. -/
def blackHeight : RBNode → Nat
  | .NULL => 0
  | .mk _ _ c l _ => blackHeight l + (if c = .BLACK then 1 else 0)

/-- RB5: every path from a node to a NULL child below it holds the same number of BLACK
nodes. -/
def RB5 : RBNode → Prop
  | .NULL => True
  | .mk _ _ _ l r => blackHeight l = blackHeight r ∧ RB5 l ∧ RB5 r

/-- The number of BLACK nodes on every path from `t` down to a NULL child, the paths taken
from left to right. -/
def blackCounts : RBNode → List Nat
  | .NULL => [0]
  | .mk _ _ c l r =>
    (blackCounts l ++ blackCounts r).map (fun n => n + (if c = .BLACK then 1 else 0))

/-- The ordering invariant: at every node the keys of the left subtree are strictly less than
the key of the node and the keys of the right subtree are strictly greater. -/
def Ordered : RBNode → Prop
  | .NULL => True
  | .mk k _ _ l r =>
    (∀ x ∈ keysOf l, x < k) ∧ (∀ x ∈ keysOf r, k < x) ∧ Ordered l ∧ Ordered r

/-- Decision procedure for RB4. -/
instance RB4.decidable : (t : RBNode) → Decidable (RB4 t)
  | .NULL => isTrue trivial
  | .mk _ _ c l r =>
    have := RB4.decidable l
    have := RB4.decidable r
    inferInstanceAs
      (Decidable ((c = .RED → isBlackOrNull l = true ∧ isBlackOrNull r = true) ∧ RB4 l ∧ RB4 r))

/-- Decision procedure for RB5. -/
instance RB5.decidable : (t : RBNode) → Decidable (RB5 t)
  | .NULL => isTrue trivial
  | .mk _ _ _ l r =>
    have := RB5.decidable l
    have := RB5.decidable r
    inferInstanceAs (Decidable (blackHeight l = blackHeight r ∧ RB5 l ∧ RB5 r))

/-- Decision procedure for the ordering invariant. -/
instance Ordered.decidable : (t : RBNode) → Decidable (Ordered t)
  | .NULL => isTrue trivial
  | .mk k _ _ l r =>
    have := Ordered.decidable l
    have := Ordered.decidable r
    inferInstanceAs
      (Decidable ((∀ x ∈ keysOf l, x < k) ∧ (∀ x ∈ keysOf r, k < x) ∧ Ordered l ∧ Ordered r))

/-- Decision procedure for RB2. -/
instance RB2.decidable (t : RBNode) : Decidable (RB2 t) :=
  inferInstanceAs (Decidable (isBlackOrNull t = true))

/-! ## Sequences of calls -/

/-- A call of `insertNode` or `deleteNode`. -/
inductive Op where
  | insert (key : Int) (data : Payload) : Op
  | delete (key : Int) : Op
  deriving DecidableEq, Repr

/-- The tree left by one call. -/
def Op.run : Op → RBTree → Option RBTree
  | .insert k d, t => (insertNode t k d).map (fun res => res.1)
  | .delete k, t => (deleteNode t k).map (fun res => res.1)

/-- The tree left by a sequence of calls, performed from the first to the last. -/
def runOps : List Op → RBTree → Option RBTree
  | [], t => some t
  | op :: ops, t => (op.run t).bind (runOps ops)

/-- The last call in `ops` that names the key `k`, if there is one. -/
def lastCall (ops : List Op) (k : Int) : Option Op :=
  (ops.filter (fun op => match op with
    | .insert k2 _ => decide (k2 = k)
    | .delete k2 => decide (k2 = k))).getLast?

/-! ## Auxiliary notions for the proofs -/

/-- The entries that precede the open slot of a parent chain in in-order. -/
def leftOf : List Frame → List (Int × Payload)
  | [] => []
  | .inLeft _ _ _ _ :: up => leftOf up
  | .inRight k d _ l :: up => leftOf up ++ (entries l ++ [(k, d)])

/-- The entries that follow the open slot of a parent chain in in-order. -/
def rightOf : List Frame → List (Int × Payload)
  | [] => []
  | .inLeft k d _ r :: up => ((k, d) :: entries r) ++ rightOf up
  | .inRight _ _ _ _ :: up => rightOf up

/-- The topmost frame of a parent chain, the root, is BLACK (or the chain is empty). -/
def upRootBlack : List Frame → Prop
  | [] => True
  | [f] => f.color = .BLACK
  | _ :: g :: up => upRootBlack (g :: up)

/-- RB4 for the part of a tree that lies on and beside a parent chain, given whether the node
in the open slot is RED. -/
def UpRB4 : List Frame → Bool → Prop
  | [], _ => True
  | .inLeft _ _ c r :: up, red =>
    RB4 r ∧ (c = .RED → red = false ∧ isBlackOrNull r = true) ∧ UpRB4 up (decide (c = .RED))
  | .inRight _ _ c l :: up, red =>
    RB4 l ∧ (c = .RED → red = false ∧ isBlackOrNull l = true) ∧ UpRB4 up (decide (c = .RED))

/-- RB5 for the part of a tree that lies on and beside a parent chain, given the black height
of the subtree in the open slot. -/
def UpRB5 : List Frame → Nat → Prop
  | [], _ => True
  | .inLeft _ _ c r :: up, h =>
    blackHeight r = h ∧ RB5 r ∧ UpRB5 up (h + (if c = .BLACK then 1 else 0))
  | .inRight _ _ c l :: up, h =>
    blackHeight l = h ∧ RB5 l ∧ UpRB5 up (h + (if c = .BLACK then 1 else 0))

/-- The loop invariant of `fixInsert` for the red-black properties: the node is RED, the
subtree below it is a red-black tree, and the rest of the tree is one as soon as the node is
BLACK. -/
def InsInv (cur : Cursor) : Prop :=
  isRed cur.node = true ∧ RB4 cur.node ∧ RB5 cur.node ∧ UpRB4 cur.up false ∧
    UpRB5 cur.up (blackHeight cur.node)

/-- The tree with every payload blanked: what is left is the shape of the tree with the key
and the color of every node. -/
def erasePayloads : RBNode → RBNode
  | .NULL => .NULL
  | .mk k _ c l r => .mk k [] c (erasePayloads l) (erasePayloads r)

/-- The tree in which the node that the search for `key` reaches holds the payload `d`. -/
def setPayload (key : Int) (d : Payload) : RBNode → RBNode
  | .NULL => .NULL
  | .mk k d0 c l r =>
    if key < k then .mk k d0 c (setPayload key d l) r
    else if key > k then .mk k d0 c l (setPayload key d r)
    else .mk k d c l r

/-- The loop invariant of `fixDelete` for RB4: no RED node has a RED child, except that the
node itself may be RED with a RED parent or child. -/
def DelInv4 (cur : Cursor) : Prop :=
  RB4 (setBlack cur.node) ∧ UpRB4 cur.up false

/-- Whether the root of a subtree is RED once it hangs below the frames `a`, given whether it
is RED on its own. -/
def holeRedAfter : List Frame → Bool → Bool
  | [], x => x
  | f :: a, _ => holeRedAfter a (decide (f.color = .RED))

/-- The invariant of the trees that sequences of calls produce: the root is BLACK, the tree
is ordered and the stored size is the number of nodes. -/
def SeqInv (t : RBTree) : Prop :=
  RB2 t.root ∧ Ordered t.root ∧ t.size = (countNodes t.root : Int)

/-! ## The trees of the demonstration in `main` -/

/-- The keys and payloads of the nine `insertNode` calls of `main` (lines 766-774). -/
def demoPairs : List (Int × Payload) :=
  [(10, "The Great Gatsby".toList), (5, "To Kill a Mockingbird".toList),
    (15, "1984".toList), (3, "Jane Eyre".toList), (7, "Wuthering Heights".toList),
    (12, "Brave New World".toList), (20, "The Catcher in the Rye".toList),
    (25, "Moby Dick".toList), (8, "Pride and Prejudice".toList)]

/-- The nine `insertNode` calls of `main` (lines 766-774). -/
def demoOps : List Op :=
  demoPairs.map (fun kv => Op.insert kv.1 kv.2)

/-- The tree that `main` holds after its nine `insertNode` calls. -/
def demoTree : RBTree :=
  { root := .mk 10 "The Great Gatsby".toList .BLACK
      (.mk 5 "To Kill a Mockingbird".toList .RED
        (.mk 3 "Jane Eyre".toList .BLACK .NULL .NULL)
        (.mk 7 "Wuthering Heights".toList .BLACK .NULL
          (.mk 8 "Pride and Prejudice".toList .RED .NULL .NULL)))
      (.mk 15 "1984".toList .RED
        (.mk 12 "Brave New World".toList .BLACK .NULL .NULL)
        (.mk 20 "The Catcher in the Rye".toList .BLACK .NULL
          (.mk 25 "Moby Dick".toList .RED .NULL .NULL))),
    size := 9 }

/-- The tree left by inserting the keys 10, 5, 15, 3 (with empty payloads) into the empty
tree. -/
def fourKeyTree : RBTree :=
  { root := .mk 10 [] .BLACK (.mk 5 [] .BLACK (.mk 3 [] .RED .NULL .NULL) .NULL)
      (.mk 15 [] .BLACK .NULL .NULL),
    size := 4 }

/-- A single RED node: an ordered tree that violates RB2. -/
def redRootTree : RBTree :=
  { root := .mk 10 [] .RED .NULL .NULL, size := 1 }

/-- A tree that violates the ordering invariant: the BLACK root 10 with the RED left child 20.
The key 20 is stored in it, on the side where the search never looks for it. -/
def misplacedKeyTree : RBTree :=
  { root := .mk 10 [] .BLACK (.mk 20 [] .RED .NULL .NULL) .NULL, size := 2 }

/-- The key, payload and color that a callback reads through the pointer it is handed; a NULL
pointer is never handed over and has no such triple. -/
def Cursor.fields (cur : Cursor) : Option (Int × Payload × Color) :=
  match cur.node with
  | .NULL => none
  | .mk k d c _ _ => some (k, d, c)

/-- The values returned by the calls `deleteNode(tree, k)` for the keys `ks`, performed from
the first to the last, and the tree they leave. -/
def deleteAll : List Int → RBTree → Option (RBTree × List Int)
  | [], t => some (t, [])
  | k :: ks, t =>
    (deleteNode t k).bind fun res =>
      (deleteAll ks res.1).map fun rest => (rest.1, res.2 :: rest.2)

/-- The tree left by `deleteNode(tree, 15)` on the tree of the keys 10, 5, 15, 3. -/
def threeKeyTree : RBTree :=
  { root := .mk 10 [] .BLACK (.mk 5 [] .BLACK (.mk 3 [] .RED .NULL .NULL) .NULL) .NULL,
    size := 3 }

/-- The parent chain of the node with key 8 in the tree of the demonstration: it is the right
child of 7, which is the right child of 5, which is the left child of the root 10. -/
def demoUp8 : List Frame :=
  [.inRight 7 "Wuthering Heights".toList .BLACK .NULL,
    .inRight 5 "To Kill a Mockingbird".toList .RED
      (.mk 3 "Jane Eyre".toList .BLACK .NULL .NULL),
    .inLeft 10 "The Great Gatsby".toList .BLACK
      (.mk 15 "1984".toList .RED
        (.mk 12 "Brave New World".toList .BLACK .NULL .NULL)
        (.mk 20 "The Catcher in the Rye".toList .BLACK .NULL
          (.mk 25 "Moby Dick".toList .RED .NULL .NULL)))]

/-- The tree left by inserting the keys 10, 5, 15, 12 (with empty payloads) into the empty
tree: the root 10 has two children and its in-order successor 12 is a RED leaf. -/
def redSuccessorTree : RBTree :=
  { root := .mk 10 [] .BLACK (.mk 5 [] .BLACK .NULL .NULL)
      (.mk 15 [] .BLACK (.mk 12 [] .RED .NULL .NULL) .NULL),
    size := 4 }

/-- The variable `sibling` that an iteration of the loop of `fixDelete` reads (lines 351-352
and 397-398) at the position `node` below `parent`: `parent->right` when
`node == NULL || node == parent->left`, which a NULL `node` always satisfies, also when the
vacated slot is `parent->right`; `parent->left` otherwise.  `none` at the root. -/
def examinedSibling : Cursor → Option RBNode
  | ⟨_, []⟩ => none
  | ⟨.NULL, .inRight _ _ _ _ :: _⟩ => some .NULL
  | ⟨_, .inLeft _ _ _ r :: _⟩ => some r
  | ⟨.mk _ _ _ _ _, .inRight _ _ _ l :: _⟩ => some l

/-- The child of the parent on the side opposite to the position of the cursor; `none` at
the root. -/
def oppositeChild : Cursor → Option RBNode
  | ⟨_, []⟩ => none
  | ⟨_, .inLeft _ _ _ r :: _⟩ => some r
  | ⟨_, .inRight _ _ _ l :: _⟩ => some l

/-! ## Trees with addresses: the link between the heap and the tree values -/

/-- A tree in which every node carries the address at which the heap holds it. -/
inductive ANode where
  | NULL : ANode
  | mk (addr : Nat) (key : Int) (data : Payload) (color : Color) (left right : ANode) : ANode
  deriving DecidableEq, Repr

/-- A step of a parent chain in which the parent carries its address. -/
inductive AFrame where
  | inLeft (addr : Nat) (key : Int) (data : Payload) (color : Color) (right : ANode) : AFrame
  | inRight (addr : Nat) (key : Int) (data : Payload) (color : Color) (left : ANode) : AFrame
  deriving DecidableEq, Repr

/-- A position in a tree with addresses. -/
structure ACursor where
  node : ANode
  up : List AFrame
  deriving DecidableEq, Repr

/-- The pointer to the root of a tree with addresses. -/
def ANode.ptr : ANode → Mem.Ptr
  | .NULL => none
  | .mk a _ _ _ _ _ => some a

/-- The tree without its addresses. -/
def ANode.erase : ANode → RBNode
  | .NULL => .NULL
  | .mk _ k d c l r => .mk k d c l.erase r.erase

/-- The tree with its root, if there is one, given the color `c`. -/
def ANode.setColor (c : Color) : ANode → ANode
  | .NULL => .NULL
  | .mk a k d _ l r => .mk a k d c l r

/-- The frame without its addresses. -/
def AFrame.erase : AFrame → Frame
  | .inLeft _ k d c r => .inLeft k d c r.erase
  | .inRight _ k d c l => .inRight k d c l.erase

/-- The position without its addresses. -/
def ACursor.erase (cur : ACursor) : Cursor :=
  ⟨cur.node.erase, cur.up.map AFrame.erase⟩

/-- The addresses of the nodes of a tree, in in-order. -/
def ANode.addrs : ANode → List Nat
  | .NULL => []
  | .mk a _ _ _ l r => l.addrs ++ a :: r.addrs

/-- The address of the parent of a frame. -/
def AFrame.addr : AFrame → Nat
  | .inLeft a _ _ _ _ => a
  | .inRight a _ _ _ _ => a

/-- The addresses of the parent of a frame and of the nodes below its other child. -/
def AFrame.addrs : AFrame → List Nat
  | .inLeft a _ _ _ r => a :: r.addrs
  | .inRight a _ _ _ l => a :: l.addrs

/-- The addresses of the nodes on and beside a parent chain. -/
def upAddrs : List AFrame → List Nat
  | [] => []
  | f :: up => f.addrs ++ upAddrs up

/-- The addresses of all nodes of the tree around a position. -/
def ACursor.addrs (cur : ACursor) : List Nat :=
  cur.node.addrs ++ upAddrs cur.up

/-- The pointer to the parent of the open slot of a parent chain: NULL at the root. -/
def upPtr : List AFrame → Mem.Ptr
  | [] => none
  | f :: _ => some f.addr

/-- The parent with the given subtree in its open slot. -/
def AFrame.fill : AFrame → ANode → ANode
  | .inLeft a k d c r, t => .mk a k d c t r
  | .inRight a k d c l, t => .mk a k d c l t

/-- The whole tree around a position. -/
def aplug : ANode → List AFrame → ANode
  | t, [] => t
  | t, f :: up => aplug (f.fill t) up

/-- The heap holds the tree `t` below a node whose address is `par`: every node of `t` lies at
its address with its key, payload and color, with the pointers to its two children, and with
the pointer to its parent. -/
def ARep (m : Nat → Option Mem.Node) : ANode → Mem.Ptr → Prop
  | .NULL, _ => True
  | .mk a k d c l r, par =>
    m a = some (Mem.Node.mk k d c l.ptr r.ptr par) ∧
      ARep m l (some a) ∧ ARep m r (some a)

/-- The heap holds the parent chain `up` above the pointer `hole`: every parent lies at its
address with `hole` (or the parent below it) as the child on the side of the chain, and
`tree->root` is the topmost of them (or `hole`). -/
def ARepUp (m : Nat → Option Mem.Node) (root : Mem.Ptr) : List AFrame → Mem.Ptr → Prop
  | [], hole => root = hole
  | .inLeft a k d c r :: up, hole =>
    m a = some (Mem.Node.mk k d c hole r.ptr (upPtr up)) ∧
      ARep m r (some a) ∧ ARepUp m root up (some a)
  | .inRight a k d c l :: up, hole =>
    m a = some (Mem.Node.mk k d c l.ptr hole (upPtr up)) ∧
      ARep m l (some a) ∧ ARepUp m root up (some a)

/-- The store holds the tree around the position `cur`, each node once, at addresses that
`malloc` has handed out. -/
def LRep (s : Mem.Store) (cur : ACursor) : Prop :=
  ARep s.mem cur.node (upPtr cur.up) ∧ ARepUp s.mem s.root cur.up cur.node.ptr ∧
    cur.addrs.Nodup ∧ ∀ a ∈ cur.addrs, a < s.next

/-- The store holds the tree value `t`: some assignment of addresses to the nodes of `t`
makes the heap hold it below `tree->root`, and `tree->size` is the size of `t`. -/
def Refines (s : Mem.Store) (t : RBTree) : Prop :=
  ∃ tr : ANode, tr.erase = t.root ∧ LRep s ⟨tr, []⟩ ∧ s.size = t.size

/-- The side of a parent on which a search for `key` continues: the chain passes through the
left child when `key` is less than the key of the parent, through the right child
otherwise. -/
def AFrame.sideOf (key : Int) : AFrame → Prop
  | .inLeft _ k _ _ _ => key < k
  | .inRight _ k _ _ _ => ¬key < k

/-! ## Sequences of calls over the heap -/

/-- The heap left by one call. -/
def Mem.runOp : Op → Mem.Store → Option Mem.Store
  | .insert k d, s => (Mem.insertNode s k d).map (fun res => res.1)
  | .delete k, s => (Mem.deleteNode s k).map (fun res => res.1)

/-- The heap left by a sequence of calls, performed from the first to the last. -/
def Mem.runOps : List Op → Mem.Store → Option Mem.Store
  | [], s => some s
  | op :: ops, s => (Mem.runOp op s).bind (Mem.runOps ops)

/-- The nodes of the tree in the heap: those reached from `tree->root` through `left` and
`right` links. -/
inductive Mem.Reach (s : Mem.Store) : Nat → Prop
  | root (a : Nat) (h : s.root = some a) : Mem.Reach s a
  | left (p a : Nat) (nd : Mem.Node) (hp : Mem.Reach s p) (hm : s.mem p = some nd)
      (hl : nd.left = some a) : Mem.Reach s a
  | right (p a : Nat) (nd : Mem.Node) (hp : Mem.Reach s p) (hm : s.mem p = some nd)
      (hr : nd.right = some a) : Mem.Reach s a

/-- The function `getTreeSize(tree)` (lines 717-723) over the heap, for a tree that is not
NULL. -/
def Mem.getTreeSize (s : Mem.Store) : Int :=
  s.size

/-- The function `isEmpty(tree)` (lines 730-736) over the heap, for a tree that is not
NULL. -/
def Mem.isEmpty (s : Mem.Store) : Int :=
  if s.root = none then 1 else 0

/-! ## Measures for the loops of `fixInsert` and `fixDelete` -/

/-- The condition `node != tree->root && node->parent->color == RED` of the loop of
`fixInsert` (line 173) at a position. -/
def fixInsertRuns : Cursor → Bool
  | ⟨_, []⟩ => false
  | ⟨_, parent :: _⟩ => decide (parent.color = .RED)

/-- The condition `node != tree->root && (node == NULL || node->color == BLACK)` of the loop
of `fixDelete` (line 346) at a position. -/
def fixDeleteRuns : Cursor → Bool
  | ⟨_, []⟩ => false
  | ⟨node, _ :: _⟩ => isBlackOrNull node

/-- A measure for the loop of `fixDelete`: 0 where the loop condition is false; 1 where the
parent is RED and the sibling that the body reads is NULL, so that the body moves to the
parent and the loop ends; the number of ancestors plus 2 elsewhere. -/
def fixDeleteMeasure (cur : Cursor) : Nat :=
  if fixDeleteRuns cur then
    match cur.up, examinedSibling cur with
    | f :: _, some .NULL => if f.color = .RED then 1 else cur.up.length + 2
    | _, _ => cur.up.length + 2
  else 0

/-! ## A heap with two nodes -/

/-- The heap after `insertNode(tree, 10, "")` and `insertNode(tree, 5, "")` on an empty tree:
the BLACK root 10 at the address 0 and its RED left child 5 at the address 1. -/
def twoNodeStore : Mem.Store :=
  { mem := fun a =>
      if a = 0 then some (Mem.Node.mk 10 [] .BLACK (some 1) none none)
      else if a = 1 then some (Mem.Node.mk 5 [] .RED none none (some 0))
      else none,
    next := 2,
    root := some 0,
    size := 2 }

/-- The tree value that `twoNodeStore` holds. -/
def twoNodeTree : RBTree :=
  { root := .mk 10 [] .BLACK (.mk 5 [] .RED .NULL .NULL) .NULL,
    size := 2 }

/-! ## Basic facts -/

@[simp] theorem plug_nil (t : RBNode) : plug t [] = t := rfl

@[simp] theorem plug_cons (t : RBNode) (f : Frame) (up : List Frame) :
    plug t (f :: up) = plug (f.fill t) up := rfl

theorem plug_append (t : RBNode) (a b : List Frame) : plug t (a ++ b) = plug (plug t a) b := by
  induction a generalizing t with
  | nil => rfl
  | cons f a ih => simp [ih]

@[simp] theorem entries_NULL : entries .NULL = [] := rfl

@[simp] theorem entries_mk (k : Int) (d : Payload) (c : Color) (l r : RBNode) :
    entries (.mk k d c l r) = entries l ++ (k, d) :: entries r := by
  simp [entries, inOrderTraversal]

@[simp] theorem keysOf_NULL : keysOf .NULL = [] := rfl

@[simp] theorem keysOf_mk (k : Int) (d : Payload) (c : Color) (l r : RBNode) :
    keysOf (.mk k d c l r) = keysOf l ++ k :: keysOf r := by
  simp [keysOf, inOrderTraversal]

theorem keysOf_eq_map_entries (t : RBNode) : keysOf t = (entries t).map (fun e => e.1) := by
  simp [keysOf, entries]

theorem countNodes_eq_length (t : RBNode) : countNodes t = (inOrderTraversal t).length := by
  induction t with
  | NULL => rfl
  | mk k d c l r ihl ihr => simp [countNodes, inOrderTraversal, ihl, ihr]; omega

theorem length_entries (t : RBNode) : (entries t).length = countNodes t := by
  simp [entries, countNodes_eq_length]

@[simp] theorem entries_setBlack (t : RBNode) : entries (setBlack t) = entries t := by
  cases t <;> simp [setBlack]

@[simp] theorem keysOf_setBlack (t : RBNode) : keysOf (setBlack t) = keysOf t := by
  simp [keysOf_eq_map_entries]

theorem entries_fill (f : Frame) (t : RBNode) :
    entries (f.fill t) = leftOf [f] ++ entries t ++ rightOf [f] := by
  cases f <;> simp [Frame.fill, leftOf, rightOf]

theorem entries_plug (t : RBNode) (up : List Frame) :
    entries (plug t up) = leftOf up ++ entries t ++ rightOf up := by
  induction up generalizing t with
  | nil => simp [leftOf, rightOf]
  | cons f up ih =>
    cases f <;> simp [ih, Frame.fill, leftOf, rightOf]

theorem leftOf_append (a b : List Frame) : leftOf (a ++ b) = leftOf b ++ leftOf a := by
  induction a with
  | nil => simp [leftOf]
  | cons f a ih => cases f <;> simp [leftOf, ih]

theorem rightOf_append (a b : List Frame) : rightOf (a ++ b) = rightOf a ++ rightOf b := by
  induction a with
  | nil => simp [rightOf]
  | cons f a ih => cases f <;> simp [rightOf, ih]

/-- The ordering invariant says that the keys met in in-order are strictly increasing. -/
theorem ordered_iff_pairwise (t : RBNode) : Ordered t ↔ (keysOf t).Pairwise (· < ·) := by
  induction t with
  | NULL => simp [Ordered]
  | mk k d c l r ihl ihr =>
    simp only [Ordered, keysOf_mk, List.pairwise_append, List.pairwise_cons, ihl, ihr,
      List.mem_cons]
    constructor
    · rintro ⟨h1, h2, h3, h4⟩
      refine ⟨h3, ⟨h2, h4⟩, ?_⟩
      intro a ha b hb
      rcases hb with rfl | hb
      · exact h1 a ha
      · exact lt_trans (h1 a ha) (h2 b hb)
    · rintro ⟨h3, ⟨h2, h4⟩, h5⟩
      exact ⟨fun x hx => h5 x hx k (Or.inl rfl), h2, h3, h4⟩

/-! ## Colors and parent chains -/

theorem upRootBlack_cons (f : Frame) (up : List Frame) :
    upRootBlack (f :: up) ↔ (up = [] → f.color = .BLACK) ∧ upRootBlack up := by
  cases up with
  | nil => simp [upRootBlack]
  | cons g up => simp [upRootBlack]

theorem isRed_iff (t : RBNode) : isRed t = true ↔ ∃ k d l r, t = .mk k d .RED l r := by
  cases t with
  | NULL => simp [isRed]
  | mk k d c l r => cases c <;> simp [isRed]

@[simp] theorem isRed_NULL : isRed .NULL = false := rfl

@[simp] theorem isRed_mk (k : Int) (d : Payload) (c : Color) (l r : RBNode) :
    isRed (.mk k d c l r) = decide (c = .RED) := by
  cases c <;> rfl

@[simp] theorem isBlackOrNull_NULL : isBlackOrNull .NULL = true := rfl

@[simp] theorem isBlackOrNull_mk (k : Int) (d : Payload) (c : Color) (l r : RBNode) :
    isBlackOrNull (.mk k d c l r) = decide (c = .BLACK) := by
  cases c <;> rfl

theorem isBlackOrNull_eq_not_isRed (t : RBNode) : isBlackOrNull t = !isRed t := by
  cases t with
  | NULL => rfl
  | mk k d c l r => cases c <;> rfl

theorem color_ne_red (c : Color) : c ≠ .RED ↔ c = .BLACK := by
  cases c <;> simp

/-! ## The loop of `fixInsert` -/

/-- One pass through the body of the loop of `fixInsert`: it succeeds when the root is BLACK,
shortens the parent chain, keeps the in-order sequence and keeps the loop invariant. -/
theorem fixInsertBody_spec (node : RBNode) (p : Frame) (above : List Frame)
    (hn : node ≠ .NULL) (hp : p.color = .RED) (hb : upRootBlack (p :: above)) :
    ∃ cur, fixInsertBody ⟨node, p :: above⟩ = some cur ∧ cur.node ≠ .NULL ∧
      upRootBlack cur.up ∧ cur.up.length < above.length + 1 ∧
      entries (plug cur.node cur.up) = entries (plug node (p :: above)) ∧
      (InsInv ⟨node, p :: above⟩ → InsInv cur) := by
  cases above with
  | nil => simp [upRootBlack, hp] at hb
  | cons g above =>
    rw [upRootBlack_cons, upRootBlack_cons] at hb
    obtain ⟨-, hg, hab⟩ := hb
    cases node with
    | NULL => exact absurd rfl hn
    | mk nk nd nc nl nr =>
      cases g with
      | inLeft gk gd gc uncle =>
        by_cases hu : isRed uncle = true
        · obtain ⟨uk, ud, ul, ur, rfl⟩ := (isRed_iff uncle).1 hu
          cases p with
          | inLeft pk pd pc pr =>
            cases hp
            refine ⟨⟨.mk gk gd .RED (.mk pk pd .BLACK (.mk nk nd nc nl nr) pr)
              (.mk uk ud .BLACK ul ur), above⟩, rfl, by simp, hab, by simp; omega, ?_, ?_⟩
            · simp [entries_plug, Frame.fill, leftOf, rightOf]
            · intro h
              simp only [InsInv, UpRB4, UpRB5, RB4, RB5, blackHeight] at h ⊢
              cases gc <;> cases nc <;> simp at h ⊢
              all_goals (revert h; simp only [and_imp]; intros; simp_all)
          | inRight pk pd pc pl =>
            cases hp
            refine ⟨⟨.mk gk gd .RED (.mk pk pd .BLACK pl (.mk nk nd nc nl nr))
              (.mk uk ud .BLACK ul ur), above⟩, rfl, by simp, hab, by simp; omega, ?_, ?_⟩
            · simp [entries_plug, Frame.fill, leftOf, rightOf]
            · intro h
              simp only [InsInv, UpRB4, UpRB5, RB4, RB5, blackHeight] at h ⊢
              cases gc <;> cases nc <;> simp at h ⊢
              all_goals (revert h; simp only [and_imp]; intros; simp_all)
        · cases p with
          | inLeft pk pd pc pr =>
            cases hp
            refine ⟨⟨.mk nk nd nc nl nr, .inLeft pk pd .BLACK (.mk gk gd .RED pr uncle) :: above⟩,
              ?_, by simp, ?_, by simp, ?_, ?_⟩
            · simp [fixInsertBody, hu, rotateRight]
            · simp [upRootBlack_cons, hab, Frame.color]
            · simp [entries_plug, Frame.fill, leftOf, rightOf]
            · intro h
              simp only [InsInv, UpRB4, UpRB5, RB4, RB5, blackHeight] at h ⊢
              rw [Bool.not_eq_true, ← Bool.not_eq_true', ← isBlackOrNull_eq_not_isRed] at hu
              cases gc <;> cases nc <;> simp at h ⊢
              all_goals (revert h; simp only [and_imp]; intros; simp_all)
          | inRight pk pd pc pl =>
            cases hp
            refine ⟨⟨.mk pk pd .RED pl nl, .inLeft nk nd .BLACK (.mk gk gd .RED nr uncle) :: above⟩,
              ?_, by simp, ?_, by simp, ?_, ?_⟩
            · simp [fixInsertBody, hu, rotateRight, rotateLeft]
            · simp [upRootBlack_cons, hab, Frame.color]
            · simp [entries_plug, Frame.fill, leftOf, rightOf]
            · intro h
              simp only [InsInv, UpRB4, UpRB5, RB4, RB5, blackHeight] at h ⊢
              rw [Bool.not_eq_true, ← Bool.not_eq_true', ← isBlackOrNull_eq_not_isRed] at hu
              cases gc <;> cases nc <;> simp at h ⊢
              all_goals (revert h; simp only [and_imp]; intros; simp_all)
      | inRight gk gd gc uncle =>
        by_cases hu : isRed uncle = true
        · obtain ⟨uk, ud, ul, ur, rfl⟩ := (isRed_iff uncle).1 hu
          cases p with
          | inLeft pk pd pc pr =>
            cases hp
            refine ⟨⟨.mk gk gd .RED (.mk uk ud .BLACK ul ur)
              (.mk pk pd .BLACK (.mk nk nd nc nl nr) pr), above⟩, rfl, by simp, hab,
              by simp; omega, ?_, ?_⟩
            · simp [entries_plug, Frame.fill, leftOf, rightOf]
            · intro h
              simp only [InsInv, UpRB4, UpRB5, RB4, RB5, blackHeight] at h ⊢
              cases gc <;> cases nc <;> simp at h ⊢
              all_goals (revert h; simp only [and_imp]; intros; simp_all)
          | inRight pk pd pc pl =>
            cases hp
            refine ⟨⟨.mk gk gd .RED (.mk uk ud .BLACK ul ur)
              (.mk pk pd .BLACK pl (.mk nk nd nc nl nr)), above⟩, rfl, by simp, hab,
              by simp; omega, ?_, ?_⟩
            · simp [entries_plug, Frame.fill, leftOf, rightOf]
            · intro h
              simp only [InsInv, UpRB4, UpRB5, RB4, RB5, blackHeight] at h ⊢
              cases gc <;> cases nc <;> simp at h ⊢
              all_goals (revert h; simp only [and_imp]; intros; simp_all)
        · cases p with
          | inLeft pk pd pc pr =>
            cases hp
            refine ⟨⟨.mk pk pd .RED nr pr, .inRight nk nd .BLACK (.mk gk gd .RED uncle nl) :: above⟩,
              ?_, by simp, ?_, by simp, ?_, ?_⟩
            · simp [fixInsertBody, hu, rotateRight, rotateLeft]
            · simp [upRootBlack_cons, hab, Frame.color]
            · simp [entries_plug, Frame.fill, leftOf, rightOf]
            · intro h
              simp only [InsInv, UpRB4, UpRB5, RB4, RB5, blackHeight] at h ⊢
              rw [Bool.not_eq_true, ← Bool.not_eq_true', ← isBlackOrNull_eq_not_isRed] at hu
              cases gc <;> cases nc <;> simp at h ⊢
              all_goals (revert h; simp only [and_imp]; intros; simp_all)
          | inRight pk pd pc pl =>
            cases hp
            refine ⟨⟨.mk nk nd nc nl nr, .inRight pk pd .BLACK (.mk gk gd .RED uncle pl) :: above⟩,
              ?_, by simp, ?_, by simp, ?_, ?_⟩
            · simp [fixInsertBody, hu, rotateLeft]
            · simp [upRootBlack_cons, hab, Frame.color]
            · simp [entries_plug, Frame.fill, leftOf, rightOf]
            · intro h
              simp only [InsInv, UpRB4, UpRB5, RB4, RB5, blackHeight] at h ⊢
              rw [Bool.not_eq_true, ← Bool.not_eq_true', ← isBlackOrNull_eq_not_isRed] at hu
              cases gc <;> cases nc <;> simp at h ⊢
              all_goals (revert h; simp only [and_imp]; intros; simp_all)

theorem RB4_plug (t : RBNode) (up : List Frame) :
    RB4 (plug t up) ↔ RB4 t ∧ UpRB4 up (isRed t) := by
  induction up generalizing t with
  | nil => simp [UpRB4]
  | cons f up ih =>
    cases f <;> simp only [plug_cons, ih, Frame.fill, RB4, UpRB4, isRed_mk,
      isBlackOrNull_eq_not_isRed] <;> cases isRed t <;> simp <;> tauto

theorem RB5_plug (t : RBNode) (up : List Frame) :
    RB5 (plug t up) ↔ RB5 t ∧ UpRB5 up (blackHeight t) := by
  induction up generalizing t with
  | nil => simp [UpRB5]
  | cons f up ih =>
    cases f with
    | inLeft k d c r =>
      simp only [plug_cons, ih, Frame.fill, RB5, UpRB5, blackHeight]
      constructor
      · rintro ⟨⟨h1, h2, h3⟩, h4⟩
        exact ⟨h2, h1.symm, h3, h4⟩
      · rintro ⟨h2, h1, h3, h4⟩
        exact ⟨⟨h1.symm, h2, h3⟩, h4⟩
    | inRight k d c l =>
      simp only [plug_cons, ih, Frame.fill, RB5, UpRB5, blackHeight]
      constructor
      · rintro ⟨⟨h1, h2, h3⟩, h4⟩
        rw [h1] at h4
        exact ⟨h3, h1, h2, h4⟩
      · rintro ⟨h3, h1, h2, h4⟩
        rw [← h1] at h4
        exact ⟨⟨h1, h2, h3⟩, h4⟩

theorem RB4_setBlack (t : RBNode) (h : RB4 t) : RB4 (setBlack t) := by
  cases t with
  | NULL => exact h
  | mk k d c l r => simp only [setBlack, RB4] at h ⊢; exact ⟨by simp, h.2⟩

theorem RB5_setBlack (t : RBNode) : RB5 (setBlack t) ↔ RB5 t := by
  cases t <;> simp [setBlack, RB5]

theorem RB2_setBlack (t : RBNode) : RB2 (setBlack t) := by
  cases t <;> simp [setBlack, RB2]

theorem UpRB4_weaken (up : List Frame) (b : Bool) (h : UpRB4 up b) : UpRB4 up false := by
  cases up with
  | nil => trivial
  | cons f up =>
    cases f <;> simp only [UpRB4] at h ⊢ <;>
      exact ⟨h.1, fun hc => ⟨trivial, (h.2.1 hc).2⟩, h.2.2⟩

theorem UpRB4_black (f : Frame) (up : List Frame) (b : Bool) (hf : f.color = .BLACK)
    (h : UpRB4 (f :: up) false) : UpRB4 (f :: up) b := by
  cases f <;> simp only [Frame.color] at hf <;> subst hf <;> simp only [UpRB4] at h ⊢ <;>
    exact ⟨h.1, by simp, h.2.2⟩

/-- The function `fixInsert` returns when the root is BLACK and the fuel exceeds the length of
the parent chain; the tree it leaves has a BLACK root and the same in-order sequence, and it
is a red-black tree when the loop invariant held at the start. -/
theorem fixInsert_spec (fuel : Nat) (cur : Cursor) (hn : cur.node ≠ .NULL)
    (hb : upRootBlack cur.up) (hf : cur.up.length < fuel) :
    ∃ r, fixInsert fuel cur = some r ∧ RB2 r ∧
      entries r = entries (plug cur.node cur.up) ∧ (InsInv cur → RB4 r ∧ RB5 r) := by
  induction fuel generalizing cur with
  | zero => exact absurd hf (Nat.not_lt_zero _)
  | succ fuel ih =>
    obtain ⟨node, up⟩ := cur
    cases node with
    | NULL => exact absurd rfl hn
    | mk nk nd nc nl nr =>
      cases up with
      | nil =>
        refine ⟨_, rfl, RB2_setBlack _, by simp, ?_⟩
        intro h
        exact ⟨RB4_setBlack _ h.2.1, (RB5_setBlack _).2 h.2.2.1⟩
      | cons p above =>
        by_cases hp : p.color = .RED
        · obtain ⟨cur2, h1, h2, h3, h4, h5, h6⟩ := fixInsertBody_spec _ p above hn hp hb
          have hlen : cur2.up.length < fuel := by
            simp only [List.length_cons] at hf
            omega
          obtain ⟨r, hr1, hr2, hr3, hr4⟩ := ih cur2 h2 h3 hlen
          refine ⟨r, ?_, hr2, ?_, fun h => hr4 (h6 h)⟩
          · simp [fixInsert, hp, h1, hr1]
          · rw [hr3, h5]
        · refine ⟨setBlack (plug (.mk nk nd nc nl nr) (p :: above)), by simp [fixInsert, hp],
            RB2_setBlack _, by simp, ?_⟩
          intro h
          have hpb : p.color = .BLACK := (color_ne_red _).1 hp
          refine ⟨RB4_setBlack _ ((RB4_plug _ _).2 ⟨h.2.1, UpRB4_black p above _ hpb h.2.2.2.1⟩),
            (RB5_setBlack _).2 ((RB5_plug _ _).2 ⟨h.2.2.1, h.2.2.2.2⟩)⟩

theorem RB2_plug_cons (t : RBNode) (f : Frame) (up : List Frame) :
    RB2 (plug t (f :: up)) ↔ upRootBlack (f :: up) := by
  induction up generalizing t f with
  | nil => cases f <;> simp [RB2, Frame.fill, upRootBlack, Frame.color]
  | cons g up ih =>
    rw [plug_cons, ih]
    simp [upRootBlack]

theorem mem_keysOf_iff (x : Int) (t : RBNode) : x ∈ keysOf t ↔ ∃ d, (x, d) ∈ entries t := by
  simp [keysOf_eq_map_entries]

theorem ordered_iff_entries (t : RBNode) :
    Ordered t ↔ ((entries t).map (fun e => e.1)).Pairwise (· < ·) := by
  rw [ordered_iff_pairwise, keysOf_eq_map_entries]

/-! ## The search loops -/

theorem findNode_some (key : Int) (t : RBNode) (up : List Frame) (cur : Cursor)
    (h : findNode key t up = some cur) :
    plug cur.node cur.up = plug t up ∧ ∃ d c l r, cur.node = .mk key d c l r := by
  induction t generalizing up with
  | NULL => simp [findNode] at h
  | mk k d c l r ihl ihr =>
    simp only [findNode] at h
    split at h
    · exact ihl _ h
    · split at h
      · exact ihr _ h
      · have hk : key = k := by omega
        cases h
        exact ⟨rfl, d, c, l, r, by rw [hk]⟩

theorem searchFrom_eq_findNode (key : Int) (t : RBNode) (up : List Frame) :
    searchFrom key t = match findNode key t up with
      | some cur => cur.node
      | none => .NULL := by
  induction t generalizing up with
  | NULL => rfl
  | mk k d c l r ihl ihr =>
    simp only [findNode, searchFrom]
    split
    · exact ihl _
    · split
      · exact ihr _
      · rfl

theorem insertDescend_of_findNode_some (key : Int) (data : Payload) (t : RBNode)
    (up : List Frame) (k : Int) (d : Payload) (c : Color) (l r : RBNode) (up2 : List Frame)
    (h : findNode key t up = some ⟨.mk k d c l r, up2⟩) :
    insertDescend key data t up = .inl (plug (.mk k (copyData data) c l r) up2) := by
  induction t generalizing up with
  | NULL => simp [findNode] at h
  | mk k1 d1 c1 l1 r1 ihl ihr =>
    simp only [findNode] at h
    simp only [insertDescend]
    split
    · rename_i h1
      simp only [h1, if_true] at h
      exact ihl _ h
    · rename_i h1
      simp only [h1, if_false] at h
      split
      · rename_i h2
        simp only [h2, if_true] at h
        exact ihr _ h
      · rename_i h2
        simp only [h2, if_false] at h
        cases h
        rfl

theorem insertDescend_of_findNode_none (key : Int) (data : Payload) (t : RBNode)
    (up : List Frame) (h : findNode key t up = none) :
    ∃ up2, insertDescend key data t up = .inr up2 := by
  induction t generalizing up with
  | NULL => exact ⟨up, rfl⟩
  | mk k1 d1 c1 l1 r1 ihl ihr =>
    simp only [findNode] at h
    simp only [insertDescend]
    split
    · rename_i h1
      simp only [h1, if_true] at h
      exact ihl _ h
    · rename_i h1
      simp only [h1, if_false] at h
      split
      · rename_i h2
        simp only [h2, if_true] at h
        exact ihr _ h
      · rename_i h2
        simp [h2] at h

/-- A key that no node holds is not found. -/
theorem findNode_none_of_not_mem (key : Int) (t : RBNode) (up : List Frame)
    (h : key ∉ keysOf t) : findNode key t up = none := by
  cases hf : findNode key t up with
  | none => rfl
  | some cur =>
    exfalso
    apply h
    clear h
    induction t generalizing up with
    | NULL => simp [findNode] at hf
    | mk k d c l r ihl ihr =>
      simp only [findNode] at hf
      simp only [keysOf_mk, List.mem_append, List.mem_cons]
      split at hf
      · exact Or.inl (ihl _ hf)
      · split at hf
        · exact Or.inr (Or.inr (ihr _ hf))
        · exact Or.inr (Or.inl (by omega))

/-- In an ordered tree a key that some node holds is found. -/
theorem findNode_isSome_of_mem (key : Int) (t : RBNode) (up : List Frame)
    (ho : Ordered t) (h : key ∈ keysOf t) : ∃ cur, findNode key t up = some cur := by
  induction t generalizing up with
  | NULL => simp at h
  | mk k d c l r ihl ihr =>
    simp only [keysOf_mk, List.mem_append, List.mem_cons] at h
    simp only [Ordered] at ho
    obtain ⟨h1, h2, h3, h4⟩ := ho
    simp only [findNode]
    split
    · rename_i hlt
      rcases h with h | h | h
      · exact ihl _ h3 h
      · omega
      · have := h2 key h
        omega
    · split
      · rename_i hlt hgt
        rcases h with h | h | h
        · have := h1 key h
          omega
        · omega
        · exact ihr _ h4 h
      · exact ⟨_, rfl⟩

/-- Where the search loop of `insertNode` leaves the tree: the NULL child it reaches hangs in
the tree that was searched, and in an ordered tree every entry before that child is smaller
than the key and every entry after it is greater. -/
theorem insertDescend_inr (key : Int) (data : Payload) (t : RBNode) (up up2 : List Frame)
    (h : insertDescend key data t up = .inr up2) :
    plug .NULL up2 = plug t up ∧
      (Ordered t → (∀ e ∈ leftOf up, e.1 < key) → (∀ e ∈ rightOf up, key < e.1) →
        (∀ e ∈ leftOf up2, e.1 < key) ∧ (∀ e ∈ rightOf up2, key < e.1)) := by
  induction t generalizing up with
  | NULL =>
    simp only [insertDescend, Sum.inr.injEq] at h
    subst h
    exact ⟨rfl, fun _ h1 h2 => ⟨h1, h2⟩⟩
  | mk k d c l r ihl ihr =>
    simp only [insertDescend] at h
    split at h
    · rename_i hlt
      obtain ⟨e1, e2⟩ := ihl _ h
      refine ⟨e1, fun ho h1 h2 => ?_⟩
      simp only [Ordered] at ho
      apply e2 ho.2.2.1
      · simpa [leftOf] using h1
      · intro e he
        simp only [rightOf, List.cons_append, List.mem_cons, List.mem_append] at he
        rcases he with rfl | he | he
        · exact hlt
        · have := ho.2.1 e.1 ((mem_keysOf_iff _ _).2 ⟨e.2, he⟩)
          omega
        · exact h2 e he
    · split at h
      · rename_i hlt hgt
        obtain ⟨e1, e2⟩ := ihr _ h
        refine ⟨e1, fun ho h1 h2 => ?_⟩
        simp only [Ordered] at ho
        apply e2 ho.2.2.2
        · intro e he
          simp only [leftOf, List.mem_append, List.mem_cons, List.mem_singleton,
            List.not_mem_nil, or_false] at he
          rcases he with he | he | rfl
          · exact h1 e he
          · have := ho.1 e.1 ((mem_keysOf_iff _ _).2 ⟨e.2, he⟩)
            omega
          · exact hgt
        · simpa [rightOf] using h2
      · cases h

/-! ## `insertNode` -/

theorem pairwise_insert_entry (before after : List (Int × Payload)) (key : Int) (d : Payload)
    (h : ((before ++ after).map (fun e => e.1)).Pairwise (· < ·))
    (h1 : ∀ e ∈ before, e.1 < key) (h2 : ∀ e ∈ after, key < e.1) :
    ((before ++ (key, d) :: after).map (fun e => e.1)).Pairwise (· < ·) := by
  simp only [List.map_append, List.map_cons, List.pairwise_append, List.pairwise_cons,
    List.mem_map, List.mem_cons, forall_exists_index, and_imp] at h ⊢
  obtain ⟨p1, p2, p3⟩ := h
  refine ⟨p1, ⟨?_, p2⟩, ?_⟩
  · rintro a e he rfl
    exact h2 e he
  · rintro a e he rfl b hb
    rcases hb with rfl | ⟨e2, he2, rfl⟩
    · exact h1 e he
    · exact p3 _ e he rfl _ e2 he2 rfl

/-- Inserting a key that no node holds into an ordered tree with a BLACK root: `insertNode`
returns 1, the size grows by one, the new entry stands at its sorted place, the root is BLACK
and the tree is ordered; RB4 and RB5 are kept. -/
theorem insertNode_new (tree : RBTree) (key : Int) (data : Payload)
    (ho : Ordered tree.root) (hb : RB2 tree.root) (hk : key ∉ keysOf tree.root) :
    ∃ root2, insertNode tree key data = some ({ root := root2, size := tree.size + 1 }, 1) ∧
      RB2 root2 ∧ Ordered root2 ∧
      (∃ before after, entries tree.root = before ++ after ∧
        entries root2 = before ++ (key, copyData data) :: after ∧
        (∀ e ∈ before, e.1 < key) ∧ (∀ e ∈ after, key < e.1)) ∧
      (RB4 tree.root → RB5 tree.root → RB4 root2 ∧ RB5 root2) := by
  obtain ⟨root, size⟩ := tree
  cases root with
  | NULL =>
    refine ⟨setBlack (createNode key data), rfl, RB2_setBlack _, ?_, ⟨[], [], rfl, ?_, ?_, ?_⟩, ?_⟩
    · simp [createNode, setBlack, Ordered]
    · simp [createNode, setBlack]
    · simp
    · simp
    · intro _ _
      simp [createNode, setBlack, RB4, RB5]
  | mk k d c l r =>
    simp only at ho hb hk
    obtain ⟨up2, hd⟩ := insertDescend_of_findNode_none key data (.mk k d c l r) []
      (findNode_none_of_not_mem key _ [] hk)
    obtain ⟨e1, e2⟩ := insertDescend_inr key data _ _ _ hd
    simp only [plug_nil] at e1
    obtain ⟨hl, hr⟩ := e2 ho (by simp [leftOf]) (by simp [rightOf])
    have hne : up2 ≠ [] := by
      rintro rfl
      simp at e1
    obtain ⟨f, up3, rfl⟩ := List.exists_cons_of_ne_nil hne
    have hrb : upRootBlack (f :: up3) := by
      rw [← RB2_plug_cons .NULL, e1]
      exact hb
    obtain ⟨r2, hr1, hr2, hr3, hr4⟩ := fixInsert_spec ((f :: up3).length + 1)
      ⟨createNode key data, f :: up3⟩ (by simp [createNode]) hrb (Nat.lt_succ_self _)
    have hent : entries (.mk k d c l r) = leftOf (f :: up3) ++ rightOf (f :: up3) := by
      rw [← e1, entries_plug]
      simp
    have hent2 : entries r2 = leftOf (f :: up3) ++ (key, copyData data) :: rightOf (f :: up3) := by
      rw [hr3, entries_plug]
      simp [createNode]
    refine ⟨r2, ?_, hr2, ?_, ⟨_, _, hent, hent2, hl, hr⟩, ?_⟩
    · simp only [insertNode, hd, hr1, Option.map_some']
    · rw [ordered_iff_entries, hent2]
      apply pairwise_insert_entry _ _ _ _ _ hl hr
      rw [← hent]
      exact (ordered_iff_entries _).1 ho
    · intro h4 h5
      apply hr4
      rw [← e1, RB4_plug] at h4
      rw [← e1, RB5_plug] at h5
      exact ⟨by simp [createNode], by simp [createNode, RB4], by simp [createNode, RB5],
        by simpa using h4.2, by simpa [createNode, blackHeight] using h5.2⟩

theorem isBlackOrNull_erasePayloads (t : RBNode) :
    isBlackOrNull (erasePayloads t) = isBlackOrNull t := by
  cases t <;> simp [erasePayloads]

theorem blackHeight_erasePayloads (t : RBNode) :
    blackHeight (erasePayloads t) = blackHeight t := by
  induction t with
  | NULL => rfl
  | mk k d c l r ihl ihr => simp [erasePayloads, blackHeight, ihl]

theorem keysOf_erasePayloads (t : RBNode) : keysOf (erasePayloads t) = keysOf t := by
  induction t with
  | NULL => rfl
  | mk k d c l r ihl ihr => simp [erasePayloads, ihl, ihr]

theorem RB4_erasePayloads (t : RBNode) : RB4 (erasePayloads t) ↔ RB4 t := by
  induction t with
  | NULL => rfl
  | mk k d c l r ihl ihr => simp [erasePayloads, RB4, ihl, ihr, isBlackOrNull_erasePayloads]

theorem RB5_erasePayloads (t : RBNode) : RB5 (erasePayloads t) ↔ RB5 t := by
  induction t with
  | NULL => rfl
  | mk k d c l r ihl ihr => simp [erasePayloads, RB5, ihl, ihr, blackHeight_erasePayloads]

theorem countNodes_erasePayloads (t : RBNode) : countNodes (erasePayloads t) = countNodes t := by
  induction t with
  | NULL => rfl
  | mk k d c l r ihl ihr => simp [erasePayloads, countNodes, ihl, ihr]

/-- Two trees of the same shape, keys and colors satisfy the same invariants. -/
theorem invariants_of_erasePayloads_eq (t u : RBNode) (h : erasePayloads u = erasePayloads t) :
    (RB2 u ↔ RB2 t) ∧ (RB4 u ↔ RB4 t) ∧ (RB5 u ↔ RB5 t) ∧ (Ordered u ↔ Ordered t) ∧
      keysOf u = keysOf t ∧ countNodes u = countNodes t := by
  refine ⟨?_, ?_, ?_, ?_, ?_, ?_⟩
  · rw [RB2, RB2, ← isBlackOrNull_erasePayloads u, h, isBlackOrNull_erasePayloads]
  · rw [← RB4_erasePayloads u, h, RB4_erasePayloads]
  · rw [← RB5_erasePayloads u, h, RB5_erasePayloads]
  · rw [ordered_iff_pairwise, ordered_iff_pairwise, ← keysOf_erasePayloads u, h,
      keysOf_erasePayloads]
  · rw [← keysOf_erasePayloads u, h, keysOf_erasePayloads]
  · rw [← countNodes_erasePayloads u, h, countNodes_erasePayloads]

theorem erasePayloads_setPayload (key : Int) (d : Payload) (t : RBNode) :
    erasePayloads (setPayload key d t) = erasePayloads t := by
  induction t with
  | NULL => rfl
  | mk k d0 c l r ihl ihr =>
    simp only [setPayload]
    split
    · simp [erasePayloads, ihl]
    · split
      · simp [erasePayloads, ihr]
      · simp [erasePayloads]

theorem insertDescend_inl (key : Int) (data : Payload) (t : RBNode) (up : List Frame)
    (r : RBNode) (h : insertDescend key data t up = .inl r) :
    r = plug (setPayload key (copyData data) t) up := by
  induction t generalizing up with
  | NULL => simp [insertDescend] at h
  | mk k d c l r ihl ihr =>
    simp only [insertDescend] at h
    simp only [setPayload]
    split at h
    · rename_i h1
      simp only [h1, if_true]
      exact ihl _ h
    · rename_i h1
      split at h
      · rename_i h2
        simp only [h1, h2, if_true, if_false]
        exact ihr _ h
      · rename_i h2
        simp only [h1, h2, if_false]
        cases h
        rfl

/-- What `setPayload` does when the search reaches a node: one entry changes its payload and
the search reaches the same node afterwards. -/
theorem setPayload_found (key : Int) (d : Payload) (t : RBNode) (h : searchFrom key t ≠ .NULL) :
    (∃ before after d0, entries t = before ++ (key, d0) :: after ∧
      entries (setPayload key d t) = before ++ (key, d) :: after) ∧
    ∃ c l r, searchFrom key (setPayload key d t) = .mk key d c l r := by
  induction t with
  | NULL => simp [searchFrom] at h
  | mk k d0 c l r ihl ihr =>
    simp only [searchFrom] at h
    simp only [setPayload]
    split
    · rename_i h1
      simp only [h1, if_true] at h
      obtain ⟨⟨b, a, d1, e1, e2⟩, c1, l1, r1, e3⟩ := ihl h
      refine ⟨⟨b, a ++ (k, d0) :: entries r, d1, ?_, ?_⟩, c1, l1, r1, ?_⟩
      · simp [e1]
      · simp [e2]
      · simp [searchFrom, h1, e3]
    · rename_i h1
      simp only [h1, if_false] at h
      split
      · rename_i h2
        simp only [h2, if_true] at h
        obtain ⟨⟨b, a, d1, e1, e2⟩, c1, l1, r1, e3⟩ := ihr h
        refine ⟨⟨entries l ++ (k, d0) :: b, a, d1, ?_, ?_⟩, c1, l1, r1, ?_⟩
        · simp [e1]
        · simp [e2]
        · simp [searchFrom, h1, h2, e3]
      · rename_i h2
        have hk : key = k := by omega
        subst hk
        exact ⟨⟨entries l, entries r, d0, by simp, by simp⟩, c, l, r, by simp [searchFrom]⟩

/-- Inserting a key that the search finds: `insertNode` returns 1 and the tree is the old one
with the payload of the node found replaced. -/
theorem insertNode_update (tree : RBTree) (key : Int) (data : Payload)
    (h : searchNode tree key ≠ .NULL) :
    insertNode tree key data =
      some ({ root := setPayload key (copyData data) tree.root, size := tree.size }, 1) := by
  obtain ⟨root, size⟩ := tree
  simp only [searchNode] at h
  cases root with
  | NULL => simp [searchFrom] at h
  | mk k d c l r =>
    rw [searchFrom_eq_findNode key _ []] at h
    cases hf : findNode key (.mk k d c l r) [] with
    | none => simp [hf] at h
    | some cur =>
      obtain ⟨node, up2⟩ := cur
      obtain ⟨-, d1, c1, l1, r1, hnode⟩ := findNode_some _ _ _ _ hf
      simp only at hnode
      subst hnode
      have hd := insertDescend_of_findNode_some key data _ _ _ _ _ _ _ _ hf
      have he := insertDescend_inl _ _ _ _ _ hd
      simp only [plug_nil] at he
      simp only [insertNode, hd, he]

/-! ## The loop of `fixDelete` -/

theorem isBlackOrNull_false_iff (t : RBNode) :
    isBlackOrNull t = false ↔ ∃ k d l r, t = .mk k d .RED l r := by
  cases t with
  | NULL => simp
  | mk k d c l r => cases c <;> simp

theorem fixDeleteLeft_spec (node : RBNode) (pk : Int) (pd : Payload) (pc : Color)
    (sk : Int) (sd : Payload) (sc : Color) (sl sr : RBNode) (above : List Frame) :
    ∃ cur, fixDeleteLeft node pk pd pc (.mk sk sd sc sl sr) above = cur ∧
      entries (plug cur.node cur.up) =
        entries (plug node (.inLeft pk pd pc (.mk sk sd sc sl sr) :: above)) ∧
      (cur.up = [] ∨ (cur.up = above ∧ isRed cur.node = decide (pc = .RED))) ∧
      (sc = .BLACK → isBlackOrNull node = true →
        DelInv4 ⟨node, .inLeft pk pd pc (.mk sk sd sc sl sr) :: above⟩ → DelInv4 cur) := by
  by_cases h2 : isBlackOrNull sl = true ∧ isBlackOrNull sr = true
  · refine ⟨⟨.mk pk pd pc node (.mk sk sd .RED sl sr), above⟩, ?_, ?_, Or.inr ⟨rfl, by simp⟩, ?_⟩
    · simp [fixDeleteLeft, h2]
    · simp [entries_plug, Frame.fill, leftOf, rightOf]
    · rintro rfl hn ⟨h4, h5⟩
      simp only [UpRB4, RB4, setBlack] at h5 ⊢
      refine ⟨?_, UpRB4_weaken _ _ h5.2.2⟩
      cases node with
      | NULL =>
        revert h5; simp only [and_imp]; intros; simp_all [RB4]
      | mk nk nd nc nl nr =>
        simp at hn
        subst hn
        simp only [setBlack] at h4
        revert h5; simp only [and_imp]; intros; simp_all [RB4]
  · by_cases h3 : isBlackOrNull sr = true
    · have hsl : isBlackOrNull sl = false := by
        cases h : isBlackOrNull sl
        · rfl
        · exact absurd ⟨h, h3⟩ h2
      obtain ⟨lk, ld, ll, lr, rfl⟩ := (isBlackOrNull_false_iff _).1 hsl
      refine ⟨⟨plug (.mk lk ld pc (.mk pk pd .BLACK node ll) (.mk sk sd .BLACK lr sr)) above, []⟩,
        ?_, ?_, Or.inl rfl, ?_⟩
      · simp [fixDeleteLeft, h3, rotateLeft, rotateRight, setBlack]
      · simp [entries_plug, Frame.fill, leftOf, rightOf]
      · rintro rfl hn ⟨h4, h5⟩
        simp only [UpRB4, RB4, setBlack] at h5 ⊢
        refine ⟨RB4_setBlack _ ((RB4_plug _ _).2 ?_), trivial⟩
        cases node with
        | NULL => 
          revert h5; simp only [and_imp]; intros; simp_all [RB4]
        | mk nk nd nc nl nr =>
          simp at hn
          subst hn
          simp only [setBlack] at h4
          revert h5; simp only [and_imp]; intros; simp_all [RB4]
    · have hsr : isBlackOrNull sr = false := by simpa using h3
      obtain ⟨rk, rd, rl, rr, rfl⟩ := (isBlackOrNull_false_iff _).1 hsr
      refine ⟨⟨plug (.mk sk sd pc (.mk pk pd .BLACK node sl) (.mk rk rd .BLACK rl rr)) above, []⟩,
        ?_, ?_, Or.inl rfl, ?_⟩
      · simp [fixDeleteLeft, rotateLeft, setBlack]
      · simp [entries_plug, Frame.fill, leftOf, rightOf]
      · rintro rfl hn ⟨h4, h5⟩
        simp only [UpRB4, RB4, setBlack] at h5 ⊢
        refine ⟨RB4_setBlack _ ((RB4_plug _ _).2 ?_), trivial⟩
        cases node with
        | NULL => 
          revert h5; simp only [and_imp]; intros; simp_all [RB4]
        | mk nk nd nc nl nr =>
          simp at hn
          subst hn
          simp only [setBlack] at h4
          revert h5; simp only [and_imp]; intros; simp_all [RB4]

theorem fixDeleteRight_spec (node : RBNode) (pk : Int) (pd : Payload) (pc : Color)
    (sk : Int) (sd : Payload) (sc : Color) (sl sr : RBNode) (above : List Frame) :
    ∃ cur, fixDeleteRight node pk pd pc (.mk sk sd sc sl sr) above = cur ∧
      entries (plug cur.node cur.up) =
        entries (plug node (.inRight pk pd pc (.mk sk sd sc sl sr) :: above)) ∧
      (cur.up = [] ∨ (cur.up = above ∧ isRed cur.node = decide (pc = .RED))) ∧
      (sc = .BLACK → isBlackOrNull node = true →
        DelInv4 ⟨node, .inRight pk pd pc (.mk sk sd sc sl sr) :: above⟩ → DelInv4 cur) := by
  by_cases h2 : isBlackOrNull sl = true ∧ isBlackOrNull sr = true
  · refine ⟨⟨.mk pk pd pc (.mk sk sd .RED sl sr) node, above⟩, ?_, ?_, Or.inr ⟨rfl, by simp⟩, ?_⟩
    · simp [fixDeleteRight, h2]
    · simp [entries_plug, Frame.fill, leftOf, rightOf]
    · rintro rfl hn ⟨h4, h5⟩
      simp only [UpRB4, RB4, setBlack] at h5 ⊢
      refine ⟨?_, UpRB4_weaken _ _ h5.2.2⟩
      cases node with
      | NULL =>
        revert h5; simp only [and_imp]; intros; simp_all [RB4]
      | mk nk nd nc nl nr =>
        simp at hn
        subst hn
        simp only [setBlack] at h4
        revert h5; simp only [and_imp]; intros; simp_all [RB4]
  · by_cases h3 : isBlackOrNull sl = true
    · have hsr : isBlackOrNull sr = false := by
        cases h : isBlackOrNull sr
        · rfl
        · exact absurd ⟨h3, h⟩ h2
      obtain ⟨rk, rd, rl, rr, rfl⟩ := (isBlackOrNull_false_iff _).1 hsr
      refine ⟨⟨plug (.mk rk rd pc (.mk sk sd .BLACK sl rl) (.mk pk pd .BLACK rr node)) above, []⟩,
        ?_, ?_, Or.inl rfl, ?_⟩
      · simp [fixDeleteRight, h3, rotateLeft, rotateRight, setBlack]
      · simp [entries_plug, Frame.fill, leftOf, rightOf]
      · rintro rfl hn ⟨h4, h5⟩
        simp only [UpRB4, RB4, setBlack] at h5 ⊢
        refine ⟨RB4_setBlack _ ((RB4_plug _ _).2 ?_), trivial⟩
        cases node with
        | NULL => 
          revert h5; simp only [and_imp]; intros; simp_all [RB4]
        | mk nk nd nc nl nr =>
          simp at hn
          subst hn
          simp only [setBlack] at h4
          revert h5; simp only [and_imp]; intros; simp_all [RB4]
    · have hsl : isBlackOrNull sl = false := by simpa using h3
      obtain ⟨lk, ld, ll, lr, rfl⟩ := (isBlackOrNull_false_iff _).1 hsl
      refine ⟨⟨plug (.mk sk sd pc (.mk lk ld .BLACK ll lr) (.mk pk pd .BLACK sr node)) above, []⟩,
        ?_, ?_, Or.inl rfl, ?_⟩
      · simp [fixDeleteRight, h3, rotateRight, setBlack]
      · simp [entries_plug, Frame.fill, leftOf, rightOf]
      · rintro rfl hn ⟨h4, h5⟩
        simp only [UpRB4, RB4, setBlack] at h5 ⊢
        refine ⟨RB4_setBlack _ ((RB4_plug _ _).2 ?_), trivial⟩
        cases node with
        | NULL => 
          revert h5; simp only [and_imp]; intros; simp_all [RB4]
        | mk nk nd nc nl nr =>
          simp at hn
          subst hn
          simp only [setBlack] at h4
          revert h5; simp only [and_imp]; intros; simp_all [RB4]

theorem upRootBlack_tail (f : Frame) (up : List Frame) (h : upRootBlack (f :: up)) :
    upRootBlack up :=
  ((upRootBlack_cons f up).1 h).2

/-- One pass through the body of the loop of `fixDelete`. It keeps the in-order sequence, a
BLACK root and the loop invariant, and either shortens the parent chain, or leaves a RED
node, or leaves a node whose next pass ends at a RED node. -/
theorem fixDeleteBody_spec (node : RBNode) (p : Frame) (above : List Frame)
    (hn : isBlackOrNull node = true) :
    ∃ cur, fixDeleteBody ⟨node, p :: above⟩ = some cur ∧
      entries (plug cur.node cur.up) = entries (plug node (p :: above)) ∧
      (upRootBlack (p :: above) → upRootBlack cur.up) ∧
      (DelInv4 ⟨node, p :: above⟩ → DelInv4 cur) ∧
      (cur.up.length ≤ above.length ∨ isRed cur.node = true ∨
        (isBlackOrNull cur.node = true ∧ ∃ q rest cur2, cur.up = q :: rest ∧
          fixDeleteBody cur = some cur2 ∧ isRed cur2.node = true)) := by
  cases p with
  | inLeft pk pd pc sibling =>
    cases sibling with
    | NULL =>
      refine ⟨⟨.mk pk pd pc node .NULL, above⟩, ?_, ?_, upRootBlack_tail _ _, ?_, Or.inl (le_refl _)⟩
      · cases node <;> rfl
      · simp [entries_plug, Frame.fill, leftOf, rightOf]
      · rintro ⟨h4, h5⟩
        simp only [UpRB4] at h5
        refine ⟨?_, UpRB4_weaken _ _ h5.2.2⟩
        cases node with
        | NULL => simp [setBlack, RB4]
        | mk nk nd nc nl nr => 
          simp at hn
          subst hn
          simpa [setBlack, RB4] using h4
    | mk sk sd sc sl sr =>
      cases sc with
      | BLACK =>
        obtain ⟨cur, e1, e2, e3, e4⟩ := fixDeleteLeft_spec node pk pd pc sk sd .BLACK sl sr above
        refine ⟨cur, ?_, e2, ?_, e4 rfl hn, ?_⟩
        · rw [← e1]
          cases node <;> rfl
        · intro hb
          rcases e3 with e3 | ⟨e3, -⟩
          · rw [e3]; trivial
          · rw [e3]; exact upRootBlack_tail _ _ hb
        · rcases e3 with e3 | ⟨e3, -⟩
          · rw [e3]; exact Or.inl (Nat.zero_le _)
          · rw [e3]; exact Or.inl (le_refl _)
      | RED =>
        cases sl with
        | NULL =>
          refine ⟨⟨node, .inLeft pk pd .RED .NULL :: .inLeft sk sd .BLACK sr :: above⟩, ?_, ?_, ?_, ?_,
            Or.inr (Or.inr ⟨hn, _, _, ⟨.mk pk pd .RED node .NULL, .inLeft sk sd .BLACK sr :: above⟩, rfl, ?_, by simp⟩)⟩
          · cases node <;> rfl
          · simp [entries_plug, Frame.fill, leftOf, rightOf]
          · intro hb
            rw [upRootBlack_cons] at hb
            simp [upRootBlack_cons, hb.2, Frame.color]
          · rintro ⟨h4, h5⟩
            refine ⟨h4, ?_⟩
            simp only [UpRB4, RB4] at h5 ⊢
            cases pc <;> simp_all
          · cases node <;> rfl
        | mk lk ld lc ll lr =>
          obtain ⟨cur, e1, e2, e3, e4⟩ := fixDeleteLeft_spec node pk pd .RED lk ld lc ll lr
            (.inLeft sk sd .BLACK sr :: above)
          refine ⟨cur, ?_, ?_, ?_, ?_, ?_⟩
          · rw [← e1]
            cases node <;> rfl
          · rw [e2]
            simp [entries_plug, Frame.fill, leftOf, rightOf]
          · intro hb
            rcases e3 with e3 | ⟨e3, -⟩
            · rw [e3]; trivial
            · rw [e3]
              rw [upRootBlack_cons] at hb
              simp [upRootBlack_cons, hb.2, Frame.color]
          · rintro ⟨h4, h5⟩
            simp only [UpRB4, RB4] at h5
            have hlc : lc = .BLACK := by
              have := h5.1.1 trivial
              simpa using this.1
            apply e4 hlc hn
            refine ⟨h4, ?_⟩
            simp only [UpRB4, RB4]
            cases pc <;> simp_all
          · rcases e3 with e3 | ⟨e3, e5⟩
            · rw [e3]; exact Or.inl (Nat.zero_le _)
            · exact Or.inr (Or.inl (by simpa using e5))
  | inRight pk pd pc sibling =>
    cases node with
    | NULL =>
      refine ⟨⟨.mk pk pd pc sibling .NULL, above⟩, rfl, ?_, upRootBlack_tail _ _, ?_,
        Or.inl (le_refl _)⟩
      · simp [entries_plug, Frame.fill, leftOf, rightOf]
      · rintro ⟨h4, h5⟩
        simp only [UpRB4] at h5
        exact ⟨by simpa [setBlack, RB4] using h5.1, UpRB4_weaken _ _ h5.2.2⟩
    | mk nk nd nc nl nr =>
      cases sibling with
      | NULL =>
        refine ⟨⟨.mk pk pd pc .NULL (.mk nk nd nc nl nr), above⟩, rfl, ?_, upRootBlack_tail _ _,
          ?_, Or.inl (le_refl _)⟩
        · simp [entries_plug, Frame.fill, leftOf, rightOf]
        · rintro ⟨h4, h5⟩
          simp only [UpRB4] at h5
          refine ⟨?_, UpRB4_weaken _ _ h5.2.2⟩
          simp at hn
          subst hn
          simpa [setBlack, RB4] using h4
      | mk sk sd sc sl sr =>
        cases sc with
        | BLACK =>
          obtain ⟨cur, e1, e2, e3, e4⟩ :=
            fixDeleteRight_spec (.mk nk nd nc nl nr) pk pd pc sk sd .BLACK sl sr above
          refine ⟨cur, ?_, e2, ?_, e4 rfl hn, ?_⟩
          · rw [← e1]
            rfl
          · intro hb
            rcases e3 with e3 | ⟨e3, -⟩
            · rw [e3]; trivial
            · rw [e3]; exact upRootBlack_tail _ _ hb
          · rcases e3 with e3 | ⟨e3, -⟩
            · rw [e3]; exact Or.inl (Nat.zero_le _)
            · rw [e3]; exact Or.inl (le_refl _)
        | RED =>
          cases sr with
          | NULL =>
            refine ⟨⟨.mk nk nd nc nl nr, .inRight pk pd .RED .NULL :: .inRight sk sd .BLACK sl :: above⟩,
              rfl, ?_, ?_, ?_,
              Or.inr (Or.inr ⟨hn, _, _, ⟨.mk pk pd .RED .NULL (.mk nk nd nc nl nr),
                .inRight sk sd .BLACK sl :: above⟩, rfl, rfl, by simp⟩)⟩
            · simp [entries_plug, Frame.fill, leftOf, rightOf]
            · intro hb
              rw [upRootBlack_cons] at hb
              simp [upRootBlack_cons, hb.2, Frame.color]
            · rintro ⟨h4, h5⟩
              refine ⟨h4, ?_⟩
              simp only [UpRB4, RB4] at h5 ⊢
              cases pc <;> simp_all
          | mk rk rd rc rl rr =>
            obtain ⟨cur, e1, e2, e3, e4⟩ :=
              fixDeleteRight_spec (.mk nk nd nc nl nr) pk pd .RED rk rd rc rl rr
                (.inRight sk sd .BLACK sl :: above)
            refine ⟨cur, ?_, ?_, ?_, ?_, ?_⟩
            · rw [← e1]
              rfl
            · rw [e2]
              simp [entries_plug, Frame.fill, leftOf, rightOf]
            · intro hb
              rcases e3 with e3 | ⟨e3, -⟩
              · rw [e3]; trivial
              · rw [e3]
                rw [upRootBlack_cons] at hb
                simp [upRootBlack_cons, hb.2, Frame.color]
            · rintro ⟨h4, h5⟩
              simp only [UpRB4, RB4] at h5
              have hrc : rc = .BLACK := by
                have := h5.1.1 trivial
                simpa using this.2
              apply e4 hrc hn
              refine ⟨h4, ?_⟩
              simp only [UpRB4, RB4]
              cases pc <;> simp_all
            · rcases e3 with e3 | ⟨e3, e5⟩
              · rw [e3]; exact Or.inl (Nat.zero_le _)
              · exact Or.inr (Or.inl (by simpa using e5))

@[simp] theorem isRed_setBlack (t : RBNode) : isRed (setBlack t) = false := by
  cases t <;> simp [setBlack]

/-- Leaving the loop of `fixDelete`: at the root or at a RED node the function returns after
coloring the node BLACK. -/
theorem fixDelete_exit (m : Nat) (cur : Cursor) (h : cur.up = [] ∨ isRed cur.node = true) :
    fixDelete (m + 1) cur = some (plug (setBlack cur.node) cur.up) ∧
      entries (plug (setBlack cur.node) cur.up) = entries (plug cur.node cur.up) ∧
      (upRootBlack cur.up → RB2 (plug (setBlack cur.node) cur.up)) ∧
      (DelInv4 cur → RB4 (plug (setBlack cur.node) cur.up)) := by
  obtain ⟨node, up⟩ := cur
  refine ⟨?_, by simp [entries_plug], ?_, ?_⟩
  · cases up with
    | nil => rfl
    | cons p above =>
      simp only [reduceCtorEq, false_or] at h
      simp [fixDelete, isBlackOrNull_eq_not_isRed, h]
  · intro hb
    cases up with
    | nil => exact RB2_setBlack _
    | cons p above => exact (RB2_plug_cons _ _ _).2 hb
  · rintro ⟨h1, h2⟩
    exact (RB4_plug _ _).2 ⟨h1, by simpa using h2⟩

/-- The function `fixDelete` returns when the fuel exceeds the length of the parent chain by
two. The tree it leaves has the same in-order sequence, a BLACK root when the root was BLACK,
and satisfies RB4 when the loop invariant held at the start. -/
theorem fixDelete_spec (fuel : Nat) (cur : Cursor) (hf : cur.up.length + 2 ≤ fuel) :
    ∃ r, fixDelete fuel cur = some r ∧ entries r = entries (plug cur.node cur.up) ∧
      (upRootBlack cur.up → RB2 r) ∧ (DelInv4 cur → RB4 r) := by
  induction fuel generalizing cur with
  | zero => omega
  | succ fuel ih =>
    by_cases hx : cur.up = [] ∨ isRed cur.node = true
    · exact ⟨_, fixDelete_exit fuel cur hx⟩
    · obtain ⟨node, up⟩ := cur
      simp only [not_or, Bool.not_eq_true] at hx
      obtain ⟨hup, hred⟩ := hx
      obtain ⟨p, above, rfl⟩ := List.exists_cons_of_ne_nil hup
      have hn : isBlackOrNull node = true := by simp [isBlackOrNull_eq_not_isRed, hred]
      obtain ⟨cur1, b1, b2, b3, b4, b5⟩ := fixDeleteBody_spec node p above hn
      have hstep : fixDelete (fuel + 1) ⟨node, p :: above⟩ = fixDelete fuel cur1 := by
        simp [fixDelete, hn, b1]
      simp only [List.length_cons] at hf
      rcases b5 with b5 | b5 | ⟨c1, q, rest, cur2, c2, c3, c4⟩
      · obtain ⟨r, r1, r2, r3, r4⟩ := ih cur1 (by omega)
        exact ⟨r, by rw [hstep, r1], by rw [r2, b2], fun h => r3 (b3 h), fun h => r4 (b4 h)⟩
      · obtain ⟨m, rfl⟩ : ∃ m, fuel = m + 1 := ⟨fuel - 1, by omega⟩
        obtain ⟨r1, r2, r3, r4⟩ := fixDelete_exit m cur1 (Or.inr b5)
        exact ⟨_, by rw [hstep, r1], by rw [r2, b2], fun h => r3 (b3 h), fun h => r4 (b4 h)⟩
      · obtain ⟨m, rfl⟩ : ∃ m, fuel = m + 2 := ⟨fuel - 2, by omega⟩
        obtain ⟨node1, up1⟩ := cur1
        simp only at c1 c2 c3
        subst c2
        obtain ⟨cur3, d1, d2, d3, d4, -⟩ := fixDeleteBody_spec node1 q rest c1
        rw [c3] at d1
        cases d1
        obtain ⟨r1, r2, r3, r4⟩ := fixDelete_exit m cur2 (Or.inr c4)
        have hstep2 : fixDelete (m + 2) ⟨node1, q :: rest⟩ = fixDelete (m + 1) cur2 := by
          simp [fixDelete, c1, c3]
        exact ⟨_, by rw [hstep, hstep2, r1], by rw [r2, d2, b2], fun h => r3 (d3 (b3 h)),
          fun h => r4 (d4 (b4 h))⟩

/-! ## `deleteNode` -/

theorem upRootBlack_append (a : List Frame) (f : Frame) (up : List Frame) :
    upRootBlack (a ++ f :: up) ↔ upRootBlack (f :: up) := by
  induction a with
  | nil => rfl
  | cons x a ih =>
    rw [List.cons_append, upRootBlack_cons, ih]
    simp

theorem isRed_plug (t : RBNode) (a : List Frame) : isRed (plug t a) = holeRedAfter a (isRed t) := by
  induction a generalizing t with
  | nil => rfl
  | cons f a ih =>
    rw [plug_cons, ih]
    cases f <;> simp [Frame.fill, holeRedAfter, Frame.color]

theorem holeRedAfter_of_false (a : List Frame) (x : Bool) (h : holeRedAfter a false = true) :
    holeRedAfter a x = true := by
  cases a with
  | nil => simp [holeRedAfter] at h
  | cons f a => simpa [holeRedAfter] using h

theorem UpRB4_append (a b : List Frame) (x : Bool) :
    UpRB4 (a ++ b) x ↔ UpRB4 a x ∧ UpRB4 b (holeRedAfter a x) := by
  induction a generalizing x with
  | nil => simp [UpRB4, holeRedAfter]
  | cons f a ih =>
    cases f <;> simp only [List.cons_append, UpRB4, List.append_eq, holeRedAfter, ih, Frame.color,
      and_assoc]

theorem findMinimum_spec (t : RBNode) (up : List Frame) (ht : t ≠ .NULL) :
    ∃ sk sd sc sr within, findMinimum t up = ⟨.mk sk sd sc .NULL sr, within ++ up⟩ ∧
      plug (.mk sk sd sc .NULL sr) within = t ∧ leftOf within = [] := by
  induction t generalizing up with
  | NULL => exact absurd rfl ht
  | mk k d c l r ihl _ =>
    cases l with
    | NULL => exact ⟨k, d, c, r, [], rfl, rfl, rfl⟩
    | mk lk ld lc ll lr =>
      obtain ⟨sk, sd, sc, sr, w, e1, e2, e3⟩ := ihl (.inLeft k d c r :: up) (by simp)
      refine ⟨sk, sd, sc, sr, w ++ [.inLeft k d c r], ?_, ?_, ?_⟩
      · simp only [findMinimum, e1, List.append_assoc, List.singleton_append]
      · rw [plug_append, e2]
        rfl
      · rw [leftOf_append, e3]
        rfl

/-- Unlinking a node (lines 478-563 of `deleteNode`): the in-order sequence loses the entry of
the node, the root stays BLACK, and RB4 holds for the tree around the position `fix_node`. -/
theorem unlinkNode_spec (c : Color) (l r : RBNode) (up : List Frame) :
    ∃ oc fix, unlinkNode c l r up = some (oc, fix) ∧
      entries (plug fix.node fix.up) = leftOf up ++ (entries l ++ entries r) ++ rightOf up ∧
      ((up = [] → c = .BLACK) → upRootBlack up →
        upRootBlack fix.up ∧ (fix.up = [] → oc = .BLACK)) ∧
      (RB4 l → RB4 r → (c = .RED → isBlackOrNull l = true ∧ isBlackOrNull r = true) →
        UpRB4 up (decide (c = .RED)) →
        RB4 fix.node ∧ UpRB4 fix.up false ∧ (oc = .RED → isRed fix.node = false)) := by
  cases l with
  | NULL =>
    refine ⟨c, ⟨r, up⟩, rfl, by simp [entries_plug], fun h1 h2 => ⟨h2, h1⟩, ?_⟩
    intro _ h2 h3 h4
    refine ⟨h2, UpRB4_weaken _ _ h4, fun hc => ?_⟩
    simpa [isBlackOrNull_eq_not_isRed] using (h3 hc).2
  | mk lk ld lc ll lr =>
    cases r with
    | NULL =>
      refine ⟨c, ⟨.mk lk ld lc ll lr, up⟩, rfl, by simp [entries_plug],
        fun h1 h2 => ⟨h2, h1⟩, ?_⟩
      intro h1 _ h3 h4
      refine ⟨h1, UpRB4_weaken _ _ h4, fun hc => ?_⟩
      simpa [isBlackOrNull_eq_not_isRed] using (h3 hc).1
    | mk rk rd rc rl rr =>
      obtain ⟨sk, sd, sc, sr, within, e1, e2, e3⟩ :=
        findMinimum_spec (.mk rk rd rc rl rr) [] (by simp)
      simp only [List.append_nil] at e1
      have hent : entries (.mk rk rd rc rl rr) = (sk, sd) :: entries sr ++ rightOf within := by
        rw [← e2, entries_plug, e3]
        simp
      refine ⟨sc, ⟨sr, within ++ .inRight sk sd c (.mk lk ld lc ll lr) :: up⟩, ?_, ?_, ?_, ?_⟩
      · simp only [unlinkNode, e1]
        cases within <;> rfl
      · rw [entries_plug, leftOf_append, rightOf_append, e3, hent]
        simp [leftOf, rightOf]
      · intro h1 h2
        refine ⟨(upRootBlack_append _ _ _).2 ((upRootBlack_cons _ _).2 ⟨h1, h2⟩), ?_⟩
        intro h
        simp at h
      · intro h1 h2 h3 h4
        rw [← e2, RB4_plug] at h2
        obtain ⟨h5, h6⟩ := h2
        simp only [RB4] at h5
        refine ⟨h5.2.2, ?_, ?_⟩
        · rw [UpRB4_append]
          refine ⟨UpRB4_weaken _ _ h6, ?_⟩
          simp only [UpRB4]
          refine ⟨h1, fun hc => ⟨?_, (h3 hc).1⟩, h4⟩
          cases hh : holeRedAfter within false
          · rfl
          · exfalso
            have h7 := holeRedAfter_of_false within (isRed (.mk sk sd sc .NULL sr)) hh
            rw [← isRed_plug, e2] at h7
            have h8 := (h3 hc).2
            rw [isBlackOrNull_eq_not_isRed, h7] at h8
            simp at h8
        · intro hc
          simpa [isBlackOrNull_eq_not_isRed] using (h5.1 hc).2

/-- Deleting a key that the search finds: `deleteNode` returns 1, the size shrinks by one and
the in-order sequence loses one entry with that key; a BLACK root and RB4 are kept. -/
theorem deleteNode_found (tree : RBTree) (key : Int) (h : searchNode tree key ≠ .NULL) :
    ∃ root2, deleteNode tree key = some ({ root := root2, size := tree.size - 1 }, 1) ∧
      (∃ before after d, entries tree.root = before ++ (key, d) :: after ∧
        entries root2 = before ++ after) ∧
      (RB2 tree.root → RB2 root2) ∧ (RB4 tree.root → RB4 root2) := by
  obtain ⟨root, size⟩ := tree
  simp only [searchNode] at h
  rw [searchFrom_eq_findNode key _ []] at h
  cases hf : findNode key root [] with
  | none => simp [hf] at h
  | some cur =>
    obtain ⟨node, up⟩ := cur
    obtain ⟨hplug, d, c, l, r, hnode⟩ := findNode_some _ _ _ _ hf
    simp only at hnode hplug
    subst hnode
    simp only [plug_nil] at hplug
    obtain ⟨oc, fix, u1, u2, u3, u4⟩ := unlinkNode_spec c l r up
    have hent : entries root = (leftOf up ++ entries l) ++ (key, d) :: (entries r ++ rightOf up) := by
      rw [← hplug, entries_plug]
      simp
    have hent2 : entries (plug fix.node fix.up) = (leftOf up ++ entries l) ++ (entries r ++ rightOf up) := by
      rw [u2]
      simp
    have hroot : RB2 root → (up = [] → c = .BLACK) ∧ upRootBlack up := by
      intro hb
      rw [← hplug] at hb
      cases up with
      | nil => exact ⟨fun _ => by simpa [RB2] using hb, trivial⟩
      | cons f up =>
        exact ⟨fun hh => by simp at hh, (RB2_plug_cons _ _ _).1 hb⟩
    have h4 : RB4 root → RB4 fix.node ∧ UpRB4 fix.up false ∧ (oc = .RED → isRed fix.node = false) := by
      intro hr
      rw [← hplug, RB4_plug] at hr
      obtain ⟨hr1, hr2⟩ := hr
      simp only [RB4] at hr1
      exact u4 hr1.2.1 hr1.2.2 hr1.1 (by simpa using hr2)
    by_cases hoc : oc = .BLACK
    · obtain ⟨r2, f1, f2, f3, f4⟩ := fixDelete_spec (fix.up.length + 2) fix (le_refl _)
      refine ⟨r2, ?_, ⟨_, _, d, hent, by rw [f2, hent2]⟩, ?_, ?_⟩
      · simp [deleteNode, hf, u1, hoc, f1]
      · intro hb
        obtain ⟨g1, g2⟩ := hroot hb
        exact f3 (u3 g1 g2).1
      · intro hr
        obtain ⟨g1, g2, -⟩ := h4 hr
        exact f4 ⟨RB4_setBlack _ g1, g2⟩
    · refine ⟨plug fix.node fix.up, ?_, ⟨_, _, d, hent, hent2⟩, ?_, ?_⟩
      · simp [deleteNode, hf, u1, hoc]
      · intro hb
        obtain ⟨g1, g2⟩ := hroot hb
        obtain ⟨g3, g4⟩ := u3 g1 g2
        cases hfu : fix.up with
        | nil => exact absurd (g4 hfu) hoc
        | cons f rest =>
          rw [RB2_plug_cons, ← hfu]
          exact g3
      · intro hr
        obtain ⟨g1, g2, g3⟩ := h4 hr
        have hred : oc = .RED := by
          cases oc
          · rfl
          · exact absurd rfl hoc
        rw [RB4_plug, g3 hred]
        exact ⟨g1, g2⟩

/-- Deleting a key that the search does not find: `deleteNode` returns 0 and the tree is
unchanged. -/
theorem deleteNode_not_found (tree : RBTree) (key : Int) (h : searchNode tree key = .NULL) :
    deleteNode tree key = some (tree, 0) := by
  simp only [searchNode] at h
  rw [searchFrom_eq_findNode key _ []] at h
  cases hf : findNode key tree.root [] with
  | none => simp [deleteNode, hf]
  | some cur =>
    obtain ⟨-, d, c, l, r, hnode⟩ := findNode_some _ _ _ _ hf
    simp [hf, hnode] at h

/-! ## Searching an ordered tree -/

theorem searchFrom_eq_NULL_iff (key : Int) (t : RBNode) (ho : Ordered t) :
    searchFrom key t = .NULL ↔ key ∉ keysOf t := by
  rw [searchFrom_eq_findNode key t []]
  constructor
  · intro h hk
    obtain ⟨cur, hc⟩ := findNode_isSome_of_mem key t [] ho hk
    obtain ⟨-, d, c, l, r, hnode⟩ := findNode_some _ _ _ _ hc
    simp [hc, hnode] at h
  · intro h
    rw [findNode_none_of_not_mem key t [] h]

theorem searchFrom_key (key : Int) (t : RBNode) (k : Int) (d : Payload) (c : Color)
    (l r : RBNode) (h : searchFrom key t = .mk k d c l r) : k = key ∧ (key, d) ∈ entries t := by
  induction t with
  | NULL => simp [searchFrom] at h
  | mk k1 d1 c1 l1 r1 ihl ihr =>
    simp only [searchFrom] at h
    split at h
    · obtain ⟨e1, e2⟩ := ihl h
      exact ⟨e1, by simp [e2]⟩
    · split at h
      · obtain ⟨e1, e2⟩ := ihr h
        exact ⟨e1, by simp [e2]⟩
      · have hk : key = k1 := by omega
        cases h
        exact ⟨hk.symm, by simp [hk]⟩

/-- In an ordered tree the search returns the node of an entry exactly when the entry is in
the tree. -/
theorem searchFrom_iff_mem (key : Int) (d : Payload) (t : RBNode) (ho : Ordered t) :
    (∃ c l r, searchFrom key t = .mk key d c l r) ↔ (key, d) ∈ entries t := by
  constructor
  · rintro ⟨c, l, r, h⟩
    exact (searchFrom_key _ _ _ _ _ _ _ h).2
  · intro h
    induction t with
    | NULL => simp at h
    | mk k1 d1 c1 l1 r1 ihl ihr =>
      simp only [Ordered] at ho
      obtain ⟨h1, h2, h3, h4⟩ := ho
      simp only [entries_mk, List.mem_append, List.mem_cons, Prod.mk.injEq] at h
      simp only [searchFrom]
      rcases h with h | ⟨rfl, rfl⟩ | h
      · have := h1 key ((mem_keysOf_iff _ _).2 ⟨d, h⟩)
        simp only [this, if_true]
        exact ihl h3 h
      · simp
      · have := h2 key ((mem_keysOf_iff _ _).2 ⟨d, h⟩)
        have hn : ¬ key < k1 := by omega
        simp only [hn, if_false, gt_iff_lt, this, if_true]
        exact ihr h4 h

theorem pairwise_split_key (b a : List (Int × Payload)) (k : Int) (d0 : Payload)
    (h : ((b ++ (k, d0) :: a).map (fun e => e.1)).Pairwise (· < ·)) :
    (∀ e ∈ b, e.1 ≠ k) ∧ (∀ e ∈ a, e.1 ≠ k) ∧
      ((b ++ a).map (fun e => e.1)).Pairwise (· < ·) ∧
      (∀ d, ((b ++ (k, d) :: a).map (fun e => e.1)).Pairwise (· < ·)) := by
  simp only [List.map_append, List.map_cons, List.pairwise_append, List.pairwise_cons,
    List.mem_map, List.mem_cons, forall_exists_index, and_imp] at h ⊢
  obtain ⟨p1, ⟨p2, p3⟩, p4⟩ := h
  refine ⟨?_, ?_, ⟨p1, p3, ?_⟩, fun _ => ⟨p1, ⟨p2, p3⟩, p4⟩⟩
  · intro e he
    have := p4 e.1 e he rfl k (Or.inl rfl)
    omega
  · intro e he
    have := p2 e.1 e he rfl
    omega
  · intro x e he hx y e2 he2 hy
    exact p4 x e he hx y (Or.inr ⟨e2, he2, hy⟩)

/-! ## Sequences of calls -/

theorem insert_run_spec (t : RBTree) (k : Int) (d : Payload) (h : SeqInv t) :
    ∃ t2, (Op.insert k d).run t = some t2 ∧ SeqInv t2 ∧
      ∀ k2 d2, (k2, d2) ∈ entries t2.root ↔
        (k2 = k ∧ d2 = copyData d) ∨ (k2 ≠ k ∧ (k2, d2) ∈ entries t.root) := by
  obtain ⟨hb, ho, hs⟩ := h
  by_cases hf : searchNode t k = .NULL
  · have hk : k ∉ keysOf t.root := (searchFrom_eq_NULL_iff k _ ho).1 hf
    obtain ⟨r2, e1, e2, e3, ⟨b, a, e4, e5, e6, e7⟩, -⟩ := insertNode_new t k d ho hb hk
    refine ⟨{ root := r2, size := t.size + 1 }, by simp [Op.run, e1], ⟨e2, e3, ?_⟩, ?_⟩
    · have hl := congrArg List.length e4
      have hl2 := congrArg List.length e5
      simp only [length_entries, List.length_append, List.length_cons] at hl hl2
      simp only [hs]
      omega
    · intro k2 d2
      simp only [e5, e4, List.mem_append, List.mem_cons, Prod.mk.injEq]
      constructor
      · rintro (h1 | ⟨rfl, rfl⟩ | h1)
        · exact Or.inr ⟨by have := e6 _ h1; simp only at this; omega, Or.inl h1⟩
        · exact Or.inl ⟨rfl, rfl⟩
        · exact Or.inr ⟨by have := e7 _ h1; simp only at this; omega, Or.inr h1⟩
      · rintro (⟨rfl, rfl⟩ | ⟨-, h1 | h1⟩)
        · exact Or.inr (Or.inl ⟨rfl, rfl⟩)
        · exact Or.inl h1
        · exact Or.inr (Or.inr h1)
  · have e1 := insertNode_update t k d hf
    obtain ⟨⟨b, a, d0, e4, e5⟩, -⟩ := setPayload_found k (copyData d) t.root hf
    obtain ⟨i1, -, -, i4, -, i6⟩ := invariants_of_erasePayloads_eq t.root
      (setPayload k (copyData d) t.root) (erasePayloads_setPayload _ _ _)
    refine ⟨{ root := setPayload k (copyData d) t.root, size := t.size }, by simp [Op.run, e1],
      ⟨i1.2 hb, i4.2 ho, by simp [i6, hs]⟩, ?_⟩
    intro k2 d2
    have hp := (ordered_iff_entries _).1 ho
    rw [e4] at hp
    obtain ⟨p1, p2, -, -⟩ := pairwise_split_key b a k d0 hp
    simp only [e5, e4, List.mem_append, List.mem_cons, Prod.mk.injEq]
    constructor
    · rintro (h1 | ⟨rfl, rfl⟩ | h1)
      · exact Or.inr ⟨p1 _ h1, Or.inl h1⟩
      · exact Or.inl ⟨rfl, rfl⟩
      · exact Or.inr ⟨p2 _ h1, Or.inr (Or.inr h1)⟩
    · rintro (⟨rfl, rfl⟩ | ⟨hne, h1 | ⟨rfl, -⟩ | h1⟩)
      · exact Or.inr (Or.inl ⟨rfl, rfl⟩)
      · exact Or.inl h1
      · exact absurd rfl hne
      · exact Or.inr (Or.inr h1)

theorem delete_run_spec (t : RBTree) (k : Int) (h : SeqInv t) :
    ∃ t2, (Op.delete k).run t = some t2 ∧ SeqInv t2 ∧
      ∀ k2 d2, (k2, d2) ∈ entries t2.root ↔ (k2 ≠ k ∧ (k2, d2) ∈ entries t.root) := by
  obtain ⟨hb, ho, hs⟩ := h
  by_cases hf : searchNode t k = .NULL
  · have hk : k ∉ keysOf t.root := (searchFrom_eq_NULL_iff k _ ho).1 hf
    refine ⟨t, by simp [Op.run, deleteNode_not_found t k hf], ⟨hb, ho, hs⟩, ?_⟩
    intro k2 d2
    constructor
    · intro h1
      refine ⟨?_, h1⟩
      rintro rfl
      exact hk ((mem_keysOf_iff _ _).2 ⟨d2, h1⟩)
    · exact fun h1 => h1.2
  · obtain ⟨r2, e1, ⟨b, a, d0, e4, e5⟩, e2, -⟩ := deleteNode_found t k hf
    have hp := (ordered_iff_entries _).1 ho
    rw [e4] at hp
    obtain ⟨p1, p2, p3, -⟩ := pairwise_split_key b a k d0 hp
    refine ⟨{ root := r2, size := t.size - 1 }, by simp [Op.run, e1], ⟨e2 hb, ?_, ?_⟩, ?_⟩
    · rw [ordered_iff_entries, e5]
      exact p3
    · have hl := congrArg List.length e4
      have hl2 := congrArg List.length e5
      simp only [length_entries, List.length_append, List.length_cons] at hl hl2
      simp only [hs]
      omega
    · intro k2 d2
      simp only [e5, e4, List.mem_append, List.mem_cons, Prod.mk.injEq]
      constructor
      · rintro (h1 | h1)
        · exact ⟨p1 _ h1, Or.inl h1⟩
        · exact ⟨p2 _ h1, Or.inr (Or.inr h1)⟩
      · rintro ⟨hne, h1 | ⟨rfl, -⟩ | h1⟩
        · exact Or.inl h1
        · exact absurd rfl hne
        · exact Or.inr h1

theorem runOps_append (ops1 ops2 : List Op) (t : RBTree) :
    runOps (ops1 ++ ops2) t = (runOps ops1 t).bind (runOps ops2) := by
  induction ops1 generalizing t with
  | nil => simp [runOps]
  | cons op ops1 ih =>
    simp only [List.cons_append, runOps]
    cases h : op.run t with
    | none => simp
    | some t2 => simp [ih]

theorem lastCall_append_insert (ops : List Op) (k : Int) (d : Payload) (k2 : Int) :
    lastCall (ops ++ [.insert k d]) k2 =
      if k = k2 then some (.insert k d) else lastCall ops k2 := by
  simp only [lastCall, List.filter_append]
  by_cases h : k = k2 <;> simp [List.filter, h]

theorem lastCall_append_delete (ops : List Op) (k : Int) (k2 : Int) :
    lastCall (ops ++ [.delete k]) k2 =
      if k = k2 then some (.delete k) else lastCall ops k2 := by
  simp only [lastCall, List.filter_append]
  by_cases h : k = k2 <;> simp [List.filter, h]

/-- Every sequence of calls on the empty tree runs to its end; the tree it leaves has a BLACK
root, is ordered, stores its node count, and holds exactly the entries whose key was last
named by an `insertNode` call, with the payload stored by that call. -/
theorem runOps_spec (ops : List Op) :
    ∃ t, runOps ops createTree = some t ∧ SeqInv t ∧
      ∀ k d, (k, d) ∈ entries t.root ↔
        ∃ d0, lastCall ops k = some (.insert k d0) ∧ d = copyData d0 := by
  induction ops using List.reverseRecOn with
  | nil =>
    refine ⟨createTree, rfl, ⟨by simp [createTree, RB2], by simp [createTree, Ordered],
      by simp [createTree, countNodes]⟩, ?_⟩
    intro k d
    simp [createTree, lastCall]
  | append_singleton ops op ih =>
    obtain ⟨t, h1, h2, h3⟩ := ih
    cases op with
    | insert k0 d0 =>
      obtain ⟨t2, e1, e2, e3⟩ := insert_run_spec t k0 d0 h2
      refine ⟨t2, ?_, e2, ?_⟩
      · rw [runOps_append, h1]
        simp [runOps, e1]
      · intro k d
        rw [e3, lastCall_append_insert, h3]
        by_cases hk : k0 = k
        · subst hk
          simp
        · have hk2 : k ≠ k0 := fun h => hk h.symm
          simp [hk, hk2]
    | delete k0 =>
      obtain ⟨t2, e1, e2, e3⟩ := delete_run_spec t k0 h2
      refine ⟨t2, ?_, e2, ?_⟩
      · rw [runOps_append, h1]
        simp [runOps, e1]
      · intro k d
        rw [e3, lastCall_append_delete, h3]
        by_cases hk : k0 = k
        · subst hk
          simp
        · have hk2 : k ≠ k0 := fun h => hk h.symm
          simp [hk, hk2]

/-! ## RB5 in terms of paths -/

theorem blackHeight_mem_blackCounts (t : RBNode) : blackHeight t ∈ blackCounts t := by
  induction t with
  | NULL => simp [blackHeight, blackCounts]
  | mk k d c l r ihl _ =>
    simp only [blackCounts, blackHeight, List.mem_map, List.mem_append]
    exact ⟨blackHeight l, Or.inl ihl, rfl⟩

theorem RB5_iff_blackCounts_eq (t : RBNode) :
    RB5 t ↔ ∀ a ∈ blackCounts t, a = blackHeight t := by
  induction t with
  | NULL => simp [RB5, blackCounts, blackHeight]
  | mk k d c l r ihl ihr =>
    simp only [RB5, blackCounts, blackHeight, List.mem_map, List.mem_append,
      forall_exists_index, and_imp, ihl, ihr]
    constructor
    · rintro ⟨h1, h2, h3⟩ a n (hn | hn) rfl
      · rw [h2 n hn]
      · rw [h3 n hn, h1]
    · intro h
      have hl : ∀ a ∈ blackCounts l, a = blackHeight l := by
        intro a ha
        have := h _ a (Or.inl ha) rfl
        omega
      have hr : ∀ a ∈ blackCounts r, a = blackHeight l := by
        intro a ha
        have := h _ a (Or.inr ha) rfl
        omega
      have hlr : blackHeight l = blackHeight r := (hr _ (blackHeight_mem_blackCounts r)).symm
      exact ⟨hlr, hl, fun a ha => by rw [hr a ha, hlr]⟩

/-- RB5 says that all paths from the root down to a NULL child hold the same number of BLACK
nodes. -/
theorem RB5_iff_blackCounts (t : RBNode) :
    RB5 t ↔ ∀ a ∈ blackCounts t, ∀ b ∈ blackCounts t, a = b := by
  rw [RB5_iff_blackCounts_eq]
  constructor
  · intro h a ha b hb
    rw [h a ha, h b hb]
  · intro h a ha
    exact h a ha _ (blackHeight_mem_blackCounts t)

/-! ## The trees of the demonstration -/

theorem runOps_demoOps : runOps demoOps createTree = some demoTree := by decide

theorem runOps_fourKeys :
    runOps [.insert 10 [], .insert 5 [], .insert 15 [], .insert 3 []] createTree =
      some fourKeyTree := by decide

theorem lastCall_inserts (kvs : List (Int × Payload)) (k : Int) :
    (∃ d0, lastCall (kvs.map (fun kv => Op.insert kv.1 kv.2)) k = some (.insert k d0)) ↔
      k ∈ kvs.map (fun kv => kv.1) := by
  induction kvs using List.reverseRecOn with
  | nil => simp [lastCall]
  | append_singleton kvs kv ih =>
    rw [List.map_append, List.map_singleton, lastCall_append_insert]
    by_cases hk : kv.1 = k
    · subst hk
      simp
    · have hk2 : k ≠ kv.1 := fun h => hk h.symm
      simp [hk, hk2, ih]

/-- Inserting pairs with distinct keys into the empty tree: the keys come out in sorted order
and the size is the number of pairs. -/
theorem runOps_inserts (kvs : List (Int × Payload)) (hd : (kvs.map (fun kv => kv.1)).Nodup) :
    ∃ t, runOps (kvs.map (fun kv => Op.insert kv.1 kv.2)) createTree = some t ∧
      keysOf t.root = (kvs.map (fun kv => kv.1)).insertionSort (· ≤ ·) ∧
      getTreeSize t = kvs.length := by
  obtain ⟨t, h1, ⟨-, h3, h4⟩, h5⟩ := runOps_spec (kvs.map (fun kv => Op.insert kv.1 kv.2))
  have hp := (ordered_iff_pairwise _).1 h3
  have hperm : (keysOf t.root).Perm (kvs.map (fun kv => kv.1)) := by
    rw [List.perm_ext_iff_of_nodup (hp.imp (fun h => ne_of_lt h)) hd]
    intro k
    rw [mem_keysOf_iff, ← lastCall_inserts]
    constructor
    · rintro ⟨d, hm⟩
      obtain ⟨d0, e, -⟩ := (h5 k d).1 hm
      exact ⟨d0, e⟩
    · rintro ⟨d0, e⟩
      exact ⟨copyData d0, (h5 k _).2 ⟨d0, e, rfl⟩⟩
  refine ⟨t, h1, ?_, ?_⟩
  · apply List.eq_of_perm_of_sorted (hperm.trans (List.perm_insertionSort _ _).symm)
      (hp.imp (fun h => le_of_lt h)) (List.sorted_insertionSort _ _)
  · have hl := hperm.length_eq
    simp only [keysOf, List.length_map] at hl
    simp only [getTreeSize, h4, countNodes_eq_length, hl]

/-- The check at the end of `main`: after the nine inserts and `deleteNode(tree, 5)` the
function `validateRBTree` returns 1. -/
theorem validateRBTree_demo :
    (runOps (demoOps ++ [.delete 5]) createTree).map validateRBTree = some 1 := by
  decide

/-! ## The claims -/

/-- Claim C1. For every tree that satisfies RB2, RB4, RB5 and the ordering invariant, and for
every key and payload, `insertNode` returns (with 1) and the tree it leaves again satisfies
RB2, RB4, RB5 and the ordering invariant. -/
theorem insertNode_preserves_invariants (tree : RBTree) (key : Int) (data : Payload)
    (h2 : RB2 tree.root) (h4 : RB4 tree.root) (h5 : RB5 tree.root) (ho : Ordered tree.root) :
    ∃ tree2, insertNode tree key data = some (tree2, 1) ∧
      RB2 tree2.root ∧ RB4 tree2.root ∧ RB5 tree2.root ∧ Ordered tree2.root := by
  by_cases hf : searchNode tree key = .NULL
  · have hk : key ∉ keysOf tree.root := (searchFrom_eq_NULL_iff key _ ho).1 hf
    obtain ⟨r2, e1, e2, e3, -, e4⟩ := insertNode_new tree key data ho h2 hk
    exact ⟨_, e1, e2, (e4 h4 h5).1, (e4 h4 h5).2, e3⟩
  · obtain ⟨i1, i2, i3, i4, -, -⟩ := invariants_of_erasePayloads_eq tree.root
      (setPayload key (copyData data) tree.root) (erasePayloads_setPayload _ _ _)
    exact ⟨_, insertNode_update tree key data hf, i1.2 h2, i2.2 h4, i3.2 h5, i4.2 ho⟩

/-- Witness for claim C1: the tree of the demonstration is a red-black tree, and so is the
tree left by inserting the key 6 into it. -/
theorem insertNode_preserves_invariants_witness :
    (RB2 demoTree.root ∧ RB4 demoTree.root ∧ RB5 demoTree.root ∧ Ordered demoTree.root) ∧
      ∃ tree2, insertNode demoTree 6 "Emma".toList = some (tree2, 1) ∧
        RB2 tree2.root ∧ RB4 tree2.root ∧ RB5 tree2.root ∧ Ordered tree2.root :=
  ⟨by decide, insertNode_preserves_invariants demoTree 6 "Emma".toList (by decide) (by decide)
    (by decide) (by decide)⟩

/-- Claim C2, evaluated where the code departs from it. The tree left by inserting 10, 5, 15
and 3 satisfies RB2, RB4, RB5 and the ordering invariant and holds the key 15; `deleteNode`
for 15 returns 1 and leaves a tree that violates RB5: the path from the root to its NULL right
child holds one BLACK node, the path through the node 5 holds two. -/
theorem deleteNode_violates_RB5 :
    runOps [.insert 10 [], .insert 5 [], .insert 15 [], .insert 3 []] createTree =
        some fourKeyTree ∧
      RB2 fourKeyTree.root ∧ RB4 fourKeyTree.root ∧ RB5 fourKeyTree.root ∧
      Ordered fourKeyTree.root ∧ (15 : Int) ∈ keysOf fourKeyTree.root ∧
      deleteNode fourKeyTree 15 =
        some ({ root := .mk 10 [] .BLACK (.mk 5 [] .BLACK (.mk 3 [] .RED .NULL .NULL) .NULL) .NULL,
                size := 3 }, 1) ∧
      ¬ RB5 (.mk 10 [] .BLACK (.mk 5 [] .BLACK (.mk 3 [] .RED .NULL .NULL) .NULL) .NULL) ∧
      blackCounts (.mk 10 [] .BLACK (.mk 5 [] .BLACK (.mk 3 [] .RED .NULL .NULL) .NULL) .NULL) =
        [2, 2, 2, 1] := by
  decide

/-- Claim C3. For every tree that satisfies RB2, RB4, RB5 and the ordering invariant, and for
every key present in it, `deleteNode` returns 1 and the tree it leaves satisfies RB4: no RED
node has a RED child. -/
theorem deleteNode_preserves_RB4 (tree : RBTree) (key : Int)
    (_h2 : RB2 tree.root) (h4 : RB4 tree.root) (_h5 : RB5 tree.root) (ho : Ordered tree.root)
    (hk : key ∈ keysOf tree.root) :
    ∃ tree2, deleteNode tree key = some (tree2, 1) ∧ RB4 tree2.root := by
  have hf : searchNode tree key ≠ .NULL := fun h => (searchFrom_eq_NULL_iff key _ ho).1 h hk
  obtain ⟨r2, e1, -, -, e4⟩ := deleteNode_found tree key hf
  exact ⟨_, e1, e4 h4⟩

/-- Witness for claim C3: deleting the key 5 from the tree of the demonstration. -/
theorem deleteNode_preserves_RB4_witness :
    (RB2 demoTree.root ∧ RB4 demoTree.root ∧ RB5 demoTree.root ∧ Ordered demoTree.root ∧
        (5 : Int) ∈ keysOf demoTree.root) ∧
      ∃ tree2, deleteNode demoTree 5 = some (tree2, 1) ∧ RB4 tree2.root :=
  ⟨by decide, deleteNode_preserves_RB4 demoTree 5 (by decide) (by decide) (by decide)
    (by decide) (by decide)⟩

/-- Claim C4. For every sequence of `insertNode` and `deleteNode` calls applied to the tree
of `createTree`, after each call (after the first `n` calls, for every `n`) the ordering
invariant holds and the keys visited by `inOrderTraversal` from the root are strictly
increasing, so that no key occurs twice. -/
theorem ordering_after_each_call (ops : List Op) (n : Nat) :
    ∃ t, runOps (ops.take n) createTree = some t ∧ Ordered t.root ∧
      ((inOrderTraversal t.root).map (fun e => e.1)).Pairwise (· < ·) ∧
      ((inOrderTraversal t.root).map (fun e => e.1)).Nodup := by
  obtain ⟨t, h1, ⟨-, h3, -⟩, -⟩ := runOps_spec (ops.take n)
  have hp := (ordered_iff_pairwise _).1 h3
  exact ⟨t, h1, h3, hp, hp.imp (fun h => ne_of_lt h)⟩

/-- Claim C5. For every sequence of `insertNode` and `deleteNode` calls applied to the tree
of `createTree`, after each call the stored size (`getTreeSize`) is the number of nodes
reachable from the root, which is the number of nodes visited by `inOrderTraversal`. -/
theorem size_after_each_call (ops : List Op) (n : Nat) :
    ∃ t, runOps (ops.take n) createTree = some t ∧
      getTreeSize t = (countNodes t.root : Int) ∧
      getTreeSize t = ((inOrderTraversal t.root).length : Int) := by
  obtain ⟨t, h1, ⟨-, -, h4⟩, -⟩ := runOps_spec (ops.take n)
  exact ⟨t, h1, h4, by rw [getTreeSize, h4, countNodes_eq_length]⟩

/-- Claim C6. For every sequence of `insertNode` and `deleteNode` calls applied to the tree
of `createTree`, after each call the root, if present, is BLACK, so `validateRBTree`
returns 1. -/
theorem root_black_after_each_call (ops : List Op) (n : Nat) :
    ∃ t, runOps (ops.take n) createTree = some t ∧ RB2 t.root ∧ validateRBTree t = 1 := by
  obtain ⟨t, h1, ⟨h2, -, -⟩, -⟩ := runOps_spec (ops.take n)
  refine ⟨t, h1, h2, ?_⟩
  obtain ⟨root, size⟩ := t
  cases root with
  | NULL => rfl
  | mk k d c l r =>
    have hc : c = .BLACK := by simpa [RB2] using h2
    simp [validateRBTree, hc]

/-- Claim C7. For every sequence of `insertNode` and `deleteNode` calls applied to the tree
of `createTree` and every key `k`, `searchNode` returns a node if and only if the last call
on `k` was an `insertNode`; that node has the key `k` and holds the payload stored by that
call (the first 255 characters of its argument). -/
theorem searchNode_after_calls (ops : List Op) (k : Int) :
    ∃ t, runOps ops createTree = some t ∧
      (searchNode t k ≠ .NULL ↔ ∃ d, lastCall ops k = some (.insert k d)) ∧
      ∀ d, lastCall ops k = some (.insert k d) →
        ∃ c l r, searchNode t k = .mk k (copyData d) c l r := by
  obtain ⟨t, h1, ⟨-, h3, -⟩, h5⟩ := runOps_spec ops
  refine ⟨t, h1, ?_, ?_⟩
  · rw [searchNode, Ne, searchFrom_eq_NULL_iff k _ h3, not_not, mem_keysOf_iff]
    constructor
    · rintro ⟨d, hm⟩
      obtain ⟨d0, e, -⟩ := (h5 k d).1 hm
      exact ⟨d0, e⟩
    · rintro ⟨d0, e⟩
      exact ⟨copyData d0, (h5 k _).2 ⟨d0, e, rfl⟩⟩
  · intro d hl
    exact (searchFrom_iff_mem k _ _ h3).2 ((h5 k _).2 ⟨d, hl, rfl⟩)

/-- Claim C8 as stated fails: the single RED node with key 10 is an ordered tree that does
not hold the key 5, and `insertNode` for 5 does not return: `fixInsert` reads
`grandparent->left` (line 178) where `grandparent` is NULL. -/
theorem insertNode_red_root_fails :
    Ordered redRootTree.root ∧ (5 : Int) ∉ keysOf redRootTree.root ∧
      insertNode redRootTree 5 [] = none := by
  decide

/-- Claim C8, amended by the hypothesis RB2. For every tree with a BLACK root that satisfies
the ordering invariant and every key not present in it, `insertNode` returns 1, increases the
size by one, and the in-order sequence of (key, payload) pairs afterwards is the previous
sequence with the new pair, holding the stored payload, put at its sorted place. Hence
inserting any list of pairs with distinct keys into the empty tree yields an in-order
traversal equal to the sorted list of keys and a size equal to the length of the list. -/
theorem insertNode_absent_key (tree : RBTree) (key : Int) (data : Payload)
    (kvs : List (Int × Payload))
    (ho : Ordered tree.root) (hb : RB2 tree.root) (hk : key ∉ keysOf tree.root)
    (hd : (kvs.map (fun kv => kv.1)).Nodup) :
    (∃ tree2, insertNode tree key data = some (tree2, 1) ∧
      getTreeSize tree2 = getTreeSize tree + 1 ∧
      ∃ before after, entries tree.root = before ++ after ∧
        entries tree2.root = before ++ (key, copyData data) :: after ∧
        (∀ e ∈ before, e.1 < key) ∧ (∀ e ∈ after, key < e.1)) ∧
    ∃ t, runOps (kvs.map (fun kv => Op.insert kv.1 kv.2)) createTree = some t ∧
      keysOf t.root = (kvs.map (fun kv => kv.1)).insertionSort (· ≤ ·) ∧
      getTreeSize t = kvs.length := by
  obtain ⟨r2, e1, -, -, e4, -⟩ := insertNode_new tree key data ho hb hk
  exact ⟨⟨_, e1, rfl, e4⟩, runOps_inserts kvs hd⟩

/-- Witness for the amended claim C8: inserting the key 6 into the tree of the demonstration,
and the nine calls of the demonstration with the keys 10, 5, 15, 3, 7, 12, 20, 25, 8, which
give the traversal 3, 5, 7, 8, 10, 12, 15, 20, 25 and the size 9. -/
theorem insertNode_absent_key_witness :
    (Ordered demoTree.root ∧ RB2 demoTree.root ∧ (6 : Int) ∉ keysOf demoTree.root ∧
      (demoPairs.map (fun kv => kv.1)).Nodup) ∧
    ((∃ tree2, insertNode demoTree 6 [] = some (tree2, 1) ∧
      getTreeSize tree2 = getTreeSize demoTree + 1 ∧
      ∃ before after, entries demoTree.root = before ++ after ∧
        entries tree2.root = before ++ (6, copyData []) :: after ∧
        (∀ e ∈ before, e.1 < 6) ∧ (∀ e ∈ after, 6 < e.1)) ∧
    ∃ t, runOps (demoPairs.map (fun kv => Op.insert kv.1 kv.2)) createTree = some t ∧
      keysOf t.root = (demoPairs.map (fun kv => kv.1)).insertionSort (· ≤ ·) ∧
      getTreeSize t = demoPairs.length) ∧
    (demoPairs.map (fun kv => kv.1) = [10, 5, 15, 3, 7, 12, 20, 25, 8] ∧
      runOps (demoPairs.map (fun kv => Op.insert kv.1 kv.2)) createTree = some demoTree ∧
      keysOf demoTree.root = [3, 5, 7, 8, 10, 12, 15, 20, 25] ∧ getTreeSize demoTree = 9) :=
  ⟨by decide, insertNode_absent_key demoTree 6 [] demoPairs (by decide) (by decide) (by decide)
    (by decide), by decide⟩

/-- Claim C9. For every tree satisfying the ordering invariant and every key present in it,
`deleteNode` returns 1, decreases the size by one, makes `searchNode` for the key return
NULL, and leaves an in-order sequence of (key, payload) pairs equal to the previous sequence
with the pair of the key, its only occurrence, removed. -/
theorem deleteNode_present_key (tree : RBTree) (key : Int)
    (ho : Ordered tree.root) (hk : key ∈ keysOf tree.root) :
    ∃ tree2, deleteNode tree key = some (tree2, 1) ∧
      getTreeSize tree2 = getTreeSize tree - 1 ∧
      searchNode tree2 key = .NULL ∧
      ∃ before after d, entries tree.root = before ++ (key, d) :: after ∧
        entries tree2.root = before ++ after ∧
        (∀ e ∈ before ++ after, e.1 ≠ key) := by
  have hf : searchNode tree key ≠ .NULL := fun h => (searchFrom_eq_NULL_iff key _ ho).1 h hk
  obtain ⟨r2, e1, ⟨b, a, d0, e4, e5⟩, -, -⟩ := deleteNode_found tree key hf
  have hp := (ordered_iff_entries _).1 ho
  rw [e4] at hp
  obtain ⟨p1, p2, p3, -⟩ := pairwise_split_key b a key d0 hp
  have hne : ∀ e ∈ b ++ a, e.1 ≠ key := by
    intro e he
    rcases List.mem_append.1 he with h | h
    · exact p1 e h
    · exact p2 e h
  have ho2 : Ordered r2 := by
    rw [ordered_iff_entries, e5]
    exact p3
  refine ⟨_, e1, rfl, ?_, b, a, d0, e4, e5, hne⟩
  rw [searchNode, searchFrom_eq_NULL_iff key _ ho2, mem_keysOf_iff]
  rintro ⟨d, hm⟩
  rw [e5] at hm
  exact hne _ hm rfl

/-- Witness for claim C9: deleting 5 from the nine-key tree of the demonstration leaves the
keys 3, 7, 8, 10, 12, 15, 20, 25 and the size 8. -/
theorem deleteNode_present_key_witness :
    (Ordered demoTree.root ∧ (5 : Int) ∈ keysOf demoTree.root) ∧
    (∃ tree2, deleteNode demoTree 5 = some (tree2, 1) ∧
      getTreeSize tree2 = getTreeSize demoTree - 1 ∧
      searchNode tree2 5 = .NULL ∧
      ∃ before after d, entries demoTree.root = before ++ (5, d) :: after ∧
        entries tree2.root = before ++ after ∧
        (∀ e ∈ before ++ after, e.1 ≠ 5)) ∧
    (deleteNode demoTree 5).map (fun res => (keysOf res.1.root, getTreeSize res.1, res.2)) =
      some ([3, 7, 8, 10, 12, 15, 20, 25], 8, 1) :=
  ⟨by decide, deleteNode_present_key demoTree 5 (by decide) (by decide), by decide⟩

/-- Claim C10 as stated fails: the tree with the BLACK root 10 and the RED left child 20 has a
BLACK root and stores the key 20, but it is not ordered, and the search of `insertNode` for
20 goes right at the root and meets NULL.  `insertNode` returns 1, attaches a second node
with the key 20 as the right child of the root and raises the size from 2 to 3: the shape and
the size change, and the payload of the node that held 20 is not overwritten. -/
theorem insertNode_misplaced_key_adds_node :
    (20 : Int) ∈ keysOf misplacedKeyTree.root ∧ RB2 misplacedKeyTree.root ∧
      ¬Ordered misplacedKeyTree.root ∧ searchNode misplacedKeyTree 20 = .NULL ∧
      (insertNode misplacedKeyTree 20 "B".toList).map
          (fun res => (res.1.root, getTreeSize res.1, res.2)) =
        some (.mk 10 [] .BLACK (.mk 20 [] .RED .NULL .NULL)
          (.mk 20 "B".toList .RED .NULL .NULL), 3, 1) ∧
      (insertNode misplacedKeyTree 20 "B".toList).map
          (fun res => (decide (erasePayloads res.1.root = erasePayloads misplacedKeyTree.root),
            getTreeSize res.1, getTreeSize misplacedKeyTree)) =
        some (false, 3, 2) := by
  decide

/-- Claim C10, amended by the ordering invariant. For every ordered tree and every key stored
in it, `insertNode` with that key returns 1 and changes nothing but the payload of the node
that holds the key: the shape of the tree with every key and color, and the size, are
unchanged, the in-order sequence of (key, payload) pairs differs at the entry of that node
only, and `searchNode` for the key afterwards yields the node with the new stored payload. -/
theorem insertNode_existing_key (tree : RBTree) (key : Int) (data : Payload)
    (ho : Ordered tree.root) (hk : key ∈ keysOf tree.root) :
    ∃ tree2, insertNode tree key data = some (tree2, 1) ∧
      erasePayloads tree2.root = erasePayloads tree.root ∧
      getTreeSize tree2 = getTreeSize tree ∧
      (∃ before after d, entries tree.root = before ++ (key, d) :: after ∧
        entries tree2.root = before ++ (key, copyData data) :: after) ∧
      ∃ c l r, searchNode tree2 key = .mk key (copyData data) c l r := by
  have h : searchNode tree key ≠ .NULL := by
    unfold searchNode
    rw [Ne, searchFrom_eq_NULL_iff key tree.root ho]
    exact fun hn => hn hk
  obtain ⟨e1, e2⟩ := setPayload_found key (copyData data) tree.root h
  exact ⟨_, insertNode_update tree key data h, erasePayloads_setPayload _ _ _, rfl, e1, e2⟩

/-- Witness for the amended claim C10: `insert(10, "A")` then `insert(10, "B")` on the empty
tree gives the size 1 and the payload "B". -/
theorem insertNode_existing_key_witness :
    (insertNode createTree 10 "A".toList =
        some ({ root := .mk 10 "A".toList .BLACK .NULL .NULL, size := 1 }, 1) ∧
      Ordered (RBNode.mk 10 "A".toList .BLACK .NULL .NULL) ∧
      (10 : Int) ∈ keysOf (RBNode.mk 10 "A".toList .BLACK .NULL .NULL)) ∧
    (∃ tree2, insertNode { root := .mk 10 "A".toList .BLACK .NULL .NULL, size := 1 } 10
        "B".toList = some (tree2, 1) ∧
      erasePayloads tree2.root = erasePayloads (RBNode.mk 10 "A".toList .BLACK .NULL .NULL) ∧
      getTreeSize tree2 = 1 ∧
      (∃ before after d, entries (RBNode.mk 10 "A".toList .BLACK .NULL .NULL) =
          before ++ (10, d) :: after ∧
        entries tree2.root = before ++ (10, copyData "B".toList) :: after) ∧
      ∃ c l r, searchNode tree2 10 = .mk 10 (copyData "B".toList) c l r) ∧
    copyData "B".toList = "B".toList :=
  ⟨by decide, insertNode_existing_key { root := .mk 10 "A".toList .BLACK .NULL .NULL, size := 1 }
    10 "B".toList (by decide) (by decide), by decide⟩

/-! ## Further facts for the claims on results, rotations and handles -/

theorem inOrderTraversal_plug_congr (a b : RBNode) (up : List Frame)
    (h : inOrderTraversal a = inOrderTraversal b) :
    inOrderTraversal (plug a up) = inOrderTraversal (plug b up) := by
  induction up generalizing a b with
  | nil => exact h
  | cons f up ih =>
    apply ih
    cases f <;> simp [Frame.fill, inOrderTraversal, h]

theorem inOrderTraversal_rotateLeft (t : RBNode) :
    inOrderTraversal (rotateLeft t) = inOrderTraversal t := by
  cases t with
  | NULL => rfl
  | mk k d c l r =>
    cases r with
    | NULL => rfl
    | mk rk rd rc rl rr => simp [rotateLeft, inOrderTraversal]

theorem inOrderTraversal_rotateRight (t : RBNode) :
    inOrderTraversal (rotateRight t) = inOrderTraversal t := by
  cases t with
  | NULL => rfl
  | mk k d c l r =>
    cases l with
    | NULL => rfl
    | mk lk ld lc ll lr => simp [rotateRight, inOrderTraversal]

/-- Claim C11 as stated fails: `insertNode` returns 1 for the key 10 that the empty tree does
not hold, and returns 1 again for the key 10 that the tree then holds. -/
theorem insertNode_same_result :
    (10 : Int) ∉ keysOf createTree.root ∧
      insertNode createTree 10 "A".toList =
        some ({ root := .mk 10 "A".toList .BLACK .NULL .NULL, size := 1 }, 1) ∧
      (10 : Int) ∈ keysOf (RBNode.mk 10 "A".toList .BLACK .NULL .NULL) ∧
      insertNode { root := .mk 10 "A".toList .BLACK .NULL .NULL, size := 1 } 10 "B".toList =
        some ({ root := .mk 10 "B".toList .BLACK .NULL .NULL, size := 1 }, 1) := by
  decide

/-- Claim C11, amended. The result of `insertNode` does not distinguish the two successful
outcomes: for every ordered tree with a BLACK root, inserting a key that is not present
returns 1 and inserting a key that is present returns 1 as well. The outcomes differ in the
stored size, which grows by one for a new key and is unchanged for a present one. -/
theorem insertNode_result (tree : RBTree) (key : Int) (data : Payload)
    (ho : Ordered tree.root) (hb : RB2 tree.root) :
    ∃ tree2, insertNode tree key data = some (tree2, 1) ∧
      (key ∉ keysOf tree.root → getTreeSize tree2 = getTreeSize tree + 1) ∧
      (key ∈ keysOf tree.root → getTreeSize tree2 = getTreeSize tree) := by
  by_cases hk : key ∈ keysOf tree.root
  · have hf : searchNode tree key ≠ .NULL := fun h => (searchFrom_eq_NULL_iff key _ ho).1 h hk
    exact ⟨_, insertNode_update tree key data hf, fun h => absurd hk h, fun _ => rfl⟩
  · obtain ⟨r2, e1, -⟩ := insertNode_new tree key data ho hb hk
    exact ⟨_, e1, fun _ => rfl, fun h => absurd h hk⟩

/-- Witness for the amended claim C11 on the tree of the demonstration: the key 6 is new, the
key 5 is present, and both calls return 1. -/
theorem insertNode_result_witness :
    (Ordered demoTree.root ∧ RB2 demoTree.root) ∧
    (∃ tree2, insertNode demoTree 6 [] = some (tree2, 1) ∧
      ((6 : Int) ∉ keysOf demoTree.root → getTreeSize tree2 = getTreeSize demoTree + 1) ∧
      ((6 : Int) ∈ keysOf demoTree.root → getTreeSize tree2 = getTreeSize demoTree)) ∧
    (6 : Int) ∉ keysOf demoTree.root ∧ (5 : Int) ∈ keysOf demoTree.root ∧
    (insertNode demoTree 6 []).map (fun res => (getTreeSize res.1, res.2)) = some (10, 1) ∧
    (insertNode demoTree 5 []).map (fun res => (getTreeSize res.1, res.2)) = some (9, 1) :=
  ⟨by decide, insertNode_result demoTree 6 [] (by decide) (by decide), by decide⟩

/-- Claim C12. For every tree satisfying the ordering invariant and every key, `deleteNode`
returns 0 if and only if the key is not stored in the tree, and in that case the tree (shape,
keys, payloads, colors, size) is left unchanged. -/
theorem deleteNode_zero_iff (tree : RBTree) (key : Int) (ho : Ordered tree.root) :
    ∃ tree2 res, deleteNode tree key = some (tree2, res) ∧
      (res = 0 ↔ key ∉ keysOf tree.root) ∧ (res = 0 → tree2 = tree) := by
  by_cases hk : key ∈ keysOf tree.root
  · have hf : searchNode tree key ≠ .NULL := fun h => (searchFrom_eq_NULL_iff key _ ho).1 h hk
    obtain ⟨r2, e1, -⟩ := deleteNode_found tree key hf
    exact ⟨_, 1, e1, by simp [hk], by simp⟩
  · have hf : searchNode tree key = .NULL := (searchFrom_eq_NULL_iff key _ ho).2 hk
    exact ⟨tree, 0, deleteNode_not_found tree key hf, by simp [hk], fun _ => rfl⟩

/-- Witness for claim C12 on the tree of the demonstration: the key 4 is not stored and
`deleteNode` returns 0 and leaves the tree; the key 5 is stored and `deleteNode` returns 1. -/
theorem deleteNode_zero_iff_witness :
    Ordered demoTree.root ∧
    (∃ tree2 res, deleteNode demoTree 4 = some (tree2, res) ∧
      (res = 0 ↔ (4 : Int) ∉ keysOf demoTree.root) ∧ (res = 0 → tree2 = demoTree)) ∧
    deleteNode demoTree 4 = some (demoTree, 0) ∧
    (deleteNode demoTree 5).map (fun res => res.2) = some 1 :=
  ⟨by decide, deleteNode_zero_iff demoTree 4 (by decide), by decide⟩

/-- Claim C16, evaluated where the code departs from it. `validateRBTree` tests the color of
the root and nothing else: it returns 1 for the tree that `deleteNode(tree, 15)` leaves of the
tree of the keys 10, 5, 15, 3, which violates RB5; for a tree with a RED node below a RED
node, which violates RB4; for a tree whose left child holds a greater key than the root; and
for a tree whose stored size is not its node count. -/
theorem validateRBTree_accepts_invalid :
    (runOps [.insert 10 [], .insert 5 [], .insert 15 [], .insert 3 [], .delete 15]
        createTree = some threeKeyTree ∧
      ¬ RB5 threeKeyTree.root ∧ validateRBTree threeKeyTree = 1) ∧
    (¬ RB4 (.mk 10 [] .BLACK (.mk 5 [] .RED (.mk 3 [] .RED .NULL .NULL) .NULL) .NULL) ∧
      validateRBTree
        { root := .mk 10 [] .BLACK (.mk 5 [] .RED (.mk 3 [] .RED .NULL .NULL) .NULL) .NULL,
          size := 3 } = 1) ∧
    (¬ Ordered (.mk 10 [] .BLACK (.mk 20 [] .RED .NULL .NULL) .NULL) ∧
      validateRBTree
        { root := .mk 10 [] .BLACK (.mk 20 [] .RED .NULL .NULL) .NULL, size := 2 } = 1) ∧
    ((7 : Int) ≠ (countNodes (.mk 10 [] .BLACK .NULL .NULL) : Int) ∧
      validateRBTree { root := .mk 10 [] .BLACK .NULL .NULL, size := 7 } = 1) := by
  decide

/-- Claim C17. For every tree and every node in it, `rotateLeft` and `rotateRight` leave the
in-order sequence of (key, payload, color) triples and the number of nodes unchanged, and
when the pivot child (the right child for `rotateLeft`, the left child for `rotateRight`) is
absent, or the node itself is, the tree is left completely unchanged. -/
theorem rotations_keep_inorder (node : RBNode) (up : List Frame) (k : Int) (d : Payload)
    (c : Color) (child : RBNode) :
    inOrderTraversal (plug (rotateLeft node) up) = inOrderTraversal (plug node up) ∧
      inOrderTraversal (plug (rotateRight node) up) = inOrderTraversal (plug node up) ∧
      countNodes (plug (rotateLeft node) up) = countNodes (plug node up) ∧
      countNodes (plug (rotateRight node) up) = countNodes (plug node up) ∧
      plug (rotateLeft (.mk k d c child .NULL)) up = plug (.mk k d c child .NULL) up ∧
      plug (rotateRight (.mk k d c .NULL child)) up = plug (.mk k d c .NULL child) up ∧
      plug (rotateLeft .NULL) up = plug .NULL up ∧
      plug (rotateRight .NULL) up = plug .NULL up := by
  have h1 := inOrderTraversal_plug_congr _ _ up (inOrderTraversal_rotateLeft node)
  have h2 := inOrderTraversal_plug_congr _ _ up (inOrderTraversal_rotateRight node)
  refine ⟨h1, h2, ?_, ?_, rfl, rfl, rfl, rfl⟩
  · rw [countNodes_eq_length, countNodes_eq_length, h1]
  · rw [countNodes_eq_length, countNodes_eq_length, h2]

/-- Claim C18. For the empty tree returned by `createTree`: `getTreeSize` is 0, `isEmpty` is
1, `getHeight` of the root is 0, `validateRBTree` returns 1, and `deleteNode` with any key
returns 0 and leaves the tree empty. -/
theorem createTree_empty (key : Int) :
    getTreeSize createTree = 0 ∧ isEmpty createTree = 1 ∧ getHeight createTree.root = 0 ∧
      validateRBTree createTree = 1 ∧ deleteNode createTree key = some (createTree, 0) ∧
      createTree.root = .NULL := by
  refine ⟨rfl, rfl, rfl, rfl, rfl, rfl⟩

/-- Claim C19. A NULL tree pointer makes every operation fail without effect: `insertNode`
returns 0, `deleteNode` returns 0, `searchNode` returns NULL, `getTreeSize` returns 0,
`isEmpty` returns 1 and `validateRBTree` returns 0; and `insertNode` with a present tree and
a NULL payload returns 0 and leaves the tree unchanged. -/
theorem null_handle_results (t : RBTree) (key : Int) (data : Option Payload) :
    insertNodeHandle none key data = some (none, 0) ∧
      deleteNodeHandle none key = some (none, 0) ∧
      searchNodeHandle none key = .NULL ∧
      getTreeSizeHandle none = 0 ∧
      isEmptyHandle none = 1 ∧
      validateRBTreeHandle none = 0 ∧
      insertNodeHandle (some t) key none = some (some t, 0) := by
  refine ⟨?_, rfl, rfl, rfl, rfl, rfl, rfl⟩
  cases data <;> rfl

/-! ## Deleting all keys -/

theorem keysOf_eq_nil (t : RBNode) (h : keysOf t = []) : t = .NULL := by
  cases t with
  | NULL => rfl
  | mk k d c l r => simp at h

theorem deleteAll_spec (ks : List Int) (t : RBTree) (hi : SeqInv t) (hd : ks.Nodup)
    (hm : ∀ k, k ∈ ks ↔ k ∈ keysOf t.root) :
    ∃ t2, deleteAll ks t = some (t2, List.replicate ks.length 1) ∧ SeqInv t2 ∧
      t2.root = .NULL := by
  induction ks generalizing t with
  | nil =>
    refine ⟨t, rfl, hi, ?_⟩
    apply keysOf_eq_nil
    apply List.eq_nil_iff_forall_not_mem.2
    intro k hk
    exact absurd ((hm k).2 hk) (List.not_mem_nil k)
  | cons k ks ih =>
    have hk : k ∈ keysOf t.root := (hm k).1 (List.mem_cons_self k ks)
    have hf : searchNode t k ≠ .NULL := fun h => (searchFrom_eq_NULL_iff k _ hi.2.1).1 h hk
    obtain ⟨r2, e1, -⟩ := deleteNode_found t k hf
    obtain ⟨t2, f1, f2, f3⟩ := delete_run_spec t k hi
    have ht2 : t2 = { root := r2, size := t.size - 1 } := by
      simp only [Op.run, e1, Option.map_some', Option.some.injEq] at f1
      exact f1.symm
    subst ht2
    rw [List.nodup_cons] at hd
    have hm2 : ∀ k2, k2 ∈ ks ↔ k2 ∈ keysOf r2 := by
      intro k2
      rw [mem_keysOf_iff]
      constructor
      · intro h2
        have hne : k2 ≠ k := fun h => hd.1 (h ▸ h2)
        obtain ⟨d, hd2⟩ := (mem_keysOf_iff _ _).1 ((hm k2).1 (List.mem_cons_of_mem k h2))
        exact ⟨d, (f3 k2 d).2 ⟨hne, hd2⟩⟩
      · rintro ⟨d, h2⟩
        obtain ⟨hne, h3⟩ := (f3 k2 d).1 h2
        have := (hm k2).2 ((mem_keysOf_iff _ _).2 ⟨d, h3⟩)
        rcases List.mem_cons.1 this with h | h
        · exact absurd h hne
        · exact h
    obtain ⟨t3, g1, g2, g3⟩ := ih _ f2 hd.2 hm2
    refine ⟨t3, ?_, g2, g3⟩
    simp [deleteAll, e1, g1, List.replicate_succ]

/-- Claim C13. For every list of pairs with distinct keys and every permutation of its keys,
inserting all pairs into the empty tree and then deleting the keys in the permuted order makes
every `deleteNode` return 1 and leaves `getTreeSize` equal to 0, the root absent and `isEmpty`
equal to 1. -/
theorem insert_then_delete_all (kvs : List (Int × Payload)) (ks : List Int)
    (hd : (kvs.map (fun kv => kv.1)).Nodup) (hp : ks.Perm (kvs.map (fun kv => kv.1))) :
    ∃ t1 t2, runOps (kvs.map (fun kv => Op.insert kv.1 kv.2)) createTree = some t1 ∧
      deleteAll ks t1 = some (t2, List.replicate ks.length 1) ∧
      getTreeSize t2 = 0 ∧ t2.root = .NULL ∧ isEmpty t2 = 1 := by
  obtain ⟨t1, h1, h2, h3⟩ := runOps_spec (kvs.map (fun kv => Op.insert kv.1 kv.2))
  have hm : ∀ k, k ∈ ks ↔ k ∈ keysOf t1.root := by
    intro k
    rw [hp.mem_iff, ← lastCall_inserts, mem_keysOf_iff]
    constructor
    · rintro ⟨d0, e⟩
      exact ⟨copyData d0, (h3 k _).2 ⟨d0, e, rfl⟩⟩
    · rintro ⟨d, hm⟩
      obtain ⟨d0, e, -⟩ := (h3 k d).1 hm
      exact ⟨d0, e⟩
  obtain ⟨t2, g1, g2, g3⟩ := deleteAll_spec ks t1 h2 (hp.nodup_iff.2 hd) hm
  refine ⟨t1, t2, h1, g1, ?_, g3, ?_⟩
  · rw [getTreeSize, g2.2.2, g3]
    rfl
  · simp [isEmpty, g3]

/-- Witness for claim C13: the nine pairs of the demonstration, deleted in the order
8, 25, 20, 12, 7, 3, 15, 5, 10. -/
theorem insert_then_delete_all_witness :
    ((demoPairs.map (fun kv => kv.1)).Nodup ∧
      ([8, 25, 20, 12, 7, 3, 15, 5, 10] : List Int).Perm (demoPairs.map (fun kv => kv.1))) ∧
    (∃ t1 t2, runOps (demoPairs.map (fun kv => Op.insert kv.1 kv.2)) createTree = some t1 ∧
      deleteAll [8, 25, 20, 12, 7, 3, 15, 5, 10] t1 =
        some (t2, List.replicate ([8, 25, 20, 12, 7, 3, 15, 5, 10] : List Int).length 1) ∧
      getTreeSize t2 = 0 ∧ t2.root = .NULL ∧ isEmpty t2 = 1) ∧
    deleteAll [8, 25, 20, 12, 7, 3, 15, 5, 10] demoTree =
      some ({ root := .NULL, size := 0 }, [1, 1, 1, 1, 1, 1, 1, 1, 1]) :=
  ⟨by decide, insert_then_delete_all demoPairs [8, 25, 20, 12, 7, 3, 15, 5, 10] (by decide)
    (by decide), by decide⟩

/-! ## Minimum, maximum and successor -/

theorem findMaximum_spec (t : RBNode) (up : List Frame) (ht : t ≠ .NULL) :
    ∃ sk sd sc sl within, findMaximum t up = ⟨.mk sk sd sc sl .NULL, within ++ up⟩ ∧
      plug (.mk sk sd sc sl .NULL) within = t ∧ rightOf within = [] := by
  induction t generalizing up with
  | NULL => exact absurd rfl ht
  | mk k d c l r _ ihr =>
    cases r with
    | NULL => exact ⟨k, d, c, l, [], rfl, rfl, rfl⟩
    | mk rk rd rc rl rr =>
      obtain ⟨sk, sd, sc, sl, w, e1, e2, e3⟩ := ihr (.inRight k d c l :: up) (by simp)
      refine ⟨sk, sd, sc, sl, w ++ [.inRight k d c l], ?_, ?_, ?_⟩
      · simp only [findMaximum, e1, List.append_assoc, List.singleton_append]
      · rw [plug_append, e2]
        rfl
      · rw [rightOf_append, e3]
        rfl

theorem climbToSuccessor_spec (node : RBNode) (up : List Frame) :
    (climbToSuccessor node up = none → rightOf up = []) ∧
      ∀ s, climbToSuccessor node up = some s →
        plug s.node s.up = plug node up ∧
          ∃ sk sd sc sl sr rest, s.node = .mk sk sd sc sl sr ∧ rightOf up = (sk, sd) :: rest := by
  induction up generalizing node with
  | nil => exact ⟨fun _ => rfl, fun s h => by simp [climbToSuccessor] at h⟩
  | cons f up ih =>
    cases f with
    | inLeft k d c r =>
      refine ⟨fun h => by simp [climbToSuccessor] at h, fun s h => ?_⟩
      simp only [climbToSuccessor, Option.some.injEq] at h
      subst h
      exact ⟨rfl, k, d, c, node, r, _, rfl, rfl⟩
    | inRight k d c l =>
      obtain ⟨h1, h2⟩ := ih (.mk k d c l node)
      exact ⟨fun h => h1 h, fun s h => h2 s h⟩

/-- In a strictly increasing list the element that follows `k` is the least element greater
than `k`, and `k` is the greatest element when nothing follows it. -/
theorem pairwise_next (X Y : List Int) (k : Int) (h : (X ++ k :: Y).Pairwise (· < ·)) :
    (Y = [] → ∀ x ∈ X ++ k :: Y, x ≤ k) ∧
      ∀ s rest, Y = s :: rest → k < s ∧ ∀ x ∈ X ++ k :: Y, k < x → s ≤ x := by
  simp only [List.pairwise_append, List.pairwise_cons, List.mem_cons] at h
  obtain ⟨-, ⟨p2, p3⟩, p4⟩ := h
  constructor
  · rintro rfl x hx
    simp only [List.mem_append, List.mem_cons, List.not_mem_nil, or_false] at hx
    rcases hx with hx | rfl
    · exact le_of_lt (p4 x hx k (Or.inl rfl))
    · exact le_refl _
  · rintro s rest rfl
    refine ⟨p2 s (List.mem_cons_self _ _), ?_⟩
    intro x hx hlt
    simp only [List.mem_append, List.mem_cons] at hx
    rcases hx with hx | rfl | rfl | hx
    · have := p4 x hx k (Or.inl rfl)
      omega
    · omega
    · exact le_refl _
    · simp only [List.pairwise_cons] at p3
      exact le_of_lt (p3.1 x hx)

theorem keysOf_plug (t : RBNode) (up : List Frame) :
    keysOf (plug t up) =
      (leftOf up).map (fun e => e.1) ++ keysOf t ++ (rightOf up).map (fun e => e.1) := by
  simp [keysOf_eq_map_entries, entries_plug]

/-- Claim C15. For every non-empty subtree satisfying the ordering invariant, `findMinimum`
returns a node of the subtree that holds its smallest key and `findMaximum` a node of the
subtree that holds its largest key; for an absent subtree both return NULL. -/
theorem findMinimum_findMaximum_spec (t : RBNode) (up : List Frame)
    (ht : t ≠ .NULL) (ho : Ordered t) :
    (∃ k d c l r within, findMinimum t up = ⟨.mk k d c l r, within ++ up⟩ ∧
      plug (.mk k d c l r) within = t ∧ k ∈ keysOf t ∧ ∀ x ∈ keysOf t, k ≤ x) ∧
    (∃ k d c l r within, findMaximum t up = ⟨.mk k d c l r, within ++ up⟩ ∧
      plug (.mk k d c l r) within = t ∧ k ∈ keysOf t ∧ ∀ x ∈ keysOf t, x ≤ k) ∧
    (findMinimum .NULL up).node = .NULL ∧ (findMaximum .NULL up).node = .NULL := by
  have hp := (ordered_iff_pairwise _).1 ho
  refine ⟨?_, ?_, rfl, rfl⟩
  · obtain ⟨sk, sd, sc, sr, w, e1, e2, e3⟩ := findMinimum_spec t up ht
    have hk : keysOf t = [] ++ sk :: (keysOf sr ++ (rightOf w).map (fun e => e.1)) := by
      rw [← e2, keysOf_plug, e3]
      simp
    rw [hk] at hp
    refine ⟨sk, sd, sc, .NULL, sr, w, e1, e2, by rw [hk]; simp, ?_⟩
    intro x hx
    rw [hk] at hx
    simp only [List.nil_append, List.mem_cons] at hx
    simp only [List.nil_append, List.pairwise_cons] at hp
    rcases hx with rfl | hx
    · exact le_refl _
    · exact le_of_lt (hp.1 x hx)
  · obtain ⟨sk, sd, sc, sl, w, e1, e2, e3⟩ := findMaximum_spec t up ht
    have hk : keysOf t = ((leftOf w).map (fun e => e.1) ++ keysOf sl) ++ sk :: [] := by
      rw [← e2, keysOf_plug, e3]
      simp
    rw [hk] at hp
    refine ⟨sk, sd, sc, sl, .NULL, w, e1, e2, by rw [hk]; simp, ?_⟩
    rw [hk]
    exact (pairwise_next _ _ _ hp).1 rfl

/-- Witness for claim C15: in the nine-key tree of the demonstration `findMinimum` returns
the node with key 3 and `findMaximum` the node with key 25. -/
theorem findMinimum_findMaximum_witness :
    (demoTree.root ≠ .NULL ∧ Ordered demoTree.root) ∧
    ((∃ k d c l r within, findMinimum demoTree.root [] = ⟨.mk k d c l r, within ++ []⟩ ∧
      plug (.mk k d c l r) within = demoTree.root ∧ k ∈ keysOf demoTree.root ∧
      ∀ x ∈ keysOf demoTree.root, k ≤ x) ∧
    (∃ k d c l r within, findMaximum demoTree.root [] = ⟨.mk k d c l r, within ++ []⟩ ∧
      plug (.mk k d c l r) within = demoTree.root ∧ k ∈ keysOf demoTree.root ∧
      ∀ x ∈ keysOf demoTree.root, x ≤ k) ∧
    (findMinimum .NULL []).node = .NULL ∧ (findMaximum .NULL []).node = .NULL) ∧
    (findMinimum demoTree.root []).node = .mk 3 "Jane Eyre".toList .BLACK .NULL .NULL ∧
    (findMaximum demoTree.root []).node = .mk 25 "Moby Dick".toList .RED .NULL .NULL :=
  ⟨by decide, findMinimum_findMaximum_spec demoTree.root [] (by decide) (by decide), by decide⟩

/-- Claim C14. For every tree satisfying the ordering invariant and every node in it,
`findSuccessor` returns a node of the tree that holds the smallest stored key strictly greater
than the key of the node, and returns NULL exactly when the node holds the largest key. -/
theorem findSuccessor_spec (k : Int) (d : Payload) (c : Color) (l r : RBNode)
    (up : List Frame) (ho : Ordered (plug (.mk k d c l r) up)) :
    (findSuccessor ⟨.mk k d c l r, up⟩ = none ↔
      ∀ x ∈ keysOf (plug (.mk k d c l r) up), x ≤ k) ∧
    ∀ s, findSuccessor ⟨.mk k d c l r, up⟩ = some s →
      plug s.node s.up = plug (.mk k d c l r) up ∧
        ∃ sk sd sc sl sr, s.node = .mk sk sd sc sl sr ∧ k < sk ∧
          ∀ x ∈ keysOf (plug (.mk k d c l r) up), k < x → sk ≤ x := by
  have hp := (ordered_iff_pairwise _).1 ho
  have hk : keysOf (plug (.mk k d c l r) up) =
      ((leftOf up).map (fun e => e.1) ++ keysOf l) ++
        k :: (keysOf r ++ (rightOf up).map (fun e => e.1)) := by
    rw [keysOf_plug]
    simp
  rw [hk] at hp ⊢
  obtain ⟨n1, n2⟩ := pairwise_next _ _ _ hp
  have hsome : ∀ s, findSuccessor ⟨.mk k d c l r, up⟩ = some s →
      plug s.node s.up = plug (.mk k d c l r) up ∧
        ∃ sk sd sc sl sr rest, s.node = .mk sk sd sc sl sr ∧
          keysOf r ++ (rightOf up).map (fun e => e.1) = sk :: rest := by
    intro s hs
    cases r with
    | NULL =>
      obtain ⟨-, c2⟩ := climbToSuccessor_spec (.mk k d c l .NULL) up
      obtain ⟨e1, sk, sd, sc, sl, sr, rest, e2, e3⟩ := c2 s hs
      exact ⟨e1, sk, sd, sc, sl, sr, rest.map (fun e => e.1), e2, by simp [e3]⟩
    | mk rk rd rc rl rr =>
      obtain ⟨sk, sd, sc, sr, w, e1, e2, e3⟩ :=
        findMinimum_spec (.mk rk rd rc rl rr) (.inRight k d c l :: up) (by simp)
      simp only [findSuccessor, Option.some.injEq] at hs
      rw [e1] at hs
      subst hs
      refine ⟨?_, sk, sd, sc, .NULL, sr, keysOf sr ++ (rightOf w).map (fun e => e.1) ++
        (rightOf up).map (fun e => e.1), rfl, ?_⟩
      · simp only [plug_append, e2]
        rfl
      · rw [← e2, keysOf_plug, e3]
        simp
  constructor
  · constructor
    · intro hn
      apply n1
      cases r with
      | NULL =>
        have := (climbToSuccessor_spec (.mk k d c l .NULL) up).1 hn
        simp [this]
      | mk rk rd rc rl rr => simp [findSuccessor] at hn
    · intro hmax
      cases hs : findSuccessor ⟨.mk k d c l r, up⟩ with
      | none => rfl
      | some s =>
        exfalso
        obtain ⟨-, sk, sd, sc, sl, sr, rest, -, e⟩ := hsome s hs
        obtain ⟨h1, -⟩ := n2 sk rest e
        have := hmax sk (by rw [e]; simp)
        omega
  · intro s hs
    obtain ⟨e1, sk, sd, sc, sl, sr, rest, e2, e3⟩ := hsome s hs
    obtain ⟨h1, h2⟩ := n2 sk rest e3
    exact ⟨e1, sk, sd, sc, sl, sr, e2, h1, h2⟩

/-- Witness for claim C14: in the nine-key tree of the demonstration the successor of the node
with key 8 is the node with key 10, the root. -/
theorem findSuccessor_witness :
    (plug (.mk 8 "Pride and Prejudice".toList .RED .NULL .NULL) demoUp8 = demoTree.root ∧
      Ordered (plug (.mk 8 "Pride and Prejudice".toList .RED .NULL .NULL) demoUp8)) ∧
    ((findSuccessor ⟨.mk 8 "Pride and Prejudice".toList .RED .NULL .NULL, demoUp8⟩ = none ↔
      ∀ x ∈ keysOf (plug (.mk 8 "Pride and Prejudice".toList .RED .NULL .NULL) demoUp8),
        x ≤ 8) ∧
    ∀ s, findSuccessor ⟨.mk 8 "Pride and Prejudice".toList .RED .NULL .NULL, demoUp8⟩ =
        some s →
      plug s.node s.up = plug (.mk 8 "Pride and Prejudice".toList .RED .NULL .NULL) demoUp8 ∧
        ∃ sk sd sc sl sr, s.node = .mk sk sd sc sl sr ∧ 8 < sk ∧
          ∀ x ∈ keysOf (plug (.mk 8 "Pride and Prejudice".toList .RED .NULL .NULL) demoUp8),
            8 < x → sk ≤ x) ∧
    findSuccessor ⟨.mk 8 "Pride and Prejudice".toList .RED .NULL .NULL, demoUp8⟩ =
      some ⟨demoTree.root, []⟩ :=
  ⟨by decide, findSuccessor_spec 8 "Pride and Prejudice".toList .RED .NULL .NULL demoUp8
    (by decide), by decide⟩

/-! ## The traversals -/

theorem inOrderVisits_fields (t : RBNode) (up : List Frame) :
    (inOrderVisits t up).map Cursor.fields = (inOrderTraversal t).map some := by
  induction t generalizing up with
  | NULL => rfl
  | mk k d c l r ihl ihr => simp [inOrderVisits, inOrderTraversal, ihl, ihr, Cursor.fields]

theorem preOrderVisits_fields (t : RBNode) (up : List Frame) :
    (preOrderVisits t up).map Cursor.fields = (preOrderTraversal t).map some := by
  induction t generalizing up with
  | NULL => rfl
  | mk k d c l r ihl ihr => simp [preOrderVisits, preOrderTraversal, ihl, ihr, Cursor.fields]

theorem postOrderVisits_fields (t : RBNode) (up : List Frame) :
    (postOrderVisits t up).map Cursor.fields = (postOrderTraversal t).map some := by
  induction t generalizing up with
  | NULL => rfl
  | mk k d c l r ihl ihr => simp [postOrderVisits, postOrderTraversal, ihl, ihr, Cursor.fields]

theorem preOrderVisits_perm (t : RBNode) (up : List Frame) :
    (preOrderVisits t up).Perm (inOrderVisits t up) := by
  induction t generalizing up with
  | NULL => exact List.Perm.refl _
  | mk k d c l r ihl ihr =>
    simp only [preOrderVisits, inOrderVisits]
    exact ((List.Perm.append (ihl _) (ihr _)).cons _).trans List.perm_middle.symm

theorem postOrderVisits_perm (t : RBNode) (up : List Frame) :
    (postOrderVisits t up).Perm (inOrderVisits t up) := by
  induction t generalizing up with
  | NULL => exact List.Perm.refl _
  | mk k d c l r ihl ihr =>
    simp only [postOrderVisits, inOrderVisits]
    refine (List.Perm.append (ihl _) ?_)
    exact (List.perm_append_comm.trans ((ihr _).cons _))

/-- The pointers that the in-order traversal hands over are the nodes of the subtree. -/
theorem mem_inOrderVisits (t : RBNode) (up : List Frame) (cur : Cursor) :
    cur ∈ inOrderVisits t up ↔
      cur.node ≠ .NULL ∧ ∃ w, cur.up = w ++ up ∧ plug cur.node w = t := by
  induction t generalizing up with
  | NULL =>
    simp only [inOrderVisits, List.not_mem_nil, false_iff, not_and, not_exists]
    intro hn w _ hp
    rcases List.eq_nil_or_concat w with rfl | ⟨w2, f, rfl⟩
    · exact hn hp
    · rw [List.concat_eq_append, plug_append] at hp
      cases f <;> simp [Frame.fill] at hp
  | mk k d c l r ihl ihr =>
    simp only [inOrderVisits, List.mem_append, List.mem_cons, ihl, ihr]
    constructor
    · rintro (⟨hn, w, e1, e2⟩ | rfl | ⟨hn, w, e1, e2⟩)
      · refine ⟨hn, w ++ [.inLeft k d c r], by simp [e1], ?_⟩
        rw [plug_append, e2]
        rfl
      · exact ⟨by simp, [], rfl, rfl⟩
      · refine ⟨hn, w ++ [.inRight k d c l], by simp [e1], ?_⟩
        rw [plug_append, e2]
        rfl
    · rintro ⟨hn, w, e1, e2⟩
      rcases List.eq_nil_or_concat w with rfl | ⟨w2, f, rfl⟩
      · right; left
        obtain ⟨node, cup⟩ := cur
        simp only [List.nil_append, plug_nil] at e1 e2
        simp [e1, e2]
      · rw [List.concat_eq_append] at e1 e2
        rw [plug_append] at e2
        cases f with
        | inLeft fk fd fc fr =>
          simp only [plug_cons, plug_nil, Frame.fill, RBNode.mk.injEq] at e2
          obtain ⟨rfl, rfl, rfl, e3, rfl⟩ := e2
          exact Or.inl ⟨hn, w2, by simp [e1], e3⟩
        | inRight fk fd fc fl =>
          simp only [plug_cons, plug_nil, Frame.fill, RBNode.mk.injEq] at e2
          obtain ⟨rfl, rfl, rfl, rfl, e3⟩ := e2
          exact Or.inr (Or.inr ⟨hn, w2, by simp [e1], e3⟩)

theorem inOrderVisits_nodup (t : RBNode) (up : List Frame) : (inOrderVisits t up).Nodup := by
  induction t generalizing up with
  | NULL => exact List.nodup_nil
  | mk k d c l r ihl ihr =>
    simp only [inOrderVisits]
    rw [List.nodup_append]
    refine ⟨ihl _, ?_, ?_⟩
    · rw [List.nodup_cons]
      refine ⟨?_, ihr _⟩
      intro h
      obtain ⟨-, w, e1, -⟩ := (mem_inOrderVisits _ _ _).1 h
      have := congrArg List.length e1
      simp at this
      omega
    · intro a ha hb
      obtain ⟨-, w, e1, -⟩ := (mem_inOrderVisits _ _ _).1 ha
      rcases List.mem_cons.1 hb with rfl | hb
      · have := congrArg List.length e1
        simp at this
        omega
      · obtain ⟨-, w2, e2, -⟩ := (mem_inOrderVisits _ _ _).1 hb
        rw [e1] at e2
        have := (List.append_inj' e2 rfl).2
        simp at this

/-- Claim C20. For every tree, `inOrderTraversal`, `preOrderTraversal` and
`postOrderTraversal` from the root each call the callback exactly once for every reachable
node: the pointers handed over are pairwise distinct, they are exactly the nodes of the tree,
and there are as many as the tree has nodes; each call reads the triple that the traversal
lists. Pre-order visits the root first and post-order visits the root last. -/
theorem traversals_visit_every_node_once (t : RBNode) (k : Int) (d : Payload) (c : Color)
    (l r : RBNode) :
    ((inOrderVisits t []).map Cursor.fields = (inOrderTraversal t).map some ∧
      (preOrderVisits t []).map Cursor.fields = (preOrderTraversal t).map some ∧
      (postOrderVisits t []).map Cursor.fields = (postOrderTraversal t).map some) ∧
    ((inOrderVisits t []).Nodup ∧ (preOrderVisits t []).Nodup ∧
      (postOrderVisits t []).Nodup) ∧
    (∀ cur, (cur ∈ inOrderVisits t [] ↔ cur.node ≠ .NULL ∧ plug cur.node cur.up = t) ∧
      (cur ∈ preOrderVisits t [] ↔ cur.node ≠ .NULL ∧ plug cur.node cur.up = t) ∧
      (cur ∈ postOrderVisits t [] ↔ cur.node ≠ .NULL ∧ plug cur.node cur.up = t)) ∧
    ((inOrderTraversal t).length = countNodes t ∧ (preOrderTraversal t).length = countNodes t ∧
      (postOrderTraversal t).length = countNodes t) ∧
    ((preOrderVisits (.mk k d c l r) []).head? = some ⟨.mk k d c l r, []⟩ ∧
      (preOrderTraversal (.mk k d c l r)).head? = some (k, d, c) ∧
      (postOrderVisits (.mk k d c l r) []).getLast? = some ⟨.mk k d c l r, []⟩ ∧
      (postOrderTraversal (.mk k d c l r)).getLast? = some (k, d, c)) := by
  have hm : ∀ cur, cur ∈ inOrderVisits t [] ↔ cur.node ≠ .NULL ∧ plug cur.node cur.up = t := by
    intro cur
    rw [mem_inOrderVisits]
    simp
  have hlen : ∀ (a : List Cursor) (b : List (Int × Payload × Color)),
      a.map Cursor.fields = b.map some → a.length = b.length := by
    intro a b h
    simpa using congrArg List.length h
  have hi := hlen _ _ (inOrderVisits_fields t [])
  have hpl := hlen _ _ (preOrderVisits_fields t [])
  have hql := hlen _ _ (postOrderVisits_fields t [])
  refine ⟨⟨inOrderVisits_fields t [], preOrderVisits_fields t [], postOrderVisits_fields t []⟩,
    ⟨inOrderVisits_nodup t [], (preOrderVisits_perm t []).nodup_iff.2 (inOrderVisits_nodup t []),
      (postOrderVisits_perm t []).nodup_iff.2 (inOrderVisits_nodup t [])⟩,
    fun cur => ⟨hm cur, by rw [(preOrderVisits_perm t []).mem_iff]; exact hm cur,
      by rw [(postOrderVisits_perm t []).mem_iff]; exact hm cur⟩,
    ⟨(countNodes_eq_length t).symm, ?_, ?_⟩, ⟨rfl, rfl, ?_, ?_⟩⟩
  · rw [← hpl, (preOrderVisits_perm t []).length_eq, hi, countNodes_eq_length]
  · rw [← hql, (postOrderVisits_perm t []).length_eq, hi, countNodes_eq_length]
  · simp [postOrderVisits, ← List.append_assoc]
  · simp [postOrderTraversal, ← List.append_assoc]

/-! ## The range query -/

/-- The pruned collection of a range is the in-order sequence filtered by the bounds. -/
theorem rangeCollect_eq_filter (a b : Int) (t : RBNode) (ho : Ordered t) :
    rangeCollect a b t = (entries t).filter (fun e => decide (a ≤ e.1 ∧ e.1 ≤ b)) := by
  induction t with
  | NULL => simp [rangeCollect, entries, inOrderTraversal]
  | mk k d c l r ihl ihr =>
    obtain ⟨hl, hr, ol, or⟩ := ho
    simp only [rangeCollect, entries_mk, List.filter_append, List.filter_cons, List.filter_nil]
    rw [← ihl ol, ← ihr or]
    congr 1
    · split
      · rfl
      · rename_i h
        rw [ihl ol, eq_comm, List.filter_eq_nil_iff]
        intro e he
        have := hl e.1 (by rw [keysOf_eq_map_entries]; exact List.mem_map_of_mem _ he)
        simp; omega
    · have h2 : (if k < b then rangeCollect a b r else []) = rangeCollect a b r := by
        split
        · rfl
        · rename_i h
          rw [ihr or, eq_comm, List.filter_eq_nil_iff]
          intro e he
          have := hr e.1 (by rw [keysOf_eq_map_entries]; exact List.mem_map_of_mem _ he)
          simp; omega
      rw [h2]
      by_cases h3 : a ≤ k ∧ k ≤ b
      · simp [h3]
      · simp [h3]

/-- C21. On an ordered tree the range query over `[a, b]` with an unbounded cap returns the
stored entries whose key lies in `[a, b]`, in the order of the in-order sequence: its keys are
exactly the stored keys `k` with `a ≤ k ≤ b`, each once, in strictly ascending order, and
nothing is reported as left out. -/
theorem rangeSearch_unbounded (tree : RBTree) (a b : Int) (ho : Ordered tree.root) :
    (rangeSearch tree a b none).1 =
        (entries tree.root).filter (fun e => decide (a ≤ e.1 ∧ e.1 ≤ b)) ∧
      (rangeSearch tree a b none).2 = false ∧
      (∀ k, k ∈ (rangeSearch tree a b none).1.map (fun e => e.1) ↔
        k ∈ keysOf tree.root ∧ a ≤ k ∧ k ≤ b) ∧
      ((rangeSearch tree a b none).1.map (fun e => e.1)).Pairwise (fun x y => x < y) := by
  have h := rangeCollect_eq_filter a b tree.root ho
  have hp := (ordered_iff_pairwise tree.root).1 ho
  refine ⟨by simp [rangeSearch, h], by simp [rangeSearch], ?_, ?_⟩
  · intro k
    simp only [rangeSearch, h, keysOf_eq_map_entries, List.mem_map, List.mem_filter,
      decide_eq_true_eq]
    constructor
    · rintro ⟨e, ⟨he, h1⟩, rfl⟩
      exact ⟨⟨e, he, rfl⟩, h1⟩
    · rintro ⟨⟨e, he, rfl⟩, h1⟩
      exact ⟨e, ⟨he, h1⟩, rfl⟩
  · simp only [rangeSearch, h]
    rw [keysOf_eq_map_entries] at hp
    exact (hp.sublist ((List.filter_sublist _).map _))

/-- The range query of scenario 5 on the tree of the demonstration: the keys 7, 8, 10, 12, 15
without a cap, the first three of them and the flag with the cap 3. -/
theorem rangeSearch_unbounded_witness :
    Ordered demoTree.root ∧
      (rangeSearch demoTree 7 15 none).1.map (fun e => e.1) = [7, 8, 10, 12, 15] ∧
      (rangeSearch demoTree 7 15 (some 3)).1.map (fun e => e.1) = [7, 8, 10] ∧
      (rangeSearch demoTree 7 15 (some 3)).2 = true ∧
      (∀ k, k ∈ (rangeSearch demoTree 7 15 none).1.map (fun e => e.1) ↔
        k ∈ keysOf demoTree.root ∧ 7 ≤ k ∧ k ≤ 15) :=
  ⟨by decide, by decide, by decide, by decide,
    (rangeSearch_unbounded demoTree 7 15 (by decide)).2.2.1⟩

/-! ## The first insertion, the stored payload, and deleting above a RED successor -/

/-- The first 255 characters of a string, written with the length of the string. -/
theorem copyData_eq (data : Payload) :
    copyData data = data.take (min data.length 255) ∧
      copyData data = (if data.length ≤ 255 then data else data.take 255) ∧
      (copyData data).length = min data.length 255 := by
  unfold copyData
  refine ⟨?_, ?_, ?_⟩
  · rcases le_total data.length 255 with h | h
    · rw [min_eq_left h, List.take_of_length_le h, List.take_of_length_le le_rfl]
    · rw [min_eq_right h]
  · split
    · rename_i h
      exact List.take_of_length_le h
    · rfl
  · rw [List.length_take, min_comm]

/-- C22. For every key and payload, `insertNode` on the empty tree of `createTree` returns 1
and leaves a tree of size 1 whose root holds the key and the payload (its first 255
characters, as `createNode` copies them), is BLACK and has two NULL children; the node that
the search for the key reaches is that root, whose parent chain is empty.  Over the heap the
call leaves the size 1 and, at the root, a BLACK node with the key and the payload whose
`left`, `right` and `parent` are NULL. -/
theorem insertNode_empty (key : Int) (data : Payload) :
    insertNode createTree key data =
        some ({ root := .mk key (copyData data) .BLACK .NULL .NULL, size := 1 }, 1) ∧
      findNode key (.mk key (copyData data) .BLACK .NULL .NULL) [] =
        some ⟨.mk key (copyData data) .BLACK .NULL .NULL, []⟩ ∧
      copyData data = data.take (min data.length 255) ∧
      (∃ s, Mem.insertNode Mem.createTree key data = some (s, 1) ∧ s.root = some 0 ∧
        s.mem 0 = some (Mem.Node.mk key (copyData data) .BLACK none none none) ∧
        s.size = 1) :=
  ⟨by simp [insertNode, createTree, createNode, setBlack], by simp [findNode],
    (copyData_eq data).1, ⟨_, rfl, rfl, by simp [Mem.Store.write, Mem.createTree], rfl⟩⟩

/-- C30. On a tree with a BLACK root that is ordered, `insertNode(tree, key, data)` returns 1
and the node that holds `key` afterwards stores the first `min(length(data), 255)` characters
of `data`, whether the key was absent (a node is created) or present (its payload is
overwritten): `data` itself when it has at most 255 characters, its first 255 characters
otherwise. -/
theorem insertNode_stores_prefix (tree : RBTree) (key : Int) (data : Payload)
    (hb : RB2 tree.root) (ho : Ordered tree.root) :
    ∃ tree2 c l r, insertNode tree key data = some (tree2, 1) ∧
      searchNode tree2 key = .mk key (data.take (min data.length 255)) c l r ∧
      data.take (min data.length 255) = (if data.length ≤ 255 then data else data.take 255) ∧
      (data.take (min data.length 255)).length = min data.length 255 := by
  obtain ⟨e1, e2, e3⟩ := copyData_eq data
  rw [← e1]
  by_cases hk : key ∈ keysOf tree.root
  · have hs : searchNode tree key ≠ .NULL := by
      unfold searchNode
      rw [Ne, searchFrom_eq_NULL_iff key tree.root ho]
      exact fun h => h hk
    obtain ⟨_, c, l, r, hf⟩ := setPayload_found key (copyData data) tree.root hs
    exact ⟨_, c, l, r, insertNode_update tree key data hs, hf, e2, e3⟩
  · obtain ⟨root2, hi, _, ho2, ⟨before, after, _, he, _⟩, _⟩ :=
      insertNode_new tree key data ho hb hk
    have hm : (key, copyData data) ∈ entries root2 := by rw [he]; simp
    obtain ⟨c, l, r, hf⟩ := (searchFrom_iff_mem key (copyData data) root2 ho2).2 hm
    exact ⟨_, c, l, r, hi, hf, e2, e3⟩

/-- Witness for claim C30: the key 10 is present in the tree of the demonstration and its
payload is overwritten, here with a short string. -/
theorem insertNode_stores_prefix_witness :
    RB2 demoTree.root ∧ Ordered demoTree.root ∧
      ∃ tree2 c l r, insertNode demoTree 10 "Emma".toList = some (tree2, 1) ∧
        searchNode tree2 10 = .mk 10 ("Emma".toList.take (min "Emma".toList.length 255)) c l r ∧
        "Emma".toList.take (min "Emma".toList.length 255) =
          (if "Emma".toList.length ≤ 255 then "Emma".toList else "Emma".toList.take 255) ∧
        ("Emma".toList.take (min "Emma".toList.length 255)).length =
          min "Emma".toList.length 255 :=
  ⟨by decide, by decide, insertNode_stores_prefix demoTree 10 "Emma".toList (by decide) (by decide)⟩

/-- A RED node without a left child in a tree with RB4 and RB5 has no right child either. -/
theorem red_leftmost_is_leaf (sk : Int) (sd : Payload) (sr : RBNode) (within : List Frame)
    (h4 : RB4 (plug (.mk sk sd .RED .NULL sr) within))
    (h5 : RB5 (plug (.mk sk sd .RED .NULL sr) within)) : sr = .NULL := by
  have a4 := ((RB4_plug _ _).1 h4).1
  have a5 := ((RB5_plug _ _).1 h5).1
  cases sr with
  | NULL => rfl
  | mk k d c l r =>
    cases c <;> simp [RB4, RB5, blackHeight, isBlackOrNull] at a4 a5

/-- C24. In a tree with RB4 and RB5, let the search for `key` reach the node `z` with two
children, and let the leftmost node `s` of the right subtree of `z` be RED.  Then `s` is a
leaf, the tree is `z` with `s` hanging at the end of the path `within` below the right child
of `z`, and `deleteNode(tree, key)` returns 1 and leaves the same tree with the key and
payload of `s` at the position of `z`, which keeps the color and the left child of `z`, and
with NULL where `s` was; the size drops by one. -/
theorem deleteNode_red_successor (tree : RBTree) (key k : Int) (d : Payload) (c : Color)
    (l r : RBNode) (up : List Frame) (sk : Int) (sd : Payload) (sl sr : RBNode)
    (within : List Frame) (h4 : RB4 tree.root) (h5 : RB5 tree.root)
    (hz : findNode key tree.root [] = some ⟨.mk k d c l r, up⟩)
    (hl : l ≠ .NULL) (hr : r ≠ .NULL)
    (hs : findMinimum r [] = ⟨.mk sk sd .RED sl sr, within⟩) :
    k = key ∧ sl = .NULL ∧ sr = .NULL ∧
      tree.root = plug (.mk key d c l (plug (.mk sk sd .RED .NULL .NULL) within)) up ∧
      deleteNode tree key =
        some ({ root := plug (.mk sk sd c l (plug .NULL within)) up, size := tree.size - 1 },
          1) := by
  obtain ⟨hp, d0, c0, l0, r0, he⟩ := findNode_some key tree.root [] _ hz
  simp only [RBNode.mk.injEq] at he
  obtain ⟨rfl, -, -, -, -⟩ := he
  obtain ⟨sk2, sd2, sc2, sr2, w2, hm, hpl, -⟩ := findMinimum_spec r [] hr
  rw [hs] at hm
  simp only [List.append_nil, Cursor.mk.injEq, RBNode.mk.injEq] at hm
  obtain ⟨⟨rfl, rfl, rfl, rfl, rfl⟩, rfl⟩ := hm
  simp only [plug_nil] at hp
  rw [← hp, RB4_plug] at h4
  rw [← hp, RB5_plug] at h5
  have r4 : RB4 r := h4.1.2.2
  have r5 : RB5 r := h5.1.2.2
  rw [← hpl] at r4 r5
  have hsr := red_leftmost_is_leaf sk sd sr within r4 r5
  subst hsr
  refine ⟨rfl, rfl, rfl, by rw [hpl]; exact hp.symm, ?_⟩
  unfold deleteNode
  rw [hz]
  cases l with
  | NULL => exact absurd rfl hl
  | mk lk ld lc ll lr =>
    cases r with
    | NULL => exact absurd rfl hr
    | mk rk rd rc rl rr =>
      simp only [unlinkNode, hs]
      cases within with
      | nil => simp [Frame.fill]
      | cons f w => simp [plug_append, Frame.fill]

/-- Witness for claim C24: in the tree of the keys 10, 5, 15, 12 the root 10 has two children
and its successor 12 is a RED leaf; deleting 10 puts 12 at the root. -/
theorem deleteNode_red_successor_witness :
    runOps [.insert 10 [], .insert 5 [], .insert 15 [], .insert 12 []] createTree =
        some redSuccessorTree ∧
      deleteNode redSuccessorTree 10 =
        some ({ root := .mk 12 [] .BLACK (.mk 5 [] .BLACK .NULL .NULL)
                  (.mk 15 [] .BLACK .NULL .NULL),
                size := 3 }, 1) :=
  ⟨by decide, (deleteNode_red_successor redSuccessorTree 10 10 [] .BLACK
    (.mk 5 [] .BLACK .NULL .NULL) (.mk 15 [] .BLACK (.mk 12 [] .RED .NULL .NULL) .NULL) []
    12 [] .NULL .NULL [.inLeft 15 [] .BLACK .NULL] (by decide) (by decide) (by decide)
    (by decide) (by decide) (by decide)).2.2.2.2⟩

/-! ## The sibling that `fixDelete` examines -/

/-- Claim C23, evaluated where the code departs from it.  The tree left by inserting 10, 5, 15
and 3 satisfies RB2, RB4, RB5 and the ordering invariant; `deleteNode` for 15 finds the BLACK
leaf 15, the right child of the root, and calls `fixDelete` at the vacated NULL right slot
below the root.  The loop condition holds there; the sibling the iteration examines is
`parent->right`, the vacated slot itself, which is NULL, while the child of the parent on the
opposite side is the node 5; the iteration takes the sibling-absent branch and moves up to
the root without recolouring anything. -/
theorem fixDelete_takes_sibling_absent_branch :
    runOps [.insert 10 [], .insert 5 [], .insert 15 [], .insert 3 []] createTree =
        some fourKeyTree ∧
      RB2 fourKeyTree.root ∧ RB4 fourKeyTree.root ∧ RB5 fourKeyTree.root ∧
      Ordered fourKeyTree.root ∧
      findNode 15 fourKeyTree.root [] =
        some ⟨.mk 15 [] .BLACK .NULL .NULL,
          [.inRight 10 [] .BLACK (.mk 5 [] .BLACK (.mk 3 [] .RED .NULL .NULL) .NULL)]⟩ ∧
      unlinkNode .BLACK .NULL .NULL
          [.inRight 10 [] .BLACK (.mk 5 [] .BLACK (.mk 3 [] .RED .NULL .NULL) .NULL)] =
        some (.BLACK, ⟨.NULL,
          [.inRight 10 [] .BLACK (.mk 5 [] .BLACK (.mk 3 [] .RED .NULL .NULL) .NULL)]⟩) ∧
      isBlackOrNull .NULL = true ∧
      examinedSibling ⟨.NULL,
          [.inRight 10 [] .BLACK (.mk 5 [] .BLACK (.mk 3 [] .RED .NULL .NULL) .NULL)]⟩ =
        some .NULL ∧
      oppositeChild ⟨.NULL,
          [.inRight 10 [] .BLACK (.mk 5 [] .BLACK (.mk 3 [] .RED .NULL .NULL) .NULL)]⟩ =
        some (.mk 5 [] .BLACK (.mk 3 [] .RED .NULL .NULL) .NULL) ∧
      fixDeleteBody ⟨.NULL,
          [.inRight 10 [] .BLACK (.mk 5 [] .BLACK (.mk 3 [] .RED .NULL .NULL) .NULL)]⟩ =
        some ⟨.mk 10 [] .BLACK (.mk 5 [] .BLACK (.mk 3 [] .RED .NULL .NULL) .NULL) .NULL, []⟩ := by
  decide

/-! ## The height of a tree built by insertions -/

/-- With RB4 and RB5 the height is at most twice the black height, plus one below a RED
root. -/
theorem getHeight_le (t : RBNode) (h4 : RB4 t) (h5 : RB5 t) :
    getHeight t ≤ 2 * blackHeight t + (if isRed t = true then 1 else 0) := by
  induction t with
  | NULL => simp [getHeight]
  | mk k d c l r ihl ihr =>
    obtain ⟨hc, l4, r4⟩ := h4
    obtain ⟨hb, l5, r5⟩ := h5
    have il := ihl l4 l5
    have ir := ihr r4 r5
    simp only [getHeight, blackHeight, isRed_mk]
    cases c with
    | BLACK =>
      simp only [if_true, reduceCtorEq, decide_False, Bool.false_eq_true, if_false]
      split <;> split at il <;> split at ir <;> omega
    | RED =>
      obtain ⟨bl, br⟩ := hc rfl
      rw [isBlackOrNull_eq_not_isRed] at bl br
      simp only [Bool.not_eq_true'] at bl br
      simp only [bl, br, Bool.false_eq_true, if_false] at il ir
      simp only [reduceCtorEq, if_false, decide_True, if_true]
      split <;> omega

/-- With RB5 a tree of black height `b` holds at least `2 ^ b - 1` nodes. -/
theorem two_pow_blackHeight_le (t : RBNode) (h5 : RB5 t) :
    2 ^ blackHeight t ≤ countNodes t + 1 := by
  induction t with
  | NULL => simp [blackHeight, countNodes]
  | mk k d c l r ihl ihr =>
    obtain ⟨hb, l5, r5⟩ := h5
    have il := ihl l5
    have ir := ihr r5
    rw [← hb] at ir
    simp only [blackHeight, countNodes]
    have : 2 ^ (blackHeight l + if c = Color.BLACK then 1 else 0) ≤ 2 ^ (blackHeight l + 1) :=
      Nat.pow_le_pow_right (by decide) (by split <;> omega)
    rw [pow_succ] at this
    omega

/-- One `insertNode` call keeps RB2, RB4, RB5, the ordering and the size. -/
theorem insert_run_rb (t : RBTree) (k : Int) (d : Payload) (h : SeqInv t) (h4 : RB4 t.root)
    (h5 : RB5 t.root) :
    ∃ t2, (Op.insert k d).run t = some t2 ∧ SeqInv t2 ∧ RB4 t2.root ∧ RB5 t2.root := by
  obtain ⟨t2, hr, hs, -⟩ := insert_run_spec t k d h
  refine ⟨t2, hr, hs, ?_⟩
  simp only [Op.run] at hr
  by_cases hf : searchNode t k = .NULL
  · have hk : k ∉ keysOf t.root := (searchFrom_eq_NULL_iff k _ h.2.1).1 hf
    obtain ⟨r2, e1, -, -, -, e4⟩ := insertNode_new t k d h.2.1 h.1 hk
    rw [e1] at hr
    simp only [Option.map_some', Option.some.injEq] at hr
    subst hr
    exact e4 h4 h5
  · obtain ⟨-, i2, i3, -⟩ := invariants_of_erasePayloads_eq t.root
      (setPayload k (copyData d) t.root) (erasePayloads_setPayload _ _ _)
    rw [insertNode_update t k d hf] at hr
    simp only [Option.map_some', Option.some.injEq] at hr
    subst hr
    exact ⟨i2.2 h4, i3.2 h5⟩

/-- A sequence of `insertNode` calls keeps RB2, RB4, RB5, the ordering and the size. -/
theorem runOps_inserts_rb (kvs : List (Int × Payload)) (t : RBTree) (h : SeqInv t)
    (h4 : RB4 t.root) (h5 : RB5 t.root) :
    ∃ t2, runOps (kvs.map (fun kv => Op.insert kv.1 kv.2)) t = some t2 ∧ SeqInv t2 ∧
      RB4 t2.root ∧ RB5 t2.root := by
  induction kvs generalizing t with
  | nil => exact ⟨t, rfl, h, h4, h5⟩
  | cons kv kvs ih =>
    obtain ⟨t1, e1, s1, a4, a5⟩ := insert_run_rb t kv.1 kv.2 h h4 h5
    obtain ⟨t2, e2, s2, b4, b5⟩ := ih t1 s1 a4 a5
    exact ⟨t2, by simp [runOps, e1, e2], s2, b4, b5⟩

/-- C29. Every tree built from `createTree` by `insertNode` calls only is balanced: with
`n = getTreeSize(tree)` and `h = getHeight(tree->root)`, `2 ^ ceil(h / 2) ≤ n + 1`, and so `h`
is at most twice the binary logarithm of `n + 1` (rounded down). -/
theorem insert_only_tree_balanced (kvs : List (Int × Payload)) :
    ∃ t, runOps (kvs.map (fun kv => Op.insert kv.1 kv.2)) createTree = some t ∧
      (2 : Int) ^ ((getHeight t.root + 1) / 2) ≤ getTreeSize t + 1 ∧
      getHeight t.root ≤ 2 * Nat.log 2 (getTreeSize t + 1).toNat := by
  obtain ⟨t, hr, ⟨h2, -, hn⟩, h4, h5⟩ := runOps_inserts_rb kvs createTree
    (by simp [SeqInv, createTree, RB2, isBlackOrNull, Ordered, countNodes])
    (by simp [createTree, RB4]) (by simp [createTree, RB5])
  have hh := getHeight_le t.root h4 h5
  have hp := two_pow_blackHeight_le t.root h5
  have hred : isRed t.root = false := by
    have := h2
    rw [RB2, isBlackOrNull_eq_not_isRed] at this
    simpa using this
  simp only [hred, Bool.false_eq_true, if_false, Nat.add_zero] at hh
  have hc : (getHeight t.root + 1) / 2 ≤ blackHeight t.root := by omega
  have hq : 2 ^ ((getHeight t.root + 1) / 2) ≤ countNodes t.root + 1 :=
    le_trans (Nat.pow_le_pow_right (by decide) hc) hp
  refine ⟨t, hr, ?_, ?_⟩
  · simp only [getTreeSize, hn]
    exact_mod_cast hq
  · simp only [getTreeSize, hn]
    have e : ((countNodes t.root : Int) + 1).toNat = countNodes t.root + 1 := by omega
    rw [e]
    have := Nat.le_log_of_pow_le (by decide : 1 < 2) hq
    omega

/-! ## The heap and the tree values -/

theorem ARep_congr (m m2 : Nat → Option Mem.Node) (t : ANode) (par : Mem.Ptr)
    (h : ∀ a ∈ t.addrs, m2 a = m a) : ARep m2 t par ↔ ARep m t par := by
  induction t generalizing par with
  | NULL => simp [ARep]
  | mk a k d c l r ihl ihr =>
    simp only [ARep]
    rw [ihl (some a) (fun x hx => h x (by simp [ANode.addrs, hx])),
      ihr (some a) (fun x hx => h x (by simp [ANode.addrs, hx])), h a (by simp [ANode.addrs])]

theorem ARepUp_congr (m m2 : Nat → Option Mem.Node) (root : Mem.Ptr) (up : List AFrame)
    (hole : Mem.Ptr) (h : ∀ a ∈ upAddrs up, m2 a = m a) :
    ARepUp m2 root up hole ↔ ARepUp m root up hole := by
  induction up generalizing hole with
  | nil => simp [ARepUp]
  | cons f up ih =>
    cases f with
    | inLeft a k d c r =>
      simp only [ARepUp]
      rw [ih (some a) (fun x hx => h x (by simp [upAddrs, hx])),
        ARep_congr m m2 r (some a) (fun x hx => h x (by simp [upAddrs, AFrame.addrs, hx])),
        h a (by simp [upAddrs, AFrame.addrs])]
    | inRight a k d c l =>
      simp only [ARepUp]
      rw [ih (some a) (fun x hx => h x (by simp [upAddrs, hx])),
        ARep_congr m m2 l (some a) (fun x hx => h x (by simp [upAddrs, AFrame.addrs, hx])),
        h a (by simp [upAddrs, AFrame.addrs])]

theorem ARep_update (m : Nat → Option Mem.Node) (t : ANode) (par : Mem.Ptr) (a : Nat)
    (v : Option Mem.Node) (h : a ∉ t.addrs) :
    ARep (Function.update m a v) t par ↔ ARep m t par :=
  ARep_congr m _ t par (fun x hx => Function.update_noteq (by rintro rfl; exact h hx) _ _)

theorem ARepUp_update (m : Nat → Option Mem.Node) (root : Mem.Ptr) (up : List AFrame)
    (hole : Mem.Ptr) (a : Nat) (v : Option Mem.Node) (h : a ∉ upAddrs up) :
    ARepUp (Function.update m a v) root up hole ↔ ARepUp m root up hole :=
  ARepUp_congr m _ root up hole (fun x hx => Function.update_noteq (by rintro rfl; exact h hx) _ _)

theorem addrs_fill_perm (t : ANode) (f : AFrame) (up : List AFrame) :
    (ACursor.mk t (f :: up)).addrs.Perm (ACursor.mk (f.fill t) up).addrs := by
  cases f with
  | inLeft a k d c r =>
    simp [ACursor.addrs, upAddrs, AFrame.addrs, AFrame.fill, ANode.addrs]
  | inRight a k d c l =>
    simp only [ACursor.addrs, upAddrs, AFrame.addrs, AFrame.fill, ANode.addrs]
    rw [← List.append_assoc]
    exact (List.perm_append_comm.trans List.perm_middle.symm).append_right _

theorem LRep_fill (s : Mem.Store) (t : ANode) (f : AFrame) (up : List AFrame) :
    LRep s ⟨t, f :: up⟩ ↔ LRep s ⟨f.fill t, up⟩ := by
  have hp := addrs_fill_perm t f up
  unfold LRep
  rw [hp.nodup_iff]
  simp only [hp.mem_iff]
  cases f <;> simp only [ARep, ARepUp, AFrame.fill, upPtr, AFrame.addr, ANode.ptr] <;> tauto


@[simp] theorem write_mem (s : Mem.Store) (a : Nat) (nd : Mem.Node) :
    (s.write a nd).mem = Function.update s.mem a (some nd) := rfl

@[simp] theorem write_root (s : Mem.Store) (a : Nat) (nd : Mem.Node) :
    (s.write a nd).root = s.root := rfl

@[simp] theorem write_next (s : Mem.Store) (a : Nat) (nd : Mem.Node) :
    (s.write a nd).next = s.next := rfl

@[simp] theorem write_size (s : Mem.Store) (a : Nat) (nd : Mem.Node) :
    (s.write a nd).size = s.size := rfl

theorem LRep_mem (s : Mem.Store) (a : Nat) (k : Int) (d : Payload) (c : Color) (l r : ANode)
    (up : List AFrame) (h : LRep s ⟨.mk a k d c l r, up⟩) :
    s.mem a = some (Mem.Node.mk k d c l.ptr r.ptr (upPtr up)) := h.1.1

theorem ptr_mem_addrs (t : ANode) (x : Nat) (h : t.ptr = some x) : x ∈ t.addrs := by
  cases t with
  | NULL => simp [ANode.ptr] at h
  | mk a k d c l r =>
    simp only [ANode.ptr, Option.some.injEq] at h
    simp [ANode.addrs, h]

theorem setColor_focus (s : Mem.Store) (a : Nat) (k : Int) (d : Payload) (c : Color)
    (l r : ANode) (up : List AFrame) (c2 : Color) (h : LRep s ⟨.mk a k d c l r, up⟩) :
    ∃ s2, s.setColor (some a) c2 = some s2 ∧ LRep s2 ⟨.mk a k d c2 l r, up⟩ ∧
      s2.next = s.next ∧ s2.size = s.size ∧ s2.root = s.root := by
  obtain ⟨⟨hm, hl, hr⟩, hu, hnd, hb⟩ := h
  dsimp only at hm hu hb
  simp only [ANode.ptr] at hu
  have hnd2 := hnd
  simp only [ACursor.addrs, ANode.addrs, List.nodup_append, List.nodup_cons, List.mem_append,
    List.mem_cons, List.disjoint_cons_left, List.disjoint_cons_right,
    List.disjoint_append_left, List.disjoint_append_right, not_or] at hnd2
  refine ⟨s.write a (Mem.Node.mk k d c2 l.ptr r.ptr (upPtr up)), ?_, ?_, rfl, rfl, rfl⟩
  · simp [Mem.Store.setColor, Mem.Store.modify, hm]
  refine ⟨⟨by simp, ?_, ?_⟩, ?_, hnd, hb⟩
  · exact (ARep_update _ _ _ _ _ (by tauto)).2 hl
  · exact (ARep_update _ _ _ _ _ (by tauto)).2 hr
  · exact (ARepUp_update _ _ _ _ _ _ (by tauto)).2 hu

@[simp] theorem ptr_mk (a : Nat) (k : Int) (d : Payload) (c : Color) (l r : ANode) :
    (ANode.mk a k d c l r).ptr = some a := rfl

@[simp] theorem ptr_NULL : ANode.NULL.ptr = none := rfl

theorem ptr_ne_of_not_mem (t : ANode) (a : Nat) (h : a ∉ t.addrs) : t.ptr ≠ some a :=
  fun e => h (ptr_mem_addrs t a e)

theorem deref_some (s : Mem.Store) (a : Nat) : s.deref (some a) = s.mem a := rfl

theorem key_some (s : Mem.Store) (a : Nat) :
    s.key (some a) = (s.mem a).map fun nd => nd.key := rfl

theorem color_some (s : Mem.Store) (a : Nat) :
    s.color (some a) = (s.mem a).map fun nd => nd.color := rfl

theorem left_some (s : Mem.Store) (a : Nat) :
    s.left (some a) = (s.mem a).map fun nd => nd.left := rfl

theorem right_some (s : Mem.Store) (a : Nat) :
    s.right (some a) = (s.mem a).map fun nd => nd.right := rfl

theorem parent_some (s : Mem.Store) (a : Nat) :
    s.parent (some a) = (s.mem a).map fun nd => nd.parent := rfl

theorem modify_some (s : Mem.Store) (a : Nat) (f : Mem.Node → Mem.Node) :
    s.modify (some a) f = (s.mem a).map fun nd => s.write a (f nd) := by
  simp only [Mem.Store.modify]
  cases s.mem a <;> rfl

@[simp] theorem upPtr_nil : upPtr [] = none := rfl

@[simp] theorem upPtr_cons (f : AFrame) (up : List AFrame) : upPtr (f :: up) = some f.addr := rfl

@[simp] theorem addr_inLeft (a : Nat) (k : Int) (d : Payload) (c : Color) (r : ANode) :
    (AFrame.inLeft a k d c r).addr = a := rfl

@[simp] theorem addr_inRight (a : Nat) (k : Int) (d : Payload) (c : Color) (l : ANode) :
    (AFrame.inRight a k d c l).addr = a := rfl


/-- The statement `if (p != NULL) p->parent = q` on the root of a subtree. -/
theorem condSetParent_spec (s : Mem.Store) (t : ANode) (par q : Mem.Ptr)
    (h : ARep s.mem t par) (hd : t.addrs.Nodup) :
    ∃ s2, Mem.condSetParent s t.ptr q = some s2 ∧ ARep s2.mem t q ∧
      (∀ y, t.ptr ≠ some y → s2.mem y = s.mem y) ∧
      s2.root = s.root ∧ s2.next = s.next ∧ s2.size = s.size := by
  cases t with
  | NULL => exact ⟨s, by simp [Mem.condSetParent], trivial, fun _ _ => rfl, rfl, rfl, rfl⟩
  | mk x xk xd xc xl xr =>
    obtain ⟨hm, hl, hr⟩ := h
    simp only [ANode.addrs, List.nodup_append, List.nodup_cons, List.disjoint_cons_right] at hd
    refine ⟨s.write x (Mem.Node.mk xk xd xc xl.ptr xr.ptr q), ?_, ⟨by simp, ?_, ?_⟩, ?_, rfl, rfl,
      rfl⟩
    · simp [Mem.condSetParent, Mem.Store.setParent, modify_some, hm]
    · exact (ARep_update _ _ _ _ _ hd.2.2.1).2 hl
    · exact (ARep_update _ _ _ _ _ hd.2.1.1).2 hr
    · intro y hy
      simp only [ptr_mk, ne_eq, Option.some.injEq] at hy
      simp [Function.update_noteq (Ne.symm hy)]

/-- The statement that makes `q` the child of the parent of `node` in the place of `node`
(or the root), as `rotateLeft` and `deleteNode` write it. -/
theorem replaceChild_spec (s : Mem.Store) (a : Nat) (nd : Mem.Node) (up : List AFrame)
    (q : Mem.Ptr) (hm : s.mem a = some nd) (hp : nd.parent = upPtr up)
    (hu : ARepUp s.mem s.root up (some a)) (ha : a ∉ upAddrs up) (hd : (upAddrs up).Nodup) :
    ∃ s2, Mem.replaceChild s (some a) q = some s2 ∧ ARepUp s2.mem s2.root up q ∧
      (∀ y, upPtr up ≠ some y → s2.mem y = s.mem y) ∧
      s2.next = s.next ∧ s2.size = s.size := by
  rcases up with _ | ⟨(⟨g, gk, gd, gc, gr⟩ | ⟨g, gk, gd, gc, gl⟩), up⟩
  · refine ⟨s.setRoot q, ?_, rfl, fun _ _ => rfl, rfl, rfl⟩
    simp [Mem.replaceChild, parent_some, hm, hp]
  · obtain ⟨hg, hr, hu2⟩ := hu
    simp only [upAddrs, AFrame.addrs, List.nodup_append, List.nodup_cons, List.mem_append,
      List.mem_cons, List.disjoint_cons_left, not_or, List.cons_append] at hd ha
    refine ⟨s.write g (Mem.Node.mk gk gd gc q gr.ptr (upPtr up)), ?_, ⟨by simp, ?_, ?_⟩, ?_, rfl,
      rfl⟩
    · simp [Mem.replaceChild, parent_some, left_some, Mem.Store.setLeft, modify_some, hm, hp, hg]
    · exact (ARep_update _ _ _ _ _ hd.1.1).2 hr
    · exact (ARepUp_update _ _ _ _ _ _ hd.1.2).2 hu2
    · intro y hy
      simp only [upPtr_cons, addr_inLeft, ne_eq, Option.some.injEq] at hy
      simp [Function.update_noteq (Ne.symm hy)]
  · obtain ⟨hg, hl, hu2⟩ := hu
    simp only [upAddrs, AFrame.addrs, List.nodup_append, List.nodup_cons, List.mem_append,
      List.mem_cons, List.disjoint_cons_left, not_or, List.cons_append] at hd ha
    have hne : gl.ptr ≠ some a := ptr_ne_of_not_mem gl a ha.2.1
    refine ⟨s.write g (Mem.Node.mk gk gd gc gl.ptr q (upPtr up)), ?_, ⟨by simp, ?_, ?_⟩, ?_, rfl,
      rfl⟩
    · simp [Mem.replaceChild, parent_some, left_some, Mem.Store.setRight, modify_some, hm, hp,
        hg, hne]
    · exact (ARep_update _ _ _ _ _ hd.1.1).2 hl
    · exact (ARepUp_update _ _ _ _ _ _ hd.1.2).2 hu2
    · intro y hy
      simp only [upPtr_cons, addr_inRight, ne_eq, Option.some.injEq] at hy
      simp [Function.update_noteq (Ne.symm hy)]

/-- The statement of `rotateRight` that makes `q` the child of the parent of `node` in the
place of `node` (or the root). -/
theorem replaceChildRight_spec (s : Mem.Store) (a : Nat) (nd : Mem.Node) (up : List AFrame)
    (q : Mem.Ptr) (hm : s.mem a = some nd) (hp : nd.parent = upPtr up)
    (hu : ARepUp s.mem s.root up (some a)) (ha : a ∉ upAddrs up) (hd : (upAddrs up).Nodup) :
    ∃ s2, Mem.replaceChildRight s (some a) q = some s2 ∧ ARepUp s2.mem s2.root up q ∧
      (∀ y, upPtr up ≠ some y → s2.mem y = s.mem y) ∧
      s2.next = s.next ∧ s2.size = s.size := by
  rcases up with _ | ⟨(⟨g, gk, gd, gc, gr⟩ | ⟨g, gk, gd, gc, gl⟩), up⟩
  · refine ⟨s.setRoot q, ?_, rfl, fun _ _ => rfl, rfl, rfl⟩
    simp [Mem.replaceChildRight, parent_some, hm, hp]
  · obtain ⟨hg, hr, hu2⟩ := hu
    simp only [upAddrs, AFrame.addrs, List.nodup_append, List.nodup_cons, List.mem_append,
      List.mem_cons, List.disjoint_cons_left, not_or, List.cons_append] at hd ha
    have hne : gr.ptr ≠ some a := ptr_ne_of_not_mem gr a ha.2.1
    refine ⟨s.write g (Mem.Node.mk gk gd gc q gr.ptr (upPtr up)), ?_, ⟨by simp, ?_, ?_⟩, ?_, rfl,
      rfl⟩
    · simp [Mem.replaceChildRight, parent_some, right_some, Mem.Store.setLeft, modify_some, hm,
        hp, hg, hne]
    · exact (ARep_update _ _ _ _ _ hd.1.1).2 hr
    · exact (ARepUp_update _ _ _ _ _ _ hd.1.2).2 hu2
    · intro y hy
      simp only [upPtr_cons, addr_inLeft, ne_eq, Option.some.injEq] at hy
      simp [Function.update_noteq (Ne.symm hy)]
  · obtain ⟨hg, hl, hu2⟩ := hu
    simp only [upAddrs, AFrame.addrs, List.nodup_append, List.nodup_cons, List.mem_append,
      List.mem_cons, List.disjoint_cons_left, not_or, List.cons_append] at hd ha
    refine ⟨s.write g (Mem.Node.mk gk gd gc gl.ptr q (upPtr up)), ?_, ⟨by simp, ?_, ?_⟩, ?_, rfl,
      rfl⟩
    · simp [Mem.replaceChildRight, parent_some, right_some, Mem.Store.setRight, modify_some, hm,
        hp, hg]
    · exact (ARep_update _ _ _ _ _ hd.1.1).2 hl
    · exact (ARepUp_update _ _ _ _ _ _ hd.1.2).2 hu2
    · intro y hy
      simp only [upPtr_cons, addr_inRight, ne_eq, Option.some.injEq] at hy
      simp [Function.update_noteq (Ne.symm hy)]

theorem upPtr_mem_upAddrs (up : List AFrame) (y : Nat) (h : upPtr up = some y) :
    y ∈ upAddrs up := by
  cases up with
  | nil => simp at h
  | cons f up =>
    simp only [upPtr_cons, Option.some.injEq] at h
    subst h
    cases f <;> simp [upAddrs, AFrame.addrs]

theorem rotateLeft_focus (s : Mem.Store) (a : Nat) (k : Int) (d : Payload) (c : Color)
    (l : ANode) (b : Nat) (rk : Int) (rd : Payload) (rc : Color) (rl rr : ANode)
    (up : List AFrame) (h : LRep s ⟨.mk a k d c l (.mk b rk rd rc rl rr), up⟩) :
    ∃ s2, Mem.rotateLeft s (some a) = some s2 ∧
      LRep s2 ⟨.mk b rk rd rc (.mk a k d c l rl) rr, up⟩ ∧
      s2.next = s.next ∧ s2.size = s.size := by
  have hsame : (ACursor.mk (.mk b rk rd rc (.mk a k d c l rl) rr) up).addrs =
      (ACursor.mk (.mk a k d c l (.mk b rk rd rc rl rr)) up).addrs := by
    simp [ACursor.addrs, ANode.addrs]
  obtain ⟨⟨hma, hl, hmb, hrl, hrr⟩, hu, hnd, hb⟩ := h
  dsimp only at hma hmb hu
  simp only [ptr_mk] at hma hu
  have hnd2 := hnd
  simp only [ACursor.addrs, ANode.addrs, List.nodup_append, List.nodup_cons, List.mem_append,
    List.mem_cons, List.disjoint_cons_left, List.disjoint_cons_right,
    List.disjoint_append_left, List.disjoint_append_right, not_or] at hnd2
  obtain ⟨⟨ndl, ⟨⟨a_rl, nab, a_rr⟩, ⟨ndrl, ⟨b_rr, ndrr⟩, b_rl, d_rl_rr⟩⟩, a_l, d_l_rl, b_l,
    d_l_rr⟩, ndup, d_l_up, a_up, d_rl_up, b_up, d_rr_up⟩ := hnd2
  have nba : ¬b = a := fun e => nab e.symm
  -- node->right = right_child->left; if (right_child->left != NULL) ... ->parent = node
  have hrl1 : ARep (s.write a (Mem.Node.mk k d c l.ptr rl.ptr (upPtr up))).mem rl (some b) :=
    (ARep_update _ _ _ _ _ a_rl).2 hrl
  obtain ⟨s2, e2, hrl2, off2, r2, n2, z2⟩ := condSetParent_spec _ rl (some b) (some a) hrl1 ndrl
  have m2 : ∀ y, y ∉ rl.addrs → y ≠ a → s2.mem y = s.mem y := fun y h1 h2 => by
    rw [off2 y (ptr_ne_of_not_mem rl y h1), write_mem, Function.update_noteq h2]
  have m2a : s2.mem a = some (Mem.Node.mk k d c l.ptr rl.ptr (upPtr up)) := by
    rw [off2 a (ptr_ne_of_not_mem rl a a_rl), write_mem, Function.update_same]
  have m2b : s2.mem b = some (Mem.Node.mk rk rd rc rl.ptr rr.ptr (some a)) := by
    rw [m2 b b_rl nba, hmb]
  -- right_child->parent = node->parent; the parent of node gets right_child
  have hu3 : ARepUp (s2.write b (Mem.Node.mk rk rd rc rl.ptr rr.ptr (upPtr up))).mem
      (s2.write b (Mem.Node.mk rk rd rc rl.ptr rr.ptr (upPtr up))).root up (some a) := by
    rw [write_mem, write_root, r2, write_root, ARepUp_update _ _ _ _ _ _ b_up]
    exact (ARepUp_congr s.mem s2.mem _ up _ (fun y hy =>
      m2 y (fun h1 => d_rl_up h1 hy) (fun e => a_up (e ▸ hy)))).2 hu
  have m3a : (s2.write b (Mem.Node.mk rk rd rc rl.ptr rr.ptr (upPtr up))).mem a =
      some (Mem.Node.mk k d c l.ptr rl.ptr (upPtr up)) := by
    rw [write_mem, Function.update_noteq nab, m2a]
  obtain ⟨s4, e4, hu4, off4, n4, z4⟩ := replaceChild_spec _ a _ up (some b) m3a rfl hu3 a_up ndup
  have m4 : ∀ y, y ∉ upAddrs up → y ≠ b → s4.mem y = s2.mem y := fun y h1 h2 => by
    rw [off4 y (fun e => h1 (upPtr_mem_upAddrs up y e)), write_mem, Function.update_noteq h2]
  have m4a : s4.mem a = some (Mem.Node.mk k d c l.ptr rl.ptr (upPtr up)) := by
    rw [m4 a a_up nab, m2a]
  have m4b : s4.mem b = some (Mem.Node.mk rk rd rc rl.ptr rr.ptr (upPtr up)) := by
    rw [off4 b (fun e => b_up (upPtr_mem_upAddrs up b e)), write_mem, Function.update_same]
  -- right_child->left = node; node->parent = right_child
  have m6 : ∀ y, y ≠ a → y ≠ b →
      ((s4.write b (Mem.Node.mk rk rd rc (some a) rr.ptr (upPtr up))).write a
        (Mem.Node.mk k d c l.ptr rl.ptr (some b))).mem y = s4.mem y := fun y h1 h2 => by
    rw [write_mem, Function.update_noteq h1, write_mem, Function.update_noteq h2]
  refine ⟨(s4.write b (Mem.Node.mk rk rd rc (some a) rr.ptr (upPtr up))).write a
    (Mem.Node.mk k d c l.ptr rl.ptr (some b)), ?_, ⟨⟨?_, ⟨?_, ?_, ?_⟩, ?_⟩, ?_, hsame ▸ hnd, ?_⟩,
    ?_, ?_⟩
  · simp only [Mem.rotateLeft, reduceCtorEq, if_false, right_some, left_some, parent_some,
      Mem.Store.setRight, Mem.Store.setLeft, Mem.Store.setParent, modify_some, hma, hmb,
      Option.map_some', Option.bind_eq_bind, Option.some_bind, write_mem,
      Function.update_noteq nba, Function.update_noteq nab, Function.update_same, e2, m2a,
      m2b, e4, m4a, m4b]
  · simp [Function.update_noteq nba]
  · simp
  · exact (ARep_congr s.mem _ l _ (fun y hy => by
      rw [m6 y (fun e => a_l (e ▸ hy)) (fun e => b_l (e ▸ hy)),
        m4 y (fun h1 => d_l_up hy h1) (fun e => b_l (e ▸ hy)),
        m2 y (fun h1 => d_l_rl hy h1) (fun e => a_l (e ▸ hy))])).2 hl
  · exact (ARep_congr s2.mem _ rl _ (fun y hy => by
      rw [m6 y (fun e => a_rl (e ▸ hy)) (fun e => b_rl (e ▸ hy)),
        m4 y (fun h1 => d_rl_up hy h1) (fun e => b_rl (e ▸ hy))])).2 hrl2
  · exact (ARep_congr s.mem _ rr _ (fun y hy => by
      rw [m6 y (fun e => a_rr (e ▸ hy)) (fun e => b_rr (e ▸ hy)),
        m4 y (fun h1 => d_rr_up hy h1) (fun e => b_rr (e ▸ hy)),
        m2 y (fun h1 => d_rl_rr h1 hy) (fun e => a_rr (e ▸ hy))])).2 hrr
  · exact (ARepUp_congr s4.mem _ _ up _ (fun y hy =>
      m6 y (fun e => a_up (e ▸ hy)) (fun e => b_up (e ▸ hy)))).2 hu4
  · intro y hy
    rw [hsame] at hy
    have := hb y hy
    simp only [write_next, n4, n2]
    exact this
  · simp only [write_next, n4, n2]
  · simp only [write_size, z4, z2]

theorem rotateRight_focus (s : Mem.Store) (a : Nat) (k : Int) (d : Payload) (c : Color)
    (b : Nat) (lk : Int) (ld : Payload) (lc : Color) (ll lr : ANode) (r : ANode)
    (up : List AFrame) (h : LRep s ⟨.mk a k d c (.mk b lk ld lc ll lr) r, up⟩) :
    ∃ s2, Mem.rotateRight s (some a) = some s2 ∧
      LRep s2 ⟨.mk b lk ld lc ll (.mk a k d c lr r), up⟩ ∧
      s2.next = s.next ∧ s2.size = s.size := by
  have hsame : (ACursor.mk (.mk b lk ld lc ll (.mk a k d c lr r)) up).addrs =
      (ACursor.mk (.mk a k d c (.mk b lk ld lc ll lr) r) up).addrs := by
    simp [ACursor.addrs, ANode.addrs]
  obtain ⟨⟨hma, ⟨hmb, hll, hlr⟩, hr⟩, hu, hnd, hb⟩ := h
  dsimp only at hma hmb hu
  simp only [ptr_mk] at hma hu
  have hnd2 := hnd
  simp only [ACursor.addrs, ANode.addrs, List.nodup_append, List.nodup_cons, List.mem_append,
    List.mem_cons, List.disjoint_cons_left, List.disjoint_cons_right,
    List.disjoint_append_left, List.disjoint_append_right, not_or] at hnd2
  obtain ⟨⟨⟨ndll, ⟨b_lr, ndlr⟩, b_ll, d_ll_lr⟩, ⟨a_r, ndr⟩, ⟨a_ll, nab, a_lr⟩, d_ll_r, b_r,
    d_lr_r⟩, ndup, ⟨d_ll_up, b_up, d_lr_up⟩, a_up, d_r_up⟩ := hnd2
  have nba : ¬b = a := fun e => nab e.symm
  -- node->left = left_child->right; if (left_child->right != NULL) ... ->parent = node
  have hlr1 : ARep (s.write a (Mem.Node.mk k d c lr.ptr r.ptr (upPtr up))).mem lr (some b) :=
    (ARep_update _ _ _ _ _ a_lr).2 hlr
  obtain ⟨s2, e2, hlr2, off2, r2, n2, z2⟩ := condSetParent_spec _ lr (some b) (some a) hlr1 ndlr
  have m2 : ∀ y, y ∉ lr.addrs → y ≠ a → s2.mem y = s.mem y := fun y h1 h2 => by
    rw [off2 y (ptr_ne_of_not_mem lr y h1), write_mem, Function.update_noteq h2]
  have m2a : s2.mem a = some (Mem.Node.mk k d c lr.ptr r.ptr (upPtr up)) := by
    rw [off2 a (ptr_ne_of_not_mem lr a a_lr), write_mem, Function.update_same]
  have m2b : s2.mem b = some (Mem.Node.mk lk ld lc ll.ptr lr.ptr (some a)) := by
    rw [m2 b b_lr nba, hmb]
  -- left_child->parent = node->parent; the parent of node gets left_child
  have hu3 : ARepUp (s2.write b (Mem.Node.mk lk ld lc ll.ptr lr.ptr (upPtr up))).mem
      (s2.write b (Mem.Node.mk lk ld lc ll.ptr lr.ptr (upPtr up))).root up (some a) := by
    rw [write_mem, write_root, r2, write_root, ARepUp_update _ _ _ _ _ _ b_up]
    exact (ARepUp_congr s.mem s2.mem _ up _ (fun y hy =>
      m2 y (fun h1 => d_lr_up h1 hy) (fun e => a_up (e ▸ hy)))).2 hu
  have m3a : (s2.write b (Mem.Node.mk lk ld lc ll.ptr lr.ptr (upPtr up))).mem a =
      some (Mem.Node.mk k d c lr.ptr r.ptr (upPtr up)) := by
    rw [write_mem, Function.update_noteq nab, m2a]
  obtain ⟨s4, e4, hu4, off4, n4, z4⟩ :=
    replaceChildRight_spec _ a _ up (some b) m3a rfl hu3 a_up ndup
  have m4 : ∀ y, y ∉ upAddrs up → y ≠ b → s4.mem y = s2.mem y := fun y h1 h2 => by
    rw [off4 y (fun e => h1 (upPtr_mem_upAddrs up y e)), write_mem, Function.update_noteq h2]
  have m4a : s4.mem a = some (Mem.Node.mk k d c lr.ptr r.ptr (upPtr up)) := by
    rw [m4 a a_up nab, m2a]
  have m4b : s4.mem b = some (Mem.Node.mk lk ld lc ll.ptr lr.ptr (upPtr up)) := by
    rw [off4 b (fun e => b_up (upPtr_mem_upAddrs up b e)), write_mem, Function.update_same]
  -- left_child->right = node; node->parent = left_child
  have m6 : ∀ y, y ≠ a → y ≠ b →
      ((s4.write b (Mem.Node.mk lk ld lc ll.ptr (some a) (upPtr up))).write a
        (Mem.Node.mk k d c lr.ptr r.ptr (some b))).mem y = s4.mem y := fun y h1 h2 => by
    rw [write_mem, Function.update_noteq h1, write_mem, Function.update_noteq h2]
  refine ⟨(s4.write b (Mem.Node.mk lk ld lc ll.ptr (some a) (upPtr up))).write a
    (Mem.Node.mk k d c lr.ptr r.ptr (some b)), ?_, ⟨⟨?_, ?_, ⟨?_, ?_, ?_⟩⟩, ?_, hsame ▸ hnd, ?_⟩,
    ?_, ?_⟩
  · simp only [Mem.rotateRight, reduceCtorEq, if_false, right_some, left_some, parent_some,
      Mem.Store.setRight, Mem.Store.setLeft, Mem.Store.setParent, modify_some, hma, hmb,
      Option.map_some', Option.bind_eq_bind, Option.some_bind, write_mem,
      Function.update_noteq nba, Function.update_noteq nab, Function.update_same, e2, m2a,
      m2b, e4, m4a, m4b]
  · simp [Function.update_noteq nba]
  · exact (ARep_congr s.mem _ ll _ (fun y hy => by
      rw [m6 y (fun e => a_ll (e ▸ hy)) (fun e => b_ll (e ▸ hy)),
        m4 y (fun h1 => d_ll_up hy h1) (fun e => b_ll (e ▸ hy)),
        m2 y (fun h1 => d_ll_lr hy h1) (fun e => a_ll (e ▸ hy))])).2 hll
  · simp
  · exact (ARep_congr s2.mem _ lr _ (fun y hy => by
      rw [m6 y (fun e => a_lr (e ▸ hy)) (fun e => b_lr (e ▸ hy)),
        m4 y (fun h1 => d_lr_up hy h1) (fun e => b_lr (e ▸ hy))])).2 hlr2
  · exact (ARep_congr s.mem _ r _ (fun y hy => by
      rw [m6 y (fun e => a_r (e ▸ hy)) (fun e => b_r (e ▸ hy)),
        m4 y (fun h1 => d_r_up hy h1) (fun e => b_r (e ▸ hy)),
        m2 y (fun h1 => d_lr_r h1 hy) (fun e => a_r (e ▸ hy))])).2 hr
  · exact (ARepUp_congr s4.mem _ _ up _ (fun y hy =>
      m6 y (fun e => a_up (e ▸ hy)) (fun e => b_up (e ▸ hy)))).2 hu4
  · intro y hy
    rw [hsame] at hy
    have := hb y hy
    simp only [write_next, n4, n2]
    exact this
  · simp only [write_next, n4, n2]
  · simp only [write_size, z4, z2]

/-! ## Reading the heap at a position -/

theorem focus_key (s : Mem.Store) (a : Nat) (k : Int) (d : Payload) (c : Color) (l r : ANode)
    (up : List AFrame) (h : LRep s ⟨.mk a k d c l r, up⟩) : s.key (some a) = some k := by
  rw [key_some, LRep_mem s a k d c l r up h]; rfl

theorem focus_color (s : Mem.Store) (a : Nat) (k : Int) (d : Payload) (c : Color) (l r : ANode)
    (up : List AFrame) (h : LRep s ⟨.mk a k d c l r, up⟩) : s.color (some a) = some c := by
  rw [color_some, LRep_mem s a k d c l r up h]; rfl

theorem focus_left (s : Mem.Store) (a : Nat) (k : Int) (d : Payload) (c : Color) (l r : ANode)
    (up : List AFrame) (h : LRep s ⟨.mk a k d c l r, up⟩) : s.left (some a) = some l.ptr := by
  rw [left_some, LRep_mem s a k d c l r up h]; rfl

theorem focus_right (s : Mem.Store) (a : Nat) (k : Int) (d : Payload) (c : Color) (l r : ANode)
    (up : List AFrame) (h : LRep s ⟨.mk a k d c l r, up⟩) : s.right (some a) = some r.ptr := by
  rw [right_some, LRep_mem s a k d c l r up h]; rfl

theorem focus_parent (s : Mem.Store) (a : Nat) (k : Int) (d : Payload) (c : Color)
    (l r : ANode) (up : List AFrame) (h : LRep s ⟨.mk a k d c l r, up⟩) :
    s.parent (some a) = some (upPtr up) := by
  rw [parent_some, LRep_mem s a k d c l r up h]; rfl

theorem LRep_inLeft (s : Mem.Store) (t : ANode) (a : Nat) (k : Int) (d : Payload) (c : Color)
    (r : ANode) (up : List AFrame) :
    LRep s ⟨t, .inLeft a k d c r :: up⟩ ↔ LRep s ⟨.mk a k d c t r, up⟩ :=
  LRep_fill s t (.inLeft a k d c r) up

theorem LRep_inRight (s : Mem.Store) (t : ANode) (a : Nat) (k : Int) (d : Payload) (c : Color)
    (l : ANode) (up : List AFrame) :
    LRep s ⟨t, .inRight a k d c l :: up⟩ ↔ LRep s ⟨.mk a k d c l t, up⟩ :=
  LRep_fill s t (.inRight a k d c l) up

theorem isRed_ptr (s : Mem.Store) (t : ANode) (up : List AFrame) (h : LRep s ⟨t, up⟩) :
    s.isRed t.ptr = some (isRed t.erase) := by
  cases t with
  | NULL => simp [Mem.Store.isRed, ANode.erase, isRed]
  | mk a k d c l r =>
    simp only [Mem.Store.isRed, ptr_mk, reduceCtorEq, if_false, focus_color s a k d c l r up h,
      Option.map_some', ANode.erase, isRed_mk]

theorem isBlackOrNull_ptr (s : Mem.Store) (t : ANode) (up : List AFrame) (h : LRep s ⟨t, up⟩) :
    s.isBlackOrNull t.ptr = some (isBlackOrNull t.erase) := by
  cases t with
  | NULL => simp [Mem.Store.isBlackOrNull, ANode.erase, isBlackOrNull]
  | mk a k d c l r =>
    simp only [Mem.Store.isBlackOrNull, ptr_mk, reduceCtorEq, if_false,
      focus_color s a k d c l r up h, Option.map_some', ANode.erase, isBlackOrNull_mk]

theorem ptr_ne_of_LRep_left (s : Mem.Store) (t : ANode) (a : Nat) (k : Int) (d : Payload)
    (c : Color) (r : ANode) (up : List AFrame) (x : Nat)
    (h : LRep s ⟨t, .inLeft a k d c r :: up⟩) (hx : t.ptr = some x) : r.ptr ≠ some x := by
  have hnd := h.2.2.1
  simp only [ACursor.addrs, upAddrs, AFrame.addrs, List.nodup_append, List.nodup_cons,
    List.disjoint_append_right, List.disjoint_cons_right] at hnd
  exact ptr_ne_of_not_mem r x (fun hr => hnd.2.2.1.2 (ptr_mem_addrs t x hx) hr)

theorem ptr_ne_of_LRep_right (s : Mem.Store) (t : ANode) (a : Nat) (k : Int) (d : Payload)
    (c : Color) (l : ANode) (up : List AFrame) (x : Nat)
    (h : LRep s ⟨t, .inRight a k d c l :: up⟩) (hx : t.ptr = some x) : l.ptr ≠ some x := by
  have hnd := h.2.2.1
  simp only [ACursor.addrs, upAddrs, AFrame.addrs, List.nodup_append, List.nodup_cons,
    List.disjoint_append_right, List.disjoint_cons_right] at hnd
  exact ptr_ne_of_not_mem l x (fun hr => hnd.2.2.1.2 (ptr_mem_addrs t x hx) hr)

/-! ## The loop of `fixInsert` over the heap -/

theorem fixInsertBody_sim (s : Mem.Store) (cur : ACursor) (cur2 : Cursor) (h : LRep s cur)
    (hm : fixInsertBody cur.erase = some cur2) :
    ∃ s2 acur2, Mem.fixInsertBody s cur.node.ptr = some (s2, acur2.node.ptr) ∧ LRep s2 acur2 ∧
      acur2.erase = cur2 ∧ s2.next = s.next ∧ s2.size = s.size := by
  obtain ⟨node, up⟩ := cur
  rcases node with _ | ⟨n, nk, nd, nc, nl, nr⟩
  · simp [ACursor.erase, ANode.erase, fixInsertBody] at hm
  rcases up with _ | ⟨P, _ | ⟨G, above⟩⟩
  · simp [ACursor.erase, ANode.erase, fixInsertBody] at hm
  · simp [ACursor.erase, ANode.erase, fixInsertBody] at hm
  have hP := (LRep_fill s _ P _).1 h
  have hG := (LRep_fill s _ G _).1 hP
  rcases G with ⟨ga, gk, gd, gc, U⟩ | ⟨ga, gk, gd, gc, U⟩
  · -- parent == grandparent->left
    have hU := (LRep_inRight s U ga gk gd gc _ above).2 hG
    have r5 := isRed_ptr s U _ hU
    by_cases hred : isRed U.erase = true
    · -- Case 1
      rcases U with _ | ⟨u, uk, ud, uc, ul, ur⟩
      · simp [ANode.erase, isRed] at hred
      simp only [ANode.erase, isRed_mk, decide_eq_true_eq] at hred r5
      subst hred
      rcases P with ⟨pa, pk, pd, pc, ps⟩ | ⟨pa, pk, pd, pc, ps⟩ <;>
      (have r1 := focus_parent s n nk nd nc nl nr _ h
       have r2 := focus_parent s pa pk pd pc _ _ _ hP
       have r3 := focus_left s ga gk gd gc _ _ _ hG
       have r4 := focus_right s ga gk gd gc _ _ _ hG
       obtain ⟨s1, e1, h1, n1, z1, -⟩ := setColor_focus s pa pk pd pc _ _ _ .BLACK hP
       have hG1 := (LRep_inLeft s1 _ ga gk gd gc _ above).1 h1
       have hU1 := (LRep_inRight s1 _ ga gk gd gc _ above).2 hG1
       obtain ⟨s2, e2, h2, n2, z2, -⟩ := setColor_focus s1 u uk ud .RED ul ur _ .BLACK hU1
       have hG2 := (LRep_inRight s2 _ ga gk gd gc _ above).1 h2
       obtain ⟨s3, e3, h3, n3, z3, -⟩ := setColor_focus s2 ga gk gd gc _ _ _ .RED hG2
       simp only [AFrame.fill, ptr_mk, upPtr_cons, addr_inLeft, addr_inRight] at r1 r2 r3 r4 r5
       simp only [decide_True] at r5
       refine ⟨s3, ⟨_, above⟩, ?_, h3, ?_, by rw [n3, n2, n1], by rw [z3, z2, z1]⟩
       · simp only [Mem.fixInsertBody, Mem.getUncle, ptr_mk, reduceCtorEq, if_false, if_true, r1,
           r2, r3, r4, r5, Option.bind_eq_bind, Option.some_bind, Mem.fixInsertCase1, e1, e2,
           e3, Option.pure_def]
       · rw [← Option.some.injEq, ← hm]
         simp [ACursor.erase, ANode.erase, AFrame.erase, fixInsertBody, Frame.setColor,
           Frame.fill, setBlack])
    · -- Cases 2 and 3
      simp only [Bool.not_eq_true] at hred
      rw [hred] at r5
      rcases P with ⟨pa, pk, pd, pc, ps⟩ | ⟨pa, pk, pd, pc, ps⟩
      · -- node == parent->left: Case 3
        have r1 := focus_parent s n nk nd nc nl nr _ h
        have r2 := focus_parent s pa pk pd pc _ _ _ hP
        have r3 := focus_left s ga gk gd gc _ _ _ hG
        have r4 := focus_right s ga gk gd gc _ _ _ hG
        have r6 := focus_right s pa pk pd pc _ _ _ hP
        have hne : ¬some n = ps.ptr :=
          fun e => ptr_ne_of_LRep_left s _ pa pk pd pc ps _ n h rfl e.symm
        obtain ⟨s1, e1, h1, n1, z1, -⟩ := setColor_focus s pa pk pd pc _ _ _ .BLACK hP
        have hG1 := (LRep_inLeft s1 _ ga gk gd gc _ above).1 h1
        obtain ⟨s2, e2, h2, n2, z2, -⟩ := setColor_focus s1 ga gk gd gc _ _ _ .RED hG1
        obtain ⟨s3, e3, h3, n3, z3⟩ :=
          rotateRight_focus s2 ga gk gd .RED pa pk pd .BLACK _ _ _ above h2
        have hN3 := (LRep_inLeft s3 _ pa pk pd .BLACK _ above).2 h3
        simp only [AFrame.fill, ptr_mk, upPtr_cons, addr_inLeft, addr_inRight] at r1 r2 r3 r4 r6
        refine ⟨s3, ⟨_, _⟩, ?_, hN3, ?_, by rw [n3, n2, n1], by rw [z3, z2, z1]⟩
        · simp only [Mem.fixInsertBody, Mem.getUncle, ptr_mk, reduceCtorEq, if_false, if_true,
          r1, r2, r3, r4, r5, r6, Option.bind_eq_bind, Option.some_bind, Mem.fixInsertLeft,
          Mem.fixInsertRight, Bool.false_eq_true, hne, e1, e2, e3, Option.pure_def]
        · rw [← Option.some.injEq, ← hm]
          simp [ACursor.erase, ANode.erase, AFrame.erase, fixInsertBody, hred, rotateRight]
      · -- node == parent->right: Case 2, then Case 3
        have r1 := focus_parent s n nk nd nc nl nr _ h
        have r2 := focus_parent s pa pk pd pc _ _ _ hP
        have r3 := focus_left s ga gk gd gc _ _ _ hG
        have r4 := focus_right s ga gk gd gc _ _ _ hG
        have r6 := focus_right s pa pk pd pc _ _ _ hP
        have hne : True := trivial
        obtain ⟨s1, e1, h1, n1, z1⟩ := rotateLeft_focus s pa pk pd pc ps n nk nd nc nl nr _ hP
        have hP1 := (LRep_inLeft s1 (.mk pa pk pd pc ps nl) n nk nd nc nr _).2 h1
        have r7 := focus_parent s1 pa pk pd pc _ _ _ hP1
        have r8 := focus_parent s1 n nk nd nc _ _ _ h1
        obtain ⟨s2, e2, h2, n2, z2, -⟩ := setColor_focus s1 n nk nd nc _ _ _ .BLACK h1
        have hG2 := (LRep_inLeft s2 _ ga gk gd gc _ above).1 h2
        obtain ⟨s3, e3, h3, n3, z3, -⟩ := setColor_focus s2 ga gk gd gc _ _ _ .RED hG2
        obtain ⟨s4, e4, h4, n4, z4⟩ :=
          rotateRight_focus s3 ga gk gd .RED n nk nd .BLACK _ _ _ above h3
        have hR := (LRep_inLeft s4 (.mk pa pk pd pc ps nl) n nk nd .BLACK _ above).2 h4
        simp only [AFrame.fill, ptr_mk, upPtr_cons, addr_inLeft, addr_inRight] at r1 r2 r3 r4
        simp only [AFrame.fill, ptr_mk, upPtr_cons, addr_inLeft, addr_inRight] at r6 r7 r8
        refine ⟨s4, ⟨_, _⟩, ?_, hR, ?_, by rw [n4, n3, n2, n1], by rw [z4, z3, z2, z1]⟩
        · simp only [Mem.fixInsertBody, Mem.getUncle, ptr_mk, reduceCtorEq, if_false, if_true,
          r1, r2, r3, r4, r5, r6, Option.bind_eq_bind, Option.some_bind, Mem.fixInsertLeft,
          Mem.fixInsertRight, Bool.false_eq_true, hne, e1, e2, e3, e4, r7, r8, Option.pure_def]
        · rw [← Option.some.injEq, ← hm]
          simp [ACursor.erase, ANode.erase, AFrame.erase, fixInsertBody, hred, rotateRight,
            rotateLeft]
  · -- parent == grandparent->right
    have hU := (LRep_inLeft s U ga gk gd gc _ above).2 hG
    have r5 := isRed_ptr s U _ hU
    have hgl : ¬some P.addr = U.ptr := fun e =>
      ptr_ne_of_LRep_right s (P.fill (.mk n nk nd nc nl nr)) ga gk gd gc U above P.addr hP
        (by cases P <;> rfl) e.symm
    have hgl2 : ¬U.ptr = some P.addr := fun e => hgl e.symm
    by_cases hred : isRed U.erase = true
    · -- Case 1
      rcases U with _ | ⟨u, uk, ud, uc, ul, ur⟩
      · simp [ANode.erase, isRed] at hred
      simp only [ANode.erase, isRed_mk, decide_eq_true_eq] at hred r5
      subst hred
      rcases P with ⟨pa, pk, pd, pc, ps⟩ | ⟨pa, pk, pd, pc, ps⟩ <;>
      (have r1 := focus_parent s n nk nd nc nl nr _ h
       have r2 := focus_parent s pa pk pd pc _ _ _ hP
       have r3 := focus_left s ga gk gd gc _ _ _ hG
       have r4 := focus_right s ga gk gd gc _ _ _ hG
       have r6 : True := trivial
       have hne : True := trivial
       obtain ⟨s1, e1, h1, n1, z1, -⟩ := setColor_focus s pa pk pd pc _ _ _ .BLACK hP
       have hG1 := (LRep_inRight s1 _ ga gk gd gc _ above).1 h1
       have hU1 := (LRep_inLeft s1 _ ga gk gd gc _ above).2 hG1
       obtain ⟨s2, e2, h2, n2, z2, -⟩ := setColor_focus s1 u uk ud .RED ul ur _ .BLACK hU1
       have hG2 := (LRep_inLeft s2 _ ga gk gd gc _ above).1 h2
       obtain ⟨s3, e3, h3, n3, z3, -⟩ := setColor_focus s2 ga gk gd gc _ _ _ .RED hG2
       simp only [AFrame.fill, ptr_mk, upPtr_cons, addr_inLeft, addr_inRight] at r1 r2 r3 r4 r5
       simp only [ptr_mk, addr_inLeft, addr_inRight, Option.some.injEq] at hgl hgl2
       simp only [decide_True] at r5
       refine ⟨s3, ⟨_, above⟩, ?_, h3, ?_, by rw [n3, n2, n1], by rw [z3, z2, z1]⟩
       · simp only [Mem.fixInsertBody, Mem.getUncle, ptr_mk, reduceCtorEq, if_false, if_true,
          r1, r2, r3, r4, r5, r6, Option.bind_eq_bind, Option.some_bind, Mem.fixInsertLeft,
          Mem.fixInsertRight, Mem.fixInsertCase1, Bool.false_eq_true, hne, hgl, hgl2,
          Option.some.injEq, e1, e2,
          e3, Option.pure_def]
       · rw [← Option.some.injEq, ← hm]
         simp [ACursor.erase, ANode.erase, AFrame.erase, fixInsertBody, Frame.setColor,
           Frame.fill, setBlack])
    · -- Cases 2 and 3
      simp only [Bool.not_eq_true] at hred
      rw [hred] at r5
      rcases P with ⟨pa, pk, pd, pc, ps⟩ | ⟨pa, pk, pd, pc, ps⟩
      · -- node == parent->left: Case 2, then Case 3
        have r1 := focus_parent s n nk nd nc nl nr _ h
        have r2 := focus_parent s pa pk pd pc _ _ _ hP
        have r3 := focus_left s ga gk gd gc _ _ _ hG
        have r4 := focus_right s ga gk gd gc _ _ _ hG
        have r6 := focus_left s pa pk pd pc _ _ _ hP
        have hne : True := trivial
        obtain ⟨s1, e1, h1, n1, z1⟩ := rotateRight_focus s pa pk pd pc n nk nd nc nl nr ps _ hP
        have hP1 := (LRep_inRight s1 (.mk pa pk pd pc nr ps) n nk nd nc nl _).2 h1
        have r7 := focus_parent s1 pa pk pd pc _ _ _ hP1
        have r8 := focus_parent s1 n nk nd nc _ _ _ h1
        obtain ⟨s2, e2, h2, n2, z2, -⟩ := setColor_focus s1 n nk nd nc _ _ _ .BLACK h1
        have hG2 := (LRep_inRight s2 _ ga gk gd gc _ above).1 h2
        obtain ⟨s3, e3, h3, n3, z3, -⟩ := setColor_focus s2 ga gk gd gc _ _ _ .RED hG2
        obtain ⟨s4, e4, h4, n4, z4⟩ :=
          rotateLeft_focus s3 ga gk gd .RED _ n nk nd .BLACK _ _ above h3
        have hR := (LRep_inRight s4 (.mk pa pk pd pc nr ps) n nk nd .BLACK _ above).2 h4
        simp only [AFrame.fill, ptr_mk, upPtr_cons, addr_inLeft, addr_inRight] at r1 r2 r3 r4
        simp only [AFrame.fill, ptr_mk, upPtr_cons, addr_inLeft, addr_inRight] at r6 r7 r8
        simp only [ptr_mk, addr_inLeft, addr_inRight, Option.some.injEq] at hgl hgl2
        refine ⟨s4, ⟨_, _⟩, ?_, hR, ?_, by rw [n4, n3, n2, n1], by rw [z4, z3, z2, z1]⟩
        · simp only [Mem.fixInsertBody, Mem.getUncle, ptr_mk, reduceCtorEq, if_false, if_true,
          r1, r2, r3, r4, r5, r6, Option.bind_eq_bind, Option.some_bind, Mem.fixInsertLeft,
          Mem.fixInsertRight, Mem.fixInsertCase1, Bool.false_eq_true, hne, hgl, hgl2,
          Option.some.injEq, e1, e2,
          e3, e4, r7, r8, Option.pure_def]
        · rw [← Option.some.injEq, ← hm]
          simp [ACursor.erase, ANode.erase, AFrame.erase, fixInsertBody, hred, rotateRight,
            rotateLeft]
      · -- node == parent->right: Case 3
        have r1 := focus_parent s n nk nd nc nl nr _ h
        have r2 := focus_parent s pa pk pd pc _ _ _ hP
        have r3 := focus_left s ga gk gd gc _ _ _ hG
        have r4 := focus_right s ga gk gd gc _ _ _ hG
        have r6 := focus_left s pa pk pd pc _ _ _ hP
        have hne : ¬some n = ps.ptr :=
          fun e => ptr_ne_of_LRep_right s _ pa pk pd pc ps _ n h rfl e.symm
        obtain ⟨s1, e1, h1, n1, z1, -⟩ := setColor_focus s pa pk pd pc _ _ _ .BLACK hP
        have hG1 := (LRep_inRight s1 _ ga gk gd gc _ above).1 h1
        obtain ⟨s2, e2, h2, n2, z2, -⟩ := setColor_focus s1 ga gk gd gc _ _ _ .RED hG1
        obtain ⟨s3, e3, h3, n3, z3⟩ :=
          rotateLeft_focus s2 ga gk gd .RED _ pa pk pd .BLACK _ _ above h2
        have hN3 := (LRep_inRight s3 _ pa pk pd .BLACK _ above).2 h3
        simp only [AFrame.fill, ptr_mk, upPtr_cons, addr_inLeft, addr_inRight] at r1 r2 r3 r4 r6
        simp only [ptr_mk, addr_inLeft, addr_inRight, Option.some.injEq] at hgl hgl2
        refine ⟨s3, ⟨_, _⟩, ?_, hN3, ?_, by rw [n3, n2, n1], by rw [z3, z2, z1]⟩
        · simp only [Mem.fixInsertBody, Mem.getUncle, ptr_mk, reduceCtorEq, if_false, if_true,
          r1, r2, r3, r4, r5, r6, Option.bind_eq_bind, Option.some_bind, Mem.fixInsertLeft,
          Mem.fixInsertRight, Mem.fixInsertCase1, Bool.false_eq_true, hne, hgl, hgl2,
          Option.some.injEq, e1, e2,
          e3, Option.pure_def]
        · rw [← Option.some.injEq, ← hm]
          simp [ACursor.erase, ANode.erase, AFrame.erase, fixInsertBody, hred, rotateLeft]

theorem erase_fill (f : AFrame) (t : ANode) : (f.fill t).erase = f.erase.fill t.erase := by
  cases f <;> rfl

theorem erase_aplug (t : ANode) (up : List AFrame) :
    (aplug t up).erase = plug t.erase (up.map AFrame.erase) := by
  induction up generalizing t with
  | nil => rfl
  | cons f up ih => simp [aplug, ih, erase_fill]

theorem LRep_aplug (s : Mem.Store) (t : ANode) (up : List AFrame) :
    LRep s ⟨t, up⟩ ↔ LRep s ⟨aplug t up, []⟩ := by
  induction up generalizing t with
  | nil => rfl
  | cons f up ih => rw [LRep_fill, ih]; rfl

theorem aplug_cons_eq_mk (t : ANode) (f : AFrame) (up : List AFrame) :
    ∃ a k d c l r, aplug t (f :: up) = .mk a k d c l r := by
  induction up generalizing t f with
  | nil => cases f <;> exact ⟨_, _, _, _, _, _, rfl⟩
  | cons g up ih => exact ih (f.fill t) g

theorem LRep_root (s : Mem.Store) (t : ANode) (h : LRep s ⟨t, []⟩) : s.root = t.ptr := h.2.1

theorem root_mem_upAddrs (m : Nat → Option Mem.Node) (root : Mem.Ptr) (f : AFrame)
    (up : List AFrame) (hole : Mem.Ptr) (h : ARepUp m root (f :: up) hole) :
    ∃ r, root = some r ∧ r ∈ upAddrs (f :: up) := by
  induction up generalizing f hole with
  | nil =>
    cases f <;> exact ⟨_, h.2.2, by simp [upAddrs, AFrame.addrs]⟩
  | cons g up ih =>
    have h2 : ARepUp m root (g :: up) (some f.addr) := by cases f <;> exact h.2.2
    obtain ⟨r, e, hr⟩ := ih g _ h2
    exact ⟨r, e, by simp only [upAddrs] at hr ⊢; simp [hr]⟩

theorem root_ne_focus (s : Mem.Store) (t : ANode) (f : AFrame) (up : List AFrame)
    (h : LRep s ⟨t, f :: up⟩) : t.ptr ≠ s.root := by
  obtain ⟨r, e, hr⟩ := root_mem_upAddrs _ _ f up _ h.2.1
  have hnd := h.2.2.1
  simp only [ACursor.addrs, List.nodup_append] at hnd
  rw [e]
  intro e2
  exact hnd.2.2 (ptr_mem_addrs t r e2) hr

theorem setBlack_root (s : Mem.Store) (t : ANode) (ht : t ≠ .NULL) (h : LRep s ⟨t, []⟩) :
    ∃ s2 t2, s.setColor s.root .BLACK = some s2 ∧ LRep s2 ⟨t2, []⟩ ∧
      t2.erase = setBlack t.erase ∧ s2.next = s.next ∧ s2.size = s.size := by
  cases t with
  | NULL => exact absurd rfl ht
  | mk a k d c l r =>
    obtain ⟨s2, e, h2, n2, z2, -⟩ := setColor_focus s a k d c l r [] .BLACK h
    rw [LRep_root s _ h]
    exact ⟨s2, _, e, h2, rfl, n2, z2⟩

theorem fixInsert_sim (fuel : Nat) (s : Mem.Store) (cur : ACursor) (r : RBNode)
    (h : LRep s cur) (hm : fixInsert fuel cur.erase = some r) (fuel2 : Nat)
    (hf : fuel ≤ fuel2) :
    ∃ s2 t2, Mem.fixInsert fuel2 s cur.node.ptr = some s2 ∧ LRep s2 ⟨t2, []⟩ ∧
      t2.erase = r ∧ s2.next = s.next ∧ s2.size = s.size := by
  induction fuel generalizing s cur fuel2 with
  | zero => simp [fixInsert] at hm
  | succ fuel ih =>
    obtain ⟨fuel3, rfl⟩ : ∃ k, fuel2 = k + 1 := ⟨fuel2 - 1, by omega⟩
    obtain ⟨node, up⟩ := cur
    rcases node with _ | ⟨n, nk, nd, nc, nl, nr⟩
    · simp [ACursor.erase, ANode.erase, fixInsert] at hm
    rcases up with _ | ⟨P, above⟩
    · obtain ⟨s2, t2, e, h2, he, n2, z2⟩ := setBlack_root s _ (by simp) h
      simp only [ACursor.erase, ANode.erase, List.map_nil, fixInsert, Option.some.injEq] at hm
      refine ⟨s2, t2, ?_, h2, by rw [he, ← hm]; rfl, n2, z2⟩
      simp only [Mem.fixInsert, ptr_mk, ← LRep_root s _ h, if_true, e]
    · have hroot := root_ne_focus s _ P above h
      have hP := (LRep_fill s _ P _).1 h
      have r1 := focus_parent s n nk nd nc nl nr _ h
      simp only [upPtr_cons] at r1
      have r2 : s.color (some P.addr) = some P.erase.color := by
        cases P <;> exact focus_color s _ _ _ _ _ _ _ hP
      simp only [ptr_mk] at hroot
      simp only [Mem.fixInsert, ptr_mk, hroot, if_false, r1, r2, Option.bind_eq_bind,
        Option.some_bind]
      simp only [ACursor.erase, ANode.erase, List.map_cons, fixInsert] at hm
      by_cases hc : P.erase.color = .RED
      · simp only [hc, if_true] at hm ⊢
        cases hb : fixInsertBody ⟨.mk nk nd nc nl.erase nr.erase,
            P.erase :: above.map AFrame.erase⟩ with
        | none => simp [hb] at hm
        | some cur1 =>
          simp only [hb, Option.some_bind] at hm
          obtain ⟨s1, acur1, e1, h1, he1, n1, z1⟩ := fixInsertBody_sim s ⟨_, P :: above⟩ cur1 h hb
          subst he1
          obtain ⟨s2, t2, e2, h2, he2, n2, z2⟩ := ih s1 acur1 h1 hm fuel3 (by omega)
          refine ⟨s2, t2, ?_, h2, he2, by rw [n2, n1], by rw [z2, z1]⟩
          simp only [ptr_mk] at e1
          simp only [e1, Option.some_bind, e2]
      · simp only [hc, if_false, Option.some.injEq] at hm ⊢
        have hw := (LRep_aplug s _ _).1 h
        obtain ⟨a, k, d, c, l, r2, ha⟩ := aplug_cons_eq_mk (.mk n nk nd nc nl nr) P above
        obtain ⟨s2, t2, e, h2, he, n2, z2⟩ := setBlack_root s _ (by rw [ha]; simp) hw
        refine ⟨s2, t2, e, h2, ?_, n2, z2⟩
        rw [he, ← hm, erase_aplug]
        rfl

/-! ## `insertNode` over the heap -/

theorem LRep_frame (s s2 : Mem.Store) (cur : ACursor) (h : LRep s cur)
    (hm : ∀ y ∈ cur.addrs, s2.mem y = s.mem y) (hr : s2.root = s.root)
    (hn : s.next ≤ s2.next) : LRep s2 cur := by
  obtain ⟨h1, h2, h3, h4⟩ := h
  refine ⟨?_, ?_, h3, fun a ha => lt_of_lt_of_le (h4 a ha) hn⟩
  · exact (ARep_congr s.mem s2.mem _ _ (fun y hy => hm y (by simp [ACursor.addrs, hy]))).2 h1
  · rw [hr]
    exact (ARepUp_congr s.mem s2.mem _ _ _ (fun y hy => hm y (by simp [ACursor.addrs, hy]))).2 h2

theorem addrs_length_le (s : Mem.Store) (cur : ACursor) (h : LRep s cur) :
    cur.addrs.length ≤ s.next := by
  have hsub : cur.addrs ⊆ List.range s.next := fun a ha => List.mem_range.2 (h.2.2.2 a ha)
  have := (List.subperm_of_subset h.2.2.1 hsub).length_le
  simpa using this

theorem length_le_upAddrs (up : List AFrame) : up.length ≤ (upAddrs up).length := by
  induction up with
  | nil => simp [upAddrs]
  | cons f up ih =>
    cases f <;> simp only [upAddrs, AFrame.addrs, List.length_cons, List.length_append] <;> omega

theorem setData_focus (s : Mem.Store) (a : Nat) (k : Int) (d : Payload) (c : Color)
    (l r : ANode) (up : List AFrame) (data : Payload) (h : LRep s ⟨.mk a k d c l r, up⟩) :
    ∃ s2, s.setData (some a) data = some s2 ∧ LRep s2 ⟨.mk a k (copyData data) c l r, up⟩ ∧
      s2.next = s.next ∧ s2.size = s.size ∧
      ∀ y, y ≠ a → s2.mem y = s.mem y := by
  obtain ⟨⟨hm, hl, hr⟩, hu, hnd, hb⟩ := h
  dsimp only at hm hu hb
  simp only [ptr_mk] at hu
  have hnd2 := hnd
  simp only [ACursor.addrs, ANode.addrs, List.nodup_append, List.nodup_cons, List.mem_append,
    List.mem_cons, List.disjoint_cons_left, List.disjoint_cons_right,
    List.disjoint_append_left, List.disjoint_append_right, not_or] at hnd2
  refine ⟨s.write a (Mem.Node.mk k (copyData data) c l.ptr r.ptr (upPtr up)), ?_, ?_, rfl, rfl,
    fun y hy => by simp [Function.update_noteq hy]⟩
  · simp [Mem.Store.setData, modify_some, hm]
  refine ⟨⟨by simp, ?_, ?_⟩, ?_, hnd, hb⟩
  · exact (ARep_update _ _ _ _ _ (by tauto)).2 hl
  · exact (ARep_update _ _ _ _ _ (by tauto)).2 hr
  · exact (ARepUp_update _ _ _ _ _ _ (by tauto)).2 hu

theorem insertSearch_sim (s : Mem.Store) (key : Int) (data : Payload) (t : ANode)
    (up : List AFrame) (fuel : Nat) (h : LRep s ⟨t, up⟩) (hf : t.addrs.length < fuel)
    (hs : ∀ f rest, up = f :: rest → f.sideOf key) (N : Nat)
    (hN : ∀ y ∈ (ACursor.mk t up).addrs, y < N) :
    (∀ up2, insertDescend key data t.erase (up.map AFrame.erase) = .inr up2 →
      ∃ aup, Mem.insertSearch s key fuel t.ptr (upPtr up) = some (.inr (upPtr aup)) ∧
        aup.map AFrame.erase = up2 ∧ LRep s ⟨.NULL, aup⟩ ∧
        (∀ f rest, aup = f :: rest → f.sideOf key) ∧ up.length ≤ aup.length ∧
        (aup = [] → t = .NULL) ∧ ∀ y ∈ (ACursor.mk .NULL aup).addrs, y < N) ∧
    (∀ root2, insertDescend key data t.erase (up.map AFrame.erase) = .inl root2 →
      ∃ a d c l r aup, Mem.insertSearch s key fuel t.ptr (upPtr up) = some (.inl (some a)) ∧
        LRep s ⟨.mk a key d c l r, aup⟩ ∧ (∀ y ∈ (ACursor.mk (.mk a key d c l r) aup).addrs, y < N) ∧
        root2 = plug (.mk key (copyData data) c l.erase r.erase) (aup.map AFrame.erase)) := by
  induction t generalizing up fuel with
  | NULL =>
    obtain ⟨f, rfl⟩ : ∃ k, fuel = k + 1 := ⟨fuel - 1, by omega⟩
    refine ⟨fun up2 h2 => ?_, fun root2 h2 => ?_⟩
    · simp only [ANode.erase, insertDescend, Sum.inr.injEq] at h2
      exact ⟨up, by simp [Mem.insertSearch], h2, h, hs, le_rfl, fun _ => rfl, hN⟩
    · simp [ANode.erase, insertDescend] at h2
  | mk a k d c l r ihl ihr =>
    obtain ⟨f, rfl⟩ : ∃ k, fuel = k + 1 := ⟨fuel - 1, by omega⟩
    simp only [ANode.addrs, List.length_append, List.length_cons] at hf
    have rk := focus_key s a k d c l r up h
    have rl := focus_left s a k d c l r up h
    have rr := focus_right s a k d c l r up h
    simp only [ANode.erase, insertDescend, Mem.insertSearch, ptr_mk, reduceCtorEq, if_false, rk,
      rl, rr, Option.bind_eq_bind, Option.some_bind]
    by_cases h1 : key < k
    · simp only [h1, if_true]
      have hl := (LRep_inLeft s l a k d c r up).2 h
      obtain ⟨i1, i2⟩ := ihl (.inLeft a k d c r :: up) f hl (by omega)
        (fun f rest e => by
          simp only [List.cons.injEq] at e
          rw [← e.1]
          exact h1)
        (fun y hy => hN y ((addrs_fill_perm l (.inLeft a k d c r) up).mem_iff.1 hy))
      refine ⟨fun up2 h2 => ?_, fun root2 h2 => i2 root2 h2⟩
      obtain ⟨aup, e1, e2, e3, e4, e5, -, e6⟩ := i1 up2 h2
      simp only [List.length_cons] at e5
      refine ⟨aup, e1, e2, e3, e4, by omega, fun e => ?_, e6⟩
      subst e
      simp at e5
    · simp only [h1, if_false]
      by_cases h2 : key > k
      · simp only [h2, if_true]
        have hr := (LRep_inRight s r a k d c l up).2 h
        obtain ⟨i1, i2⟩ := ihr (.inRight a k d c l :: up) f hr (by omega)
          (fun f rest e => by
            simp only [List.cons.injEq] at e
            rw [← e.1]
            exact h1)
          (fun y hy => hN y ((addrs_fill_perm r (.inRight a k d c l) up).mem_iff.1 hy))
        refine ⟨fun up2 h3 => ?_, fun root2 h3 => i2 root2 h3⟩
        obtain ⟨aup, e1, e2, e3, e4, e5, -, e6⟩ := i1 up2 h3
        simp only [List.length_cons] at e5
        refine ⟨aup, e1, e2, e3, e4, by omega, fun e => ?_, e6⟩
        subst e
        simp at e5
      · simp only [h2, if_false]
        have hk : k = key := by omega
        subst hk
        refine ⟨fun up2 h3 => by simp at h3, fun root2 h3 => ?_⟩
        simp only [Sum.inl.injEq] at h3
        exact ⟨a, d, c, l, r, up, rfl, h, hN, h3.symm⟩

/-- Lines 269-274 of `insertNode`: the new node is linked below the last node of the walk. -/
theorem attach_spec (s : Mem.Store) (key : Int) (dat : Payload) (x : Nat) (f : AFrame)
    (up : List AFrame) (h : LRep s ⟨.NULL, f :: up⟩)
    (hx : s.mem x = some (Mem.Node.mk key dat .RED none none none))
    (hfresh : x ∉ (ACursor.mk .NULL (f :: up)).addrs) (hxn : x < s.next) (hside : f.sideOf key) :
    ∃ s1 s2 pk, s.setParent (some x) (some f.addr) = some s1 ∧
      s1.key (some f.addr) = some pk ∧
      (if key < pk then s1.setLeft (some f.addr) (some x)
        else s1.setRight (some f.addr) (some x)) = some s2 ∧
      LRep s2 ⟨.mk x key dat .RED .NULL .NULL, f :: up⟩ ∧ s2.next = s.next ∧
      s2.size = s.size := by
  obtain ⟨-, hu, hnd, hb⟩ := h
  rcases f with ⟨p, pk, pd, pc, ps⟩ | ⟨p, pk, pd, pc, ps⟩
  · obtain ⟨hp, hps, hu2⟩ := hu
    simp only [ACursor.addrs, ANode.addrs, upAddrs, AFrame.addrs, List.nil_append,
      List.cons_append, List.mem_cons, List.mem_append, not_or, List.nodup_cons,
      List.nodup_append] at hfresh hnd
    simp only [ptr_NULL] at hp
    simp only [AFrame.sideOf] at hside
    have nxp : ¬x = p := hfresh.1
    have npx : ¬p = x := fun e => nxp e.symm
    refine ⟨s.write x (Mem.Node.mk key dat .RED none none (some p)),
      (s.write x (Mem.Node.mk key dat .RED none none (some p))).write p
        (Mem.Node.mk pk pd pc (some x) ps.ptr (upPtr up)), pk, ?_, ?_, ?_,
      ⟨⟨?_, trivial, trivial⟩, ⟨?_, ?_, ?_⟩, ?_, ?_⟩, rfl, rfl⟩
    · simp [Mem.Store.setParent, modify_some, hx]
    · simp [key_some, Function.update_noteq npx, hp]
    · simp only [hside, if_true, if_false, Mem.Store.setLeft, Mem.Store.setRight, modify_some,
        write_mem, Function.update_noteq npx, hp, Option.map_some', addr_inLeft, addr_inRight]
    · simp [Function.update_noteq nxp]
    · simp
    · simp only [write_mem, addr_inLeft, addr_inRight]
      rw [ARep_update _ _ _ _ _ hnd.1.1, ARep_update _ _ _ _ _ hfresh.2.1]
      exact hps
    · simp only [write_mem, write_root, addr_inLeft, addr_inRight]
      rw [ARepUp_update _ _ _ _ _ _ hnd.1.2, ARepUp_update _ _ _ _ _ _ hfresh.2.2]
      exact hu2
    · simp only [ACursor.addrs, ANode.addrs, upAddrs, AFrame.addrs, List.nil_append,
        List.cons_append, List.nodup_cons, List.mem_cons, List.mem_append, not_or,
        List.nodup_append]
      exact ⟨hfresh, hnd⟩
    · intro y hy
      simp only [ACursor.addrs, ANode.addrs, List.nil_append, List.cons_append,
        List.mem_cons] at hy
      rcases hy with rfl | hy
      · exact hxn
      · exact hb y (by simpa [ACursor.addrs, ANode.addrs] using hy)
  · obtain ⟨hp, hps, hu2⟩ := hu
    simp only [ACursor.addrs, ANode.addrs, upAddrs, AFrame.addrs, List.nil_append,
      List.cons_append, List.mem_cons, List.mem_append, not_or, List.nodup_cons,
      List.nodup_append] at hfresh hnd
    simp only [ptr_NULL] at hp
    simp only [AFrame.sideOf] at hside
    have nxp : ¬x = p := hfresh.1
    have npx : ¬p = x := fun e => nxp e.symm
    refine ⟨s.write x (Mem.Node.mk key dat .RED none none (some p)),
      (s.write x (Mem.Node.mk key dat .RED none none (some p))).write p
        (Mem.Node.mk pk pd pc ps.ptr (some x) (upPtr up)), pk, ?_, ?_, ?_,
      ⟨⟨?_, trivial, trivial⟩, ⟨?_, ?_, ?_⟩, ?_, ?_⟩, rfl, rfl⟩
    · simp [Mem.Store.setParent, modify_some, hx]
    · simp [key_some, Function.update_noteq npx, hp]
    · simp only [hside, if_true, if_false, Mem.Store.setLeft, Mem.Store.setRight, modify_some,
        write_mem, Function.update_noteq npx, hp, Option.map_some', addr_inLeft, addr_inRight]
    · simp [Function.update_noteq nxp]
    · simp
    · simp only [write_mem, addr_inLeft, addr_inRight]
      rw [ARep_update _ _ _ _ _ hnd.1.1, ARep_update _ _ _ _ _ hfresh.2.1]
      exact hps
    · simp only [write_mem, write_root, addr_inLeft, addr_inRight]
      rw [ARepUp_update _ _ _ _ _ _ hnd.1.2, ARepUp_update _ _ _ _ _ _ hfresh.2.2]
      exact hu2
    · simp only [ACursor.addrs, ANode.addrs, upAddrs, AFrame.addrs, List.nil_append,
        List.cons_append, List.nodup_cons, List.mem_cons, List.mem_append, not_or,
        List.nodup_append]
      exact ⟨hfresh, hnd⟩
    · intro y hy
      simp only [ACursor.addrs, ANode.addrs, List.nil_append, List.cons_append,
        List.mem_cons] at hy
      rcases hy with rfl | hy
      · exact hxn
      · exact hb y (by simpa [ACursor.addrs, ANode.addrs] using hy)

theorem insertNode_sim (s : Mem.Store) (t : RBTree) (key : Int) (data : Payload)
    (t2 : RBTree) (res : Int) (h : Refines s t) (hm : insertNode t key data = some (t2, res)) :
    ∃ s2, Mem.insertNode s key data = some (s2, res) ∧ Refines s2 t2 := by
  obtain ⟨tr, htr, hL, hz⟩ := h
  obtain ⟨s1, hs1⟩ : ∃ s1, s1 = (Mem.createNode s key data).1 := ⟨_, rfl⟩
  have hc : Mem.createNode s key data = (s1, some s.next) := by rw [hs1]; rfl
  have m1 : s1.mem = Function.update s.mem s.next
      (some (Mem.Node.mk key (copyData data) .RED none none none)) := by rw [hs1]; rfl
  have n1 : s1.next = s.next + 1 := by rw [hs1]; rfl
  have r1 : s1.root = s.root := by rw [hs1]; rfl
  have z1 : s1.size = s.size := by rw [hs1]; rfl
  have mx : s1.mem s.next = some (Mem.Node.mk key (copyData data) .RED none none none) := by
    rw [m1, Function.update_same]
  have hroot := LRep_root s tr hL
  have hlt : ∀ y ∈ (ACursor.mk tr []).addrs, y < s.next := hL.2.2.2
  have hL1 : LRep s1 ⟨tr, []⟩ := LRep_frame s s1 _ hL
    (fun y hy => by rw [m1, Function.update_noteq (Nat.ne_of_lt (hlt y hy))]) r1 (by omega)
  simp only [Mem.insertNode, hc]
  rcases tr with _ | ⟨a, k, d, c, l, r⟩
  · -- tree->root == NULL
    simp only [ANode.erase] at htr
    simp only [insertNode, ← htr, Option.some.injEq, Prod.mk.injEq] at hm
    obtain ⟨rfl, rfl⟩ := hm
    simp only [ptr_NULL] at hroot
    refine ⟨{ (s1.setRoot (some s.next)).write s.next
      (Mem.Node.mk key (copyData data) .BLACK none none none) with size := s1.size + 1 }, ?_,
      .mk s.next key (copyData data) .BLACK .NULL .NULL, rfl, ⟨⟨?_, trivial, trivial⟩, rfl, ?_, ?_⟩,
      ?_⟩
    · simp [r1, hroot, Mem.Store.setColor, modify_some, Mem.Store.setRoot, mx]
    · simp [Mem.Store.setRoot]
    · simp [ACursor.addrs, ANode.addrs, upAddrs]
    · intro y hy
      simp only [ACursor.addrs, ANode.addrs, upAddrs, List.append_nil, List.nil_append,
        List.mem_singleton] at hy
      subst hy
      show s.next < s1.next
      omega
    · show s1.size + 1 = t.size + 1
      rw [z1, hz]
  · -- the search loop
    simp only [ptr_mk] at hroot
    have hsim := insertSearch_sim s1 key data (.mk a k d c l r) [] (s1.next + 1) hL1
      (by
        have := addrs_length_le s1 _ hL1
        simp only [ACursor.addrs, upAddrs, List.append_nil] at this
        omega)
      (fun f rest e => by simp at e) s.next hlt
    simp only [r1, hroot, reduceCtorEq, if_false, upPtr_nil, List.map_nil, ptr_mk] at hsim ⊢
    simp only [ANode.erase] at htr
    simp only [insertNode, ← htr] at hm
    simp only [ANode.erase] at hsim
    cases hd : insertDescend key data (.mk k d c l.erase r.erase) [] with
    | inl root2 =>
      simp only [hd, Option.some.injEq, Prod.mk.injEq] at hm
      obtain ⟨rfl, rfl⟩ := hm
      obtain ⟨a2, d2, c2, l2, r2, aup, e, hF, hN, hr2⟩ := hsim.2 root2 hd
      obtain ⟨s2, e2, h2, n2, z2, off2⟩ := setData_focus s1 a2 key d2 c2 l2 r2 aup data hF
      have hax : s.next ≠ a2 := by
        have := hN a2 (by simp [ACursor.addrs, ANode.addrs])
        omega
      have m2x : s2.mem s.next = some (Mem.Node.mk key (copyData data) .RED none none none) := by
        rw [off2 _ hax, mx]
      refine ⟨{ s2 with mem := Function.update s2.mem s.next none }, ?_,
        aplug (.mk a2 key (copyData data) c2 l2 r2) aup, ?_, ?_, ?_⟩
      · simp only [e, Option.bind_eq_bind, Option.some_bind, Mem.insertUpdate, e2, Mem.free, m2x,
          Option.pure_def]
      · rw [erase_aplug, hr2]
        rfl
      · rw [← LRep_aplug]
        exact LRep_frame s2 _ _ h2 (fun y hy => by
          have : y < s.next := hN y hy
          exact Function.update_noteq (Nat.ne_of_lt this) _ _) rfl le_rfl
      · show s2.size = t.size
        rw [z2, z1, hz]
    | inr up =>
      simp only [hd, Option.map_eq_some', Prod.mk.injEq] at hm
      obtain ⟨r2, hfix, rfl, rfl⟩ := hm
      obtain ⟨aup, e, her, hF, hside, -, hne, hN⟩ := hsim.1 up hd
      rcases aup with _ | ⟨f, rest⟩
      · exact absurd (hne rfl) (by simp)
      obtain ⟨sA, sB, pk, e1, e2, e3, hB, nB, zB⟩ := attach_spec s1 key (copyData data) s.next f
        rest hF mx (fun hx => Nat.lt_irrefl _ (hN _ hx)) (by omega) (hside f rest rfl)
      have hB2 : LRep { sB with size := sB.size + 1 }
          ⟨.mk s.next key (copyData data) .RED .NULL .NULL, f :: rest⟩ := hB
      have hlen : up.length + 1 ≤ sB.next + 1 := by
        have h1 := addrs_length_le sB _ hB
        have h2 := length_le_upAddrs (f :: rest)
        simp only [ACursor.addrs, List.length_append] at h1
        rw [← her, List.length_map]
        omega
      obtain ⟨s2, t2, e4, h4, he4, n4, z4⟩ := fixInsert_sim (up.length + 1)
        _ _ r2 hB2 (by
          simp only [ACursor.erase, ANode.erase, her]
          exact hfix) (sB.next + 1) hlen
      refine ⟨s2, ?_, t2, he4, h4, ?_⟩
      · simp only [upPtr_cons] at e
        simp only [ptr_mk] at e4
        by_cases hk : key < pk <;> simp only [hk, if_true, if_false] at e3 <;>
          simp only [e, Option.bind_eq_bind, Option.some_bind, Mem.insertAttach, e1, e2, hk,
            if_true, if_false, e3, e4, Option.pure_def]
      · rw [z4]
        show sB.size + 1 = t.size + 1
        rw [zB, z1, hz]

/-! ## The loop of `fixDelete` over the heap -/

theorem erase_setColor_BLACK (t : ANode) : (t.setColor .BLACK).erase = setBlack t.erase := by
  cases t <;> rfl

theorem condSetColor_focus (s : Mem.Store) (t : ANode) (up : List AFrame) (c : Color)
    (h : LRep s ⟨t, up⟩) :
    ∃ s2, Mem.condSetColor s t.ptr c = some s2 ∧ LRep s2 ⟨t.setColor c, up⟩ ∧
      s2.next = s.next ∧ s2.size = s.size ∧ s2.root = s.root := by
  cases t with
  | NULL => exact ⟨s, by simp [Mem.condSetColor], h, rfl, rfl, rfl⟩
  | mk a k d c0 l r =>
    obtain ⟨s2, e, h2, n2, z2, r2⟩ := setColor_focus s a k d c0 l r up c h
    exact ⟨s2, by simp [Mem.condSetColor, e], h2, n2, z2, r2⟩

theorem bothChildrenBlack_focus (s : Mem.Store) (a : Nat) (k : Int) (d : Payload) (c : Color)
    (l r : ANode) (up : List AFrame) (h : LRep s ⟨.mk a k d c l r, up⟩) :
    Mem.bothChildrenBlack s (some a) =
      some (isBlackOrNull l.erase && isBlackOrNull r.erase) := by
  have hl := (LRep_inLeft s l a k d c r up).2 h
  have hr := (LRep_inRight s r a k d c l up).2 h
  simp only [Mem.bothChildrenBlack, focus_left s a k d c l r up h,
    focus_right s a k d c l r up h, isBlackOrNull_ptr s l _ hl, isBlackOrNull_ptr s r _ hr,
    Option.bind_eq_bind, Option.some_bind, Option.pure_def]
  cases isBlackOrNull l.erase <;> simp

theorem fixDeleteLeftCase3_sim (s : Mem.Store) (sa : Nat) (sk : Int) (sd : Payload)
    (sc : Color) (sl sr : ANode) (p : Nat) (pk : Int) (pd : Payload) (pc : Color)
    (node : ANode) (above : List AFrame)
    (h : LRep s ⟨.mk sa sk sd sc sl sr, .inRight p pk pd pc node :: above⟩)
    (hb : (isBlackOrNull sl.erase && isBlackOrNull sr.erase) = false) :
    ∃ s2 ta tk td tc tl tr, Mem.fixDeleteLeftCase3 s (some p) (some sa) = some (s2, some ta) ∧
      LRep s2 ⟨.mk ta tk td tc tl tr, .inRight p pk pd pc node :: above⟩ ∧
      RBNode.mk tk td tc tl.erase tr.erase =
        (if isBlackOrNull sr.erase then rotateRight (.mk sk sd .RED (setBlack sl.erase) sr.erase)
          else .mk sk sd sc sl.erase sr.erase) ∧
      s2.next = s.next ∧ s2.size = s.size := by
  have hr := (LRep_inRight s sr sa sk sd sc sl _).2 h
  have r1 := focus_right s sa sk sd sc sl sr _ h
  have r2 := isBlackOrNull_ptr s sr _ hr
  by_cases hrb : isBlackOrNull sr.erase = true
  · -- Case 3: the left child of the sibling is RED
    rw [hrb] at r2
    rcases sl with _ | ⟨la, lk, ld, lc, ll, lr⟩
    · simp [ANode.erase, hrb] at hb
    simp only [ANode.erase, isBlackOrNull_mk, hrb, Bool.and_true, decide_eq_false_iff_not] at hb
    have r3 := focus_left s sa sk sd sc _ sr _ h
    have hl := (LRep_inLeft s (.mk la lk ld lc ll lr) sa sk sd sc sr _).2 h
    obtain ⟨s1, e1, h1, n1, z1, -⟩ := condSetColor_focus s _ _ .BLACK hl
    have hs1 := (LRep_inLeft s1 _ sa sk sd sc sr _).1 h1
    obtain ⟨s2, e2, h2, n2, z2, -⟩ := setColor_focus s1 sa sk sd sc _ _ _ .RED hs1
    obtain ⟨s3, e3, h3, n3, z3⟩ := rotateRight_focus s2 sa sk sd .RED la lk ld .BLACK ll lr sr _ h2
    have hp3 := (LRep_inRight s3 _ p pk pd pc node above).1 h3
    have r4 := focus_right s3 p pk pd pc _ _ _ hp3
    simp only [ptr_mk] at r3 r4 e1
    refine ⟨s3, la, lk, ld, .BLACK, ll, .mk sa sk sd .RED lr sr, ?_, h3, ?_, by rw [n3, n2, n1],
      by rw [z3, z2, z1]⟩
    · simp only [Mem.fixDeleteLeftCase3, r1, r2, r3, Option.bind_eq_bind, Option.some_bind,
        if_true, e1, e2, e3, r4, Option.pure_def]
    · simp [ANode.erase, hrb, rotateRight, setBlack]
  · -- the right child of the sibling is RED
    simp only [Bool.not_eq_true] at hrb
    rw [hrb] at r2
    refine ⟨s, sa, sk, sd, sc, sl, sr, ?_, h, by simp [hrb], rfl, rfl⟩
    simp only [Mem.fixDeleteLeftCase3, r1, r2, Option.bind_eq_bind, Option.some_bind,
      Bool.false_eq_true, if_false, Option.pure_def]

theorem fixDeleteLeftCase4_sim (s : Mem.Store) (ta : Nat) (tk : Int) (td : Payload)
    (tc : Color) (tl tr : ANode) (p : Nat) (pk : Int) (pd : Payload) (pc : Color)
    (node : ANode) (above : List AFrame)
    (h : LRep s ⟨.mk ta tk td tc tl tr, .inRight p pk pd pc node :: above⟩) :
    ∃ s2 root2, Mem.fixDeleteLeftCase4 s node.ptr (some p) (some ta) =
        some (s2, root2.ptr, some p) ∧
      LRep s2 ⟨root2, []⟩ ∧ root2 ≠ .NULL ∧
      root2.erase = plug (rotateLeft (.mk pk pd .BLACK node.erase
        (.mk tk td pc tl.erase (setBlack tr.erase)))) (above.map AFrame.erase) ∧
      s2.next = s.next ∧ s2.size = s.size := by
  have hp := (LRep_inRight s _ p pk pd pc node above).1 h
  have r1 := focus_color s p pk pd pc _ _ _ hp
  obtain ⟨s1, e1, h1, n1, z1, -⟩ := setColor_focus s ta tk td tc tl tr _ pc h
  have hp1 := (LRep_inRight s1 _ p pk pd pc node above).1 h1
  obtain ⟨s2, e2, h2, n2, z2, -⟩ := setColor_focus s1 p pk pd pc _ _ _ .BLACK hp1
  have ht2 := (LRep_inRight s2 (.mk ta tk td pc tl tr) p pk pd .BLACK node above).2 h2
  have r2 := focus_right s2 ta tk td pc tl tr _ ht2
  have hr2 := (LRep_inRight s2 tr ta tk td pc tl _).2 ht2
  obtain ⟨s3, e3, h3, n3, z3, -⟩ := condSetColor_focus s2 tr _ .BLACK hr2
  have ht3 := (LRep_inRight s3 _ ta tk td pc tl _).1 h3
  have hp3 := (LRep_inRight s3 _ p pk pd .BLACK node above).1 ht3
  obtain ⟨s4, e4, h4, n4, z4⟩ :=
    rotateLeft_focus s3 p pk pd .BLACK node ta tk td pc tl (tr.setColor .BLACK) above hp3
  have hw := (LRep_aplug s4 _ above).1 h4
  have hroot := LRep_root s4 _ hw
  refine ⟨s4, _, ?_, hw, ?_, ?_, by rw [n4, n3, n2, n1], by rw [z4, z3, z2, z1]⟩
  · simp only [Mem.fixDeleteLeftCase4, ne_eq, reduceCtorEq, not_false_eq_true, if_true, r1,
      Option.bind_eq_bind, Option.some_bind, e1, e2, r2, e3, e4, hroot, Option.pure_def]
  · cases above with
    | nil => simp [aplug]
    | cons f above =>
      obtain ⟨a, k, d, c, l, r, ha⟩ := aplug_cons_eq_mk
        (.mk ta tk td pc (.mk p pk pd .BLACK node tl) (tr.setColor .BLACK)) f above
      rw [ha]; simp
  · rw [erase_aplug]
    simp [ANode.erase, rotateLeft, erase_setColor_BLACK]

theorem fixDeleteLeftCases_sim (s : Mem.Store) (node : ANode) (p : Nat) (pk : Int)
    (pd : Payload) (pc : Color) (sib : ANode) (above : List AFrame)
    (h : LRep s ⟨node, .inLeft p pk pd pc sib :: above⟩) :
    ∃ s2 cur2 par2, Mem.fixDeleteLeftCases s node.ptr (some p) sib.ptr =
        some (s2, cur2.node.ptr, par2) ∧
      LRep s2 cur2 ∧
      cur2.erase = fixDeleteLeft node.erase pk pd pc sib.erase (above.map AFrame.erase) ∧
      (cur2.node = .NULL → par2 = upPtr cur2.up) ∧ s2.next = s.next ∧ s2.size = s.size := by
  rcases sib with _ | ⟨sa, sk, sd, sc, sl, sr⟩
  · refine ⟨s, ⟨node, _⟩, some p, ?_, h, ?_, fun _ => rfl, rfl, rfl⟩
    · simp [Mem.fixDeleteLeftCases]
    · simp [ACursor.erase, AFrame.erase, ANode.erase, fixDeleteLeft]
  · have hp := (LRep_inLeft s node p pk pd pc _ above).1 h
    have hs := (LRep_inRight s (.mk sa sk sd sc sl sr) p pk pd pc node above).2 hp
    have bb := bothChildrenBlack_focus s sa sk sd sc sl sr _ hs
    by_cases hb : (isBlackOrNull sl.erase && isBlackOrNull sr.erase) = true
    · -- Case 2
      rw [hb] at bb
      obtain ⟨s1, e1, h1, n1, z1, -⟩ := setColor_focus s sa sk sd sc sl sr _ .RED hs
      have hp1 := (LRep_inRight s1 _ p pk pd pc node above).1 h1
      refine ⟨s1, ⟨_, above⟩, some p, ?_, hp1, ?_, fun e => by simp at e, n1, z1⟩
      · simp only [Mem.fixDeleteLeftCases, ptr_mk, ne_eq, reduceCtorEq, not_false_eq_true,
          if_true, bb, Option.bind_eq_bind, Option.some_bind, e1, Option.pure_def]
      · simp only [ACursor.erase, ANode.erase, fixDeleteLeft, hb, if_true]
    · -- Cases 3 and 4
      simp only [Bool.not_eq_true] at hb
      rw [hb] at bb
      obtain ⟨s1, ta, tk, td, tc, tl, tr, e1, h1, he1, n1, z1⟩ :=
        fixDeleteLeftCase3_sim s sa sk sd sc sl sr p pk pd pc node above hs hb
      obtain ⟨s2, root2, e2, h2, hne, he2, n2, z2⟩ :=
        fixDeleteLeftCase4_sim s1 ta tk td tc tl tr p pk pd pc node above h1
      refine ⟨s2, ⟨root2, []⟩, some p, ?_, h2, ?_, fun e => absurd e hne, by rw [n2, n1],
        by rw [z2, z1]⟩
      · simp only [Mem.fixDeleteLeftCases, ptr_mk, ne_eq, reduceCtorEq, not_false_eq_true,
          if_true, bb, Option.bind_eq_bind, Option.some_bind, Bool.false_eq_true, if_false, e1,
          e2]
      · simp only [ACursor.erase, ANode.erase, fixDeleteLeft, hb, Bool.false_eq_true, if_false,
          List.map_nil, ← he1, he2]

theorem fixDeleteLeft_sim (s : Mem.Store) (node : ANode) (p : Nat) (pk : Int)
    (pd : Payload) (pc : Color) (sib : ANode) (above : List AFrame)
    (h : LRep s ⟨node, .inLeft p pk pd pc sib :: above⟩) :
    ∃ s2 cur2 par2, Mem.fixDeleteLeft s node.ptr (some p) = some (s2, cur2.node.ptr, par2) ∧
      LRep s2 cur2 ∧
      fixDeleteBody ⟨node.erase, .inLeft pk pd pc sib.erase :: above.map AFrame.erase⟩ =
        some cur2.erase ∧
      (cur2.node = .NULL → par2 = upPtr cur2.up) ∧ s2.next = s.next ∧ s2.size = s.size := by
  have hp := (LRep_inLeft s node p pk pd pc _ above).1 h
  have r1 := focus_right s p pk pd pc _ _ _ hp
  rcases sib with _ | ⟨sa, sk, sd, sc, sl, sr⟩
  · -- sibling == NULL
    have r2 := focus_parent s p pk pd pc _ _ _ hp
    refine ⟨s, ⟨_, above⟩, upPtr above, ?_, hp, ?_, fun e => by simp at e, rfl, rfl⟩
    · simp only [Mem.fixDeleteLeft, r1, r2, ptr_NULL, Option.bind_eq_bind, Option.some_bind,
        if_true, Option.pure_def, ptr_mk]
    · cases node <;> simp [ACursor.erase, ANode.erase, fixDeleteBody]
  · have hs := (LRep_inRight s (.mk sa sk sd sc sl sr) p pk pd pc node above).2 hp
    have r2 := focus_color s sa sk sd sc sl sr _ hs
    simp only [ptr_mk] at r1
    cases sc with
    | RED =>
      -- Case 1
      obtain ⟨s1, e1, h1, n1, z1, -⟩ := setColor_focus s sa sk sd .RED sl sr _ .BLACK hs
      have hp1 := (LRep_inRight s1 _ p pk pd pc node above).1 h1
      obtain ⟨s2, e2, h2, n2, z2, -⟩ := setColor_focus s1 p pk pd pc _ _ _ .RED hp1
      obtain ⟨s3, e3, h3, n3, z3⟩ :=
        rotateLeft_focus s2 p pk pd .RED node sa sk sd .BLACK sl sr above h2
      have hp3 := (LRep_inLeft s3 (.mk p pk pd .RED node sl) sa sk sd .BLACK sr above).2 h3
      have r3 := focus_right s3 p pk pd .RED node sl _ hp3
      have hn3 := (LRep_inLeft s3 node p pk pd .RED sl _).2 hp3
      obtain ⟨s4, cur2, par2, e4, h4, he4, hpar, n4, z4⟩ :=
        fixDeleteLeftCases_sim s3 node p pk pd .RED sl _ hn3
      refine ⟨s4, cur2, par2, ?_, h4, ?_, hpar, by rw [n4, n3, n2, n1], by rw [z4, z3, z2, z1]⟩
      · simp only [Mem.fixDeleteLeft, r1, reduceCtorEq, if_false, Option.bind_eq_bind,
          Option.some_bind, Mem.fixDeleteLeftCase1, r2, if_true, e1, e2, e3, r3,
          Option.pure_def, e4]
      · rw [he4]
        cases node <;>
          simp [ACursor.erase, ANode.erase, AFrame.erase, fixDeleteBody, rotateLeft]
    | BLACK =>
      obtain ⟨s4, cur2, par2, e4, h4, he4, hpar, n4, z4⟩ :=
        fixDeleteLeftCases_sim s node p pk pd pc (.mk sa sk sd .BLACK sl sr) _ h
      refine ⟨s4, cur2, par2, ?_, h4, ?_, hpar, n4, z4⟩
      · simp only [ptr_mk] at e4
        simp only [Mem.fixDeleteLeft, r1, reduceCtorEq, if_false, Option.bind_eq_bind,
          Option.some_bind, Mem.fixDeleteLeftCase1, r2, Option.pure_def, e4]
      · rw [he4]
        cases node <;> simp [ACursor.erase, ANode.erase, AFrame.erase, fixDeleteBody]

theorem fixDeleteRightCase3_sim (s : Mem.Store) (sa : Nat) (sk : Int) (sd : Payload)
    (sc : Color) (sl sr : ANode) (p : Nat) (pk : Int) (pd : Payload) (pc : Color)
    (node : ANode) (above : List AFrame)
    (h : LRep s ⟨.mk sa sk sd sc sl sr, .inLeft p pk pd pc node :: above⟩)
    (hb : (isBlackOrNull sl.erase && isBlackOrNull sr.erase) = false) :
    ∃ s2 ta tk td tc tl tr, Mem.fixDeleteRightCase3 s (some p) (some sa) = some (s2, some ta) ∧
      LRep s2 ⟨.mk ta tk td tc tl tr, .inLeft p pk pd pc node :: above⟩ ∧
      RBNode.mk tk td tc tl.erase tr.erase =
        (if isBlackOrNull sl.erase then rotateLeft (.mk sk sd .RED sl.erase (setBlack sr.erase))
          else .mk sk sd sc sl.erase sr.erase) ∧
      s2.next = s.next ∧ s2.size = s.size := by
  have hl := (LRep_inLeft s sl sa sk sd sc sr _).2 h
  have r1 := focus_left s sa sk sd sc sl sr _ h
  have r2 := isBlackOrNull_ptr s sl _ hl
  by_cases hlb : isBlackOrNull sl.erase = true
  · -- Case 3: the right child of the sibling is RED
    rw [hlb] at r2
    rcases sr with _ | ⟨ra, rk, rd, rc, rl, rr⟩
    · simp [ANode.erase, hlb] at hb
    simp only [ANode.erase, isBlackOrNull_mk, hlb, Bool.true_and, decide_eq_false_iff_not] at hb
    have r3 := focus_right s sa sk sd sc sl _ _ h
    have hr := (LRep_inRight s (.mk ra rk rd rc rl rr) sa sk sd sc sl _).2 h
    obtain ⟨s1, e1, h1, n1, z1, -⟩ := condSetColor_focus s _ _ .BLACK hr
    have hs1 := (LRep_inRight s1 _ sa sk sd sc sl _).1 h1
    obtain ⟨s2, e2, h2, n2, z2, -⟩ := setColor_focus s1 sa sk sd sc _ _ _ .RED hs1
    obtain ⟨s3, e3, h3, n3, z3⟩ := rotateLeft_focus s2 sa sk sd .RED sl ra rk rd .BLACK rl rr _ h2
    have hp3 := (LRep_inLeft s3 _ p pk pd pc node above).1 h3
    have r4 := focus_left s3 p pk pd pc _ _ _ hp3
    simp only [ptr_mk] at r3 r4 e1
    refine ⟨s3, ra, rk, rd, .BLACK, .mk sa sk sd .RED sl rl, rr, ?_, h3, ?_, by rw [n3, n2, n1],
      by rw [z3, z2, z1]⟩
    · simp only [Mem.fixDeleteRightCase3, r1, r2, r3, Option.bind_eq_bind, Option.some_bind,
        if_true, e1, e2, e3, r4, Option.pure_def]
    · simp [ANode.erase, hlb, rotateLeft, setBlack]
  · -- the left child of the sibling is RED
    simp only [Bool.not_eq_true] at hlb
    rw [hlb] at r2
    refine ⟨s, sa, sk, sd, sc, sl, sr, ?_, h, by simp [hlb], rfl, rfl⟩
    simp only [Mem.fixDeleteRightCase3, r1, r2, Option.bind_eq_bind, Option.some_bind,
      Bool.false_eq_true, if_false, Option.pure_def]

theorem fixDeleteRightCase4_sim (s : Mem.Store) (ta : Nat) (tk : Int) (td : Payload)
    (tc : Color) (tl tr : ANode) (p : Nat) (pk : Int) (pd : Payload) (pc : Color)
    (node : ANode) (above : List AFrame)
    (h : LRep s ⟨.mk ta tk td tc tl tr, .inLeft p pk pd pc node :: above⟩) :
    ∃ s2 root2, Mem.fixDeleteRightCase4 s node.ptr (some p) (some ta) =
        some (s2, root2.ptr, some p) ∧
      LRep s2 ⟨root2, []⟩ ∧ root2 ≠ .NULL ∧
      root2.erase = plug (rotateRight (.mk pk pd .BLACK
        (.mk tk td pc (setBlack tl.erase) tr.erase) node.erase)) (above.map AFrame.erase) ∧
      s2.next = s.next ∧ s2.size = s.size := by
  have hp := (LRep_inLeft s _ p pk pd pc node above).1 h
  have r1 := focus_color s p pk pd pc _ _ _ hp
  obtain ⟨s1, e1, h1, n1, z1, -⟩ := setColor_focus s ta tk td tc tl tr _ pc h
  have hp1 := (LRep_inLeft s1 _ p pk pd pc node above).1 h1
  obtain ⟨s2, e2, h2, n2, z2, -⟩ := setColor_focus s1 p pk pd pc _ _ _ .BLACK hp1
  have ht2 := (LRep_inLeft s2 (.mk ta tk td pc tl tr) p pk pd .BLACK node above).2 h2
  have r2 := focus_left s2 ta tk td pc tl tr _ ht2
  have hl2 := (LRep_inLeft s2 tl ta tk td pc tr _).2 ht2
  obtain ⟨s3, e3, h3, n3, z3, -⟩ := condSetColor_focus s2 tl _ .BLACK hl2
  have ht3 := (LRep_inLeft s3 _ ta tk td pc tr _).1 h3
  have hp3 := (LRep_inLeft s3 _ p pk pd .BLACK node above).1 ht3
  obtain ⟨s4, e4, h4, n4, z4⟩ :=
    rotateRight_focus s3 p pk pd .BLACK ta tk td pc (tl.setColor .BLACK) tr node above hp3
  have hw := (LRep_aplug s4 _ above).1 h4
  have hroot := LRep_root s4 _ hw
  refine ⟨s4, _, ?_, hw, ?_, ?_, by rw [n4, n3, n2, n1], by rw [z4, z3, z2, z1]⟩
  · simp only [Mem.fixDeleteRightCase4, ne_eq, reduceCtorEq, not_false_eq_true, if_true, r1,
      Option.bind_eq_bind, Option.some_bind, e1, e2, r2, e3, e4, hroot, Option.pure_def]
  · cases above with
    | nil => simp [aplug]
    | cons f above =>
      obtain ⟨a, k, d, c, l, r, ha⟩ := aplug_cons_eq_mk
        (.mk ta tk td pc (tl.setColor .BLACK) (.mk p pk pd .BLACK tr node)) f above
      rw [ha]; simp
  · rw [erase_aplug]
    simp [ANode.erase, rotateRight, erase_setColor_BLACK]

theorem fixDeleteRightCases_sim (s : Mem.Store) (node : ANode) (p : Nat) (pk : Int)
    (pd : Payload) (pc : Color) (sib : ANode) (above : List AFrame)
    (h : LRep s ⟨node, .inRight p pk pd pc sib :: above⟩) :
    ∃ s2 cur2 par2, Mem.fixDeleteRightCases s node.ptr (some p) sib.ptr =
        some (s2, cur2.node.ptr, par2) ∧
      LRep s2 cur2 ∧
      cur2.erase = fixDeleteRight node.erase pk pd pc sib.erase (above.map AFrame.erase) ∧
      (cur2.node = .NULL → par2 = upPtr cur2.up) ∧ s2.next = s.next ∧ s2.size = s.size := by
  rcases sib with _ | ⟨sa, sk, sd, sc, sl, sr⟩
  · refine ⟨s, ⟨node, _⟩, some p, ?_, h, ?_, fun _ => rfl, rfl, rfl⟩
    · simp [Mem.fixDeleteRightCases]
    · simp [ACursor.erase, AFrame.erase, ANode.erase, fixDeleteRight]
  · have hp := (LRep_inRight s node p pk pd pc _ above).1 h
    have hs := (LRep_inLeft s (.mk sa sk sd sc sl sr) p pk pd pc node above).2 hp
    have bb := bothChildrenBlack_focus s sa sk sd sc sl sr _ hs
    by_cases hb : (isBlackOrNull sl.erase && isBlackOrNull sr.erase) = true
    · -- Case 2
      rw [hb] at bb
      obtain ⟨s1, e1, h1, n1, z1, -⟩ := setColor_focus s sa sk sd sc sl sr _ .RED hs
      have hp1 := (LRep_inLeft s1 _ p pk pd pc node above).1 h1
      refine ⟨s1, ⟨_, above⟩, some p, ?_, hp1, ?_, fun e => by simp at e, n1, z1⟩
      · simp only [Mem.fixDeleteRightCases, ptr_mk, ne_eq, reduceCtorEq, not_false_eq_true,
          if_true, bb, Option.bind_eq_bind, Option.some_bind, e1, Option.pure_def]
      · simp only [ACursor.erase, ANode.erase, fixDeleteRight, hb, if_true]
    · -- Cases 3 and 4
      simp only [Bool.not_eq_true] at hb
      rw [hb] at bb
      obtain ⟨s1, ta, tk, td, tc, tl, tr, e1, h1, he1, n1, z1⟩ :=
        fixDeleteRightCase3_sim s sa sk sd sc sl sr p pk pd pc node above hs hb
      obtain ⟨s2, root2, e2, h2, hne, he2, n2, z2⟩ :=
        fixDeleteRightCase4_sim s1 ta tk td tc tl tr p pk pd pc node above h1
      refine ⟨s2, ⟨root2, []⟩, some p, ?_, h2, ?_, fun e => absurd e hne, by rw [n2, n1],
        by rw [z2, z1]⟩
      · simp only [Mem.fixDeleteRightCases, ptr_mk, ne_eq, reduceCtorEq, not_false_eq_true,
          if_true, bb, Option.bind_eq_bind, Option.some_bind, Bool.false_eq_true, if_false, e1,
          e2]
      · simp only [ACursor.erase, ANode.erase, fixDeleteRight, hb, Bool.false_eq_true, if_false,
          List.map_nil, ← he1, he2]

theorem fixDeleteRight_sim (s : Mem.Store) (n : Nat) (nk : Int) (nd : Payload) (nc : Color)
    (nl nr : ANode) (p : Nat) (pk : Int)
    (pd : Payload) (pc : Color) (sib : ANode) (above : List AFrame)
    (h : LRep s ⟨.mk n nk nd nc nl nr, .inRight p pk pd pc sib :: above⟩) :
    ∃ s2 cur2 par2, Mem.fixDeleteRight s (some n) (some p) =
        some (s2, cur2.node.ptr, par2) ∧
      LRep s2 cur2 ∧
      fixDeleteBody ⟨.mk nk nd nc nl.erase nr.erase,
          .inRight pk pd pc sib.erase :: above.map AFrame.erase⟩ = some cur2.erase ∧
      (cur2.node = .NULL → par2 = upPtr cur2.up) ∧ s2.next = s.next ∧ s2.size = s.size := by
  have hp := (LRep_inRight s _ p pk pd pc _ above).1 h
  have r1 := focus_left s p pk pd pc _ _ _ hp
  rcases sib with _ | ⟨sa, sk, sd, sc, sl, sr⟩
  · -- sibling == NULL
    have r2 := focus_parent s p pk pd pc _ _ _ hp
    refine ⟨s, ⟨_, above⟩, upPtr above, ?_, hp, ?_, fun e => by simp at e, rfl, rfl⟩
    · simp only [Mem.fixDeleteRight, r1, r2, ptr_NULL, Option.bind_eq_bind, Option.some_bind,
        if_true, Option.pure_def, ptr_mk]
    · simp [ACursor.erase, ANode.erase, fixDeleteBody]
  · have hs := (LRep_inLeft s (.mk sa sk sd sc sl sr) p pk pd pc _ above).2 hp
    have r2 := focus_color s sa sk sd sc sl sr _ hs
    simp only [ptr_mk] at r1
    cases sc with
    | RED =>
      -- Case 1
      obtain ⟨s1, e1, h1, n1, z1, -⟩ := setColor_focus s sa sk sd .RED sl sr _ .BLACK hs
      have hp1 := (LRep_inLeft s1 _ p pk pd pc _ above).1 h1
      obtain ⟨s2, e2, h2, n2, z2, -⟩ := setColor_focus s1 p pk pd pc _ _ _ .RED hp1
      obtain ⟨s3, e3, h3, n3, z3⟩ :=
        rotateRight_focus s2 p pk pd .RED sa sk sd .BLACK sl sr _ above h2
      have hp3 := (LRep_inRight s3 (.mk p pk pd .RED sr (.mk n nk nd nc nl nr)) sa sk sd .BLACK
        sl above).2 h3
      have r3 := focus_left s3 p pk pd .RED sr _ _ hp3
      have hn3 := (LRep_inRight s3 (.mk n nk nd nc nl nr) p pk pd .RED sr _).2 hp3
      obtain ⟨s4, cur2, par2, e4, h4, he4, hpar, n4, z4⟩ :=
        fixDeleteRightCases_sim s3 _ p pk pd .RED sr _ hn3
      refine ⟨s4, cur2, par2, ?_, h4, ?_, hpar, by rw [n4, n3, n2, n1], by rw [z4, z3, z2, z1]⟩
      · simp only [ptr_mk] at e4
        simp only [Mem.fixDeleteRight, r1, reduceCtorEq, if_false, Option.bind_eq_bind,
          Option.some_bind, Mem.fixDeleteRightCase1, r2, if_true, e1, e2, e3, r3,
          Option.pure_def, e4]
      · rw [he4]
        simp [ACursor.erase, ANode.erase, AFrame.erase, fixDeleteBody, rotateRight]
    | BLACK =>
      obtain ⟨s4, cur2, par2, e4, h4, he4, hpar, n4, z4⟩ :=
        fixDeleteRightCases_sim s _ p pk pd pc (.mk sa sk sd .BLACK sl sr) _ h
      refine ⟨s4, cur2, par2, ?_, h4, ?_, hpar, n4, z4⟩
      · simp only [ptr_mk] at e4
        simp only [Mem.fixDeleteRight, r1, reduceCtorEq, if_false, Option.bind_eq_bind,
          Option.some_bind, Mem.fixDeleteRightCase1, r2, Option.pure_def, e4]
      · rw [he4]
        simp [ACursor.erase, ANode.erase, AFrame.erase, fixDeleteBody]

theorem fixDeleteBody_sim (s : Mem.Store) (node : ANode) (f : AFrame) (above : List AFrame)
    (parent : Mem.Ptr) (h : LRep s ⟨node, f :: above⟩)
    (hpar : node = .NULL → parent = some f.addr) :
    ∃ s2 cur2 par2, Mem.fixDeleteBody s node.ptr parent = some (s2, cur2.node.ptr, par2) ∧
      LRep s2 cur2 ∧
      fixDeleteBody ⟨node.erase, f.erase :: above.map AFrame.erase⟩ = some cur2.erase ∧
      (cur2.node = .NULL → par2 = upPtr cur2.up) ∧ s2.next = s.next ∧ s2.size = s.size := by
  rcases node with _ | ⟨n, nk, nd, nc, nl, nr⟩
  · rw [hpar rfl]
    rcases f with ⟨p, pk, pd, pc, sib⟩ | ⟨p, pk, pd, pc, pl⟩
    · obtain ⟨s2, cur2, par2, e, h2, he, hp2, n2, z2⟩ :=
        fixDeleteLeft_sim s .NULL p pk pd pc sib above h
      refine ⟨s2, cur2, par2, ?_, h2, he, hp2, n2, z2⟩
      simp only [ptr_NULL] at e
      simp only [Mem.fixDeleteBody, Mem.refreshParent, ptr_NULL, addr_inLeft, if_true,
        Option.bind_eq_bind, Option.some_bind, e]
    · have hp := (LRep_inRight s .NULL p pk pd pc pl above).1 h
      have r1 := focus_right s p pk pd pc _ _ _ hp
      have r2 := focus_parent s p pk pd pc _ _ _ hp
      refine ⟨s, ⟨_, above⟩, upPtr above, ?_, hp, ?_, fun e => by simp at e, rfl, rfl⟩
      · simp only [Mem.fixDeleteBody, Mem.refreshParent, ptr_NULL, addr_inRight, if_true,
          Option.bind_eq_bind, Option.some_bind, Mem.fixDeleteLeft, r1, r2, Option.pure_def,
          ptr_mk]
      · simp [ACursor.erase, ANode.erase, AFrame.erase, fixDeleteBody]
  · have r0 := focus_parent s n nk nd nc nl nr _ h
    have hP := (LRep_fill s _ f above).1 h
    rcases f with ⟨p, pk, pd, pc, sib⟩ | ⟨p, pk, pd, pc, sib⟩
    · have r1 := focus_left s p pk pd pc _ _ _ hP
      obtain ⟨s2, cur2, par2, e, h2, he, hp2, n2, z2⟩ :=
        fixDeleteLeft_sim s _ p pk pd pc sib above h
      refine ⟨s2, cur2, par2, ?_, h2, he, hp2, n2, z2⟩
      simp only [ptr_mk, upPtr_cons, addr_inLeft] at e r0 r1
      simp only [Mem.fixDeleteBody, Mem.refreshParent, ptr_mk, reduceCtorEq, if_false, r0,
        Option.bind_eq_bind, Option.some_bind, ne_eq, not_false_eq_true, if_true, r1, e]
    · have r1 := focus_left s p pk pd pc _ _ _ hP
      have hne : ¬some n = sib.ptr :=
        fun e => ptr_ne_of_LRep_right s _ p pk pd pc sib _ n h rfl e.symm
      obtain ⟨s2, cur2, par2, e, h2, he, hp2, n2, z2⟩ :=
        fixDeleteRight_sim s n nk nd nc nl nr p pk pd pc sib above h
      refine ⟨s2, cur2, par2, ?_, h2, he, hp2, n2, z2⟩
      simp only [ptr_mk, upPtr_cons, addr_inRight] at e r0 r1
      simp only [Mem.fixDeleteBody, Mem.refreshParent, ptr_mk, reduceCtorEq, if_false, r0,
        Option.bind_eq_bind, Option.some_bind, ne_eq, not_false_eq_true, if_true, r1, hne, e]

theorem fixDelete_sim (fuel : Nat) (s : Mem.Store) (cur : ACursor) (parent : Mem.Ptr)
    (r : RBNode) (h : LRep s cur) (hpar : cur.node = .NULL → parent = upPtr cur.up)
    (hm : fixDelete fuel cur.erase = some r) (fuel2 : Nat) (hf : fuel ≤ fuel2) :
    ∃ s2 t2, Mem.fixDelete fuel2 s cur.node.ptr parent = some s2 ∧ LRep s2 ⟨t2, []⟩ ∧
      t2.erase = r ∧ s2.next = s.next ∧ s2.size = s.size := by
  induction fuel generalizing s cur parent fuel2 with
  | zero => simp [fixDelete] at hm
  | succ fuel ih =>
    obtain ⟨fuel3, rfl⟩ : ∃ k, fuel2 = k + 1 := ⟨fuel2 - 1, by omega⟩
    obtain ⟨node, up⟩ := cur
    rcases up with _ | ⟨f, above⟩
    · -- node == tree->root
      obtain ⟨s2, e, h2, n2, z2, -⟩ := condSetColor_focus s node [] .BLACK h
      simp only [ACursor.erase, List.map_nil, fixDelete, Option.some.injEq] at hm
      refine ⟨s2, _, ?_, h2, by rw [erase_setColor_BLACK, hm], n2, z2⟩
      have hr := LRep_root s _ h
      simp only at hr
      simp only [Mem.fixDelete, hr, if_true, e]
    · have hroot := root_ne_focus s _ f above h
      have rb := isBlackOrNull_ptr s node _ h
      simp only [ACursor.erase, List.map_cons, fixDelete] at hm
      simp only [Mem.fixDelete, hroot, if_false, rb, Option.bind_eq_bind, Option.some_bind]
      by_cases hb : isBlackOrNull node.erase = true
      · simp only [hb, if_true] at hm ⊢
        obtain ⟨s1, cur1, par1, e1, h1, he1, hp1, n1, z1⟩ :=
          fixDeleteBody_sim s node f above parent h (fun e => hpar e)
        rw [he1, Option.some_bind] at hm
        obtain ⟨s2, t2, e2, h2, he2, n2, z2⟩ := ih s1 cur1 par1 h1 hp1 hm fuel3 (by omega)
        refine ⟨s2, t2, ?_, h2, he2, by rw [n2, n1], by rw [z2, z1]⟩
        simp only [e1, Option.some_bind, e2]
      · simp only [hb, Bool.false_eq_true, if_false, Option.some.injEq] at hm ⊢
        obtain ⟨s2, e, h2, n2, z2, -⟩ := condSetColor_focus s node _ .BLACK h
        have hw := (LRep_aplug s2 _ _).1 h2
        refine ⟨s2, _, e, hw, ?_, n2, z2⟩
        rw [erase_aplug, erase_setColor_BLACK, ← hm]
        rfl

/-! ## `deleteNode` over the heap -/

theorem searchLoop_sim (s : Mem.Store) (key : Int) (t : ANode) (up : List AFrame)
    (fuel : Nat) (h : LRep s ⟨t, up⟩) (hf : t.addrs.length < fuel) :
    (findNode key t.erase (up.map AFrame.erase) = none →
      Mem.searchLoop s key fuel t.ptr = some none) ∧
    (∀ cur, findNode key t.erase (up.map AFrame.erase) = some cur →
      ∃ a k d c l r aup, Mem.searchLoop s key fuel t.ptr = some (some a) ∧
        LRep s ⟨.mk a k d c l r, aup⟩ ∧
        cur = ⟨.mk k d c l.erase r.erase, aup.map AFrame.erase⟩) := by
  induction t generalizing up fuel with
  | NULL =>
    obtain ⟨f, rfl⟩ : ∃ k, fuel = k + 1 := ⟨fuel - 1, by omega⟩
    exact ⟨fun _ => by simp [Mem.searchLoop], fun cur hc => by simp [ANode.erase, findNode] at hc⟩
  | mk a k d c l r ihl ihr =>
    obtain ⟨f, rfl⟩ : ∃ k, fuel = k + 1 := ⟨fuel - 1, by omega⟩
    simp only [ANode.addrs, List.length_append, List.length_cons] at hf
    have rk := focus_key s a k d c l r up h
    have rl := focus_left s a k d c l r up h
    have rr := focus_right s a k d c l r up h
    simp only [ANode.erase, findNode, Mem.searchLoop, ptr_mk, reduceCtorEq, if_false, rk, rl, rr,
      Option.bind_eq_bind, Option.some_bind]
    by_cases h1 : key < k
    · simp only [h1, if_true]
      exact ihl (.inLeft a k d c r :: up) f ((LRep_inLeft s l a k d c r up).2 h) (by omega)
    · simp only [h1, if_false]
      by_cases h2 : key > k
      · simp only [h2, if_true]
        exact ihr (.inRight a k d c l :: up) f ((LRep_inRight s r a k d c l up).2 h) (by omega)
      · simp only [h2, if_false]
        refine ⟨fun e => by simp at e, fun cur hc => ?_⟩
        simp only [Option.some.injEq] at hc
        exact ⟨a, k, d, c, l, r, up, rfl, h, hc.symm⟩

theorem LRep_aplug_append (s : Mem.Store) (t : ANode) (w up : List AFrame) :
    LRep s ⟨t, w ++ up⟩ ↔ LRep s ⟨aplug t w, up⟩ := by
  induction w generalizing t with
  | nil => rfl
  | cons f w ih => rw [List.cons_append, LRep_fill, ih]; rfl

theorem findMinimumLoop_sim (s : Mem.Store) (t : ANode) (up : List AFrame) (up0 : List Frame)
    (fuel : Nat) (ht : t ≠ .NULL) (h : LRep s ⟨t, up⟩) (hf : t.addrs.length < fuel) :
    ∃ sa sk sd sc sr w, Mem.findMinimumLoop s fuel t.ptr = some (some sa) ∧
      LRep s ⟨.mk sa sk sd sc .NULL sr, w ++ up⟩ ∧ aplug (.mk sa sk sd sc .NULL sr) w = t ∧
      findMinimum t.erase up0 = ⟨.mk sk sd sc .NULL sr.erase, w.map AFrame.erase ++ up0⟩ ∧
      (∀ f ∈ w, ∃ a k d c r, f = AFrame.inLeft a k d c r) := by
  induction t generalizing up up0 fuel with
  | NULL => exact absurd rfl ht
  | mk a k d c l r ihl _ =>
    obtain ⟨f, rfl⟩ : ∃ k, fuel = k + 1 := ⟨fuel - 1, by omega⟩
    simp only [ANode.addrs, List.length_append, List.length_cons] at hf
    have rl := focus_left s a k d c l r up h
    rcases l with _ | ⟨la, lk, ld, lc, ll, lr⟩
    · refine ⟨a, k, d, c, r, [], ?_, h, rfl, by simp [ANode.erase, findMinimum], by simp⟩
      simp [Mem.findMinimumLoop, rl]
    · obtain ⟨sa, sk, sd, sc, sr, w, e, hL, hpl, hfm, hw⟩ :=
        ihl (.inLeft a k d c r :: up) (.inLeft k d c r.erase :: up0) f (by simp)
          ((LRep_inLeft s _ a k d c r up).2 h) (by simp only [ANode.addrs] at hf ⊢; omega)
      refine ⟨sa, sk, sd, sc, sr, w ++ [.inLeft a k d c r], ?_, ?_, ?_, ?_, ?_⟩
      · simp only [ptr_mk] at e rl
        simp [Mem.findMinimumLoop, rl, e]
      · simpa using hL
      · have : ∀ (t : ANode) (w1 w2 : List AFrame), aplug t (w1 ++ w2) = aplug (aplug t w1) w2 := by
          intro t w1 w2
          induction w1 generalizing t with
          | nil => rfl
          | cons g w1 ih => simp [aplug, ih]
        rw [this, hpl]
        rfl
      · simp only [ANode.erase, findMinimum] at hfm ⊢
        rw [hfm]
        simp [AFrame.erase]
      · intro g hg
        simp only [List.mem_append, List.mem_singleton] at hg
        rcases hg with hg | rfl
        · exact hw g hg
        · exact ⟨_, _, _, _, _, rfl⟩

/-- Cases 1 and 2 of `deleteNode`: a child takes the place of the node. -/
theorem unlinkOne_spec (s : Mem.Store) (z : Nat) (zk : Int) (zd : Payload) (c : Color)
    (l r : ANode) (up : List AFrame) (rep : ANode) (h : LRep s ⟨.mk z zk zd c l r, up⟩)
    (hrep : rep = l ∨ rep = r) :
    ∃ s2, Mem.unlinkOne s (some z) rep.ptr = some (s2, c, rep.ptr, upPtr up) ∧
      LRep s2 ⟨rep, up⟩ ∧ s2.mem z = s.mem z ∧ z ∉ (ACursor.mk rep up).addrs ∧
      s2.next = s.next ∧ s2.size = s.size := by
  obtain ⟨⟨hmz, hl, hr⟩, hu, hnd, hb⟩ := h
  dsimp only at hmz hu hb
  simp only [ptr_mk] at hu
  simp only [ACursor.addrs, ANode.addrs, List.nodup_append, List.nodup_cons, List.mem_append,
    List.mem_cons, List.disjoint_cons_left, List.disjoint_cons_right,
    List.disjoint_append_left, List.disjoint_append_right, not_or] at hnd
  obtain ⟨⟨ndl, ⟨z_r, ndr⟩, z_l, d_l_r⟩, ndup, d_l_up, z_up, d_r_up⟩ := hnd
  have hA : ARep s.mem rep (some z) ∧ rep.addrs.Nodup ∧ z ∉ rep.addrs ∧
      rep.addrs.Disjoint (upAddrs up) ∧ ∀ y ∈ rep.addrs, y < s.next := by
    rcases hrep with rfl | rfl
    · exact ⟨hl, ndl, z_l, d_l_up, fun y hy => hb y (by simp [ACursor.addrs, ANode.addrs, hy])⟩
    · exact ⟨hr, ndr, z_r, d_r_up, fun y hy => hb y (by simp [ACursor.addrs, ANode.addrs, hy])⟩
  obtain ⟨hrepA, ndrep, z_rep, d_rep_up, b_rep⟩ := hA
  obtain ⟨s2, e2, hu2, off2, n2, z2⟩ := replaceChild_spec s z _ up rep.ptr hmz rfl hu z_up ndup
  have m2z : s2.mem z = s.mem z := off2 z (fun e => z_up (upPtr_mem_upAddrs up z e))
  have hrep2 : ARep s2.mem rep (some z) := (ARep_congr s.mem s2.mem rep _ (fun y hy =>
    off2 y (fun e => d_rep_up hy (upPtr_mem_upAddrs up y e)))).2 hrepA
  obtain ⟨s3, e3, hrep3, off3, r3, n3, z3⟩ :=
    condSetParent_spec s2 rep (some z) (upPtr up) hrep2 ndrep
  refine ⟨s3, ?_, ⟨hrep3, ?_, ?_, ?_⟩, ?_, ?_, by rw [n3, n2], by rw [z3, z2]⟩
  · simp only [Mem.unlinkOne, color_some, parent_some, hmz, Option.map_some',
      Option.bind_eq_bind, Option.some_bind, e2, m2z, e3, Option.pure_def]
  · rw [r3]
    exact (ARepUp_congr s2.mem s3.mem _ up _ (fun y hy =>
      off3 y (ptr_ne_of_not_mem rep y (fun h1 => d_rep_up h1 hy)))).2 hu2
  · simp only [ACursor.addrs, List.nodup_append]
    exact ⟨ndrep, ndup, d_rep_up⟩
  · intro y hy
    simp only [ACursor.addrs, List.mem_append] at hy
    rw [n3, n2]
    rcases hy with hy | hy
    · exact b_rep y hy
    · exact hb y (by simp [ACursor.addrs, hy])
  · rw [off3 z (ptr_ne_of_not_mem rep z z_rep), m2z]
  · simp only [ACursor.addrs, List.mem_append, not_or]
    exact ⟨z_rep, z_up⟩

theorem write_at (s : Mem.Store) (a : Nat) (nd : Mem.Node) : (s.write a nd).mem a = some nd := by
  simp

theorem write_other (s : Mem.Store) (a : Nat) (nd : Mem.Node) (y : Nat) (h : ¬y = a) :
    (s.write a nd).mem y = s.mem y := by
  simp [Function.update_noteq h]

theorem condSetParent_of_ne (s : Mem.Store) (t : ANode) (q : Mem.Ptr) (h : t ≠ .NULL) :
    Mem.condSetParent s t.ptr q = s.setParent t.ptr q := by
  cases t with
  | NULL => exact absurd rfl h
  | mk a k d c l r => simp [Mem.condSetParent]

/-- Lines 548-562 of `deleteNode`: the successor takes the place, the left subtree and the
colour of the node. -/
theorem attachSuccessor_spec (s : Mem.Store) (z : Nat) (zk : Int) (zd : Payload) (c : Color)
    (l : ANode) (X : Mem.Ptr) (up : List AFrame) (sa : Nat) (sk : Int) (sd : Payload)
    (sc : Color) (L0 P0 : Mem.Ptr) (R : ANode)
    (hz : s.mem z = some (Mem.Node.mk zk zd c l.ptr X (upPtr up)))
    (hsa : s.mem sa = some (Mem.Node.mk sk sd sc L0 R.ptr P0))
    (hl : ARep s.mem l (some z)) (hln : l ≠ .NULL) (hR : ARep s.mem R (some sa))
    (hu : ARepUp s.mem s.root up (some z))
    (hnd : (z :: (ACursor.mk (.mk sa sk sd c l R) up).addrs).Nodup)
    (hb : ∀ y ∈ (ACursor.mk (.mk sa sk sd c l R) up).addrs, y < s.next) :
    ∃ s2, Mem.attachSuccessor s (some z) (some sa) = some s2 ∧
      LRep s2 ⟨.mk sa sk sd c l R, up⟩ ∧ s2.mem z = s.mem z ∧ s2.next = s.next ∧
      s2.size = s.size := by
  have hnd0 := (List.nodup_cons.1 hnd).2
  simp only [ACursor.addrs, ANode.addrs, List.nodup_append, List.nodup_cons, List.mem_append,
    List.mem_cons, List.disjoint_cons_left, List.disjoint_cons_right,
    List.disjoint_append_left, List.disjoint_append_right, not_or] at hnd
  obtain ⟨⟨⟨z_l, z_sa, z_R⟩, z_up⟩, ⟨ndl, ⟨sa_R, ndR⟩, sa_l, d_l_R⟩, ndup, d_l_up, sa_up,
    d_R_up⟩ := hnd
  have sa_z : ¬sa = z := fun e => z_sa e.symm
  -- the parent of `node` gets the successor as its child
  obtain ⟨s1, e1, hu1, off1, n1, q1⟩ :=
    replaceChild_spec s z _ up (some sa) hz rfl hu z_up ndup
  have m1z : s1.mem z = s.mem z := off1 z (fun e => z_up (upPtr_mem_upAddrs up z e))
  have m1sa : s1.mem sa = s.mem sa := off1 sa (fun e => sa_up (upPtr_mem_upAddrs up sa e))
  -- the left subtree of `node` gets the successor as its parent
  have hl3 : ARep ((s1.write sa (Mem.Node.mk sk sd sc L0 R.ptr (upPtr up))).write sa
      (Mem.Node.mk sk sd sc l.ptr R.ptr (upPtr up))).mem l (some z) := by
    simp only [write_mem]
    rw [ARep_update _ _ _ _ _ sa_l, ARep_update _ _ _ _ _ sa_l]
    exact (ARep_congr s.mem s1.mem l _ (fun y hy =>
      off1 y (fun e => d_l_up hy (upPtr_mem_upAddrs up y e)))).2 hl
  obtain ⟨s4, e4, hl4, off4, r4, n4, q4⟩ := condSetParent_spec _ l (some z) (some sa) hl3 ndl
  rw [condSetParent_of_ne _ l _ hln] at e4
  have m4sa : s4.mem sa = some (Mem.Node.mk sk sd sc l.ptr R.ptr (upPtr up)) := by
    rw [off4 sa (ptr_ne_of_not_mem l sa sa_l)]
    exact write_at _ _ _
  have m4z : s4.mem z = s.mem z := by
    rw [off4 z (ptr_ne_of_not_mem l z z_l), write_other _ _ _ _ z_sa,
      write_other _ _ _ _ z_sa, m1z]
  refine ⟨s4.write sa (Mem.Node.mk sk sd c l.ptr R.ptr (upPtr up)), ?_,
    ⟨⟨write_at _ _ _, ?_, ?_⟩, ?_, hnd0, ?_⟩, ?_, ?_, ?_⟩
  · simp only [Mem.attachSuccessor, e1, Option.bind_eq_bind, Option.some_bind, parent_some,
      left_some, color_some, m1z, hz, Option.map_some', Mem.Store.setParent,
      Mem.Store.setLeft, Mem.Store.setColor, modify_some, m1sa, hsa,
      write_other _ _ _ _ z_sa, write_at]
    simp only [Mem.Store.setParent, modify_some] at e4
    simp only [e4, Option.some_bind, m4z, hz, m4sa, Option.map_some']
  · simp only [write_mem]
    rw [ARep_update _ _ _ _ _ sa_l]
    exact hl4
  · simp only [write_mem]
    rw [ARep_update _ _ _ _ _ sa_R]
    refine (ARep_congr _ s4.mem R _ (fun y hy =>
      off4 y (ptr_ne_of_not_mem l y (fun h1 => d_l_R h1 hy)))).2 ?_
    simp only [write_mem]
    rw [ARep_update _ _ _ _ _ sa_R, ARep_update _ _ _ _ _ sa_R]
    exact (ARep_congr s.mem s1.mem R _ (fun y hy =>
      off1 y (fun e => d_R_up hy (upPtr_mem_upAddrs up y e)))).2 hR
  · simp only [write_mem, write_root, ptr_mk]
    rw [ARepUp_update _ _ _ _ _ _ sa_up, r4]
    refine (ARepUp_congr _ s4.mem _ up _ (fun y hy =>
      off4 y (ptr_ne_of_not_mem l y (fun h1 => d_l_up h1 hy)))).2 ?_
    simp only [write_mem, write_root]
    rw [ARepUp_update _ _ _ _ _ _ sa_up, ARepUp_update _ _ _ _ _ _ sa_up]
    exact hu1
  · intro y hy
    simp only [write_next, n4, n1]
    exact hb y hy
  · rw [write_other _ _ _ _ z_sa, m4z]
  · simp only [write_next, n4, n1]
  · simp only [write_size, q4, q1]

theorem nodup_attach (z sa : Nat) (l R : ANode) (zk sk : Int) (zd sd : Payload) (c : Color)
    (up : List AFrame)
    (hnd : (ACursor.mk R (.inRight z zk zd c l :: up)).addrs.Nodup)
    (hsa : sa ∉ (ACursor.mk R (.inRight z zk zd c l :: up)).addrs) :
    (z :: (ACursor.mk (.mk sa sk sd c l R) up).addrs).Nodup := by
  simp only [ACursor.addrs, ANode.addrs, upAddrs, AFrame.addrs, List.nodup_append,
    List.nodup_cons, List.mem_append,
    List.mem_cons, List.disjoint_cons_left, List.disjoint_cons_right, List.cons_append,
    List.disjoint_append_left, List.disjoint_append_right, not_or] at hnd hsa ⊢
  obtain ⟨ndR, ⟨⟨z_l, z_up⟩, ndl, ndup, d_l_up⟩, z_R, d_R_l, d_R_up⟩ := hnd
  obtain ⟨sa_R, sa_z, sa_l, sa_up⟩ := hsa
  exact ⟨⟨⟨z_l, fun e => sa_z e.symm, z_R⟩, z_up⟩, ⟨ndl, ⟨sa_R, ndR⟩, sa_l, d_R_l.symm⟩, ndup,
    d_l_up, sa_up, d_R_up⟩

theorem mem_attach (z sa : Nat) (l R : ANode) (zk sk : Int) (zd sd : Payload) (c : Color)
    (up : List AFrame) (y : Nat) (hy : y ∈ (ACursor.mk (.mk sa sk sd c l R) up).addrs) :
    y = sa ∨ y ∈ (ACursor.mk R (.inRight z zk zd c l :: up)).addrs := by
  simp only [ACursor.addrs, ANode.addrs, upAddrs, AFrame.addrs, List.mem_append,
    List.mem_cons] at hy ⊢
  tauto

theorem mem_addrs_aplug_append (t : ANode) (w up : List AFrame) (y : Nat) :
    y ∈ (ACursor.mk t (w ++ up)).addrs ↔ y ∈ (ACursor.mk (aplug t w) up).addrs := by
  induction w generalizing t with
  | nil => rfl
  | cons f w ih => rw [List.cons_append, (addrs_fill_perm t f (w ++ up)).mem_iff, ih]; rfl

theorem upAddrs_append (w up : List AFrame) : upAddrs (w ++ up) = upAddrs w ++ upAddrs up := by
  induction w with
  | nil => rfl
  | cons f w ih => simp [upAddrs, ih]

/-- The variant of `attachSuccessor_spec` whose side conditions are those of the position of
the right subtree. -/
theorem attachSuccessor_focus (s : Mem.Store) (z : Nat) (zk : Int) (zd : Payload) (c : Color)
    (l : ANode) (X : Mem.Ptr) (up : List AFrame) (sa : Nat) (sk : Int) (sd : Payload)
    (sc : Color) (L0 P0 : Mem.Ptr) (sr : ANode) (w : List AFrame)
    (hz : s.mem z = some (Mem.Node.mk zk zd c l.ptr X (upPtr up)))
    (hsa : s.mem sa = some (Mem.Node.mk sk sd sc L0 (aplug sr w).ptr P0))
    (hl : ARep s.mem l (some z)) (hln : l ≠ .NULL) (hR : ARep s.mem (aplug sr w) (some sa))
    (hu : ARepUp s.mem s.root up (some z))
    (hnd : (ACursor.mk (aplug sr w) (.inRight z zk zd c l :: up)).addrs.Nodup)
    (hsan : sa ∉ (ACursor.mk (aplug sr w) (.inRight z zk zd c l :: up)).addrs)
    (hb : ∀ y ∈ (ACursor.mk (aplug sr w) (.inRight z zk zd c l :: up)).addrs, y < s.next)
    (hsab : sa < s.next) :
    ∃ s2, Mem.attachSuccessor s (some z) (some sa) = some s2 ∧
      LRep s2 ⟨sr, w ++ .inRight sa sk sd c l :: up⟩ ∧ s2.mem z = s.mem z ∧
      z ∉ (ACursor.mk sr (w ++ .inRight sa sk sd c l :: up)).addrs ∧ s2.next = s.next ∧
      s2.size = s.size := by
  have hnd2 := nodup_attach z sa l (aplug sr w) zk sk zd sd c up hnd hsan
  obtain ⟨s2, e, hL, hmz, n2, q2⟩ := attachSuccessor_spec s z zk zd c l X up sa sk sd sc L0 P0
    (aplug sr w) hz hsa hl hln hR hu hnd2 (fun y hy => by
      rcases mem_attach z sa l _ zk sk zd sd c up y hy with rfl | h1
      · exact hsab
      · exact hb y h1)
  refine ⟨s2, e, ?_, hmz, ?_, n2, q2⟩
  · exact (LRep_aplug_append s2 sr w _).2 ((LRep_inRight s2 _ sa sk sd c l up).2 hL)
  · rw [mem_addrs_aplug_append,
      (addrs_fill_perm (aplug sr w) (.inRight sa sk sd c l) up).mem_iff]
    exact (List.nodup_cons.1 hnd2).1

theorem nodup_drop_frame (t : ANode) (f : AFrame) (up : List AFrame)
    (h : (ACursor.mk t (f :: up)).addrs.Nodup) :
    (ACursor.mk t up).addrs.Nodup ∧ f.addr ∉ (ACursor.mk t up).addrs := by
  cases f <;>
  simp only [ACursor.addrs, ANode.addrs, upAddrs, AFrame.addrs, AFrame.addr, List.nodup_append,
    List.nodup_cons, List.mem_append,
    List.mem_cons, List.disjoint_cons_left, List.disjoint_cons_right, List.cons_append,
    List.disjoint_append_left, List.disjoint_append_right, not_or] at h ⊢ <;> tauto

theorem mem_drop_frame (t : ANode) (f : AFrame) (up : List AFrame) (y : Nat)
    (h : y ∈ (ACursor.mk t up).addrs) : y ∈ (ACursor.mk t (f :: up)).addrs := by
  simp only [ACursor.addrs, upAddrs, List.mem_append] at h ⊢
  tauto

/-- The two statements that put `rep`, a child of the node, in the place of the node. -/
theorem splice_spec (s : Mem.Store) (z : Nat) (zk : Int) (zd : Payload) (c : Color)
    (l r : ANode) (up : List AFrame) (rep : ANode) (h : LRep s ⟨.mk z zk zd c l r, up⟩)
    (hrep : rep = l ∨ rep = r) :
    ∃ s2 s3, Mem.replaceChild s (some z) rep.ptr = some s2 ∧ s2.mem z = s.mem z ∧
      Mem.condSetParent s2 rep.ptr (upPtr up) = some s3 ∧
      LRep s3 ⟨rep, up⟩ ∧ s3.mem z = s.mem z ∧ z ∉ (ACursor.mk rep up).addrs ∧
      s3.next = s.next ∧ s3.size = s.size := by
  obtain ⟨⟨hmz, hl, hr⟩, hu, hnd, hb⟩ := h
  dsimp only at hmz hu hb
  simp only [ptr_mk] at hu
  simp only [ACursor.addrs, ANode.addrs, List.nodup_append, List.nodup_cons, List.mem_append,
    List.mem_cons, List.disjoint_cons_left, List.disjoint_cons_right,
    List.disjoint_append_left, List.disjoint_append_right, not_or] at hnd
  obtain ⟨⟨ndl, ⟨z_r, ndr⟩, z_l, d_l_r⟩, ndup, d_l_up, z_up, d_r_up⟩ := hnd
  have hA : ARep s.mem rep (some z) ∧ rep.addrs.Nodup ∧ z ∉ rep.addrs ∧
      rep.addrs.Disjoint (upAddrs up) ∧ ∀ y ∈ rep.addrs, y < s.next := by
    rcases hrep with rfl | rfl
    · exact ⟨hl, ndl, z_l, d_l_up, fun y hy => hb y (by simp [ACursor.addrs, ANode.addrs, hy])⟩
    · exact ⟨hr, ndr, z_r, d_r_up, fun y hy => hb y (by simp [ACursor.addrs, ANode.addrs, hy])⟩
  obtain ⟨hrepA, ndrep, z_rep, d_rep_up, b_rep⟩ := hA
  obtain ⟨s2, e2, hu2, off2, n2, z2⟩ := replaceChild_spec s z _ up rep.ptr hmz rfl hu z_up ndup
  have m2z : s2.mem z = s.mem z := off2 z (fun e => z_up (upPtr_mem_upAddrs up z e))
  have hrep2 : ARep s2.mem rep (some z) := (ARep_congr s.mem s2.mem rep _ (fun y hy =>
    off2 y (fun e => d_rep_up hy (upPtr_mem_upAddrs up y e)))).2 hrepA
  obtain ⟨s3, e3, hrep3, off3, r3, n3, z3⟩ :=
    condSetParent_spec s2 rep (some z) (upPtr up) hrep2 ndrep
  refine ⟨s2, s3, e2, m2z, e3, ⟨hrep3, ?_, ?_, ?_⟩, ?_, ?_, by rw [n3, n2], by rw [z3, z2]⟩
  · rw [r3]
    exact (ARepUp_congr s2.mem s3.mem _ up _ (fun y hy =>
      off3 y (ptr_ne_of_not_mem rep y (fun h1 => d_rep_up h1 hy)))).2 hu2
  · simp only [ACursor.addrs, List.nodup_append]
    exact ⟨ndrep, ndup, d_rep_up⟩
  · intro y hy
    simp only [ACursor.addrs, List.mem_append] at hy
    rw [n3, n2]
    rcases hy with hy | hy
    · exact b_rep y hy
    · exact hb y (by simp [ACursor.addrs, hy])
  · rw [off3 z (ptr_ne_of_not_mem rep z z_rep), m2z]
  · simp only [ACursor.addrs, List.mem_append, not_or]
    exact ⟨z_rep, z_up⟩

/-- Lines 528-531 and 548-562 of `deleteNode` when the successor is the right child of the
node. -/
theorem detach_attach_nil (s : Mem.Store) (z : Nat) (zk : Int) (zd : Payload) (c : Color)
    (l : ANode) (up : List AFrame) (sa : Nat) (sk : Int) (sd : Payload) (sc : Color)
    (sr : ANode) (hln : l ≠ .NULL)
    (h : LRep s ⟨.mk sa sk sd sc .NULL sr, .inRight z zk zd c l :: up⟩) :
    ∃ s1 s2, Mem.detachSuccessor s (some z) (some sa) sr.ptr = some (s1, some sa) ∧
      Mem.attachSuccessor s1 (some z) (some sa) = some s2 ∧
      LRep s2 ⟨sr, .inRight sa sk sd c l :: up⟩ ∧ s2.mem z = s.mem z ∧
      z ∉ (ACursor.mk sr (.inRight sa sk sd c l :: up)).addrs ∧ s2.next = s.next ∧
      s2.size = s.size := by
  have hpar := focus_parent s sa sk sd sc .NULL sr _ h
  have h1 := (LRep_inRight s sr sa sk sd sc .NULL _).2 h
  obtain ⟨⟨hmsa, -, hsr⟩, ⟨hmz, hl, hu⟩, hnd, hb⟩ := h
  obtain ⟨-, -, hnd1, hb1⟩ := h1
  dsimp only at hmsa hsr hmz hl hu hb hb1
  simp only [ptr_mk, ptr_NULL, upPtr_cons, addr_inRight] at hmsa hmz hpar
  obtain ⟨ndx, sax⟩ := nodup_drop_frame sr (.inRight sa sk sd sc .NULL)
    (.inRight z zk zd c l :: up) hnd1
  simp only [addr_inRight] at sax
  simp only [ACursor.addrs, ANode.addrs, upAddrs, AFrame.addrs, List.nodup_append,
    List.nodup_cons, List.mem_append,
    List.mem_cons, List.disjoint_cons_left, List.disjoint_cons_right, List.cons_append,
    List.disjoint_append_left, List.disjoint_append_right, not_or, List.nil_append,
    List.disjoint_nil_left, List.nodup_nil, List.not_mem_nil, not_false_eq_true,
    true_and, and_true] at hnd1
  obtain ⟨ndsr, ⟨⟨sa_z, sa_l, sa_up⟩, ⟨z_l, z_up⟩, ndl, ndup, d_l_up⟩, sa_sr, z_sr, d_sr_l,
    d_sr_up⟩ := hnd1
  obtain ⟨s1, e1, hsr1, off1, r1, n1, q1⟩ := condSetParent_spec s sr (some sa) (some sa) hsr ndsr
  obtain ⟨s2, e2, hL2, hmz2, zn2, n2, q2⟩ := attachSuccessor_focus s1 z zk zd c l (some sa) up
    sa sk sd sc none (some z) sr []
    (by rw [off1 z (ptr_ne_of_not_mem sr z z_sr)]; exact hmz)
    (by rw [off1 sa (ptr_ne_of_not_mem sr sa sa_sr)]; exact hmsa)
    ((ARep_congr s.mem s1.mem l _ (fun y hy =>
      off1 y (ptr_ne_of_not_mem sr y (fun h1 => d_sr_l h1 hy)))).2 hl) hln hsr1
    (by rw [r1]; exact (ARepUp_congr s.mem s1.mem _ up _ (fun y hy =>
      off1 y (ptr_ne_of_not_mem sr y (fun h1 => d_sr_up h1 hy)))).2 hu)
    ndx sax (fun y hy => by rw [n1]; exact hb1 y (mem_drop_frame _ _ _ y hy))
    (by rw [n1]; exact hb sa (by simp [ACursor.addrs, ANode.addrs]))
  refine ⟨s1, s2, ?_, e2, hL2, ?_, zn2, by rw [n2, n1], by rw [q2, q1]⟩
  · simp only [Mem.detachSuccessor, hpar, Option.bind_eq_bind, Option.some_bind, if_true, e1,
      Option.pure_def]
  · rw [hmz2, off1 z (ptr_ne_of_not_mem sr z z_sr)]

theorem ptr_aplug_cons (t t2 : ANode) (f : AFrame) (w : List AFrame) :
    (aplug t (f :: w)).ptr = (aplug t2 (f :: w)).ptr := by
  induction w generalizing t t2 f with
  | nil => cases f <;> rfl
  | cons g w ih => exact ih (f.fill t) (f.fill t2) g

/-- Lines 532-562 of `deleteNode` when the successor lies deeper in the right subtree of the
node. -/
theorem detach_attach_cons (s : Mem.Store) (z : Nat) (zk : Int) (zd : Payload) (c : Color)
    (l : ANode) (up : List AFrame) (sa : Nat) (sk : Int) (sd : Payload) (sc : Color)
    (sr : ANode) (p : Nat) (pk : Int) (pd : Payload) (pc : Color) (pr : ANode)
    (w : List AFrame) (hln : l ≠ .NULL)
    (h : LRep s ⟨.mk sa sk sd sc .NULL sr,
      (.inLeft p pk pd pc pr :: w) ++ .inRight z zk zd c l :: up⟩) :
    ∃ s1 s2, Mem.detachSuccessor s (some z) (some sa) sr.ptr = some (s1, some p) ∧
      Mem.attachSuccessor s1 (some z) (some sa) = some s2 ∧
      LRep s2 ⟨sr, (.inLeft p pk pd pc pr :: w) ++ .inRight sa sk sd c l :: up⟩ ∧
      s2.mem z = s.mem z ∧
      z ∉ (ACursor.mk sr ((.inLeft p pk pd pc pr :: w) ++ .inRight sa sk sd c l :: up)).addrs ∧
      s2.next = s.next ∧ s2.size = s.size := by
  have hz0 := ((LRep_aplug_append s _ (.inLeft p pk pd pc pr :: w) _).1 h).2.1.1
  have hpar := focus_parent s sa sk sd sc .NULL sr _ h
  have hleft := focus_left s p pk pd pc _ pr _ ((LRep_inLeft s _ p pk pd pc pr _).1 h)
  have hmsa := LRep_mem s sa sk sd sc .NULL sr _ h
  have hsab : sa < s.next := h.2.2.2 sa (by simp [ACursor.addrs, ANode.addrs])
  simp only [List.cons_append, upPtr_cons, addr_inLeft, ptr_mk, ptr_NULL] at hpar hleft hmsa
  have pz : ¬p = z := by
    have hnd := h.2.2.1
    have hz_in : z ∈ upAddrs (w ++ .inRight z zk zd c l :: up) := by
      rw [upAddrs_append]
      simp [upAddrs, AFrame.addrs]
    simp only [ACursor.addrs, upAddrs, AFrame.addrs, List.cons_append,
      List.nodup_append, List.nodup_cons, List.mem_append, List.mem_cons, not_or] at hnd
    rintro rfl
    exact hnd.2.1.1.2 hz_in
  obtain ⟨s2, s3, e2, m2, e3, hL3, m3, san, n3, q3⟩ :=
    splice_spec s sa sk sd sc .NULL sr _ sr h (Or.inr rfl)
  have e2b : s.setLeft (some p) sr.ptr = some s2 := by
    simpa [Mem.replaceChild, hpar, hleft] using e2
  have hpar2 : s2.parent (some sa) = some (some p) := by
    rw [parent_some, m2, hmsa]; rfl
  simp only [List.cons_append, upPtr_cons, addr_inLeft] at e3
  have hL3b := (LRep_aplug_append s3 sr (.inLeft p pk pd pc pr :: w) _).1 hL3
  have sanb : sa ∉ (ACursor.mk (aplug sr (.inLeft p pk pd pc pr :: w))
      (.inRight z zk zd c l :: up)).addrs := fun hm => san ((mem_addrs_aplug_append sr (.inLeft p pk pd pc pr :: w) _ sa).2 hm)
  obtain ⟨ra, rk, rd, rc, rl, rr, hRe⟩ := aplug_cons_eq_mk sr (.inLeft p pk pd pc pr) w
  have hRn : aplug sr (.inLeft p pk pd pc pr :: w) ≠ .NULL := by rw [hRe]; exact fun e => by cases e
  generalize hRdef : aplug sr (.inLeft p pk pd pc pr :: w) = R at hL3b sanb hRn
  clear hRe
  have hright3 := focus_right s3 z zk zd c l R up ((LRep_inRight s3 R z zk zd c l up).1 hL3b)
  obtain ⟨hR3, ⟨hmz3, hl3, hu3⟩, hnd3, hb3⟩ := hL3b
  dsimp only at hR3 hmz3 hl3 hu3 hb3
  simp only [upPtr_cons, addr_inRight] at hR3
  have hnd3b := hnd3
  have sanc := sanb
  simp only [ACursor.addrs, ANode.addrs, upAddrs, AFrame.addrs, List.nodup_append,
    List.nodup_cons, List.mem_append,
    List.mem_cons, List.disjoint_cons_left, List.disjoint_cons_right, List.cons_append,
    List.disjoint_append_left, List.disjoint_append_right, not_or] at hnd3 sanb
  obtain ⟨ndR, ⟨⟨z_l, z_up⟩, ndl, ndup, d_l_up⟩, z_R, d_R_l, d_R_up⟩ := hnd3
  obtain ⟨sa_R, sa_z, sa_l, sa_up⟩ := sanb
  have z_sa : ¬z = sa := fun e => sa_z e.symm
  -- successor->right = node->right
  have e4 : s3.setRight (some sa) R.ptr =
      some (s3.write sa (Mem.Node.mk sk sd sc none R.ptr (some p))) := by
    simp [Mem.Store.setRight, modify_some, m3, hmsa]
  have hright4 : (s3.write sa (Mem.Node.mk sk sd sc none R.ptr (some p))).right (some sa) =
      some R.ptr := by
    simp [right_some]
  -- successor->right->parent = successor
  have hR4 : ARep (s3.write sa (Mem.Node.mk sk sd sc none R.ptr (some p))).mem R (some z) := by
    simp only [write_mem]
    rw [ARep_update _ _ _ _ _ sa_R]
    exact hR3
  obtain ⟨s5, e5, hR5, off5, r5, n5, q5⟩ := condSetParent_spec _ R (some z) (some sa) hR4 ndR
  rw [condSetParent_of_ne _ R _ hRn] at e5
  subst hRdef
  obtain ⟨s6, e6, hL6, hmz6, zn6, n6, q6⟩ := attachSuccessor_focus s5 z zk zd c l _ up
    sa sk sd sc none (some p) sr (.inLeft p pk pd pc pr :: w)
    (by rw [off5 z (ptr_ne_of_not_mem _ z z_R), write_other _ _ _ _ z_sa]; exact hmz3)
    (by rw [off5 sa (ptr_ne_of_not_mem _ sa sa_R)]; exact write_at _ _ _)
    (by
      refine (ARep_congr _ s5.mem l _ (fun y hy =>
        off5 y (ptr_ne_of_not_mem _ y (fun h1 => d_R_l h1 hy)))).2 ?_
      simp only [write_mem]
      rw [ARep_update _ _ _ _ _ sa_l]
      exact hl3) hln hR5
    (by
      rw [r5]
      refine (ARepUp_congr _ s5.mem _ up _ (fun y hy =>
        off5 y (ptr_ne_of_not_mem _ y (fun h1 => d_R_up h1 hy)))).2 ?_
      simp only [write_mem, write_root]
      rw [ARepUp_update _ _ _ _ _ _ sa_up]
      exact hu3)
    hnd3b sanc (fun y hy => by rw [n5]; exact hb3 y hy) (by rw [n5, write_next, n3]; exact hsab)
  refine ⟨s5, s6, ?_, e6, hL6, ?_, zn6, by rw [n6, n5, write_next, n3],
    by rw [q6, q5, write_size, q3]⟩
  · simp only [Mem.detachSuccessor, hpar, Option.bind_eq_bind, Option.some_bind,
      Option.some.injEq, pz, if_false, e2b, hpar2, e3, hright3, e4, hright4, e5,
      Option.pure_def]
  · rw [hmz6, off5 z (ptr_ne_of_not_mem _ z z_R), write_other _ _ _ _ z_sa]
    rw [hmz3, hz0, ptr_aplug_cons sr (.mk sa sk sd sc .NULL sr) _ w]

/-- Lines 478-563 of `deleteNode` over the heap and over the tree values. -/
theorem unlinkNode_sim (s : Mem.Store) (z : Nat) (zk : Int) (zd : Payload) (c : Color)
    (l r : ANode) (up : List AFrame) (h : LRep s ⟨.mk z zk zd c l r, up⟩) :
    ∃ s2 oc fix, Mem.unlinkNode s (some z) = some (s2, oc, fix.node.ptr, upPtr fix.up) ∧
      unlinkNode c l.erase r.erase (up.map AFrame.erase) = some (oc, fix.erase) ∧
      LRep s2 fix ∧ s2.mem z = s.mem z ∧ z ∉ fix.addrs ∧ s2.next = s.next ∧
      s2.size = s.size := by
  have rl := focus_left s z zk zd c l r up h
  have rr := focus_right s z zk zd c l r up h
  rcases l with _ | ⟨la, lk, ld, lc, ll, lr⟩
  · obtain ⟨s2, e, hL, hmz, hz, n2, q2⟩ := unlinkOne_spec s z zk zd c .NULL r up r h (Or.inr rfl)
    refine ⟨s2, c, ⟨r, up⟩, ?_, ?_, hL, hmz, hz, n2, q2⟩
    · simp only [Mem.unlinkNode, rl, rr, ptr_NULL, Option.bind_eq_bind, Option.some_bind,
        if_true, e]
    · simp [unlinkNode, ANode.erase, ACursor.erase]
  · rcases r with _ | ⟨ra, rk, rd, rc, rl2, rr2⟩
    · obtain ⟨s2, e, hL, hmz, hz, n2, q2⟩ :=
        unlinkOne_spec s z zk zd c (.mk la lk ld lc ll lr) .NULL up _ h (Or.inl rfl)
      simp only [ptr_mk] at e
      refine ⟨s2, c, ⟨.mk la lk ld lc ll lr, up⟩, ?_, ?_, hL, hmz, hz, n2, q2⟩
      · simp only [Mem.unlinkNode, rl, rr, ptr_NULL, ptr_mk, Option.bind_eq_bind,
          Option.some_bind, if_true, if_false, e, reduceCtorEq]
      · simp [unlinkNode, ANode.erase, ACursor.erase]
    · have h0 := (LRep_inRight s (.mk ra rk rd rc rl2 rr2) z zk zd c (.mk la lk ld lc ll lr) up).2 h
      have hlen := addrs_length_le s _ h0
      obtain ⟨sa, sk, sd, sc, sr, w, efm, hfoc, hplug, hmod, hw⟩ :=
        findMinimumLoop_sim s (.mk ra rk rd rc rl2 rr2) _ [] (s.next + 1) (fun e => by cases e) h0
          (by simp only [ACursor.addrs, List.length_append] at hlen; omega)
      simp only [ptr_mk] at efm
      have rcol := focus_color s sa sk sd sc .NULL sr _ hfoc
      have rsr := focus_right s sa sk sd sc .NULL sr _ hfoc
      rcases w with _ | ⟨f, w⟩
      · obtain ⟨s1, s2, e1, e2, hL, hmz, hz, n2, q2⟩ :=
          detach_attach_nil s z zk zd c (.mk la lk ld lc ll lr) up sa sk sd sc sr
            (fun e => by cases e) hfoc
        refine ⟨s2, sc, ⟨sr, .inRight sa sk sd c (.mk la lk ld lc ll lr) :: up⟩, ?_, ?_, hL,
          hmz, hz, n2, q2⟩
        · simp only [Mem.unlinkNode, Mem.unlinkTwo, rl, rr, ptr_mk, Option.bind_eq_bind,
            Option.some_bind, if_false, reduceCtorEq, Mem.findMinimum, efm, rcol, rsr, e1, e2,
            Option.pure_def, upPtr_cons, addr_inRight]
        · simp only [ANode.erase] at hmod ⊢
          simp [unlinkNode, hmod, ACursor.erase, AFrame.erase, ANode.erase]
      · obtain ⟨p, pk, pd, pc, pr, rfl⟩ := hw f (by simp)
        obtain ⟨s1, s2, e1, e2, hL, hmz, hz, n2, q2⟩ :=
          detach_attach_cons s z zk zd c (.mk la lk ld lc ll lr) up sa sk sd sc sr p pk pd pc pr w
            (fun e => by cases e) hfoc
        refine ⟨s2, sc, ⟨sr, (.inLeft p pk pd pc pr :: w) ++
          .inRight sa sk sd c (.mk la lk ld lc ll lr) :: up⟩, ?_, ?_, hL, hmz, hz, n2, q2⟩
        · simp only [Mem.unlinkNode, Mem.unlinkTwo, rl, rr, ptr_mk, Option.bind_eq_bind,
            Option.some_bind, if_false, reduceCtorEq, Mem.findMinimum, efm, rcol, rsr, e1, e2,
            Option.pure_def, upPtr_cons, addr_inLeft, List.cons_append]
        · simp only [ANode.erase] at hmod ⊢
          simp [unlinkNode, hmod, ACursor.erase, AFrame.erase, ANode.erase]

theorem free_some (s : Mem.Store) (a : Nat) (nd : Mem.Node) (h : s.mem a = some nd) :
    Mem.free s (some a) = some { s with mem := Function.update s.mem a none } := by
  simp [Mem.free, h]

/-- The function `deleteNode` over the heap does what it does over the tree values. -/
theorem deleteNode_sim (s : Mem.Store) (t : RBTree) (key : Int) (t2 : RBTree) (res : Int)
    (h : Refines s t) (hm : deleteNode t key = some (t2, res)) :
    ∃ s2, Mem.deleteNode s key = some (s2, res) ∧ Refines s2 t2 := by
  obtain ⟨tr, htr, hL, hsz⟩ := h
  have hroot := LRep_root s tr hL
  have hlen := addrs_length_le s _ hL
  obtain ⟨hnone, hsome⟩ := searchLoop_sim s key tr [] (s.next + 1) hL
    (by simp only [ACursor.addrs, List.length_append] at hlen; omega)
  rw [htr] at hnone hsome
  simp only [List.map_nil] at hnone hsome
  unfold deleteNode at hm
  cases hf : findNode key t.root [] with
  | none =>
    rw [hf] at hm
    simp only [Option.some.injEq, Prod.mk.injEq] at hm
    obtain ⟨rfl, rfl⟩ := hm
    refine ⟨s, ?_, tr, htr, hL, hsz⟩
    have e := hnone hf
    rw [← hroot] at e
    unfold Mem.deleteNode
    by_cases hr : s.root = none
    · simp [hr]
    · simp [hr, e]
  | some cur =>
    obtain ⟨a, k, d, c, l, r, aup, e, hfoc, rfl⟩ := hsome cur hf
    rw [hf] at hm
    simp only at hm
    obtain ⟨s2, oc, fix, eu, emu, hL2, hmz, hz, n2, q2⟩ := unlinkNode_sim s a k d c l r aup hfoc
    rw [emu] at hm
    simp only [Option.some_bind] at hm
    have hma := LRep_mem s a k d c l r aup hfoc
    have efree := free_some s2 a _ (hmz.trans hma)
    have hrne : ¬s.root = none := by
      rw [hroot]
      intro hn
      cases tr with
      | NULL => rw [← htr] at hf; simp [ANode.erase, findNode] at hf
      | mk _ _ _ _ _ _ => simp at hn
    rw [← hroot] at e
    have hL3 : LRep { s2 with mem := Function.update s2.mem a none, size := s2.size - 1 } fix :=
      LRep_frame s2 _ fix hL2 (fun y hy => Function.update_noteq
        (by rintro rfl; exact hz hy) _ _) rfl (le_refl _)
    by_cases hoc : oc = .BLACK
    · simp only [hoc, if_true, Option.map_eq_some', Prod.mk.injEq] at hm
      obtain ⟨root2, hfd, hr2, rfl⟩ := hm
      have hlen2 := addrs_length_le s2 _ hL2
      have hlen3 := length_le_upAddrs fix.up
      obtain ⟨s4, t4, e4, hL4, he4, n4, q4⟩ := fixDelete_sim _ _ fix (upPtr fix.up) root2 hL3
        (fun _ => rfl) hfd (s2.next + 2) (by
          simp only [ACursor.erase, List.length_map, ACursor.addrs, List.length_append] at hlen2 ⊢
          omega)
      refine ⟨s4, ?_, t4, ?_, hL4, ?_⟩
      · simp only [Mem.deleteNode, hrne, if_false, e, Option.bind_eq_bind, Option.some_bind,
          reduceCtorEq, eu, Mem.deleteFinish, efree, hoc, if_true, e4, Option.pure_def]
      · rw [he4, ← hr2]
      · rw [q4, ← hr2]
        simp only [q2, hsz]
    · simp only [hoc, if_false, Option.some.injEq, Prod.mk.injEq] at hm
      obtain ⟨hr2, rfl⟩ := hm
      refine ⟨_, ?_, aplug fix.node fix.up, ?_, (LRep_aplug _ _ _).1 hL3, ?_⟩
      · simp only [Mem.deleteNode, hrne, if_false, e, Option.bind_eq_bind, Option.some_bind,
          reduceCtorEq, eu, Mem.deleteFinish, efree, hoc, Option.pure_def]
      · rw [erase_aplug, ← hr2]
        rfl
      · rw [← hr2]
        simp only [q2, hsz]

/-! ## Sequences of calls over the heap and over the tree values -/

theorem Refines_createTree : Refines Mem.createTree createTree :=
  ⟨.NULL, rfl, ⟨trivial, rfl, List.nodup_nil, fun _ h => absurd h (List.not_mem_nil _)⟩, rfl⟩

theorem runOps_sim (ops : List Op) (s : Mem.Store) (t t2 : RBTree) (h : Refines s t)
    (hm : runOps ops t = some t2) : ∃ s2, Mem.runOps ops s = some s2 ∧ Refines s2 t2 := by
  induction ops generalizing s t with
  | nil =>
    simp only [runOps, Option.some.injEq] at hm
    subst hm
    exact ⟨s, rfl, h⟩
  | cons op ops ih =>
    simp only [runOps, Option.bind_eq_some] at hm
    obtain ⟨t1, h1, h2⟩ := hm
    cases op with
    | insert k d =>
      simp only [Op.run, Option.map_eq_some'] at h1
      obtain ⟨⟨t1b, res⟩, h1, rfl⟩ := h1
      obtain ⟨s1, e1, r1⟩ := insertNode_sim s t k d t1b res h h1
      obtain ⟨s2, e2, r2⟩ := ih s1 t1b r1 h2
      exact ⟨s2, by simp [Mem.runOps, Mem.runOp, e1, e2], r2⟩
    | delete k =>
      simp only [Op.run, Option.map_eq_some'] at h1
      obtain ⟨⟨t1b, res⟩, h1, rfl⟩ := h1
      obtain ⟨s1, e1, r1⟩ := deleteNode_sim s t k t1b res h h1
      obtain ⟨s2, e2, r2⟩ := ih s1 t1b r1 h2
      exact ⟨s2, by simp [Mem.runOps, Mem.runOp, e1, e2], r2⟩

/-- The node at an address of a tree held by the heap, and the node that its parent link
designates. -/
theorem ARep_node (m : Nat → Option Mem.Node) (t : ANode) (par : Mem.Ptr) (a : Nat)
    (h : ARep m t par) (ha : a ∈ t.addrs) :
    ∃ (k : Int) (d : Payload) (c : Color) (l r : ANode) (q : Mem.Ptr),
      m a = some (Mem.Node.mk k d c l.ptr r.ptr q) ∧
      ARep m l (some a) ∧ ARep m r (some a) ∧
      l.addrs ⊆ t.addrs ∧ r.addrs ⊆ t.addrs ∧
      ((t.ptr = some a ∧ q = par) ∨
        ∃ p pn, p ∈ t.addrs ∧ q = some p ∧ m p = some pn ∧
          (pn.left = some a ∨ pn.right = some a)) := by
  induction t generalizing par with
  | NULL => simp [ANode.addrs] at ha
  | mk x xk xd xc xl xr ihl ihr =>
    obtain ⟨hm, hl, hr⟩ := h
    simp only [ANode.addrs, List.mem_append, List.mem_cons] at ha
    rcases ha with ha | rfl | ha
    · obtain ⟨k, d, c, l, r, q, e, al, ar, sl, sr, hq⟩ := ihl (some x) hl ha
      have hsub : xl.addrs ⊆ (ANode.mk x xk xd xc xl xr).addrs := by
        intro y hy; simp [ANode.addrs, hy]
      refine ⟨k, d, c, l, r, q, e, al, ar, sl.trans hsub, sr.trans hsub, Or.inr ?_⟩
      rcases hq with ⟨hp, rfl⟩ | ⟨p, pn, hp, rfl, hpm, hch⟩
      · exact ⟨x, _, by simp [ANode.addrs], rfl, hm, Or.inl hp⟩
      · exact ⟨p, pn, hsub hp, rfl, hpm, hch⟩
    · refine ⟨xk, xd, xc, xl, xr, par, hm, hl, hr, ?_, ?_, Or.inl ⟨rfl, rfl⟩⟩
      · intro y hy; simp [ANode.addrs, hy]
      · intro y hy; simp [ANode.addrs, hy]
    · obtain ⟨k, d, c, l, r, q, e, al, ar, sl, sr, hq⟩ := ihr (some x) hr ha
      have hsub : xr.addrs ⊆ (ANode.mk x xk xd xc xl xr).addrs := by
        intro y hy; simp [ANode.addrs, hy]
      refine ⟨k, d, c, l, r, q, e, al, ar, sl.trans hsub, sr.trans hsub, Or.inr ?_⟩
      rcases hq with ⟨hp, rfl⟩ | ⟨p, pn, hp, rfl, hpm, hch⟩
      · exact ⟨x, _, by simp [ANode.addrs], rfl, hm, Or.inr hp⟩
      · exact ⟨p, pn, hsub hp, rfl, hpm, hch⟩

theorem Reach_of_mem (s : Mem.Store) (t : ANode) (par : Mem.Ptr) (h : ARep s.mem t par)
    (hroot : ∀ x, t.ptr = some x → Mem.Reach s x) : ∀ a ∈ t.addrs, Mem.Reach s a := by
  induction t generalizing par with
  | NULL => intro a ha; simp [ANode.addrs] at ha
  | mk x xk xd xc xl xr ihl ihr =>
    obtain ⟨hm, hl, hr⟩ := h
    have hx := hroot x rfl
    intro a ha
    simp only [ANode.addrs, List.mem_append, List.mem_cons] at ha
    rcases ha with ha | rfl | ha
    · exact ihl (some x) hl (fun y hy => Mem.Reach.left x y _ hx hm hy) a ha
    · exact hx
    · exact ihr (some x) hr (fun y hy => Mem.Reach.right x y _ hx hm hy) a ha

theorem mem_of_Reach (s : Mem.Store) (t : ANode) (h : ARep s.mem t none)
    (hroot : s.root = t.ptr) (a : Nat) (ha : Mem.Reach s a) : a ∈ t.addrs := by
  induction ha with
  | root a h1 => exact ptr_mem_addrs t a (hroot ▸ h1)
  | left p a nd _ hm hl ih =>
    obtain ⟨k, d, c, l, r, q, e, -, -, sl, -, -⟩ := ARep_node s.mem t none p h ih
    rw [e] at hm
    simp only [Option.some.injEq] at hm
    subst hm
    exact sl (ptr_mem_addrs l a hl)
  | right p a nd _ hm hr ih =>
    obtain ⟨k, d, c, l, r, q, e, -, -, -, sr, -⟩ := ARep_node s.mem t none p h ih
    rw [e] at hm
    simp only [Option.some.injEq] at hm
    subst hm
    exact sr (ptr_mem_addrs r a hr)

/-- The parent links of a heap that holds a tree. -/
theorem Refines_links (s : Mem.Store) (t : RBTree) (h : Refines s t) :
    (∀ a, s.root = some a → ∃ nd, s.mem a = some nd ∧ nd.parent = none) ∧
    (∀ a, Mem.Reach s a → s.root ≠ some a →
      ∃ nd p pn, s.mem a = some nd ∧ nd.parent = some p ∧ Mem.Reach s p ∧
        s.mem p = some pn ∧ (pn.left = some a ∨ pn.right = some a)) ∧
    (∀ p pn a, Mem.Reach s p → s.mem p = some pn → (pn.left = some a ∨ pn.right = some a) →
      ∃ nd, s.mem a = some nd ∧ nd.parent = some p) := by
  obtain ⟨tr, -, ⟨hA, hroot, hnd, -⟩, -⟩ := h
  dsimp only at hA hroot
  simp only [upPtr_nil] at hA
  have hreach := Reach_of_mem s tr none hA (fun x hx => Mem.Reach.root x (hroot.trans hx))
  refine ⟨?_, ?_, ?_⟩
  · intro a ha
    cases tr with
    | NULL => rw [hroot] at ha; simp at ha
    | mk x xk xd xc xl xr =>
      rw [hroot] at ha
      simp only [ptr_mk, Option.some.injEq] at ha
      subst ha
      exact ⟨_, hA.1, rfl⟩
  · intro a ha hne
    have hmem := mem_of_Reach s tr hA hroot a ha
    obtain ⟨k, d, c, l, r, q, e, -, -, -, -, hq⟩ := ARep_node s.mem tr none a hA hmem
    rcases hq with ⟨hp, -⟩ | ⟨p, pn, hp, rfl, hpm, hch⟩
    · exact absurd (hroot.trans hp) hne
    · exact ⟨_, p, pn, e, rfl, hreach p hp, hpm, hch⟩
  · intro p pn a hp hpm hch
    have hmem := mem_of_Reach s tr hA hroot p hp
    obtain ⟨k, d, c, l, r, q, e, al, ar, -, -, -⟩ := ARep_node s.mem tr none p hA hmem
    rw [e] at hpm
    simp only [Option.some.injEq] at hpm
    subst hpm
    rcases hch with hch | hch
    · cases l with
      | NULL => simp at hch
      | mk y yk yd yc yl yr =>
        simp only [ptr_mk, Option.some.injEq] at hch
        subst hch
        exact ⟨_, al.1, rfl⟩
    · cases r with
      | NULL => simp at hch
      | mk y yk yd yc yl yr =>
        simp only [ptr_mk, Option.some.injEq] at hch
        subst hch
        exact ⟨_, ar.1, rfl⟩

/-! ## Termination of the loops -/

theorem insertNode_total (tree : RBTree) (key : Int) (data : Payload) (hb : RB2 tree.root) :
    ∃ r, insertNode tree key data = some r := by
  obtain ⟨root, size⟩ := tree
  cases root with
  | NULL => exact ⟨_, rfl⟩
  | mk k d c l r =>
    simp only at hb
    cases hd : insertDescend key data (.mk k d c l r) [] with
    | inl r2 => exact ⟨({ root := r2, size := size }, 1), by simp only [insertNode, hd]⟩
    | inr up2 =>
      obtain ⟨e1, -⟩ := insertDescend_inr key data _ _ _ hd
      simp only [plug_nil] at e1
      have hne : up2 ≠ [] := by
        rintro rfl
        simp at e1
      obtain ⟨f, up3, rfl⟩ := List.exists_cons_of_ne_nil hne
      have hrb : upRootBlack (f :: up3) := by
        rw [← RB2_plug_cons .NULL, e1]
        exact hb
      obtain ⟨r2, hr1, -⟩ := fixInsert_spec ((f :: up3).length + 1)
        ⟨createNode key data, f :: up3⟩ (by simp [createNode]) hrb (Nat.lt_succ_self _)
      exact ⟨({ root := r2, size := size + 1 }, 1),
        by simp only [insertNode, hd, hr1, Option.map_some']⟩

theorem deleteNode_total (tree : RBTree) (key : Int) : ∃ r, deleteNode tree key = some r := by
  by_cases h : searchNode tree key = .NULL
  · exact ⟨_, deleteNode_not_found tree key h⟩
  · obtain ⟨r2, e, -⟩ := deleteNode_found tree key h
    exact ⟨_, e⟩

theorem fixInsertBody_length (cur cur2 : Cursor) (h : fixInsertBody cur = some cur2) :
    cur2.up.length < cur.up.length := by
  obtain ⟨node, up⟩ := cur
  cases node with
  | NULL => simp [fixInsertBody] at h
  | mk nk nd nc nl nr =>
    rcases up with _ | ⟨p, _ | ⟨g, above⟩⟩
    · simp [fixInsertBody] at h
    · simp [fixInsertBody] at h
    · rcases g with ⟨gk, gd, gc, u⟩ | ⟨gk, gd, gc, u⟩ <;>
        rcases p with ⟨pk, pd, pc, ps⟩ | ⟨pk, pd, pc, ps⟩ <;>
        simp only [fixInsertBody, rotateLeft, rotateRight] at h <;>
        split at h <;>
        simp only [Option.some.injEq] at h <;> subst h <;> simp only [List.length_cons] <;> omega

theorem fixDeleteMeasure_le (cur : Cursor) : fixDeleteMeasure cur ≤ cur.up.length + 2 := by
  unfold fixDeleteMeasure
  split
  · split
    · split <;> omega
    · exact le_refl _
  · omega

theorem fixDeleteMeasure_nil (node : RBNode) : fixDeleteMeasure ⟨node, []⟩ = 0 := by
  simp [fixDeleteMeasure, fixDeleteRuns]

theorem fixDeleteMeasure_red (node : RBNode) (up : List Frame) (h : isRed node = true) :
    fixDeleteMeasure ⟨node, up⟩ = 0 := by
  cases up with
  | nil => exact fixDeleteMeasure_nil node
  | cons f up => simp [fixDeleteMeasure, fixDeleteRuns, isBlackOrNull_eq_not_isRed, h]

theorem fixDeleteMeasure_of_up (cur : Cursor) (above : List Frame) (red : Bool)
    (h : cur.up = [] ∨ (cur.up = above ∧ isRed cur.node = red)) :
    fixDeleteMeasure cur ≤ above.length + 2 ∧ (red = true → fixDeleteMeasure cur = 0) := by
  obtain ⟨node, up⟩ := cur
  rcases h with h | ⟨h, hr⟩
  · simp only at h
    subst h
    simp [fixDeleteMeasure_nil]
  · simp only at h hr
    subst h
    refine ⟨fixDeleteMeasure_le _, ?_⟩
    rintro rfl
    exact fixDeleteMeasure_red _ _ hr

theorem fixDeleteMeasure_sibling (node : RBNode) (f : Frame) (above : List Frame)
    (sk : Int) (sd : Payload) (sc : Color) (sl sr : RBNode)
    (hn : isBlackOrNull node = true)
    (hs : examinedSibling ⟨node, f :: above⟩ = some (.mk sk sd sc sl sr)) :
    fixDeleteMeasure ⟨node, f :: above⟩ = above.length + 3 := by
  simp [fixDeleteMeasure, fixDeleteRuns, hn, hs]

theorem fixDeleteMeasure_absent (node : RBNode) (f : Frame) (above : List Frame)
    (hn : isBlackOrNull node = true) (hs : examinedSibling ⟨node, f :: above⟩ = some .NULL) :
    fixDeleteMeasure ⟨node, f :: above⟩ = if f.color = .RED then 1 else above.length + 3 := by
  simp [fixDeleteMeasure, fixDeleteRuns, hn, hs]

/-- One run of the body of the loop of `fixDelete` makes the measure smaller. -/
theorem fixDeleteBody_measure (cur : Cursor) (h : fixDeleteRuns cur = true) :
    ∃ cur2, fixDeleteBody cur = some cur2 ∧ fixDeleteMeasure cur2 < fixDeleteMeasure cur := by
  obtain ⟨node, up⟩ := cur
  cases up with
  | nil => simp [fixDeleteRuns] at h
  | cons p above =>
    simp only [fixDeleteRuns] at h
    have hup : ∀ (k : Int) (d : Payload) (c : Color) (l r : RBNode) (f : Frame),
        f.color = c → examinedSibling ⟨node, f :: above⟩ = some .NULL →
        fixDeleteMeasure ⟨.mk k d c l r, above⟩ < fixDeleteMeasure ⟨node, f :: above⟩ := by
      intro k d c l r f hc hs
      rw [fixDeleteMeasure_absent node f above h hs, hc]
      cases c with
      | RED => rw [fixDeleteMeasure_red _ _ (by simp)]; simp
      | BLACK =>
        have := fixDeleteMeasure_le ⟨.mk k d .BLACK l r, above⟩
        simp only [reduceCtorEq, if_false]
        simp only at this
        omega
    cases p with
    | inLeft pk pd pc sib =>
      cases sib with
      | NULL =>
        refine ⟨⟨.mk pk pd pc node .NULL, above⟩, by cases node <;> rfl, ?_⟩
        exact hup _ _ _ _ _ _ rfl (by cases node <;> rfl)
      | mk sk sd sc sl sr =>
        have hm := fixDeleteMeasure_sibling node (.inLeft pk pd pc (.mk sk sd sc sl sr)) above
          sk sd sc sl sr h (by cases node <;> rfl)
        rw [hm]
        cases sc with
        | RED =>
          refine ⟨fixDeleteLeft node pk pd .RED sl (.inLeft sk sd .BLACK sr :: above),
            by cases node <;> rfl, ?_⟩
          cases sl with
          | NULL =>
            simp only [fixDeleteLeft]
            rw [fixDeleteMeasure_absent node _ _ h (by cases node <;> rfl)]
            simp [Frame.color]
          | mk lk ld lc ll lr =>
            obtain ⟨cur, e, -, hu, -⟩ := fixDeleteLeft_spec node pk pd .RED lk ld lc ll lr
              (.inLeft sk sd .BLACK sr :: above)
            rw [e]
            have := (fixDeleteMeasure_of_up cur _ _ hu).2 (by simp)
            omega
        | BLACK =>
          refine ⟨fixDeleteLeft node pk pd pc (.mk sk sd .BLACK sl sr) above,
            by cases node <;> rfl, ?_⟩
          obtain ⟨cur, e, -, hu, -⟩ := fixDeleteLeft_spec node pk pd pc sk sd .BLACK sl sr above
          rw [e]
          have := (fixDeleteMeasure_of_up cur _ _ hu).1
          omega
    | inRight pk pd pc sib =>
      cases node with
      | NULL =>
        exact ⟨⟨.mk pk pd pc sib .NULL, above⟩, rfl, hup _ _ _ _ _ _ rfl rfl⟩
      | mk nk nd nc nl nr =>
        cases sib with
        | NULL =>
          exact ⟨⟨.mk pk pd pc .NULL (.mk nk nd nc nl nr), above⟩, rfl, hup _ _ _ _ _ _ rfl rfl⟩
        | mk sk sd sc sl sr =>
          have hm := fixDeleteMeasure_sibling (.mk nk nd nc nl nr)
            (.inRight pk pd pc (.mk sk sd sc sl sr)) above sk sd sc sl sr h rfl
          rw [hm]
          cases sc with
          | RED =>
            refine ⟨fixDeleteRight (.mk nk nd nc nl nr) pk pd .RED sr
              (.inRight sk sd .BLACK sl :: above), rfl, ?_⟩
            cases sr with
            | NULL =>
              simp only [fixDeleteRight]
              rw [fixDeleteMeasure_absent (.mk nk nd nc nl nr) (.inRight pk pd .RED .NULL) _ h rfl]
              simp [Frame.color]
            | mk rk rd rc rl rr =>
              obtain ⟨cur, e, -, hu, -⟩ := fixDeleteRight_spec (.mk nk nd nc nl nr) pk pd .RED
                rk rd rc rl rr (.inRight sk sd .BLACK sl :: above)
              rw [e]
              have := (fixDeleteMeasure_of_up cur _ _ hu).2 (by simp)
              omega
          | BLACK =>
            refine ⟨fixDeleteRight (.mk nk nd nc nl nr) pk pd pc (.mk sk sd .BLACK sl sr) above,
              rfl, ?_⟩
            obtain ⟨cur, e, -, hu, -⟩ :=
              fixDeleteRight_spec (.mk nk nd nc nl nr) pk pd pc sk sd .BLACK sl sr above
            rw [e]
            have := (fixDeleteMeasure_of_up cur _ _ hu).1
            omega

/-- The loop of `fixDelete` returns when it is given more tests of its condition than the
measure of the position. -/
theorem fixDelete_within_measure (fuel : Nat) (cur : Cursor)
    (h : fixDeleteMeasure cur < fuel) : ∃ r, fixDelete fuel cur = some r := by
  induction fuel generalizing cur with
  | zero => omega
  | succ n ih =>
    by_cases hr : fixDeleteRuns cur = true
    · obtain ⟨cur2, e, hlt⟩ := fixDeleteBody_measure cur hr
      obtain ⟨r, hr2⟩ := ih cur2 (by omega)
      obtain ⟨node, up⟩ := cur
      cases up with
      | nil => simp [fixDeleteRuns] at hr
      | cons p above =>
        simp only [fixDeleteRuns] at hr
        exact ⟨r, by simp only [fixDelete, hr, if_true, e, Option.some_bind, hr2]⟩
    · refine ⟨_, (fixDelete_exit n cur ?_).1⟩
      obtain ⟨node, up⟩ := cur
      cases up with
      | nil => exact Or.inl rfl
      | cons p above =>
        simp only [fixDeleteRuns, Bool.not_eq_true] at hr
        right
        simpa [isBlackOrNull_eq_not_isRed] using hr

/-- The loop of `fixInsert`, given more tests of its condition than the node has ancestors,
fails only where a run of its body fails or its node is NULL, never for lack of fuel. -/
theorem fixInsert_within_measure (fuel : Nat) (cur : Cursor) (hf : cur.up.length < fuel)
    (hn : fixInsert fuel cur = none) :
    ∃ cur2, Relation.ReflTransGen
        (fun c c2 => fixInsertRuns c = true ∧ fixInsertBody c = some c2) cur cur2 ∧
      (cur2.node = .NULL ∨ (fixInsertRuns cur2 = true ∧ fixInsertBody cur2 = none)) := by
  induction fuel generalizing cur with
  | zero => omega
  | succ n ih =>
    obtain ⟨node, up⟩ := cur
    cases node with
    | NULL => exact ⟨_, Relation.ReflTransGen.refl, Or.inl rfl⟩
    | mk nk nd nc nl nr =>
      cases up with
      | nil => simp [fixInsert] at hn
      | cons p above =>
        by_cases hp : p.color = .RED
        · simp only [fixInsert, hp, if_true] at hn
          cases hb : fixInsertBody ⟨.mk nk nd nc nl nr, p :: above⟩ with
          | none =>
            exact ⟨_, Relation.ReflTransGen.refl, Or.inr ⟨by simp [fixInsertRuns, hp], hb⟩⟩
          | some c1 =>
            rw [hb] at hn
            simp only [Option.some_bind] at hn
            have hlen := fixInsertBody_length _ _ hb
            simp only [List.length_cons] at hlen hf
            obtain ⟨cur2, h1, h2⟩ := ih c1 (by omega) hn
            exact ⟨cur2, Relation.ReflTransGen.head ⟨by simp [fixInsertRuns, hp], hb⟩ h1, h2⟩
        · simp [fixInsert, hp] at hn

theorem Mem_deleteNode_total (s : Mem.Store) (t : RBTree) (key : Int) (h : Refines s t) :
    ∃ s2 res, Mem.deleteNode s key = some (s2, res) ∧ ∃ t2, Refines s2 t2 := by
  obtain ⟨⟨t2, res⟩, e⟩ := deleteNode_total t key
  obtain ⟨s2, e2, r2⟩ := deleteNode_sim s t key t2 res h e
  exact ⟨s2, res, e2, t2, r2⟩

theorem Mem_insertNode_total (s : Mem.Store) (t : RBTree) (key : Int) (data : Payload)
    (h : Refines s t) (hb : RB2 t.root) :
    ∃ s2 res, Mem.insertNode s key data = some (s2, res) ∧ ∃ t2, Refines s2 t2 := by
  obtain ⟨⟨t2, res⟩, e⟩ := insertNode_total t key data hb
  obtain ⟨s2, e2, r2⟩ := insertNode_sim s t key data t2 res h e
  exact ⟨s2, res, e2, t2, r2⟩

theorem fixDeleteBody_sibling_absent_left (node : RBNode) (pk : Int) (pd : Payload)
    (pc : Color) (sk : Int) (sd : Payload) (sr : RBNode) (above : List Frame)
    (h : isBlackOrNull node = true) :
    fixDeleteBody ⟨node, .inLeft pk pd pc (.mk sk sd .RED .NULL sr) :: above⟩ =
        some ⟨node, .inLeft pk pd .RED .NULL :: .inLeft sk sd .BLACK sr :: above⟩ ∧
      fixDeleteMeasure ⟨node, .inLeft pk pd .RED .NULL :: .inLeft sk sd .BLACK sr :: above⟩ =
        1 ∧
      fixDeleteMeasure ⟨node, .inLeft pk pd pc (.mk sk sd .RED .NULL sr) :: above⟩ =
        above.length + 3 := by
  refine ⟨by cases node <;> rfl, ?_, ?_⟩
  · rw [fixDeleteMeasure_absent node _ _ h (by cases node <;> rfl)]
    simp [Frame.color]
  · exact fixDeleteMeasure_sibling node _ above sk sd .RED .NULL sr h (by cases node <;> rfl)

theorem fixDeleteBody_sibling_absent_right (nk : Int) (nd : Payload) (nl nr : RBNode)
    (pk : Int) (pd : Payload) (pc : Color) (sk : Int) (sd : Payload) (sl : RBNode)
    (above : List Frame) :
    fixDeleteBody ⟨.mk nk nd .BLACK nl nr,
        .inRight pk pd pc (.mk sk sd .RED sl .NULL) :: above⟩ =
        some ⟨.mk nk nd .BLACK nl nr,
          .inRight pk pd .RED .NULL :: .inRight sk sd .BLACK sl :: above⟩ ∧
      fixDeleteMeasure ⟨.mk nk nd .BLACK nl nr,
        .inRight pk pd .RED .NULL :: .inRight sk sd .BLACK sl :: above⟩ = 1 ∧
      fixDeleteMeasure ⟨.mk nk nd .BLACK nl nr,
        .inRight pk pd pc (.mk sk sd .RED sl .NULL) :: above⟩ = above.length + 3 := by
  refine ⟨rfl, ?_, ?_⟩
  · rw [fixDeleteMeasure_absent (.mk nk nd .BLACK nl nr) (.inRight pk pd .RED .NULL) _
      (by simp) rfl]
    simp [Frame.color]
  · exact fixDeleteMeasure_sibling _ _ above sk sd .RED sl .NULL (by simp) rfl

/-! ## The rotations of `fixInsert` have their pivot -/

theorem rotateLeftChecked_focus (s : Mem.Store) (a : Nat) (k : Int) (d : Payload) (c : Color)
    (l : ANode) (b : Nat) (rk : Int) (rd : Payload) (rc : Color) (rl rr : ANode)
    (up : List AFrame) (h : LRep s ⟨.mk a k d c l (.mk b rk rd rc rl rr), up⟩) :
    ∃ s2, (Mem.rotateLeftChecked s (some a) = some s2 ∧ Mem.rotateLeft s (some a) = some s2) ∧
      LRep s2 ⟨.mk b rk rd rc (.mk a k d c l rl) rr, up⟩ ∧
      s2.next = s.next ∧ s2.size = s.size := by
  obtain ⟨s2, e, h2, n2, z2⟩ := rotateLeft_focus s a k d c l b rk rd rc rl rr up h
  have r := focus_right s a k d c l _ up h
  simp only [ptr_mk] at r
  exact ⟨s2, ⟨by simp only [Mem.rotateLeftChecked, r, e], e⟩, h2, n2, z2⟩

theorem rotateRightChecked_focus (s : Mem.Store) (a : Nat) (k : Int) (d : Payload) (c : Color)
    (b : Nat) (lk : Int) (ld : Payload) (lc : Color) (ll lr : ANode) (r : ANode)
    (up : List AFrame) (h : LRep s ⟨.mk a k d c (.mk b lk ld lc ll lr) r, up⟩) :
    ∃ s2, (Mem.rotateRightChecked s (some a) = some s2 ∧
        Mem.rotateRight s (some a) = some s2) ∧
      LRep s2 ⟨.mk b lk ld lc ll (.mk a k d c lr r), up⟩ ∧
      s2.next = s.next ∧ s2.size = s.size := by
  obtain ⟨s2, e, h2, n2, z2⟩ := rotateRight_focus s a k d c b lk ld lc ll lr r up h
  have rl := focus_left s a k d c _ r up h
  simp only [ptr_mk] at rl
  exact ⟨s2, ⟨by simp only [Mem.rotateRightChecked, rl, e], e⟩, h2, n2, z2⟩

theorem fixInsertBodyChecked_sim (s : Mem.Store) (cur : ACursor) (cur2 : Cursor) (h : LRep s cur)
    (hm : fixInsertBody cur.erase = some cur2) :
    ∃ s2 acur2, (Mem.fixInsertBodyChecked s cur.node.ptr = some (s2, acur2.node.ptr) ∧
        Mem.fixInsertBody s cur.node.ptr = some (s2, acur2.node.ptr)) ∧ LRep s2 acur2 ∧
      acur2.erase = cur2 ∧ s2.next = s.next ∧ s2.size = s.size := by
  obtain ⟨node, up⟩ := cur
  rcases node with _ | ⟨n, nk, nd, nc, nl, nr⟩
  · simp [ACursor.erase, ANode.erase, fixInsertBody] at hm
  rcases up with _ | ⟨P, _ | ⟨G, above⟩⟩
  · simp [ACursor.erase, ANode.erase, fixInsertBody] at hm
  · simp [ACursor.erase, ANode.erase, fixInsertBody] at hm
  have hP := (LRep_fill s _ P _).1 h
  have hG := (LRep_fill s _ G _).1 hP
  rcases G with ⟨ga, gk, gd, gc, U⟩ | ⟨ga, gk, gd, gc, U⟩
  · -- parent == grandparent->left
    have hU := (LRep_inRight s U ga gk gd gc _ above).2 hG
    have r5 := isRed_ptr s U _ hU
    by_cases hred : isRed U.erase = true
    · -- Case 1
      rcases U with _ | ⟨u, uk, ud, uc, ul, ur⟩
      · simp [ANode.erase, isRed] at hred
      simp only [ANode.erase, isRed_mk, decide_eq_true_eq] at hred r5
      subst hred
      rcases P with ⟨pa, pk, pd, pc, ps⟩ | ⟨pa, pk, pd, pc, ps⟩ <;>
      (have r1 := focus_parent s n nk nd nc nl nr _ h
       have r2 := focus_parent s pa pk pd pc _ _ _ hP
       have r3 := focus_left s ga gk gd gc _ _ _ hG
       have r4 := focus_right s ga gk gd gc _ _ _ hG
       obtain ⟨s1, e1, h1, n1, z1, -⟩ := setColor_focus s pa pk pd pc _ _ _ .BLACK hP
       have hG1 := (LRep_inLeft s1 _ ga gk gd gc _ above).1 h1
       have hU1 := (LRep_inRight s1 _ ga gk gd gc _ above).2 hG1
       obtain ⟨s2, e2, h2, n2, z2, -⟩ := setColor_focus s1 u uk ud .RED ul ur _ .BLACK hU1
       have hG2 := (LRep_inRight s2 _ ga gk gd gc _ above).1 h2
       obtain ⟨s3, e3, h3, n3, z3, -⟩ := setColor_focus s2 ga gk gd gc _ _ _ .RED hG2
       simp only [AFrame.fill, ptr_mk, upPtr_cons, addr_inLeft, addr_inRight] at r1 r2 r3 r4 r5
       simp only [decide_True] at r5
       refine ⟨s3, ⟨_, above⟩, ?_, h3, ?_, by rw [n3, n2, n1], by rw [z3, z2, z1]⟩
       · simp only [Mem.fixInsertBody, Mem.fixInsertBodyChecked, Mem.fixInsertLeftChecked,
          Mem.fixInsertRightChecked, and_self, Mem.getUncle, ptr_mk, reduceCtorEq, if_false, if_true, r1,
           r2, r3, r4, r5, Option.bind_eq_bind, Option.some_bind, Mem.fixInsertCase1, e1, e2,
           e3, Option.pure_def]
       · rw [← Option.some.injEq, ← hm]
         simp [ACursor.erase, ANode.erase, AFrame.erase, fixInsertBody, Frame.setColor,
           Frame.fill, setBlack])
    · -- Cases 2 and 3
      simp only [Bool.not_eq_true] at hred
      rw [hred] at r5
      rcases P with ⟨pa, pk, pd, pc, ps⟩ | ⟨pa, pk, pd, pc, ps⟩
      · -- node == parent->left: Case 3
        have r1 := focus_parent s n nk nd nc nl nr _ h
        have r2 := focus_parent s pa pk pd pc _ _ _ hP
        have r3 := focus_left s ga gk gd gc _ _ _ hG
        have r4 := focus_right s ga gk gd gc _ _ _ hG
        have r6 := focus_right s pa pk pd pc _ _ _ hP
        have hne : ¬some n = ps.ptr :=
          fun e => ptr_ne_of_LRep_left s _ pa pk pd pc ps _ n h rfl e.symm
        obtain ⟨s1, e1, h1, n1, z1, -⟩ := setColor_focus s pa pk pd pc _ _ _ .BLACK hP
        have hG1 := (LRep_inLeft s1 _ ga gk gd gc _ above).1 h1
        obtain ⟨s2, e2, h2, n2, z2, -⟩ := setColor_focus s1 ga gk gd gc _ _ _ .RED hG1
        obtain ⟨s3, e3, h3, n3, z3⟩ :=
          rotateRightChecked_focus s2 ga gk gd .RED pa pk pd .BLACK _ _ _ above h2
        have hN3 := (LRep_inLeft s3 _ pa pk pd .BLACK _ above).2 h3
        simp only [AFrame.fill, ptr_mk, upPtr_cons, addr_inLeft, addr_inRight] at r1 r2 r3 r4 r6
        refine ⟨s3, ⟨_, _⟩, ?_, hN3, ?_, by rw [n3, n2, n1], by rw [z3, z2, z1]⟩
        · simp only [Mem.fixInsertBody, Mem.fixInsertBodyChecked, Mem.fixInsertLeftChecked,
          Mem.fixInsertRightChecked, and_self, Mem.getUncle, ptr_mk, reduceCtorEq, if_false, if_true,
          r1, r2, r3, r4, r5, r6, Option.bind_eq_bind, Option.some_bind, Mem.fixInsertLeft,
          Mem.fixInsertRight, Bool.false_eq_true, hne, e1, e2, e3, Option.pure_def]
        · rw [← Option.some.injEq, ← hm]
          simp [ACursor.erase, ANode.erase, AFrame.erase, fixInsertBody, hred, rotateRight]
      · -- node == parent->right: Case 2, then Case 3
        have r1 := focus_parent s n nk nd nc nl nr _ h
        have r2 := focus_parent s pa pk pd pc _ _ _ hP
        have r3 := focus_left s ga gk gd gc _ _ _ hG
        have r4 := focus_right s ga gk gd gc _ _ _ hG
        have r6 := focus_right s pa pk pd pc _ _ _ hP
        have hne : True := trivial
        obtain ⟨s1, e1, h1, n1, z1⟩ := rotateLeftChecked_focus s pa pk pd pc ps n nk nd nc nl nr _ hP
        have hP1 := (LRep_inLeft s1 (.mk pa pk pd pc ps nl) n nk nd nc nr _).2 h1
        have r7 := focus_parent s1 pa pk pd pc _ _ _ hP1
        have r8 := focus_parent s1 n nk nd nc _ _ _ h1
        obtain ⟨s2, e2, h2, n2, z2, -⟩ := setColor_focus s1 n nk nd nc _ _ _ .BLACK h1
        have hG2 := (LRep_inLeft s2 _ ga gk gd gc _ above).1 h2
        obtain ⟨s3, e3, h3, n3, z3, -⟩ := setColor_focus s2 ga gk gd gc _ _ _ .RED hG2
        obtain ⟨s4, e4, h4, n4, z4⟩ :=
          rotateRightChecked_focus s3 ga gk gd .RED n nk nd .BLACK _ _ _ above h3
        have hR := (LRep_inLeft s4 (.mk pa pk pd pc ps nl) n nk nd .BLACK _ above).2 h4
        simp only [AFrame.fill, ptr_mk, upPtr_cons, addr_inLeft, addr_inRight] at r1 r2 r3 r4
        simp only [AFrame.fill, ptr_mk, upPtr_cons, addr_inLeft, addr_inRight] at r6 r7 r8
        refine ⟨s4, ⟨_, _⟩, ?_, hR, ?_, by rw [n4, n3, n2, n1], by rw [z4, z3, z2, z1]⟩
        · simp only [Mem.fixInsertBody, Mem.fixInsertBodyChecked, Mem.fixInsertLeftChecked,
          Mem.fixInsertRightChecked, and_self, Mem.getUncle, ptr_mk, reduceCtorEq, if_false, if_true,
          r1, r2, r3, r4, r5, r6, Option.bind_eq_bind, Option.some_bind, Mem.fixInsertLeft,
          Mem.fixInsertRight, Bool.false_eq_true, hne, e1, e2, e3, e4, r7, r8, Option.pure_def]
        · rw [← Option.some.injEq, ← hm]
          simp [ACursor.erase, ANode.erase, AFrame.erase, fixInsertBody, hred, rotateRight,
            rotateLeft]
  · -- parent == grandparent->right
    have hU := (LRep_inLeft s U ga gk gd gc _ above).2 hG
    have r5 := isRed_ptr s U _ hU
    have hgl : ¬some P.addr = U.ptr := fun e =>
      ptr_ne_of_LRep_right s (P.fill (.mk n nk nd nc nl nr)) ga gk gd gc U above P.addr hP
        (by cases P <;> rfl) e.symm
    have hgl2 : ¬U.ptr = some P.addr := fun e => hgl e.symm
    by_cases hred : isRed U.erase = true
    · -- Case 1
      rcases U with _ | ⟨u, uk, ud, uc, ul, ur⟩
      · simp [ANode.erase, isRed] at hred
      simp only [ANode.erase, isRed_mk, decide_eq_true_eq] at hred r5
      subst hred
      rcases P with ⟨pa, pk, pd, pc, ps⟩ | ⟨pa, pk, pd, pc, ps⟩ <;>
      (have r1 := focus_parent s n nk nd nc nl nr _ h
       have r2 := focus_parent s pa pk pd pc _ _ _ hP
       have r3 := focus_left s ga gk gd gc _ _ _ hG
       have r4 := focus_right s ga gk gd gc _ _ _ hG
       have r6 : True := trivial
       have hne : True := trivial
       obtain ⟨s1, e1, h1, n1, z1, -⟩ := setColor_focus s pa pk pd pc _ _ _ .BLACK hP
       have hG1 := (LRep_inRight s1 _ ga gk gd gc _ above).1 h1
       have hU1 := (LRep_inLeft s1 _ ga gk gd gc _ above).2 hG1
       obtain ⟨s2, e2, h2, n2, z2, -⟩ := setColor_focus s1 u uk ud .RED ul ur _ .BLACK hU1
       have hG2 := (LRep_inLeft s2 _ ga gk gd gc _ above).1 h2
       obtain ⟨s3, e3, h3, n3, z3, -⟩ := setColor_focus s2 ga gk gd gc _ _ _ .RED hG2
       simp only [AFrame.fill, ptr_mk, upPtr_cons, addr_inLeft, addr_inRight] at r1 r2 r3 r4 r5
       simp only [ptr_mk, addr_inLeft, addr_inRight, Option.some.injEq] at hgl hgl2
       simp only [decide_True] at r5
       refine ⟨s3, ⟨_, above⟩, ?_, h3, ?_, by rw [n3, n2, n1], by rw [z3, z2, z1]⟩
       · simp only [Mem.fixInsertBody, Mem.fixInsertBodyChecked, Mem.fixInsertLeftChecked,
          Mem.fixInsertRightChecked, and_self, Mem.getUncle, ptr_mk, reduceCtorEq, if_false, if_true,
          r1, r2, r3, r4, r5, r6, Option.bind_eq_bind, Option.some_bind, Mem.fixInsertLeft,
          Mem.fixInsertRight, Mem.fixInsertCase1, Bool.false_eq_true, hne, hgl, hgl2,
          Option.some.injEq, e1, e2,
          e3, Option.pure_def]
       · rw [← Option.some.injEq, ← hm]
         simp [ACursor.erase, ANode.erase, AFrame.erase, fixInsertBody, Frame.setColor,
           Frame.fill, setBlack])
    · -- Cases 2 and 3
      simp only [Bool.not_eq_true] at hred
      rw [hred] at r5
      rcases P with ⟨pa, pk, pd, pc, ps⟩ | ⟨pa, pk, pd, pc, ps⟩
      · -- node == parent->left: Case 2, then Case 3
        have r1 := focus_parent s n nk nd nc nl nr _ h
        have r2 := focus_parent s pa pk pd pc _ _ _ hP
        have r3 := focus_left s ga gk gd gc _ _ _ hG
        have r4 := focus_right s ga gk gd gc _ _ _ hG
        have r6 := focus_left s pa pk pd pc _ _ _ hP
        have hne : True := trivial
        obtain ⟨s1, e1, h1, n1, z1⟩ := rotateRightChecked_focus s pa pk pd pc n nk nd nc nl nr ps _ hP
        have hP1 := (LRep_inRight s1 (.mk pa pk pd pc nr ps) n nk nd nc nl _).2 h1
        have r7 := focus_parent s1 pa pk pd pc _ _ _ hP1
        have r8 := focus_parent s1 n nk nd nc _ _ _ h1
        obtain ⟨s2, e2, h2, n2, z2, -⟩ := setColor_focus s1 n nk nd nc _ _ _ .BLACK h1
        have hG2 := (LRep_inRight s2 _ ga gk gd gc _ above).1 h2
        obtain ⟨s3, e3, h3, n3, z3, -⟩ := setColor_focus s2 ga gk gd gc _ _ _ .RED hG2
        obtain ⟨s4, e4, h4, n4, z4⟩ :=
          rotateLeftChecked_focus s3 ga gk gd .RED _ n nk nd .BLACK _ _ above h3
        have hR := (LRep_inRight s4 (.mk pa pk pd pc nr ps) n nk nd .BLACK _ above).2 h4
        simp only [AFrame.fill, ptr_mk, upPtr_cons, addr_inLeft, addr_inRight] at r1 r2 r3 r4
        simp only [AFrame.fill, ptr_mk, upPtr_cons, addr_inLeft, addr_inRight] at r6 r7 r8
        simp only [ptr_mk, addr_inLeft, addr_inRight, Option.some.injEq] at hgl hgl2
        refine ⟨s4, ⟨_, _⟩, ?_, hR, ?_, by rw [n4, n3, n2, n1], by rw [z4, z3, z2, z1]⟩
        · simp only [Mem.fixInsertBody, Mem.fixInsertBodyChecked, Mem.fixInsertLeftChecked,
          Mem.fixInsertRightChecked, and_self, Mem.getUncle, ptr_mk, reduceCtorEq, if_false, if_true,
          r1, r2, r3, r4, r5, r6, Option.bind_eq_bind, Option.some_bind, Mem.fixInsertLeft,
          Mem.fixInsertRight, Mem.fixInsertCase1, Bool.false_eq_true, hne, hgl, hgl2,
          Option.some.injEq, e1, e2,
          e3, e4, r7, r8, Option.pure_def]
        · rw [← Option.some.injEq, ← hm]
          simp [ACursor.erase, ANode.erase, AFrame.erase, fixInsertBody, hred, rotateRight,
            rotateLeft]
      · -- node == parent->right: Case 3
        have r1 := focus_parent s n nk nd nc nl nr _ h
        have r2 := focus_parent s pa pk pd pc _ _ _ hP
        have r3 := focus_left s ga gk gd gc _ _ _ hG
        have r4 := focus_right s ga gk gd gc _ _ _ hG
        have r6 := focus_left s pa pk pd pc _ _ _ hP
        have hne : ¬some n = ps.ptr :=
          fun e => ptr_ne_of_LRep_right s _ pa pk pd pc ps _ n h rfl e.symm
        obtain ⟨s1, e1, h1, n1, z1, -⟩ := setColor_focus s pa pk pd pc _ _ _ .BLACK hP
        have hG1 := (LRep_inRight s1 _ ga gk gd gc _ above).1 h1
        obtain ⟨s2, e2, h2, n2, z2, -⟩ := setColor_focus s1 ga gk gd gc _ _ _ .RED hG1
        obtain ⟨s3, e3, h3, n3, z3⟩ :=
          rotateLeftChecked_focus s2 ga gk gd .RED _ pa pk pd .BLACK _ _ above h2
        have hN3 := (LRep_inRight s3 _ pa pk pd .BLACK _ above).2 h3
        simp only [AFrame.fill, ptr_mk, upPtr_cons, addr_inLeft, addr_inRight] at r1 r2 r3 r4 r6
        simp only [ptr_mk, addr_inLeft, addr_inRight, Option.some.injEq] at hgl hgl2
        refine ⟨s3, ⟨_, _⟩, ?_, hN3, ?_, by rw [n3, n2, n1], by rw [z3, z2, z1]⟩
        · simp only [Mem.fixInsertBody, Mem.fixInsertBodyChecked, Mem.fixInsertLeftChecked,
          Mem.fixInsertRightChecked, and_self, Mem.getUncle, ptr_mk, reduceCtorEq, if_false, if_true,
          r1, r2, r3, r4, r5, r6, Option.bind_eq_bind, Option.some_bind, Mem.fixInsertLeft,
          Mem.fixInsertRight, Mem.fixInsertCase1, Bool.false_eq_true, hne, hgl, hgl2,
          Option.some.injEq, e1, e2,
          e3, Option.pure_def]
        · rw [← Option.some.injEq, ← hm]
          simp [ACursor.erase, ANode.erase, AFrame.erase, fixInsertBody, hred, rotateLeft]

theorem fixInsertChecked_sim (fuel : Nat) (s : Mem.Store) (cur : ACursor) (r : RBNode)
    (h : LRep s cur) (hm : fixInsert fuel cur.erase = some r) (fuel2 : Nat)
    (hf : fuel ≤ fuel2) :
    ∃ s2 t2, (Mem.fixInsertChecked fuel2 s cur.node.ptr = some s2 ∧
        Mem.fixInsert fuel2 s cur.node.ptr = some s2) ∧ LRep s2 ⟨t2, []⟩ ∧
      t2.erase = r ∧ s2.next = s.next ∧ s2.size = s.size := by
  induction fuel generalizing s cur fuel2 with
  | zero => simp [fixInsert] at hm
  | succ fuel ih =>
    obtain ⟨fuel3, rfl⟩ : ∃ k, fuel2 = k + 1 := ⟨fuel2 - 1, by omega⟩
    obtain ⟨node, up⟩ := cur
    rcases node with _ | ⟨n, nk, nd, nc, nl, nr⟩
    · simp [ACursor.erase, ANode.erase, fixInsert] at hm
    rcases up with _ | ⟨P, above⟩
    · obtain ⟨s2, t2, e, h2, he, n2, z2⟩ := setBlack_root s _ (by simp) h
      simp only [ACursor.erase, ANode.erase, List.map_nil, fixInsert, Option.some.injEq] at hm
      refine ⟨s2, t2, ?_, h2, by rw [he, ← hm]; rfl, n2, z2⟩
      simp only [Mem.fixInsert, Mem.fixInsertChecked, ptr_mk, ← LRep_root s _ h, if_true, e, and_self]
    · have hroot := root_ne_focus s _ P above h
      have hP := (LRep_fill s _ P _).1 h
      have r1 := focus_parent s n nk nd nc nl nr _ h
      simp only [upPtr_cons] at r1
      have r2 : s.color (some P.addr) = some P.erase.color := by
        cases P <;> exact focus_color s _ _ _ _ _ _ _ hP
      simp only [ptr_mk] at hroot
      simp only [Mem.fixInsert, Mem.fixInsertChecked, ptr_mk, hroot, if_false, r1, r2, Option.bind_eq_bind,
        Option.some_bind]
      simp only [ACursor.erase, ANode.erase, List.map_cons, fixInsert] at hm
      by_cases hc : P.erase.color = .RED
      · simp only [hc, if_true] at hm ⊢
        cases hb : fixInsertBody ⟨.mk nk nd nc nl.erase nr.erase,
            P.erase :: above.map AFrame.erase⟩ with
        | none => simp [hb] at hm
        | some cur1 =>
          simp only [hb, Option.some_bind] at hm
          obtain ⟨s1, acur1, e1, h1, he1, n1, z1⟩ := fixInsertBodyChecked_sim s ⟨_, P :: above⟩ cur1 h hb
          subst he1
          obtain ⟨s2, t2, e2, h2, he2, n2, z2⟩ := ih s1 acur1 h1 hm fuel3 (by omega)
          refine ⟨s2, t2, ?_, h2, he2, by rw [n2, n1], by rw [z2, z1]⟩
          simp only [ptr_mk] at e1
          simp only [e1, Option.some_bind, e2, and_self]
      · simp only [hc, if_false, Option.some.injEq] at hm ⊢
        have hw := (LRep_aplug s _ _).1 h
        obtain ⟨a, k, d, c, l, r2, ha⟩ := aplug_cons_eq_mk (.mk n nk nd nc nl nr) P above
        obtain ⟨s2, t2, e, h2, he, n2, z2⟩ := setBlack_root s _ (by rw [ha]; simp) hw
        refine ⟨s2, t2, ⟨e, e⟩, h2, ?_, n2, z2⟩
        rw [he, ← hm, erase_aplug]
        rfl

theorem insertNodeChecked_sim (s : Mem.Store) (t : RBTree) (key : Int) (data : Payload)
    (t2 : RBTree) (res : Int) (h : Refines s t) (hm : insertNode t key data = some (t2, res)) :
    ∃ s2, (Mem.insertNodeChecked s key data = some (s2, res) ∧
      Mem.insertNode s key data = some (s2, res)) ∧ Refines s2 t2 := by
  obtain ⟨tr, htr, hL, hz⟩ := h
  obtain ⟨s1, hs1⟩ : ∃ s1, s1 = (Mem.createNode s key data).1 := ⟨_, rfl⟩
  have hc : Mem.createNode s key data = (s1, some s.next) := by rw [hs1]; rfl
  have m1 : s1.mem = Function.update s.mem s.next
      (some (Mem.Node.mk key (copyData data) .RED none none none)) := by rw [hs1]; rfl
  have n1 : s1.next = s.next + 1 := by rw [hs1]; rfl
  have r1 : s1.root = s.root := by rw [hs1]; rfl
  have z1 : s1.size = s.size := by rw [hs1]; rfl
  have mx : s1.mem s.next = some (Mem.Node.mk key (copyData data) .RED none none none) := by
    rw [m1, Function.update_same]
  have hroot := LRep_root s tr hL
  have hlt : ∀ y ∈ (ACursor.mk tr []).addrs, y < s.next := hL.2.2.2
  have hL1 : LRep s1 ⟨tr, []⟩ := LRep_frame s s1 _ hL
    (fun y hy => by rw [m1, Function.update_noteq (Nat.ne_of_lt (hlt y hy))]) r1 (by omega)
  simp only [Mem.insertNode, Mem.insertNodeChecked, hc]
  rcases tr with _ | ⟨a, k, d, c, l, r⟩
  · -- tree->root == NULL
    simp only [ANode.erase] at htr
    simp only [insertNode, ← htr, Option.some.injEq, Prod.mk.injEq] at hm
    obtain ⟨rfl, rfl⟩ := hm
    simp only [ptr_NULL] at hroot
    refine ⟨{ (s1.setRoot (some s.next)).write s.next
      (Mem.Node.mk key (copyData data) .BLACK none none none) with size := s1.size + 1 }, ?_,
      .mk s.next key (copyData data) .BLACK .NULL .NULL, rfl, ⟨⟨?_, trivial, trivial⟩, rfl, ?_, ?_⟩,
      ?_⟩
    · simp [r1, hroot, Mem.Store.setColor, modify_some, Mem.Store.setRoot, mx]
    · simp [Mem.Store.setRoot]
    · simp [ACursor.addrs, ANode.addrs, upAddrs]
    · intro y hy
      simp only [ACursor.addrs, ANode.addrs, upAddrs, List.append_nil, List.nil_append,
        List.mem_singleton] at hy
      subst hy
      show s.next < s1.next
      omega
    · show s1.size + 1 = t.size + 1
      rw [z1, hz]
  · -- the search loop
    simp only [ptr_mk] at hroot
    have hsim := insertSearch_sim s1 key data (.mk a k d c l r) [] (s1.next + 1) hL1
      (by
        have := addrs_length_le s1 _ hL1
        simp only [ACursor.addrs, upAddrs, List.append_nil] at this
        omega)
      (fun f rest e => by simp at e) s.next hlt
    simp only [r1, hroot, reduceCtorEq, if_false, upPtr_nil, List.map_nil, ptr_mk] at hsim ⊢
    simp only [ANode.erase] at htr
    simp only [insertNode, ← htr] at hm
    simp only [ANode.erase] at hsim
    cases hd : insertDescend key data (.mk k d c l.erase r.erase) [] with
    | inl root2 =>
      simp only [hd, Option.some.injEq, Prod.mk.injEq] at hm
      obtain ⟨rfl, rfl⟩ := hm
      obtain ⟨a2, d2, c2, l2, r2, aup, e, hF, hN, hr2⟩ := hsim.2 root2 hd
      obtain ⟨s2, e2, h2, n2, z2, off2⟩ := setData_focus s1 a2 key d2 c2 l2 r2 aup data hF
      have hax : s.next ≠ a2 := by
        have := hN a2 (by simp [ACursor.addrs, ANode.addrs])
        omega
      have m2x : s2.mem s.next = some (Mem.Node.mk key (copyData data) .RED none none none) := by
        rw [off2 _ hax, mx]
      refine ⟨{ s2 with mem := Function.update s2.mem s.next none }, ?_,
        aplug (.mk a2 key (copyData data) c2 l2 r2) aup, ?_, ?_, ?_⟩
      · simp only [e, Option.bind_eq_bind, Option.some_bind, Mem.insertUpdate, e2, Mem.free, m2x,
          Option.pure_def, and_self]
      · rw [erase_aplug, hr2]
        rfl
      · rw [← LRep_aplug]
        exact LRep_frame s2 _ _ h2 (fun y hy => by
          have : y < s.next := hN y hy
          exact Function.update_noteq (Nat.ne_of_lt this) _ _) rfl le_rfl
      · show s2.size = t.size
        rw [z2, z1, hz]
    | inr up =>
      simp only [hd, Option.map_eq_some', Prod.mk.injEq] at hm
      obtain ⟨r2, hfix, rfl, rfl⟩ := hm
      obtain ⟨aup, e, her, hF, hside, -, hne, hN⟩ := hsim.1 up hd
      rcases aup with _ | ⟨f, rest⟩
      · exact absurd (hne rfl) (by simp)
      obtain ⟨sA, sB, pk, e1, e2, e3, hB, nB, zB⟩ := attach_spec s1 key (copyData data) s.next f
        rest hF mx (fun hx => Nat.lt_irrefl _ (hN _ hx)) (by omega) (hside f rest rfl)
      have hB2 : LRep { sB with size := sB.size + 1 }
          ⟨.mk s.next key (copyData data) .RED .NULL .NULL, f :: rest⟩ := hB
      have hlen : up.length + 1 ≤ sB.next + 1 := by
        have h1 := addrs_length_le sB _ hB
        have h2 := length_le_upAddrs (f :: rest)
        simp only [ACursor.addrs, List.length_append] at h1
        rw [← her, List.length_map]
        omega
      obtain ⟨s2, t2, e4, h4, he4, n4, z4⟩ := fixInsertChecked_sim (up.length + 1)
        _ _ r2 hB2 (by
          simp only [ACursor.erase, ANode.erase, her]
          exact hfix) (sB.next + 1) hlen
      refine ⟨s2, ?_, t2, he4, h4, ?_⟩
      · simp only [upPtr_cons] at e
        simp only [ptr_mk] at e4
        by_cases hk : key < pk <;> simp only [hk, if_true, if_false] at e3 <;>
          simp only [e, Option.bind_eq_bind, Option.some_bind, Mem.insertAttach, Mem.insertAttachChecked, and_self, e1, e2, hk,
            if_true, if_false, e3, e4, Option.pure_def]
      · rw [z4]
        show sB.size + 1 = t.size + 1
        rw [zB, z1, hz]

theorem fixInsertBody_node_ne (cur cur2 : Cursor) (h : fixInsertBody cur = some cur2) :
    cur2.node ≠ .NULL := by
  obtain ⟨node, up⟩ := cur
  cases node with
  | NULL => simp [fixInsertBody] at h
  | mk nk nd nc nl nr =>
    rcases up with _ | ⟨p, _ | ⟨g, above⟩⟩
    · simp [fixInsertBody] at h
    · simp [fixInsertBody] at h
    · rcases g with ⟨gk, gd, gc, u⟩ | ⟨gk, gd, gc, u⟩ <;>
        rcases p with ⟨pk, pd, pc, ps⟩ | ⟨pk, pd, pc, ps⟩ <;>
        simp only [fixInsertBody, rotateLeft, rotateRight] at h <;>
        split at h <;>
        simp only [Option.some.injEq] at h <;> subst h <;> simp

theorem fixInsert_steps_node_ne (cur cur2 : Cursor) (hn : cur.node ≠ .NULL)
    (h : Relation.ReflTransGen
      (fun c c2 => fixInsertRuns c = true ∧ fixInsertBody c = some c2) cur cur2) :
    cur2.node ≠ .NULL := by
  induction h with
  | refl => exact hn
  | tail _ hstep _ => exact fixInsertBody_node_ne _ _ hstep.2

theorem insertNode_fails_at_dereference (tree : RBTree) (key : Int) (data : Payload)
    (hn : insertNode tree key data = none) :
    ∃ up cur2, insertDescend key data tree.root [] = .inr up ∧
      Relation.ReflTransGen
        (fun c c2 => fixInsertRuns c = true ∧ fixInsertBody c = some c2)
        ⟨createNode key data, up⟩ cur2 ∧
      fixInsertRuns cur2 = true ∧ fixInsertBody cur2 = none := by
  obtain ⟨root, size⟩ := tree
  cases root with
  | NULL => simp [insertNode] at hn
  | mk k d c l r =>
    cases hd : insertDescend key data (.mk k d c l r) [] with
    | inl r2 => simp [insertNode, hd] at hn
    | inr up =>
      simp only [insertNode, hd, Option.map_eq_none'] at hn
      obtain ⟨cur2, h1, h2⟩ := fixInsert_within_measure (up.length + 1)
        ⟨createNode key data, up⟩ (Nat.lt_succ_self _) hn
      have hne := fixInsert_steps_node_ne _ cur2 (by simp [createNode]) h1
      rcases h2 with h2 | h2
      · exact absurd h2 hne
      · exact ⟨up, cur2, rfl, h1, h2⟩

theorem fixInsertBody_absent_grandparent (s0 : Mem.Store) (node parent : Mem.Ptr)
    (h1 : s0.parent node = some parent) (h2 : s0.parent parent = some none) :
    Mem.fixInsertBody s0 node = none := by
  have hl : s0.left none = none := rfl
  cases node with
  | none => simp [Mem.Store.parent, Mem.Store.deref] at h1
  | some a =>
    cases parent with
    | none => simp [Mem.Store.parent, Mem.Store.deref] at h2
    | some p => simp [Mem.fixInsertBody, Mem.getUncle, h1, h2, hl]

/-! ## The two rotations undo each other -/

theorem rotateLeft_frame (s : Mem.Store) (a : Nat) (k : Int) (d : Payload) (c : Color)
    (l : ANode) (b : Nat) (rk : Int) (rd : Payload) (rc : Color) (rl rr : ANode)
    (up : List AFrame) (h : LRep s ⟨.mk a k d c l (.mk b rk rd rc rl rr), up⟩) :
    ∃ s2, Mem.rotateLeft s (some a) = some s2 ∧
      LRep s2 ⟨.mk b rk rd rc (.mk a k d c l rl) rr, up⟩ ∧
      s2.next = s.next ∧ s2.size = s.size ∧
      ∀ y, y ∉ (ACursor.mk (.mk a k d c l (.mk b rk rd rc rl rr)) up).addrs →
        s2.mem y = s.mem y := by
  have hsame : (ACursor.mk (.mk b rk rd rc (.mk a k d c l rl) rr) up).addrs =
      (ACursor.mk (.mk a k d c l (.mk b rk rd rc rl rr)) up).addrs := by
    simp [ACursor.addrs, ANode.addrs]
  obtain ⟨⟨hma, hl, hmb, hrl, hrr⟩, hu, hnd, hb⟩ := h
  dsimp only at hma hmb hu
  simp only [ptr_mk] at hma hu
  have hnd2 := hnd
  simp only [ACursor.addrs, ANode.addrs, List.nodup_append, List.nodup_cons, List.mem_append,
    List.mem_cons, List.disjoint_cons_left, List.disjoint_cons_right,
    List.disjoint_append_left, List.disjoint_append_right, not_or] at hnd2
  obtain ⟨⟨ndl, ⟨⟨a_rl, nab, a_rr⟩, ⟨ndrl, ⟨b_rr, ndrr⟩, b_rl, d_rl_rr⟩⟩, a_l, d_l_rl, b_l,
    d_l_rr⟩, ndup, d_l_up, a_up, d_rl_up, b_up, d_rr_up⟩ := hnd2
  have nba : ¬b = a := fun e => nab e.symm
  -- node->right = right_child->left; if (right_child->left != NULL) ... ->parent = node
  have hrl1 : ARep (s.write a (Mem.Node.mk k d c l.ptr rl.ptr (upPtr up))).mem rl (some b) :=
    (ARep_update _ _ _ _ _ a_rl).2 hrl
  obtain ⟨s2, e2, hrl2, off2, r2, n2, z2⟩ := condSetParent_spec _ rl (some b) (some a) hrl1 ndrl
  have m2 : ∀ y, y ∉ rl.addrs → y ≠ a → s2.mem y = s.mem y := fun y h1 h2 => by
    rw [off2 y (ptr_ne_of_not_mem rl y h1), write_mem, Function.update_noteq h2]
  have m2a : s2.mem a = some (Mem.Node.mk k d c l.ptr rl.ptr (upPtr up)) := by
    rw [off2 a (ptr_ne_of_not_mem rl a a_rl), write_mem, Function.update_same]
  have m2b : s2.mem b = some (Mem.Node.mk rk rd rc rl.ptr rr.ptr (some a)) := by
    rw [m2 b b_rl nba, hmb]
  -- right_child->parent = node->parent; the parent of node gets right_child
  have hu3 : ARepUp (s2.write b (Mem.Node.mk rk rd rc rl.ptr rr.ptr (upPtr up))).mem
      (s2.write b (Mem.Node.mk rk rd rc rl.ptr rr.ptr (upPtr up))).root up (some a) := by
    rw [write_mem, write_root, r2, write_root, ARepUp_update _ _ _ _ _ _ b_up]
    exact (ARepUp_congr s.mem s2.mem _ up _ (fun y hy =>
      m2 y (fun h1 => d_rl_up h1 hy) (fun e => a_up (e ▸ hy)))).2 hu
  have m3a : (s2.write b (Mem.Node.mk rk rd rc rl.ptr rr.ptr (upPtr up))).mem a =
      some (Mem.Node.mk k d c l.ptr rl.ptr (upPtr up)) := by
    rw [write_mem, Function.update_noteq nab, m2a]
  obtain ⟨s4, e4, hu4, off4, n4, z4⟩ := replaceChild_spec _ a _ up (some b) m3a rfl hu3 a_up ndup
  have m4 : ∀ y, y ∉ upAddrs up → y ≠ b → s4.mem y = s2.mem y := fun y h1 h2 => by
    rw [off4 y (fun e => h1 (upPtr_mem_upAddrs up y e)), write_mem, Function.update_noteq h2]
  have m4a : s4.mem a = some (Mem.Node.mk k d c l.ptr rl.ptr (upPtr up)) := by
    rw [m4 a a_up nab, m2a]
  have m4b : s4.mem b = some (Mem.Node.mk rk rd rc rl.ptr rr.ptr (upPtr up)) := by
    rw [off4 b (fun e => b_up (upPtr_mem_upAddrs up b e)), write_mem, Function.update_same]
  -- right_child->left = node; node->parent = right_child
  have m6 : ∀ y, y ≠ a → y ≠ b →
      ((s4.write b (Mem.Node.mk rk rd rc (some a) rr.ptr (upPtr up))).write a
        (Mem.Node.mk k d c l.ptr rl.ptr (some b))).mem y = s4.mem y := fun y h1 h2 => by
    rw [write_mem, Function.update_noteq h1, write_mem, Function.update_noteq h2]
  refine ⟨(s4.write b (Mem.Node.mk rk rd rc (some a) rr.ptr (upPtr up))).write a
    (Mem.Node.mk k d c l.ptr rl.ptr (some b)), ?_, ⟨⟨?_, ⟨?_, ?_, ?_⟩, ?_⟩, ?_, hsame ▸ hnd, ?_⟩,
    ?_, ?_, ?_⟩
  · simp only [Mem.rotateLeft, reduceCtorEq, if_false, right_some, left_some, parent_some,
      Mem.Store.setRight, Mem.Store.setLeft, Mem.Store.setParent, modify_some, hma, hmb,
      Option.map_some', Option.bind_eq_bind, Option.some_bind, write_mem,
      Function.update_noteq nba, Function.update_noteq nab, Function.update_same, e2, m2a,
      m2b, e4, m4a, m4b]
  · simp [Function.update_noteq nba]
  · simp
  · exact (ARep_congr s.mem _ l _ (fun y hy => by
      rw [m6 y (fun e => a_l (e ▸ hy)) (fun e => b_l (e ▸ hy)),
        m4 y (fun h1 => d_l_up hy h1) (fun e => b_l (e ▸ hy)),
        m2 y (fun h1 => d_l_rl hy h1) (fun e => a_l (e ▸ hy))])).2 hl
  · exact (ARep_congr s2.mem _ rl _ (fun y hy => by
      rw [m6 y (fun e => a_rl (e ▸ hy)) (fun e => b_rl (e ▸ hy)),
        m4 y (fun h1 => d_rl_up hy h1) (fun e => b_rl (e ▸ hy))])).2 hrl2
  · exact (ARep_congr s.mem _ rr _ (fun y hy => by
      rw [m6 y (fun e => a_rr (e ▸ hy)) (fun e => b_rr (e ▸ hy)),
        m4 y (fun h1 => d_rr_up hy h1) (fun e => b_rr (e ▸ hy)),
        m2 y (fun h1 => d_rl_rr h1 hy) (fun e => a_rr (e ▸ hy))])).2 hrr
  · exact (ARepUp_congr s4.mem _ _ up _ (fun y hy =>
      m6 y (fun e => a_up (e ▸ hy)) (fun e => b_up (e ▸ hy)))).2 hu4
  · intro y hy
    rw [hsame] at hy
    have := hb y hy
    simp only [write_next, n4, n2]
    exact this
  · simp only [write_next, n4, n2]
  · simp only [write_size, z4, z2]
  · intro y hy
    simp only [ACursor.addrs, ANode.addrs, List.mem_append, List.mem_cons, not_or] at hy
    rw [m6 y hy.1.2.1 hy.1.2.2.2.1, m4 y hy.2 hy.1.2.2.2.1, m2 y hy.1.2.2.1 hy.1.2.1]

theorem rotateRight_frame (s : Mem.Store) (a : Nat) (k : Int) (d : Payload) (c : Color)
    (b : Nat) (lk : Int) (ld : Payload) (lc : Color) (ll lr : ANode) (r : ANode)
    (up : List AFrame) (h : LRep s ⟨.mk a k d c (.mk b lk ld lc ll lr) r, up⟩) :
    ∃ s2, Mem.rotateRight s (some a) = some s2 ∧
      LRep s2 ⟨.mk b lk ld lc ll (.mk a k d c lr r), up⟩ ∧
      s2.next = s.next ∧ s2.size = s.size ∧
      ∀ y, y ∉ (ACursor.mk (.mk a k d c (.mk b lk ld lc ll lr) r) up).addrs →
        s2.mem y = s.mem y := by
  have hsame : (ACursor.mk (.mk b lk ld lc ll (.mk a k d c lr r)) up).addrs =
      (ACursor.mk (.mk a k d c (.mk b lk ld lc ll lr) r) up).addrs := by
    simp [ACursor.addrs, ANode.addrs]
  obtain ⟨⟨hma, ⟨hmb, hll, hlr⟩, hr⟩, hu, hnd, hb⟩ := h
  dsimp only at hma hmb hu
  simp only [ptr_mk] at hma hu
  have hnd2 := hnd
  simp only [ACursor.addrs, ANode.addrs, List.nodup_append, List.nodup_cons, List.mem_append,
    List.mem_cons, List.disjoint_cons_left, List.disjoint_cons_right,
    List.disjoint_append_left, List.disjoint_append_right, not_or] at hnd2
  obtain ⟨⟨⟨ndll, ⟨b_lr, ndlr⟩, b_ll, d_ll_lr⟩, ⟨a_r, ndr⟩, ⟨a_ll, nab, a_lr⟩, d_ll_r, b_r,
    d_lr_r⟩, ndup, ⟨d_ll_up, b_up, d_lr_up⟩, a_up, d_r_up⟩ := hnd2
  have nba : ¬b = a := fun e => nab e.symm
  -- node->left = left_child->right; if (left_child->right != NULL) ... ->parent = node
  have hlr1 : ARep (s.write a (Mem.Node.mk k d c lr.ptr r.ptr (upPtr up))).mem lr (some b) :=
    (ARep_update _ _ _ _ _ a_lr).2 hlr
  obtain ⟨s2, e2, hlr2, off2, r2, n2, z2⟩ := condSetParent_spec _ lr (some b) (some a) hlr1 ndlr
  have m2 : ∀ y, y ∉ lr.addrs → y ≠ a → s2.mem y = s.mem y := fun y h1 h2 => by
    rw [off2 y (ptr_ne_of_not_mem lr y h1), write_mem, Function.update_noteq h2]
  have m2a : s2.mem a = some (Mem.Node.mk k d c lr.ptr r.ptr (upPtr up)) := by
    rw [off2 a (ptr_ne_of_not_mem lr a a_lr), write_mem, Function.update_same]
  have m2b : s2.mem b = some (Mem.Node.mk lk ld lc ll.ptr lr.ptr (some a)) := by
    rw [m2 b b_lr nba, hmb]
  -- left_child->parent = node->parent; the parent of node gets left_child
  have hu3 : ARepUp (s2.write b (Mem.Node.mk lk ld lc ll.ptr lr.ptr (upPtr up))).mem
      (s2.write b (Mem.Node.mk lk ld lc ll.ptr lr.ptr (upPtr up))).root up (some a) := by
    rw [write_mem, write_root, r2, write_root, ARepUp_update _ _ _ _ _ _ b_up]
    exact (ARepUp_congr s.mem s2.mem _ up _ (fun y hy =>
      m2 y (fun h1 => d_lr_up h1 hy) (fun e => a_up (e ▸ hy)))).2 hu
  have m3a : (s2.write b (Mem.Node.mk lk ld lc ll.ptr lr.ptr (upPtr up))).mem a =
      some (Mem.Node.mk k d c lr.ptr r.ptr (upPtr up)) := by
    rw [write_mem, Function.update_noteq nab, m2a]
  obtain ⟨s4, e4, hu4, off4, n4, z4⟩ :=
    replaceChildRight_spec _ a _ up (some b) m3a rfl hu3 a_up ndup
  have m4 : ∀ y, y ∉ upAddrs up → y ≠ b → s4.mem y = s2.mem y := fun y h1 h2 => by
    rw [off4 y (fun e => h1 (upPtr_mem_upAddrs up y e)), write_mem, Function.update_noteq h2]
  have m4a : s4.mem a = some (Mem.Node.mk k d c lr.ptr r.ptr (upPtr up)) := by
    rw [m4 a a_up nab, m2a]
  have m4b : s4.mem b = some (Mem.Node.mk lk ld lc ll.ptr lr.ptr (upPtr up)) := by
    rw [off4 b (fun e => b_up (upPtr_mem_upAddrs up b e)), write_mem, Function.update_same]
  -- left_child->right = node; node->parent = left_child
  have m6 : ∀ y, y ≠ a → y ≠ b →
      ((s4.write b (Mem.Node.mk lk ld lc ll.ptr (some a) (upPtr up))).write a
        (Mem.Node.mk k d c lr.ptr r.ptr (some b))).mem y = s4.mem y := fun y h1 h2 => by
    rw [write_mem, Function.update_noteq h1, write_mem, Function.update_noteq h2]
  refine ⟨(s4.write b (Mem.Node.mk lk ld lc ll.ptr (some a) (upPtr up))).write a
    (Mem.Node.mk k d c lr.ptr r.ptr (some b)), ?_, ⟨⟨?_, ?_, ⟨?_, ?_, ?_⟩⟩, ?_, hsame ▸ hnd, ?_⟩,
    ?_, ?_, ?_⟩
  · simp only [Mem.rotateRight, reduceCtorEq, if_false, right_some, left_some, parent_some,
      Mem.Store.setRight, Mem.Store.setLeft, Mem.Store.setParent, modify_some, hma, hmb,
      Option.map_some', Option.bind_eq_bind, Option.some_bind, write_mem,
      Function.update_noteq nba, Function.update_noteq nab, Function.update_same, e2, m2a,
      m2b, e4, m4a, m4b]
  · simp [Function.update_noteq nba]
  · exact (ARep_congr s.mem _ ll _ (fun y hy => by
      rw [m6 y (fun e => a_ll (e ▸ hy)) (fun e => b_ll (e ▸ hy)),
        m4 y (fun h1 => d_ll_up hy h1) (fun e => b_ll (e ▸ hy)),
        m2 y (fun h1 => d_ll_lr hy h1) (fun e => a_ll (e ▸ hy))])).2 hll
  · simp
  · exact (ARep_congr s2.mem _ lr _ (fun y hy => by
      rw [m6 y (fun e => a_lr (e ▸ hy)) (fun e => b_lr (e ▸ hy)),
        m4 y (fun h1 => d_lr_up hy h1) (fun e => b_lr (e ▸ hy))])).2 hlr2
  · exact (ARep_congr s.mem _ r _ (fun y hy => by
      rw [m6 y (fun e => a_r (e ▸ hy)) (fun e => b_r (e ▸ hy)),
        m4 y (fun h1 => d_r_up hy h1) (fun e => b_r (e ▸ hy)),
        m2 y (fun h1 => d_lr_r h1 hy) (fun e => a_r (e ▸ hy))])).2 hr
  · exact (ARepUp_congr s4.mem _ _ up _ (fun y hy =>
      m6 y (fun e => a_up (e ▸ hy)) (fun e => b_up (e ▸ hy)))).2 hu4
  · intro y hy
    rw [hsame] at hy
    have := hb y hy
    simp only [write_next, n4, n2]
    exact this
  · simp only [write_next, n4, n2]
  · simp only [write_size, z4, z2]
  · intro y hy
    simp only [ACursor.addrs, ANode.addrs, List.mem_append, List.mem_cons, not_or] at hy
    rw [m6 y hy.1.2.1 hy.1.1.2.1, m4 y hy.2 hy.1.1.2.1, m2 y hy.1.1.2.2 hy.1.2.1]

theorem ARep_unique (m m2 : Nat → Option Mem.Node) (t : ANode) (par : Mem.Ptr)
    (h : ARep m t par) (h2 : ARep m2 t par) : ∀ a ∈ t.addrs, m2 a = m a := by
  induction t generalizing par with
  | NULL => intro a ha; simp [ANode.addrs] at ha
  | mk x k d c l r ihl ihr =>
    intro a ha
    simp only [ANode.addrs, List.mem_append, List.mem_cons] at ha
    rcases ha with ha | rfl | ha
    · exact ihl _ h.2.1 h2.2.1 a ha
    · rw [h.1, h2.1]
    · exact ihr _ h.2.2 h2.2.2 a ha

theorem ARepUp_unique (m m2 : Nat → Option Mem.Node) (root root2 : Mem.Ptr)
    (up : List AFrame) (hole : Mem.Ptr) (h : ARepUp m root up hole)
    (h2 : ARepUp m2 root2 up hole) : root2 = root ∧ ∀ a ∈ upAddrs up, m2 a = m a := by
  induction up generalizing hole with
  | nil =>
    simp only [ARepUp] at h h2
    exact ⟨h2.trans h.symm, fun a ha => by simp [upAddrs] at ha⟩
  | cons f up ih =>
    cases f with
    | inLeft x k d c r =>
      obtain ⟨e, hr, hu⟩ := h
      obtain ⟨e2, hr2, hu2⟩ := h2
      obtain ⟨i1, i2⟩ := ih _ hu hu2
      refine ⟨i1, fun a ha => ?_⟩
      simp only [upAddrs, AFrame.addrs, List.cons_append, List.mem_cons, List.mem_append] at ha
      rcases ha with rfl | ha | ha
      · rw [e, e2]
      · exact ARep_unique m m2 r _ hr hr2 a ha
      · exact i2 a ha
    | inRight x k d c l =>
      obtain ⟨e, hl, hu⟩ := h
      obtain ⟨e2, hl2, hu2⟩ := h2
      obtain ⟨i1, i2⟩ := ih _ hu hu2
      refine ⟨i1, fun a ha => ?_⟩
      simp only [upAddrs, AFrame.addrs, List.cons_append, List.mem_cons, List.mem_append] at ha
      rcases ha with rfl | ha | ha
      · rw [e, e2]
      · exact ARep_unique m m2 l _ hl hl2 a ha
      · exact i2 a ha

/-- Two heaps that hold the same tree at the same addresses, and agree elsewhere, are the
same heap. -/
theorem Store_eq_of_LRep (s s2 : Mem.Store) (cur : ACursor) (h : LRep s cur)
    (h2 : LRep s2 cur) (hn : s2.next = s.next) (hz : s2.size = s.size)
    (hf : ∀ y, y ∉ cur.addrs → s2.mem y = s.mem y) : s2 = s := by
  obtain ⟨i1, i2⟩ := ARepUp_unique s.mem s2.mem s.root s2.root cur.up _ h.2.1 h2.2.1
  have i3 := ARep_unique s.mem s2.mem cur.node _ h.1 h2.1
  have hmem : s2.mem = s.mem := by
    funext y
    by_cases hy : y ∈ cur.addrs
    · simp only [ACursor.addrs, List.mem_append] at hy
      rcases hy with hy | hy
      · exact i3 y hy
      · exact i2 y hy
    · exact hf y hy
  cases s
  cases s2
  simp only at hmem i1 hn hz
  subst hmem i1 hn hz
  rfl

theorem rotateLeft_rotateRight (s : Mem.Store) (x : Nat) (xk : Int) (xd : Payload)
    (xc : Color) (l : ANode) (y : Nat) (yk : Int) (yd : Payload) (yc : Color) (rl rr : ANode)
    (up : List AFrame) (h : LRep s ⟨.mk x xk xd xc l (.mk y yk yd yc rl rr), up⟩) :
    ∃ s1, Mem.rotateLeft s (some x) = some s1 ∧
      LRep s1 ⟨.mk y yk yd yc (.mk x xk xd xc l rl) rr, up⟩ ∧
      Mem.rotateRight s1 (some y) = some s := by
  obtain ⟨s1, e1, h1, n1, z1, f1⟩ := rotateLeft_frame s x xk xd xc l y yk yd yc rl rr up h
  obtain ⟨s2, e2, h2, n2, z2, f2⟩ := rotateRight_frame s1 y yk yd yc x xk xd xc l rl rr up h1
  have hsame : ∀ a, a ∈ (ACursor.mk (.mk y yk yd yc (.mk x xk xd xc l rl) rr) up).addrs ↔
      a ∈ (ACursor.mk (.mk x xk xd xc l (.mk y yk yd yc rl rr)) up).addrs := by
    intro a
    simp [ACursor.addrs, ANode.addrs]
  have : s2 = s := Store_eq_of_LRep s s2 _ h h2 (n2.trans n1) (z2.trans z1)
    (fun a ha => by
      rw [f2 a (fun h3 => ha ((hsame a).1 h3)), f1 a ha])
  rw [this] at e2
  exact ⟨s1, e1, h1, e2⟩

theorem rotateRight_rotateLeft (s : Mem.Store) (x : Nat) (xk : Int) (xd : Payload)
    (xc : Color) (y : Nat) (yk : Int) (yd : Payload) (yc : Color) (ll lr : ANode) (r : ANode)
    (up : List AFrame) (h : LRep s ⟨.mk x xk xd xc (.mk y yk yd yc ll lr) r, up⟩) :
    ∃ s1, Mem.rotateRight s (some x) = some s1 ∧
      LRep s1 ⟨.mk y yk yd yc ll (.mk x xk xd xc lr r), up⟩ ∧
      Mem.rotateLeft s1 (some y) = some s := by
  obtain ⟨s1, e1, h1, n1, z1, f1⟩ := rotateRight_frame s x xk xd xc y yk yd yc ll lr r up h
  obtain ⟨s2, e2, h2, n2, z2, f2⟩ := rotateLeft_frame s1 y yk yd yc ll x xk xd xc lr r up h1
  have hsame : ∀ a, a ∈ (ACursor.mk (.mk y yk yd yc ll (.mk x xk xd xc lr r)) up).addrs ↔
      a ∈ (ACursor.mk (.mk x xk xd xc (.mk y yk yd yc ll lr) r) up).addrs := by
    intro a
    simp [ACursor.addrs, ANode.addrs]
  have : s2 = s := Store_eq_of_LRep s s2 _ h h2 (n2.trans n1) (z2.trans z1)
    (fun a ha => by
      rw [f2 a (fun h3 => ha ((hsame a).1 h3)), f1 a ha])
  rw [this] at e2
  exact ⟨s1, e1, h1, e2⟩

/-! ## Parent links and absent nodes in the heaps that the calls reach -/

/-- C25: in every heap reached from `createTree` by `insertNode` and `deleteNode` calls (the
calls all return), the root has no parent, every other node reached from the root through
child links is the left or the right child of the node that its parent link designates,
itself such a node, and the parent link of every child of such a node designates that
node. -/
theorem reachable_parent_links_consistent (ops : List Op) :
    ∃ s, Mem.runOps ops Mem.createTree = some s ∧
      (∀ a, s.root = some a → ∃ nd, s.mem a = some nd ∧ nd.parent = none) ∧
      (∀ a, Mem.Reach s a → s.root ≠ some a →
        ∃ nd p pn, s.mem a = some nd ∧ nd.parent = some p ∧ Mem.Reach s p ∧
          s.mem p = some pn ∧ (pn.left = some a ∨ pn.right = some a)) ∧
      (∀ p pn a, Mem.Reach s p → s.mem p = some pn →
        (pn.left = some a ∨ pn.right = some a) →
        ∃ nd, s.mem a = some nd ∧ nd.parent = some p) := by
  obtain ⟨t, ht, -, -⟩ := runOps_spec ops
  obtain ⟨s, e, r⟩ := runOps_sim ops _ _ _ Refines_createTree ht
  exact ⟨s, e, Refines_links s t r⟩

/-- C27: in every heap reached from `createTree` by `insertNode` and `deleteNode` calls,
`deleteNode` returns for every key, so that no read or write of it meets an absent node: a
read of a field of an absent node, a run of either branch of the body of `fixDelete` with an
absent `parent`, and a write of the parent link of an absent node all make the function
fail. -/
theorem deleteNode_meets_no_absent_node (ops : List Op) (key : Int) :
    ∃ s, Mem.runOps ops Mem.createTree = some s ∧
      (∃ s2 res, Mem.deleteNode s key = some (s2, res)) ∧
      (∀ s0 : Mem.Store, s0.left none = none ∧ s0.right none = none ∧ s0.color none = none ∧
        s0.parent none = none) ∧
      (∀ (s0 : Mem.Store) (node : Mem.Ptr),
        Mem.fixDeleteLeft s0 node none = none ∧ Mem.fixDeleteRight s0 node none = none) ∧
      (∀ (s0 : Mem.Store) (q : Mem.Ptr), s0.setParent none q = none) := by
  obtain ⟨t2, ht2, -, -⟩ := runOps_spec (ops ++ [.delete key])
  rw [runOps_append] at ht2
  simp only [Option.bind_eq_some] at ht2
  obtain ⟨t, ht, h2⟩ := ht2
  simp only [runOps, Op.run, Option.bind_eq_some, Option.map_eq_some', Option.some.injEq] at h2
  obtain ⟨t3, ⟨⟨t4, res⟩, hd, rfl⟩, -⟩ := h2
  obtain ⟨s, e, r⟩ := runOps_sim ops _ _ _ Refines_createTree ht
  obtain ⟨s2, e2, -⟩ := deleteNode_sim s t key t4 res r hd
  exact ⟨s, e, ⟨s2, res, e2⟩, fun s0 => ⟨rfl, rfl, rfl, rfl⟩, fun s0 node => ⟨rfl, rfl⟩,
    fun s0 q => rfl⟩

/-- C26: for every heap that holds a tree with a BLACK root, parent links included, and for
every key and payload, `insertNode` returns, and it returns the same when its rotations are
made to fail where their pivot child is absent: every `rotateLeft` and `rotateRight` call
that `fixInsert` makes has its pivot, so that the defensive branch is never taken, and no
run of the loop body meets an absent grandparent.  Such a run fails in the embedding, as
does a rotation that insists on an absent pivot. -/
theorem fixInsert_rotations_have_pivot (s : Mem.Store) (t : RBTree) (key : Int)
    (data : Payload) (h : Refines s t) (hb : RB2 t.root) :
    (∃ s2 res, Mem.insertNodeChecked s key data = some (s2, res) ∧
      Mem.insertNode s key data = some (s2, res) ∧ ∃ t2, Refines s2 t2) ∧
    (∀ (s0 : Mem.Store) (node parent : Mem.Ptr), s0.parent node = some parent →
      s0.parent parent = some none → Mem.fixInsertBody s0 node = none) ∧
    (∀ (s0 : Mem.Store) (node : Mem.Ptr), s0.right node = some none →
      Mem.rotateLeftChecked s0 node = none) ∧
    (∀ (s0 : Mem.Store) (node : Mem.Ptr), s0.left node = some none →
      Mem.rotateRightChecked s0 node = none) := by
  obtain ⟨⟨t2, res⟩, e⟩ := insertNode_total t key data hb
  obtain ⟨s2, ⟨e1, e2⟩, r2⟩ := insertNodeChecked_sim s t key data t2 res h e
  refine ⟨⟨s2, res, e1, e2, t2, r2⟩, fixInsertBody_absent_grandparent, ?_, ?_⟩
  · intro s0 node h0
    simp only [Mem.rotateLeftChecked, h0]
  · intro s0 node h0
    simp only [Mem.rotateRightChecked, h0]

/-- Witness for C26: the heap that holds the BLACK root 10 with the RED left child 5, and the
key 3, whose insertion makes `fixInsert` rotate right at the root. -/
theorem fixInsert_rotations_have_pivot_witness :
    Refines twoNodeStore twoNodeTree ∧ RB2 twoNodeTree.root ∧
      ∃ s2 res, Mem.insertNodeChecked twoNodeStore 3 [] = some (s2, res) ∧
        Mem.insertNode twoNodeStore 3 [] = some (s2, res) ∧ ∃ t2, Refines s2 t2 :=
  ⟨⟨.mk 0 10 [] .BLACK (.mk 1 5 [] .RED .NULL .NULL) .NULL, rfl,
      ⟨⟨rfl, ⟨rfl, trivial, trivial⟩, trivial⟩, rfl, by decide, by decide⟩, rfl⟩, by decide,
    (fixInsert_rotations_have_pivot twoNodeStore twoNodeTree 3 []
      ⟨.mk 0 10 [] .BLACK (.mk 1 5 [] .RED .NULL .NULL) .NULL, rfl,
      ⟨⟨rfl, ⟨rfl, trivial, trivial⟩, trivial⟩, rfl, by decide, by decide⟩, rfl⟩
      (by decide)).1⟩

/-- C28: the loops of `fixInsert` and `fixDelete` have measures that every run of their
bodies makes smaller, on every position of every tree: the number of ancestors of the node
for `fixInsert`, and `fixDeleteMeasure` for `fixDelete`, also in the iteration in which the
sibling read after the rotation of Case 1 is absent and the node stays where it is.  Hence
the loop of `fixDelete` returns within `fixDeleteMeasure` plus one tests of its condition
and `deleteNode` returns on every tree; the loop of `fixInsert`, within the fuel that
`insertNode` gives it, stops or fails at a dereference of an absent node, never for lack of
fuel; and over the heap `deleteNode` returns for every heap that holds a tree, `insertNode`
for every heap that holds a tree with a BLACK root. -/
theorem fixInsert_fixDelete_measures :
    (∀ cur cur2, fixInsertBody cur = some cur2 → cur2.up.length < cur.up.length) ∧
    (∀ cur, fixDeleteRuns cur = true →
      ∃ cur2, fixDeleteBody cur = some cur2 ∧ fixDeleteMeasure cur2 < fixDeleteMeasure cur) ∧
    (∀ (node : RBNode) (pk : Int) (pd : Payload) (pc : Color) (sk : Int) (sd : Payload)
      (sr : RBNode) (above : List Frame), isBlackOrNull node = true →
      fixDeleteBody ⟨node, .inLeft pk pd pc (.mk sk sd .RED .NULL sr) :: above⟩ =
          some ⟨node, .inLeft pk pd .RED .NULL :: .inLeft sk sd .BLACK sr :: above⟩ ∧
        fixDeleteMeasure ⟨node, .inLeft pk pd .RED .NULL :: .inLeft sk sd .BLACK sr :: above⟩ =
          1 ∧
        fixDeleteMeasure ⟨node, .inLeft pk pd pc (.mk sk sd .RED .NULL sr) :: above⟩ =
          above.length + 3) ∧
    (∀ (nk : Int) (nd : Payload) (nl nr : RBNode) (pk : Int) (pd : Payload) (pc : Color)
      (sk : Int) (sd : Payload) (sl : RBNode) (above : List Frame),
      fixDeleteBody ⟨.mk nk nd .BLACK nl nr,
          .inRight pk pd pc (.mk sk sd .RED sl .NULL) :: above⟩ =
          some ⟨.mk nk nd .BLACK nl nr,
            .inRight pk pd .RED .NULL :: .inRight sk sd .BLACK sl :: above⟩ ∧
        fixDeleteMeasure ⟨.mk nk nd .BLACK nl nr,
          .inRight pk pd .RED .NULL :: .inRight sk sd .BLACK sl :: above⟩ = 1 ∧
        fixDeleteMeasure ⟨.mk nk nd .BLACK nl nr,
          .inRight pk pd pc (.mk sk sd .RED sl .NULL) :: above⟩ = above.length + 3) ∧
    (∀ cur fuel, fixDeleteMeasure cur < fuel → ∃ r, fixDelete fuel cur = some r) ∧
    (∀ tree key, ∃ r, deleteNode tree key = some r) ∧
    (∀ cur fuel, cur.up.length < fuel → fixInsert fuel cur = none →
      ∃ cur2, Relation.ReflTransGen
          (fun c c2 => fixInsertRuns c = true ∧ fixInsertBody c = some c2) cur cur2 ∧
        (cur2.node = .NULL ∨ (fixInsertRuns cur2 = true ∧ fixInsertBody cur2 = none))) ∧
    (∀ tree key data, insertNode tree key data = none →
      ∃ up cur2, insertDescend key data tree.root [] = .inr up ∧
        Relation.ReflTransGen
          (fun c c2 => fixInsertRuns c = true ∧ fixInsertBody c = some c2)
          ⟨createNode key data, up⟩ cur2 ∧
        fixInsertRuns cur2 = true ∧ fixInsertBody cur2 = none) ∧
    (∀ s t key, Refines s t →
      ∃ s2 res, Mem.deleteNode s key = some (s2, res) ∧ ∃ t2, Refines s2 t2) ∧
    (∀ s t key data, Refines s t → RB2 t.root →
      ∃ s2 res, Mem.insertNode s key data = some (s2, res) ∧ ∃ t2, Refines s2 t2) := by
  refine ⟨fixInsertBody_length, fixDeleteBody_measure, fixDeleteBody_sibling_absent_left,
    fixDeleteBody_sibling_absent_right, fun cur fuel => fixDelete_within_measure fuel cur,
    deleteNode_total, fun cur fuel => fixInsert_within_measure fuel cur,
    insertNode_fails_at_dereference, Mem_deleteNode_total, Mem_insertNode_total⟩

/-- Witness for C28: the position that `deleteNode(tree, 15)` hands to `fixDelete` on the tree
of the inserts 10, 5, 15, 3, where the loop runs, and the new node below the RED node 5 of
`twoNodeTree`, where one run of the body of `fixInsert` leaves the node with one ancestor. -/
theorem fixInsert_fixDelete_measures_witness :
    (fixDeleteRuns ⟨.NULL,
        [.inRight 10 [] .BLACK (.mk 5 [] .BLACK (.mk 3 [] .RED .NULL .NULL) .NULL)]⟩ = true ∧
      ∃ cur2, fixDeleteBody ⟨.NULL,
          [.inRight 10 [] .BLACK (.mk 5 [] .BLACK (.mk 3 [] .RED .NULL .NULL) .NULL)]⟩ =
          some cur2 ∧
        fixDeleteMeasure cur2 < fixDeleteMeasure ⟨.NULL,
          [.inRight 10 [] .BLACK (.mk 5 [] .BLACK (.mk 3 [] .RED .NULL .NULL) .NULL)]⟩) ∧
    (fixInsertBody ⟨createNode 3 [], [.inLeft 5 [] .RED .NULL, .inLeft 10 [] .BLACK .NULL]⟩ =
        some ⟨createNode 3 [], [.inLeft 5 [] .BLACK (.mk 10 [] .RED .NULL .NULL)]⟩ ∧
      ([.inLeft 5 [] .BLACK (.mk 10 [] .RED .NULL .NULL)] : List Frame).length <
        ([.inLeft 5 [] .RED .NULL, .inLeft 10 [] .BLACK .NULL] : List Frame).length) :=
  ⟨⟨by decide, fixInsert_fixDelete_measures.2.1 _ (by decide)⟩,
    ⟨by decide, fixInsert_fixDelete_measures.1
      ⟨createNode 3 [], [.inLeft 5 [] .RED .NULL, .inLeft 10 [] .BLACK .NULL]⟩
      ⟨createNode 3 [], [.inLeft 5 [] .BLACK (.mk 10 [] .RED .NULL .NULL)]⟩ (by decide)⟩⟩

/-! ## The empty tree and the stored size; the rotations undo each other -/

/-- C31: in every tree reached from `createTree` by `insertNode` and `deleteNode` calls, over
the tree values and over the heap, `isEmpty` returns 1 exactly when `getTreeSize` returns 0:
the root is absent exactly when the stored size is zero, the stored size being the number of
nodes. -/
theorem isEmpty_iff_getTreeSize_zero (ops : List Op) :
    ∃ t s, runOps ops createTree = some t ∧ Mem.runOps ops Mem.createTree = some s ∧
      getTreeSize t = (countNodes t.root : Int) ∧
      (isEmpty t = 1 ↔ getTreeSize t = 0) ∧
      (isEmptyHandle (some t) = 1 ↔ getTreeSizeHandle (some t) = 0) ∧
      (t.root = .NULL ↔ t.size = 0) ∧
      (Mem.isEmpty s = 1 ↔ Mem.getTreeSize s = 0) ∧
      (s.root = none ↔ s.size = 0) := by
  obtain ⟨t, ht, ⟨-, -, hsz⟩, -⟩ := runOps_spec ops
  obtain ⟨s, e, tr, htr, hL, hz⟩ := runOps_sim ops _ _ _ Refines_createTree ht
  have hroot := LRep_root s tr hL
  have h1 : t.root = .NULL ↔ t.size = 0 := by
    rw [hsz]
    cases t.root with
    | NULL => simp [countNodes]
    | mk k d c l r =>
      simp only [countNodes, reduceCtorEq, false_iff]
      omega
  have h2 : isEmpty t = 1 ↔ t.root = .NULL := by
    unfold isEmpty
    cases t.root <;> simp
  have h3 : s.root = none ↔ t.root = .NULL := by
    rw [hroot, ← htr]
    cases tr <;> simp [ANode.erase]
  have h4 : Mem.isEmpty s = 1 ↔ s.root = none := by
    unfold Mem.isEmpty
    by_cases hr : s.root = none <;> simp [hr]
  refine ⟨t, s, ht, e, hsz, h2.trans h1, h2.trans h1, h1, ?_, ?_⟩
  · rw [h4, h3, h1]
    simp only [Mem.getTreeSize, hz]
  · rw [h3, h1, hz]

/-- C32: over the heap, in every tree with consistent parent links, for every node `x` with a
right child `y`, `rotateLeft` at `x` makes `y` the parent of `x` and `rotateRight` at `y`
then gives back exactly the heap before the two calls, with every child link, parent link
and the root; and the same for `rotateRight` at a node `x` with a left child `y` followed by
`rotateLeft` at `y`.  Over the tree values the two functions undo each other likewise. -/
theorem rotateLeft_rotateRight_inverse :
    (∀ (s : Mem.Store) (x : Nat) (xk : Int) (xd : Payload) (xc : Color) (l : ANode) (y : Nat)
      (yk : Int) (yd : Payload) (yc : Color) (rl rr : ANode) (up : List AFrame),
      LRep s ⟨.mk x xk xd xc l (.mk y yk yd yc rl rr), up⟩ →
      ∃ s1, Mem.rotateLeft s (some x) = some s1 ∧
        LRep s1 ⟨.mk y yk yd yc (.mk x xk xd xc l rl) rr, up⟩ ∧
        Mem.rotateRight s1 (some y) = some s) ∧
    (∀ (s : Mem.Store) (x : Nat) (xk : Int) (xd : Payload) (xc : Color) (y : Nat) (yk : Int)
      (yd : Payload) (yc : Color) (ll lr r : ANode) (up : List AFrame),
      LRep s ⟨.mk x xk xd xc (.mk y yk yd yc ll lr) r, up⟩ →
      ∃ s1, Mem.rotateRight s (some x) = some s1 ∧
        LRep s1 ⟨.mk y yk yd yc ll (.mk x xk xd xc lr r), up⟩ ∧
        Mem.rotateLeft s1 (some y) = some s) ∧
    (∀ (k : Int) (d : Payload) (c : Color) (l : RBNode) (rk : Int) (rd : Payload)
      (rc : Color) (rl rr : RBNode),
      rotateRight (rotateLeft (.mk k d c l (.mk rk rd rc rl rr))) =
        .mk k d c l (.mk rk rd rc rl rr)) ∧
    (∀ (k : Int) (d : Payload) (c : Color) (lk : Int) (ld : Payload) (lc : Color)
      (ll lr r : RBNode),
      rotateLeft (rotateRight (.mk k d c (.mk lk ld lc ll lr) r)) =
        .mk k d c (.mk lk ld lc ll lr) r) :=
  ⟨rotateLeft_rotateRight, rotateRight_rotateLeft, fun _ _ _ _ _ _ _ _ _ => rfl,
    fun _ _ _ _ _ _ _ _ _ => rfl⟩

/-- Witness for C32: in the heap with the BLACK root 10 at the address 0 and its RED left
child 5 at the address 1, `rotateRight` at the root followed by `rotateLeft` at the node 5
gives the heap back. -/
theorem rotateLeft_rotateRight_inverse_witness :
    LRep twoNodeStore ⟨.mk 0 10 [] .BLACK (.mk 1 5 [] .RED .NULL .NULL) .NULL, []⟩ ∧
      ∃ s1, Mem.rotateRight twoNodeStore (some 0) = some s1 ∧
        LRep s1 ⟨.mk 1 5 [] .RED .NULL (.mk 0 10 [] .BLACK .NULL .NULL), []⟩ ∧
        Mem.rotateLeft s1 (some 1) = some twoNodeStore :=
  ⟨⟨⟨rfl, ⟨rfl, trivial, trivial⟩, trivial⟩, rfl, by decide, by decide⟩,
    rotateLeft_rotateRight_inverse.2.1 twoNodeStore 0 10 [] .BLACK 1 5 [] .RED .NULL .NULL
      .NULL [] ⟨⟨rfl, ⟨rfl, trivial, trivial⟩, trivial⟩, rfl, by decide, by decide⟩⟩

end RBTreeC
